import Mathlib

/-!
Verification development for the tree-sitter-graph execution engine.

The Rust sources under verification are `src/execution.rs` (eager
interpreter), `src/lazy_execution.rs` (lazy interpreter) and `src/graph.rs`
(graph data model).  The surrounding crate modules (`ast.rs`,
`variables.rs`, `functions.rs`, the `lazy_execution/{values,store,statements}.rs`
submodules and the tree-sitter host) are not part of the sources; where the
embedded code depends on them they are modelled from the specification, and
each such definition is marked `Modelled from the spec:` in its doc comment.

Conventions of the shallow embedding:
* Rust `u32` identifiers and indices are modelled as `Nat` (no arithmetic is
  ever performed on them, so wrap-around cannot be observed).
* Rust byte offsets into strings are modelled as character offsets into
  `List Char` (UTF-8 boundary panics are not observable in the embedded
  claims).
* Error message payloads (`format!` strings) are elided: the error
  constructors carry no data.  A Rust panic (out-of-bounds indexing,
  `unwrap` failure) is modelled by the distinguished constructor
  `Err.panicked`, which is not one of the `ExecutionError` variants.
* Mutations through `&mut` references are modelled by explicit state
  passing; a function whose Rust form is fallible returns
  `Except Err A × State` so that the state at the moment of an error stays
  observable, exactly as the caller of the Rust function still owns the
  borrowed state after an `Err` return.
-/

namespace TSG

/-- Interned identifier produced by the external `Context`; equality and
ordering use the interned `u32` id, modelled as `Nat`. -/
abbrev Identifier := Nat

/-- Reference to a syntax node: wraps the host `node.id()`. -/
abbrev SyntaxNodeRef := Nat

/-- Reference to a graph node: dense 0-based index into the graph's node
vector. -/
abbrev GraphNodeRef := Nat

/-- Host syntax node (external tree-sitter interface): identity, kind and
start position, which is everything the embedded code reads from a `Node`. -/
structure HostNode where
  id : Nat
  kind : String
  row : Nat
  col : Nat
  deriving DecidableEq, Repr

/-- Value of the graph DSL (`graph.rs`): scalars, compounds and references.
The Rust `Set` variant holds a `BTreeSet<Value>`, modelled as a sorted,
deduplicated list (see `setOfList`). -/
inductive Value where
  | null
  | boolean (b : Bool)
  | integer (n : Nat)
  | str (s : String)
  | list (elems : List Value)
  | vset (elems : List Value)
  | syntaxNode (r : SyntaxNodeRef)
  | graphNode (r : GraphNodeRef)

/-- Discriminant of a `Value`, in Rust declaration order; the derived Rust
`Ord` compares discriminants first. -/
def Value.tag : Value → Nat
  | .null => 0
  | .boolean _ => 1
  | .integer _ => 2
  | .str _ => 3
  | .list _ => 4
  | .vset _ => 5
  | .syntaxNode _ => 6
  | .graphNode _ => 7

mutual

/-- Total order on values, mirroring Rust's `#[derive(Ord)]` on `Value`:
variant tag first, then the payload, lexicographically for the compound
variants. -/
def Value.cmp : Value → Value → Ordering
  | .boolean a, .boolean b => compare a b
  | .integer a, .integer b => compare a b
  | .str a, .str b => compare a b
  | .list a, .list b => Value.cmpList a b
  | .vset a, .vset b => Value.cmpList a b
  | .syntaxNode a, .syntaxNode b => compare a b
  | .graphNode a, .graphNode b => compare a b
  | a, b => compare a.tag b.tag

/-- Lexicographic comparison of value sequences (Rust `Ord` for `Vec` and for
`BTreeSet` iteration order). -/
def Value.cmpList : List Value → List Value → Ordering
  | [], [] => .eq
  | [], _ :: _ => .lt
  | _ :: _, [] => .gt
  | a :: as, b :: bs =>
    match Value.cmp a b with
    | .eq => Value.cmpList as bs
    | o => o

end

/-- Insertion into the sorted representation of a `BTreeSet<Value>`:
`BTreeSet::insert` keeps the set sorted and ignores an element that is
already present. -/
def setInsert (v : Value) : List Value → List Value
  | [] => [v]
  | x :: xs =>
    match Value.cmp v x with
    | .lt => v :: x :: xs
    | .eq => x :: xs
    | .gt => x :: setInsert v xs

/-- Collecting an iterator of values into a `BTreeSet<Value>` (used by the
eager set comprehension and by lazy set forcing). -/
def setOfList (l : List Value) : List Value :=
  l.foldl (fun acc v => setInsert v acc) []

/-- Execution error (`execution.rs`, `enum ExecutionError`).  The `String`
message payloads are elided because they are produced by `Display`
implementations living outside the sources; no embedded claim depends on
them.  `panicked` additionally models a Rust panic, which in Rust is not an
`ExecutionError` but an abort. -/
inductive Err where
  | cannotAssignImmutableVariable
  | cannotAssignScopedVariable
  | cannotDefineMutableScopedVariable
  | duplicateAttribute
  | duplicateEdge
  | duplicateVariable
  | expectedGraphNode
  | expectedList
  | expectedBoolean
  | expectedInteger
  | expectedString
  | expectedSyntaxNode
  | invalidParameters
  | invalidVariableScope
  | recursivelyDefinedScopedVariable
  | recursivelyDefinedVariable
  | undefinedCapture
  | undefinedFunction
  | undefinedRegexCapture
  | undefinedScopedVariable
  | emptyRegexCapture
  | undefinedEdge
  | undefinedVariable
  | variableScopesAlreadyForced
  | parseTreeHasErrors
  | otherError
  | panicked
  deriving DecidableEq, Repr

/-- Lookup in an association list keyed by `Nat`, used to model keyed maps
(`HashMap` lookups and the `Globals` map). -/
def lookupKey (k : Nat) : List (Nat × α) → Option α
  | [] => none
  | (k', v) :: rest => if k = k' then some v else lookupKey k rest

/-- Insert-or-replace in an association list, modelling `HashMap::insert`
(the value for an existing key is replaced in place). -/
def keyInsert (k : Nat) (v : α) : List (Nat × α) → List (Nat × α)
  | [] => [(k, v)]
  | (k', v') :: rest =>
    if k = k' then (k, v) :: rest else (k', v') :: keyInsert k v rest

/-- Behaviour of Rust `slice::binary_search_by_key` on a slice that is sorted
by the key, as the `Graph` containers maintain: `.inl i` is the index of an
entry with the key, `.inr i` the insertion point that keeps the slice
sorted.  The linear scan below computes exactly that result on sorted
input. -/
def searchByKey (key : Nat) : List (Nat × α) → Nat ⊕ Nat
  | [] => .inr 0
  | (k, _) :: rest =>
    if key < k then .inr 0
    else if key = k then .inl 0
    else
      match searchByKey key rest with
      | .inl i => .inl (i + 1)
      | .inr i => .inr (i + 1)

/-- Insertion at a position in a list, modelling `SmallVec::insert`. -/
def listInsertAt (i : Nat) (a : α) : List α → List α
  | [] => [a]
  | x :: xs =>
    match i with
    | 0 => a :: x :: xs
    | i + 1 => x :: listInsertAt i a xs

/-- Attribute set of a graph node or edge (`graph.rs`, `struct Attributes`):
a sequence of `(Identifier, Value)` kept sorted by identifier and unique by
name. -/
structure Attributes where
  values : List (Identifier × Value)

/-- Fresh empty attribute set (`Attributes::new`). -/
def Attributes.new : Attributes := ⟨[]⟩

/-- Behaviour of `Attributes::add`: if an attribute with the same name is
already present its value is replaced and `Err` (here `false`) is returned;
otherwise the pair is inserted at the sorted position and `Ok` (`true`) is
returned. -/
def Attributes.add (a : Attributes) (name : Identifier) (v : Value) :
    Bool × Attributes :=
  match searchByKey name a.values with
  | .inl i => (false, ⟨a.values.set i (name, v)⟩)
  | .inr i => (true, ⟨listInsertAt i (name, v) a.values⟩)

/-- Lookup of `Attributes::get`. -/
def Attributes.get (a : Attributes) (name : Identifier) : Option Value :=
  match searchByKey name a.values with
  | .inl i => (a.values.get? i).map (·.2)
  | .inr _ => none

/-- Edge of the graph (`graph.rs`, `struct Edge`). -/
structure Edge where
  attributes : Attributes

/-- Fresh edge (`Edge::new`). -/
def Edge.new : Edge := ⟨Attributes.new⟩

/-- Node of the graph (`graph.rs`, `struct GraphNode`): outgoing edges kept
sorted by sink id and unique, plus the attribute set. -/
structure GraphNode where
  outgoingEdges : List (GraphNodeRef × Edge)
  attributes : Attributes

/-- Fresh graph node (`GraphNode::new`). -/
def GraphNode.new : GraphNode := ⟨[], Attributes.new⟩

/-- Behaviour of `GraphNode::add_edge`: binary search by sink; an existing
edge makes the call return `Err` (`false`) leaving the node unchanged, a
missing one is inserted at the sorted position with a fresh `Edge`. -/
def GraphNode.addEdge (n : GraphNode) (sink : GraphNodeRef) :
    Bool × GraphNode :=
  match searchByKey sink n.outgoingEdges with
  | .inl _ => (false, n)
  | .inr i => (true, { n with outgoingEdges := listInsertAt i (sink, Edge.new) n.outgoingEdges })

/-- Lookup of `GraphNode::get_edge`. -/
def GraphNode.getEdge (n : GraphNode) (sink : GraphNodeRef) : Option Edge :=
  match searchByKey sink n.outgoingEdges with
  | .inl i => (n.outgoingEdges.get? i).map (·.2)
  | .inr _ => none

/-- Update of the edge found by `GraphNode::get_edge_mut`; `none` when the
edge does not exist. -/
def GraphNode.modifyEdge (n : GraphNode) (sink : GraphNodeRef)
    (f : Edge → Edge) : Option GraphNode :=
  match searchByKey sink n.outgoingEdges with
  | .inl i =>
    match n.outgoingEdges.get? i with
    | some (k, e) =>
      some { n with outgoingEdges := n.outgoingEdges.set i (k, f e) }
    | none => none
  | .inr _ => none

/-- Graph produced by executing a graph DSL file (`graph.rs`,
`struct Graph`): the registry of referenced syntax nodes (a `HashMap` keyed
by `SyntaxNodeRef`) and the dense node vector. -/
structure Graph where
  syntaxNodes : List (SyntaxNodeRef × HostNode)
  graphNodes : List GraphNode

/-- Fresh empty graph (`Graph::new`). -/
def Graph.new : Graph := ⟨[], []⟩

/-- Behaviour of `Graph::add_syntax_node`: the reference is the host node id
and the node is inserted (or re-inserted) into the registry. -/
def Graph.addSyntaxNode (g : Graph) (n : HostNode) : SyntaxNodeRef × Graph :=
  (n.id, { g with syntaxNodes := keyInsert n.id n g.syntaxNodes })

/-- Behaviour of `Graph::add_graph_node`: a fresh empty node is appended and
its reference is the number of nodes present before the call. -/
def Graph.addGraphNode (g : Graph) : GraphNodeRef × Graph :=
  (g.graphNodes.length, { g with graphNodes := g.graphNodes ++ [GraphNode.new] })

/-- Update of the node reached by `graph[node]` in mutable position; `none`
models the Rust out-of-bounds panic. -/
def Graph.modifyNode (g : Graph) (r : GraphNodeRef) (f : GraphNode → GraphNode) :
    Option Graph :=
  match g.graphNodes.get? r with
  | some n => some { g with graphNodes := g.graphNodes.set r (f n) }
  | none => none

/-- Escape of one character inside Rust's `{:?}` string formatting, for the
characters that occur in the embedded claims (the full Rust `Debug` escape
table agrees on these). -/
def escapeChar (c : Char) : String :=
  if c = '"' then "\\\""
  else if c = '\\' then "\\\\"
  else if c = '\n' then "\\n"
  else if c = '\t' then "\\t"
  else if c = '\r' then "\\r"
  else String.singleton c

/-- String rendering of Rust's `{:?}` on a `String` value. -/
def debugQuote (s : String) : String :=
  "\"" ++ String.join (s.data.map escapeChar) ++ "\""

/-- Rendering of `format_node` in `graph.rs`. -/
def formatHostNode (n : HostNode) : String :=
  "[syntax node " ++ n.kind ++ " (" ++ toString (n.row + 1) ++ ", " ++
    toString (n.col + 1) ++ ")]"

mutual

/-- Rendering of `DisplayWithGraph` for `Value` (`graph.rs`): syntax node
references are resolved through the graph's registry (a missing entry panics
in Rust; it is rendered as the fixed placeholder here, a difference that is
unobservable whenever every reference that is displayed has been
registered). -/
def Value.displayWith (g : Graph) : Value → String
  | .null => "#null"
  | .boolean b => if b then "#true" else "#false"
  | .integer n => toString n
  | .str s => debugQuote s
  | .list elems => "[" ++ Value.displayListWith g elems ++ "]"
  | .vset elems => "\x7b" ++ Value.displayListWith g elems ++ "\x7d"
  | .syntaxNode r =>
    match lookupKey r g.syntaxNodes with
    | some n => formatHostNode n
    | none => "[unregistered syntax node]"
  | .graphNode r => "[graph node " ++ toString r ++ "]"

/-- Comma-separated rendering of a value sequence. -/
def Value.displayListWith (g : Graph) : List Value → String
  | [] => ""
  | [v] => Value.displayWith g v
  | v :: rest => Value.displayWith g v ++ ", " ++ Value.displayListWith g rest

end

/-- Rendering of `Attributes::display_with`: one `  name: value` line per
attribute, in the stored (name-sorted) order; `ctx` resolves interned
identifiers, standing for the external `Context`. -/
def Attributes.displayWith (ctx : Identifier → String) (g : Graph)
    (a : Attributes) : String :=
  String.join (a.values.map (fun p =>
    "  " ++ ctx p.1 ++ ": " ++ Value.displayWith g p.2 ++ "\n"))

/-- Rendering of one graph node: the `node <id>` header, its attributes,
then its outgoing edges in ascending sink order. -/
def GraphNode.displayWith (ctx : Identifier → String) (g : Graph)
    (idx : Nat) (n : GraphNode) : String :=
  "node " ++ toString idx ++ "\n" ++ n.attributes.displayWith ctx g ++
    String.join (n.outgoingEdges.map (fun p =>
      "edge " ++ toString idx ++ " -> " ++ toString p.1 ++ "\n" ++
        p.2.attributes.displayWith ctx g))

/-- Rendering of `Graph::display_with`: nodes in creation order. -/
def Graph.displayWith (ctx : Identifier → String) (g : Graph) : String :=
  String.join ((g.graphNodes.enum.map (fun p =>
    GraphNode.displayWith ctx g p.1 p.2)))

/-- Modelled from the spec: `variables.rs` (the `Variables` trait,
`VariableMap` and named scopes) is not under `src/`.  A frame holds the
bindings of one scope as `(name, value, mutable)` triples; newer bindings
are consed on the front and a frame never holds a name twice. -/
abbrev Frame (α : Type) := List (Identifier × α × Bool)

/-- Modelled from the spec: a `VariableMap` possibly nested in parent scopes
is a stack of frames, innermost first. -/
abbrev Env (α : Type) := List (Frame α)

/-- Lookup of a name inside one frame. -/
def frameGet (n : Identifier) : Frame α → Option (α × Bool)
  | [] => none
  | (n', v, m) :: rest => if n = n' then some (v, m) else frameGet n rest

/-- Modelled from the spec: a variable lookup walks child scope to parent
scope and returns the innermost binding. -/
def envGet (n : Identifier) : Env α → Option (α × Bool)
  | [] => none
  | f :: rest =>
    match frameGet n f with
    | some r => some r
    | none => envGet n rest

/-- Modelled from the spec: adding a binding to one frame fails when the
name is already bound in that frame. -/
def frameAdd (n : Identifier) (v : α) (m : Bool) (f : Frame α) :
    Option (Frame α) :=
  match frameGet n f with
  | some _ => none
  | none => some ((n, v, m) :: f)

/-- Overwrite of the binding for a name inside one frame. -/
def frameSetValue (n : Identifier) (v : α) : Frame α → Frame α
  | [] => []
  | (n', v', m) :: rest =>
    if n = n' then (n, v, m) :: rest else (n', v', m) :: frameSetValue n v rest

/-- Modelled from the spec: overwriting the binding of a name inside one
frame requires the binding to exist and be mutable. -/
def frameSet (n : Identifier) (v : α) (f : Frame α) : Option (Frame α) :=
  match frameGet n f with
  | some (_, true) => some (frameSetValue n v f)
  | some (_, false) => none
  | none => none

/-- Modelled from the spec: declaring a variable adds it to the innermost
scope; the name may shadow an outer binding only when that binding is
mutable (adding a name bound immutably in a parent scope is an error), and
adding a name already present in the innermost scope is an error. -/
def envAdd (n : Identifier) (v : α) (m : Bool) : Env α → Option (Env α)
  | [] => none
  | f :: rest =>
    match envGet n rest with
    | some (_, false) => none
    | _ =>
      match frameAdd n v m f with
      | some f' => some (f' :: rest)
      | none => none

/-- Modelled from the spec: assignment overwrites the innermost existing
binding of the name when that binding is mutable; an immutable innermost
binding or an unbound name fails. -/
def envSet (n : Identifier) (v : α) : Env α → Option (Env α)
  | [] => none
  | f :: rest =>
    match frameGet n f with
    | some (_, true) => some (frameSetValue n v f :: rest)
    | some (_, false) => none
    | none => (envSet n v rest).map (f :: ·)

/-- Modelled from the spec: the immutable map of global variables supplied
by the host before execution. -/
abbrev Globals := List (Identifier × Value)

/-- Per-syntax-node variable namespaces of the eager interpreter
(`execution.rs`, `struct ScopedVariables`): a `HashMap` from syntax node to
its `VariableMap`, modelled as an association list of single frames. -/
abbrev Scoped := List (SyntaxNodeRef × Frame Value)

/-- Behaviour of `ScopedVariables::get`: the entry for the node, inserted
fresh (and empty) if the node had none (`entry().or_insert`). -/
def scopedGetFrame (s : Scoped) (r : SyntaxNodeRef) : Frame Value × Scoped :=
  match lookupKey r s with
  | some f => (f, s)
  | none => ([], keyInsert r [] s)

/-- Write-back of the (possibly updated) frame of a node. -/
def scopedPutFrame (s : Scoped) (r : SyntaxNodeRef) (f : Frame Value) :
    Scoped :=
  keyInsert r f s

/-- External function registry (`functions.rs` is outside the sources):
`call(name, &mut graph, source, args)`.  The registry's internal caches are
elided, so a call is a pure function of its name, the graph, the source text
and the argument values; it may mutate the graph (the stdlib `(node)`
function does).  An unknown name reports `undefinedFunction` through the
registry itself. -/
abbrev Functions := Identifier → Graph → String → List Value → Except Err (Value × Graph)

/-- Capture quantifier of the host query engine
(`tree_sitter::CaptureQuantifier`). -/
inductive Quant where
  | zero
  | zeroOrOne
  | one
  | oneOrMore
  | zeroOrMore
  deriving DecidableEq, Repr

/-- One match of a query against the tree, as the host cursor yields it: the
pattern index (which stanza's pattern matched) and the captured nodes,
each tagged with its capture index. -/
structure QueryMatch where
  patternIndex : Nat
  captures : List (Nat × HostNode)
  deriving DecidableEq, Repr

/-- Leftmost match of a regular expression: char offsets of the whole match
(group 0) into the haystack the regex was run on, plus the text of the
numbered capture groups 1.. (`None` for groups that did not participate).
The external regex engine guarantees leftmost-match semantics. -/
structure RegexMatch where
  start : Nat
  stop : Nat
  groups : List (Option String)

/-- Abstract regular expression (the external `regex` crate): the leftmost
match in a haystack, if any. -/
abbrev Regex := List Char → Option RegexMatch

mutual

/-- Modelled from the spec and the executors: `ast.rs` is not under `src/`;
the constructor shapes are exactly the fields the two interpreters read.  A
capture records both its stanza-local and its file-wide capture index (the
eager interpreter resolves against the stanza query, the lazy one against
the combined file query). -/
inductive Expression where
  | falseLit
  | nullLit
  | trueLit
  | intConst (n : Nat)
  | strConst (s : String)
  | listComp (elems : List Expression)
  | setComp (elems : List Expression)
  | capture (stanzaCaptureIndex : Nat) (fileCaptureIndex : Nat) (quantifier : Quant)
  | variableExpr (v : Variable)
  | call (function : Identifier) (parameters : List Expression)
  | regexCapture (matchIndex : Nat)

/-- Variable reference: scoped (`@scope.name`) or unscoped. -/
inductive Variable where
  | scopedVar (scope : Expression) (name : Identifier)
  | unscoped (name : Identifier)

end

/-- Condition of an `if` arm (`ast.rs`): `some e`, `none e`, or a bare
boolean expression. -/
inductive Condition where
  | someCond (value : Expression)
  | noneCond (value : Expression)
  | boolCond (value : Expression)

mutual

/-- Statement of the graph DSL (`ast.rs`), with the fields read by the
executors.  Attribute lists are `(name, value‑expression)` pairs. -/
inductive Statement where
  | declareImmutable (vr : Variable) (value : Expression)
  | declareMutable (vr : Variable) (value : Expression)
  | assign (vr : Variable) (value : Expression)
  | createGraphNode (node : Variable)
  | addGraphNodeAttribute (node : Expression) (attrs : List (Identifier × Expression))
  | createEdge (src : Expression) (sink : Expression)
  | addEdgeAttribute (src : Expression) (sink : Expression) (attrs : List (Identifier × Expression))
  | scan (value : Expression) (arms : List ScanArm)
  | print (values : List Expression)
  | ifStmt (arms : List IfArm)
  | forIn (vr : Variable) (value : Expression) (statements : List Statement)

/-- Arm of a `scan` statement: a compiled regex and a body. -/
inductive ScanArm where
  | mk (regex : Regex) (statements : List Statement)

/-- Arm of an `if` statement: the conjunction of conditions and a body. -/
inductive IfArm where
  | mk (conditions : List Condition) (statements : List Statement)

end

/-- Stanza of a DSL file (`ast.rs`): its statements plus the file-wide index
of the capture that the parser adds to bind the whole pattern (used by the
lazy interpreter for debug tracing).  The stanza's query itself lives in the
external host; which matches it yields is an input of execution. -/
structure Stanza where
  statements : List Statement
  fullMatchFileCaptureIndex : Nat

/-- DSL file (`ast.rs`): its stanzas and the `allow_syntax_errors` flag; the
combined query is external. -/
structure File where
  stanzas : List Stanza
  allowSyntaxErrors : Bool

/-- Coercion `is_null`. -/
def Value.isNull : Value → Bool
  | .null => true
  | _ => false

/-- Coercion `into_boolean`. -/
def Value.intoBoolean : Value → Except Err Bool
  | .boolean b => .ok b
  | _ => .error .expectedBoolean

/-- Coercion `into_string`. -/
def Value.intoString : Value → Except Err String
  | .str s => .ok s
  | _ => .error .expectedString

/-- Coercion `into_list`. -/
def Value.intoList : Value → Except Err (List Value)
  | .list l => .ok l
  | _ => .error .expectedList

/-- Coercion `into_graph_node_ref`. -/
def Value.intoGraphNodeRef : Value → Except Err GraphNodeRef
  | .graphNode r => .ok r
  | _ => .error .expectedGraphNode

/-- Registration of a run of captured nodes
(`query_capture_value`, quantified case): all nodes are added to the graph's
syntax-node registry in match order. -/
def addAllSyntaxNodes : List HostNode → Graph → List Value × Graph
  | [], g => ([], g)
  | n :: rest, g =>
    let (r, g') := g.addSyntaxNode n
    let (vs, g'') := addAllSyntaxNodes rest g'
    (Value.syntaxNode r :: vs, g'')

/-- Behaviour of `query_capture_value` (`execution.rs`): the value of a
capture under its quantifier; the captured nodes are looked up by capture
index in the match and registered in the graph.  The Rust panics (quantifier
`Zero`, and a missing node under quantifier `One`) are modelled by
`Err.panicked`. -/
def queryCaptureValue (index : Nat) (q : Quant) (mat : QueryMatch)
    (g : Graph) : Except Err (Value × Graph) :=
  let nodes := (mat.captures.filter (fun c => c.1 = index)).map (·.2)
  match q with
  | .zero => .error .panicked
  | .one =>
    match nodes with
    | [] => .error .panicked
    | n :: _ =>
      let (r, g') := g.addSyntaxNode n
      .ok (.syntaxNode r, g')
  | .zeroOrMore | .oneOrMore =>
    let (vs, g') := addAllSyntaxNodes nodes g
    .ok (.list vs, g')
  | .zeroOrOne =>
    match nodes with
    | [] => .ok (.null, g)
    | n :: _ =>
      let (r, g') := g.addSyntaxNode n
      .ok (.syntaxNode r, g')

/-- Scan hit: the leftmost match of one arm together with the arm's index,
carrying the fact — checked by the collection loop, which rejects empty
matches — that the whole match is non-empty. -/
abbrev ScanHit := { p : RegexMatch × Nat // p.1.start < p.1.stop }

/-- Collection loop of `Scan::execute`: each arm's regex is run against the
remaining input; an empty whole match fails immediately with
`EmptyRegexCapture`, a non-empty one is recorded with the arm's index. -/
def collectScanMatches (hay : List Char) : List ScanArm → Nat → Except Err (List ScanHit)
  | [], _ => .ok []
  | .mk re _ :: rest, idx =>
    match re hay with
    | none => collectScanMatches hay rest (idx + 1)
    | some rm =>
      if h : rm.stop ≤ rm.start then .error .emptyRegexCapture
      else
        match collectScanMatches hay rest (idx + 1) with
        | .error e => .error e
        | .ok tl => .ok (⟨(rm, idx), Nat.lt_of_not_le h⟩ :: tl)

/-- Lexicographic comparison used by the scan sort key
`(match.start, arm_index)`. -/
def keyLe (a b : Nat × Nat) : Bool :=
  a.1 < b.1 || (a.1 = b.1 && a.2 ≤ b.2)

/-- Sorted insertion for the stable sort below. -/
def insertSorted (f : α → Nat × Nat) (x : α) : List α → List α
  | [] => [x]
  | y :: ys => if keyLe (f x) (f y) then x :: y :: ys else y :: insertSorted f x ys

/-- Behaviour of `sort_by_key` on the collected scan hits (a stable sort;
the keys here are distinct because they include the arm index, so any sort
agrees with Rust's). -/
def sortByKey (f : α → Nat × Nat) : List α → List α
  | [] => []
  | x :: xs => insertSorted f x (sortByKey f xs)

/-- Regex capture strings of the winning arm: group 0 is the text of the
whole match, missing groups become empty strings. -/
def buildRegexCaptures (hay : List Char) (rm : RegexMatch) : List String :=
  String.mk ((hay.drop rm.start).take (rm.stop - rm.start)) ::
    rm.groups.map (fun g => g.getD "")

/-- Execution context of the eager interpreter (`execution.rs`,
`struct ExecutionContext`), restricted to the read-only parts: the mutable
parts (graph, locals, scoped variables) live in `EState`.  The reusable
`function_parameters` buffer is modelled by collecting call arguments into a
local list, which computes the same drained argument slice. -/
structure ECtx where
  source : String
  fns : Functions
  globals : Globals
  regexCaptures : List String
  mat : QueryMatch

/-- Mutable state threaded through the eager interpreter. -/
structure EState where
  graph : Graph
  locals : Env Value
  scopedVars : Scoped
  output : List String

/-- Entering a nested `VariableMap` (`VariableMap::nested`). -/
def EState.pushFrame (st : EState) : EState :=
  { st with locals := [] :: st.locals }

/-- Dropping the innermost `VariableMap` when its scope ends. -/
def EState.popFrame (st : EState) : EState :=
  { st with locals := st.locals.tail }

/-- Behaviour of `loop_locals.clear()`: only the innermost frame is
emptied. -/
def EState.clearTopFrame (st : EState) : EState :=
  { st with locals := match st.locals with
    | [] => []
    | _ :: rest => [] :: rest }

mutual

/-- Eager `Expression::evaluate` (`execution.rs`). -/
def evalExpr (c : ECtx) (e : Expression) (st : EState) :
    Except Err Value × EState :=
  match e with
  | .falseLit => (.ok (.boolean false), st)
  | .nullLit => (.ok .null, st)
  | .trueLit => (.ok (.boolean true), st)
  | .intConst n => (.ok (.integer n), st)
  | .strConst s => (.ok (.str s), st)
  | .listComp elems =>
    match evalExprs c elems st with
    | (.ok vs, st') => (.ok (.list vs), st')
    | (.error e, st') => (.error e, st')
  | .setComp elems =>
    match evalExprs c elems st with
    | (.ok vs, st') => (.ok (.vset (setOfList vs)), st')
    | (.error e, st') => (.error e, st')
  | .capture sIdx _ q =>
    match queryCaptureValue sIdx q c.mat st.graph with
    | .ok (v, g') => (.ok v, { st with graph := g' })
    | .error e => (.error e, st)
  | .variableExpr v => varGet c v st
  | .call f ps =>
    match evalExprs c ps st with
    | (.ok args, st') =>
      match c.fns f st'.graph c.source args with
      | .ok (v, g') => (.ok v, { st' with graph := g' })
      | .error e => (.error e, st')
    | (.error e, st') => (.error e, st')
  | .regexCapture i =>
    match c.regexCaptures.get? i with
    | some s => (.ok (.str s), st)
    | none => (.error .undefinedRegexCapture, st)
termination_by (sizeOf e, 0, 0)

/-- Left-to-right evaluation of an expression sequence. -/
def evalExprs (c : ECtx) (es : List Expression) (st : EState) :
    Except Err (List Value) × EState :=
  match es with
  | [] => (.ok [], st)
  | e :: rest =>
    match evalExpr c e st with
    | (.ok v, st') =>
      match evalExprs c rest st' with
      | (.ok vs, st'') => (.ok (v :: vs), st'')
      | (.error er, st'') => (.error er, st'')
    | (.error er, st') => (.error er, st')
termination_by (sizeOf es, 0, 0)

/-- Eager `Variable::get`: scoped variables evaluate their scope (which must
be a syntax node), then look the name up in that node's map; unscoped
variables consult globals first, then the locals chain. -/
def varGet (c : ECtx) (v : Variable) (st : EState) :
    Except Err Value × EState :=
  match v with
  | .unscoped name =>
    match lookupKey name c.globals with
    | some val => (.ok val, st)
    | none =>
      match envGet name st.locals with
      | some (val, _) => (.ok val, st)
      | none => (.error .undefinedVariable, st)
  | .scopedVar scopeExpr name =>
    match evalExpr c scopeExpr st with
    | (.ok (.syntaxNode r), st') =>
      let (f, sc') := scopedGetFrame st'.scopedVars r
      let st'' := { st' with scopedVars := sc' }
      match frameGet name f with
      | some (val, _) => (.ok val, st'')
      | none => (.error .undefinedVariable, st'')
    | (.ok _, st') => (.error .invalidVariableScope, st')
    | (.error e, st') => (.error e, st')
termination_by (sizeOf v, 0, 0)

/-- Eager `Variable::add`: declaration of a scoped or unscoped variable with
the given mutability. -/
def varAdd (c : ECtx) (v : Variable) (val : Value) (mutbl : Bool)
    (st : EState) : Except Err Unit × EState :=
  match v with
  | .unscoped name =>
    if (lookupKey name c.globals).isSome then (.error .duplicateVariable, st)
    else
      match envAdd name val mutbl st.locals with
      | some l' => (.ok (), { st with locals := l' })
      | none => (.error .duplicateVariable, st)
  | .scopedVar scopeExpr name =>
    match evalExpr c scopeExpr st with
    | (.ok (.syntaxNode r), st') =>
      let (f, sc') := scopedGetFrame st'.scopedVars r
      match frameAdd name val mutbl f with
      | some f' =>
        (.ok (), { st' with scopedVars := scopedPutFrame sc' r f' })
      | none => (.error .duplicateVariable, { st' with scopedVars := sc' })
    | (.ok _, st') => (.error .invalidVariableScope, st')
    | (.error e, st') => (.error e, st')
termination_by (sizeOf v, 0, 0)

/-- Eager `Variable::set`.  Note that for a scoped variable the failure of
the underlying map assignment is reported as `DuplicateVariable` (not
`CannotAssignScopedVariable`), exactly as `ScopedVariable::set` in
`execution.rs` maps it; for an unscoped variable a failed assignment re-asks
whether the name is bound to decide between
`CannotAssignImmutableVariable` and `UndefinedVariable`. -/
def varSet (c : ECtx) (v : Variable) (val : Value) (st : EState) :
    Except Err Unit × EState :=
  match v with
  | .unscoped name =>
    if (lookupKey name c.globals).isSome then
      (.error .cannotAssignImmutableVariable, st)
    else
      match envSet name val st.locals with
      | some l' => (.ok (), { st with locals := l' })
      | none =>
        if (envGet name st.locals).isSome then
          (.error .cannotAssignImmutableVariable, st)
        else (.error .undefinedVariable, st)
  | .scopedVar scopeExpr name =>
    match evalExpr c scopeExpr st with
    | (.ok (.syntaxNode r), st') =>
      let (f, sc') := scopedGetFrame st'.scopedVars r
      match frameSet name val f with
      | some f' =>
        (.ok (), { st' with scopedVars := scopedPutFrame sc' r f' })
      | none => (.error .duplicateVariable, { st' with scopedVars := sc' })
    | (.ok _, st') => (.error .invalidVariableScope, st')
    | (.error e, st') => (.error e, st')
termination_by (sizeOf v, 0, 0)

/-- Eager `Condition::test`. -/
def testCond (c : ECtx) (cond : Condition) (st : EState) :
    Except Err Bool × EState :=
  match cond with
  | .someCond e =>
    match evalExpr c e st with
    | (.ok v, st') => (.ok (!v.isNull), st')
    | (.error er, st') => (.error er, st')
  | .noneCond e =>
    match evalExpr c e st with
    | (.ok v, st') => (.ok v.isNull, st')
    | (.error er, st') => (.error er, st')
  | .boolCond e =>
    match evalExpr c e st with
    | (.ok v, st') =>
      match v.intoBoolean with
      | .ok b => (.ok b, st')
      | .error er => (.error er, st')
    | (.error er, st') => (.error er, st')
termination_by (sizeOf cond, 0, 0)

/-- Condition loop of `If::execute`: `result &= condition.test(exec)?` — the
conjunction is accumulated over all conditions of the arm, without
short-circuiting, and an error in any condition aborts even when the
accumulator is already false. -/
def evalConds (c : ECtx) (conds : List Condition) (acc : Bool)
    (st : EState) : Except Err Bool × EState :=
  match conds with
  | [] => (.ok acc, st)
  | cond :: rest =>
    match testCond c cond st with
    | (.ok b, st') => evalConds c rest (acc && b) st'
    | (.error er, st') => (.error er, st')
termination_by (sizeOf conds, 0, 0)

/-- Arm loop of `If::execute`: the first arm whose accumulated conjunction
is true runs its body in a nested scope and the loop breaks; otherwise the
next arm is tried. -/
def execIfArms (c : ECtx) (arms : List IfArm) (st : EState) :
    Except Err Unit × EState :=
  match arms with
  | [] => (.ok (), st)
  | .mk conds stmts :: rest =>
    match evalConds c conds true st with
    | (.ok b, st') =>
      if b then
        match execStmts c stmts st'.pushFrame with
        | (r, st'') => (r, st''.popFrame)
      else execIfArms c rest st'
    | (.error er, st') => (.error er, st')
termination_by (sizeOf arms, 0, 0)

/-- Attribute loop of `AddGraphNodeAttribute::execute`: each value is
evaluated, then added to the node's attributes; a name already present
reports `DuplicateAttribute` (after the duplicate write already replaced the
stored value).  Indexing a node that is out of bounds panics in Rust. -/
def execNodeAttrs (c : ECtx) (r : GraphNodeRef)
    (attrs : List (Identifier × Expression)) (st : EState) :
    Except Err Unit × EState :=
  match attrs with
  | [] => (.ok (), st)
  | (name, e) :: rest =>
    match evalExpr c e st with
    | (.ok v, st') =>
      match st'.graph.graphNodes.get? r with
      | none => (.error .panicked, st')
      | some node =>
        let (fresh, newAttrs) := node.attributes.add name v
        let node' : GraphNode := { node with attributes := newAttrs }
        let g' : Graph := { st'.graph with graphNodes := st'.graph.graphNodes.set r node' }
        let st'' := { st' with graph := g' }
        if fresh then execNodeAttrs c r rest st''
        else (.error .duplicateAttribute, st'')
    | (.error er, st') => (.error er, st')
termination_by (sizeOf attrs, 0, 0)

/-- Attribute loop of `AddEdgeAttribute::execute`: each value is evaluated,
the edge is looked up (`UndefinedEdge` when missing), then the attribute is
added with duplicate detection. -/
def execEdgeAttrs (c : ECtx) (src sink : GraphNodeRef)
    (attrs : List (Identifier × Expression)) (st : EState) :
    Except Err Unit × EState :=
  match attrs with
  | [] => (.ok (), st)
  | (name, e) :: rest =>
    match evalExpr c e st with
    | (.ok v, st') =>
      match st'.graph.graphNodes.get? src with
      | none => (.error .panicked, st')
      | some node =>
        match searchByKey sink node.outgoingEdges with
        | .inr _ => (.error .undefinedEdge, st')
        | .inl i =>
          match node.outgoingEdges.get? i with
          | none => (.error .panicked, st')
          | some (k, edge) =>
            let (fresh, attrs') := edge.attributes.add name v
            let edge' : Edge := { attributes := attrs' }
            let node' : GraphNode := { node with outgoingEdges := node.outgoingEdges.set i (k, edge') }
            let g' : Graph := { st'.graph with graphNodes := st'.graph.graphNodes.set src node' }
            let st'' := { st' with graph := g' }
            if fresh then execEdgeAttrs c src sink rest st''
            else (.error .duplicateAttribute, st'')
    | (.error er, st') => (.error er, st')
termination_by (sizeOf attrs, 0, 0)

/-- Argument loop of `Print::execute`: string constants are emitted
verbatim, other arguments are evaluated and rendered with the value display
rules. -/
def execPrint (c : ECtx) (values : List Expression) (st : EState) :
    Except Err Unit × EState :=
  match values with
  | [] => (.ok (), st)
  | .strConst s :: rest =>
    execPrint c rest { st with output := st.output ++ [s] }
  | e :: rest =>
    match evalExpr c e st with
    | (.ok v, st') =>
      execPrint c rest
        { st' with output := st'.output ++ [v.displayWith st'.graph] }
    | (.error er, st') => (.error er, st')
termination_by (sizeOf values, 0, 0)

/-- Body loop of `ForIn::execute`: one nested scope is created before the
loop; each iteration clears it, binds the loop variable immutably and runs
the body. -/
def forInLoop (c : ECtx) (vr : Variable) (stmts : List Statement)
    (vals : List Value) (st : EState) : Except Err Unit × EState :=
  match vals with
  | [] => (.ok (), st)
  | v :: vs =>
    let st0 := st.clearTopFrame
    match varAdd c vr v false st0 with
    | (.ok _, st1) =>
      match execStmts c stmts st1 with
      | (.ok _, st2) => forInLoop c vr stmts vs st2
      | (.error er, st2) => (.error er, st2)
    | (.error er, st1) => (.error er, st1)
termination_by (sizeOf vr + sizeOf stmts, 1, vals.length)
decreasing_by
all_goals simp_wf
· have hvr : 0 < sizeOf vr := by cases vr <;> simp_arith
  exact Prod.Lex.left _ _ (by omega)
· exact Prod.Lex.right _ (Prod.Lex.right _ (by omega))

/-- Iteration loop of `Scan::execute`.  While the cursor is inside the
subject: run every arm's regex against the remaining input (failing on an
empty whole match), finish successfully when no arm matched, otherwise sort
the hits by `(match start, arm index)`, run the winning arm's body in a
nested scope with that match's regex captures, and advance the cursor by the
end offset of the winning whole match. -/
def scanLoop (c : ECtx) (arms : List ScanArm) (s : List Char) (i : Nat)
    (st : EState) : Except Err Unit × EState :=
  if hi : i < s.length then
    match collectScanMatches (s.drop i) arms 0 with
    | .error e => (.error e, st)
    | .ok ms =>
      match ms with
      | [] => (.ok (), st)
      | m0 :: mrest =>
        match hw : sortByKey (fun p => (p.1.1.start, p.1.2)) (m0 :: mrest) with
        | [] => (.ok (), st)
        | winner :: _ =>
          match harm : arms.get? winner.1.2 with
          | none => (.error .panicked, st)
          | some (.mk re stmts) =>
              let caps := buildRegexCaptures (s.drop i) winner.1.1
              match execStmts { c with regexCaptures := caps } stmts st.pushFrame with
              | (.ok _, st') => scanLoop c arms s (i + winner.1.1.stop) st'.popFrame
              | (.error er, st') => (.error er, st'.popFrame)
  else (.ok (), st)
termination_by (sizeOf arms, 1, s.length - i)
decreasing_by
all_goals simp_wf
· have h1 := List.sizeOf_lt_of_mem (List.get?_mem harm)
  have h2 : sizeOf stmts < sizeOf (ScanArm.mk re stmts) := by simp_arith
  exact Prod.Lex.left _ _ (by omega)
· have h3 := winner.2
  exact Prod.Lex.right _ (Prod.Lex.right _ (by omega))

/-- Eager `Statement::execute`, dispatching to the per-variant executors of
`execution.rs`. -/
def execStmt (c : ECtx) (s : Statement) (st : EState) :
    Except Err Unit × EState :=
  match s with
  | .declareImmutable vr e =>
    match evalExpr c e st with
    | (.ok v, st') => varAdd c vr v false st'
    | (.error er, st') => (.error er, st')
  | .declareMutable vr e =>
    match evalExpr c e st with
    | (.ok v, st') => varAdd c vr v true st'
    | (.error er, st') => (.error er, st')
  | .assign vr e =>
    match evalExpr c e st with
    | (.ok v, st') => varSet c vr v st'
    | (.error er, st') => (.error er, st')
  | .createGraphNode vr =>
    let (r, g') := st.graph.addGraphNode
    varAdd c vr (.graphNode r) false { st with graph := g' }
  | .addGraphNodeAttribute nodeE attrs =>
    match evalExpr c nodeE st with
    | (.ok v, st') =>
      match v.intoGraphNodeRef with
      | .ok r => execNodeAttrs c r attrs st'
      | .error er => (.error er, st')
    | (.error er, st') => (.error er, st')
  | .createEdge srcE sinkE =>
    match evalExpr c srcE st with
    | (.ok sv, st1) =>
      match sv.intoGraphNodeRef with
      | .ok src =>
        match evalExpr c sinkE st1 with
        | (.ok tv, st2) =>
          match tv.intoGraphNodeRef with
          | .ok sink =>
            match st2.graph.graphNodes.get? src with
            | none => (.error .panicked, st2)
            | some node =>
              let (fresh, node') := node.addEdge sink
              let g' : Graph := { st2.graph with graphNodes := st2.graph.graphNodes.set src node' }
              if fresh then (.ok (), { st2 with graph := g' })
              else (.error .duplicateEdge, st2)
          | .error er => (.error er, st2)
        | (.error er, st2) => (.error er, st2)
      | .error er => (.error er, st1)
    | (.error er, st1) => (.error er, st1)
  | .addEdgeAttribute srcE sinkE attrs =>
    match evalExpr c srcE st with
    | (.ok sv, st1) =>
      match sv.intoGraphNodeRef with
      | .ok src =>
        match evalExpr c sinkE st1 with
        | (.ok tv, st2) =>
          match tv.intoGraphNodeRef with
          | .ok sink => execEdgeAttrs c src sink attrs st2
          | .error er => (.error er, st2)
        | (.error er, st2) => (.error er, st2)
      | .error er => (.error er, st1)
    | (.error er, st1) => (.error er, st1)
  | .scan e arms =>
    match evalExpr c e st with
    | (.ok v, st') =>
      match v.intoString with
      | .ok subject => scanLoop c arms subject.data 0 st'
      | .error er => (.error er, st')
    | (.error er, st') => (.error er, st')
  | .print values =>
    match execPrint c values st with
    | (.ok _, st') => (.ok (), { st' with output := st'.output ++ ["\n"] })
    | (.error er, st') => (.error er, st')
  | .ifStmt arms => execIfArms c arms st
  | .forIn vr e stmts =>
    match evalExpr c e st with
    | (.ok v, st') =>
      match v.intoList with
      | .ok vs =>
        match forInLoop c vr stmts vs st'.pushFrame with
        | (r, st'') => (r, st''.popFrame)
      | .error er => (.error er, st')
    | (.error er, st') => (.error er, st')
termination_by (sizeOf s, 0, 0)
decreasing_by
all_goals simp_wf
· exact Prod.Lex.left _ _ (by omega)
· exact Prod.Lex.left _ _ (by omega)
· have he : 0 < sizeOf e := by cases e <;> simp_arith
  exact Prod.Lex.left _ _ (by omega)

/-- Statement loop of a stanza body or nested block. -/
def execStmts (c : ECtx) (ss : List Statement) (st : EState) :
    Except Err Unit × EState :=
  match ss with
  | [] => (.ok (), st)
  | s :: rest =>
    match execStmt c s st with
    | (.ok _, st') => execStmts c rest st'
    | (.error er, st') => (.error er, st')
termination_by (sizeOf ss, 0, 0)

end

/-- Match loop of `Stanza::execute` (`execution.rs`): for each match of the
stanza's query, the locals map is cleared, a fresh execution context binds
the match with empty regex captures, and the statements run in order.  The
matches the host cursor yields for this stanza are an input. -/
def Stanza.executeEager (fns : Functions) (source : String)
    (globals : Globals) (stz : Stanza) (mats : List QueryMatch)
    (st : EState) : Except Err Unit × EState :=
  match mats with
  | [] => (.ok (), st)
  | mat :: rest =>
    let c : ECtx := { source := source, fns := fns, globals := globals,
                      regexCaptures := [], mat := mat }
    match execStmts c stz.statements { st with locals := [[]] } with
    | (.ok _, st') => Stanza.executeEager fns source globals stz rest st'
    | (.error e, st') => (.error e, st')

/-- Stanza loop of `File::execute_into`: stanzas run in declaration order,
each against the list of matches the host produces for its query
(`stanzaMatches` is positional: the i-th entry belongs to the i-th
stanza). -/
def stanzasLoop (fns : Functions) (source : String) (globals : Globals) :
    List Stanza → List (List QueryMatch) → EState → Except Err Unit × EState
  | [], _, st => (.ok (), st)
  | stz :: rest, mats, st =>
    match Stanza.executeEager fns source globals stz (mats.headD []) st with
    | (.ok _, st') => stanzasLoop fns source globals rest mats.tail st'
    | (.error e, st') => (.error e, st')

/-- Eager `File::execute_into`: if syntax errors are not allowed and the
tree's root node has an error, fail with `ParseTreeHasErrors` before any
side effect; otherwise run every stanza in order over the pre-seeded graph.
The returned state keeps the graph as it stands even on error, as the Rust
caller still owns the borrowed graph. -/
def File.executeInto (f : File) (g : Graph) (rootHasError : Bool)
    (source : String) (fns : Functions) (globals : Globals)
    (stanzaMatches : List (List QueryMatch)) : Except Err Unit × EState :=
  let st0 : EState :=
    { graph := g, locals := [[]], scopedVars := [], output := [] }
  if !f.allowSyntaxErrors && rootHasError then
    (.error .parseTreeHasErrors, st0)
  else stanzasLoop fns source globals f.stanzas stanzaMatches st0

/-- Eager `File::execute`: `execute_into` on a fresh graph. -/
def File.executeEager (f : File) (rootHasError : Bool) (source : String)
    (fns : Functions) (globals : Globals)
    (stanzaMatches : List (List QueryMatch)) : Except Err Unit × EState :=
  File.executeInto f Graph.new rootHasError source fns globals stanzaMatches

/-- Modelled from the spec: `lazy_execution/values.rs` is not under `src/`.
A lazy value is either a concrete `Value`, a reference to a store entry
(`LazyVariable`), a lazy scoped-variable lookup, a lazy list, a lazy set, or
a lazy function call. -/
inductive LazyValue where
  | value (v : Value)
  | ref (i : Nat)
  | scopedLookup (scope : LazyValue) (name : Identifier)
  | listVal (elems : List LazyValue)
  | setVal (elems : List LazyValue)
  | callVal (function : Identifier) (args : List LazyValue)

/-- Modelled from the spec: argument of a deferred `print` — either literal
text or a lazy value. -/
inductive LazyPrintArg where
  | text (s : String)
  | val (v : LazyValue)

/-- Modelled from the spec: `lazy_execution/statements.rs` is not under
`src/`.  The deferred graph-mutation statements appended to the lazy graph
program; their source-location debug info and the duplicate-detection map
keyed by graph element (which only enriches error messages) are elided.
There is no deferred node creation: `CreateGraphNode::execute_lazy` in
`src/lazy_execution.rs` allocates the graph node during stanza execution
and appends nothing. -/
inductive LazyStmt where
  | addGraphNodeAttr (node : LazyValue) (attrs : List (Identifier × LazyValue))
  | createEdge (src : LazyValue) (sink : LazyValue)
  | addEdgeAttr (src : LazyValue) (sink : LazyValue) (attrs : List (Identifier × LazyValue))
  | printStmt (args : List LazyPrintArg)

/-- Mutable state threaded through the lazy interpreter: the graph, the
locals map (binding names to lazy values), the append-only thunk store with
its memoization slots (`memo` is positional parallel to `store`), the
pending scoped-variable additions, the lazy graph program, and the print
output. -/
structure LState where
  graph : Graph
  locals : Env LazyValue
  store : List LazyValue
  memo : List (Option Value)
  scopedPending : List (LazyValue × Identifier × Nat)
  lazyGraph : List LazyStmt
  output : List String

/-- Modelled from the spec: `LazyStore::add` appends a thunk and returns its
handle; the memoization slot starts unevaluated. -/
def LState.storeAdd (st : LState) (lv : LazyValue) : Nat × LState :=
  (st.store.length,
    { st with store := st.store ++ [lv], memo := st.memo ++ [none] })

/-- Entering a nested `VariableMap` in lazy mode. -/
def LState.pushFrame (st : LState) : LState :=
  { st with locals := [] :: st.locals }

/-- Dropping the innermost lazy `VariableMap`. -/
def LState.popFrame (st : LState) : LState :=
  { st with locals := st.locals.tail }

/-- Clearing only the innermost lazy frame (`loop_locals.clear()`). -/
def LState.clearTopFrame (st : LState) : LState :=
  { st with locals := match st.locals with
    | [] => []
    | _ :: rest => [] :: rest }

/-- Resolution of a lazy scoped-variable lookup against the pending list:
the handles recorded for this `(syntax node, name)` pair.  Only pending
entries whose scope thunk is already a concrete syntax-node value are
considered; in the interpreter as embedded every scope thunk a scoped
declaration records comes from an expression the stanza evaluated, and the
verified claims do not exercise scoped variables at all, so entries with
still-lazy scopes (which the missing `store.rs` would force) are not
modelled. -/
def pendingHandles (pending : List (LazyValue × Identifier × Nat))
    (r : SyntaxNodeRef) (name : Identifier) : List Nat :=
  pending.filterMap (fun e =>
    match e with
    | (.value (.syntaxNode r'), nm, h) =>
      if nm = name ∧ r' = r then some h else none
    | _ => none)

mutual

/-- Modelled from the spec: forcing a store handle (`LazyStore` §4.6).  An
`Evaluated` slot returns its memoized value; otherwise the entry's thunk is
forced and the result memoized.  The `Evaluating` marker that detects cycles
is modelled by the index bound carried by `forceVal`: an entry only ever
references strictly earlier entries, so a reference at or above the bound is
the cycle case. -/
def forceRef (fns : Functions) (source : String) (i : Nat) (st : LState) :
    Except Err Value × LState :=
  match st.memo.get? i with
  | some (some v) => (.ok v, st)
  | _ =>
    match st.store.get? i with
    | none => (.error .panicked, st)
    | some lv =>
      match forceVal fns source i lv st with
      | (.ok v, st') => (.ok v, { st' with memo := st'.memo.set i (some v) })
      | (.error e, st') => (.error e, st')
termination_by (i + 1, 0)

/-- Modelled from the spec: forcing a lazy value (`values.rs` §3, §4.6).
Concrete values force to themselves; a reference forces its store entry
(references at or above the bound report the cycle error); a lazy scoped
lookup forces its scope, which must be a syntax node, and resolves via the
pending list to exactly one handle (`UndefinedScopedVariable` when none,
`DuplicateVariable` when several); lazy lists force their elements; lazy
sets force their elements and deduplicate; a lazy call forces its arguments
and dispatches to the function registry. -/
def forceVal (fns : Functions) (source : String) (bound : Nat)
    (lv : LazyValue) (st : LState) : Except Err Value × LState :=
  match lv with
  | .value v => (.ok v, st)
  | .ref j =>
    if h : j < bound then forceRef fns source j st
    else (.error .recursivelyDefinedVariable, st)
  | .scopedLookup scope name =>
    match forceVal fns source bound scope st with
    | (.ok (.syntaxNode r), st') =>
      match pendingHandles st'.scopedPending r name with
      | [] => (.error .undefinedScopedVariable, st')
      | [h] =>
        if hh : h < bound then forceRef fns source h st'
        else (.error .recursivelyDefinedScopedVariable, st')
      | _ :: _ :: _ => (.error .duplicateVariable, st')
    | (.ok _, st') => (.error .invalidVariableScope, st')
    | (.error er, st') => (.error er, st')
  | .listVal elems =>
    match forceVals fns source bound elems st with
    | (.ok vs, st') => (.ok (.list vs), st')
    | (.error e, st') => (.error e, st')
  | .setVal elems =>
    match forceVals fns source bound elems st with
    | (.ok vs, st') => (.ok (.vset (setOfList vs)), st')
    | (.error e, st') => (.error e, st')
  | .callVal f args =>
    match forceVals fns source bound args st with
    | (.ok vs, st') =>
      match fns f st'.graph source vs with
      | .ok (v, g') => (.ok v, { st' with graph := g' })
      | .error e => (.error e, st')
    | (.error e, st') => (.error e, st')
termination_by (bound, 1 + sizeOf lv)
decreasing_by
all_goals simp_wf
· rcases Nat.lt_or_ge (j + 1) bound with hb | hb
  · exact Prod.Lex.left _ _ hb
  · have hb2 : j + 1 = bound := Nat.le_antisymm h hb
    subst hb2
    exact Prod.Lex.right _ (by omega)
· exact Prod.Lex.right _ (by simp_arith)
· rcases Nat.lt_or_ge (h + 1) bound with hb | hb
  · exact Prod.Lex.left _ _ hb
  · have hb2 : h + 1 = bound := Nat.le_antisymm hh hb
    subst hb2
    exact Prod.Lex.right _ (by omega)
· exact Prod.Lex.right _ (by simp_arith)
· exact Prod.Lex.right _ (by simp_arith)
· exact Prod.Lex.right _ (by simp_arith)

/-- Left-to-right forcing of a sequence of lazy values. -/
def forceVals (fns : Functions) (source : String) (bound : Nat)
    (lvs : List LazyValue) (st : LState) :
    Except Err (List Value) × LState :=
  match lvs with
  | [] => (.ok [], st)
  | lv :: rest =>
    match forceVal fns source bound lv st with
    | (.ok v, st') =>
      match forceVals fns source bound rest st' with
      | (.ok vs, st'') => (.ok (v :: vs), st'')
      | (.error e, st'') => (.error e, st'')
    | (.error e, st') => (.error e, st')
termination_by (bound, 1 + sizeOf lvs)

end

mutual

/-- Lazy `Expression::evaluate_lazy` (`lazy_execution.rs`): produces a
`LazyValue`; captures are resolved immediately (registering their syntax
nodes) using the file-wide capture index, function calls and sets become
thunk structure, and a regex capture indexes `current_regex_captures`
directly — out of range panics instead of reporting
`UndefinedRegexCapture`. -/
def lazyEvalExpr (c : ECtx) (e : Expression) (st : LState) :
    Except Err LazyValue × LState :=
  match e with
  | .falseLit => (.ok (.value (.boolean false)), st)
  | .nullLit => (.ok (.value .null), st)
  | .trueLit => (.ok (.value (.boolean true)), st)
  | .intConst n => (.ok (.value (.integer n)), st)
  | .strConst s => (.ok (.value (.str s)), st)
  | .listComp elems =>
    match lazyEvalExprs c elems st with
    | (.ok lvs, st') => (.ok (.listVal lvs), st')
    | (.error er, st') => (.error er, st')
  | .setComp elems =>
    match lazyEvalExprs c elems st with
    | (.ok lvs, st') => (.ok (.setVal lvs), st')
    | (.error er, st') => (.error er, st')
  | .capture _ fIdx q =>
    match queryCaptureValue fIdx q c.mat st.graph with
    | .ok (v, g') => (.ok (.value v), { st with graph := g' })
    | .error er => (.error er, st)
  | .variableExpr v => lazyVarEval c v st
  | .call f ps =>
    match lazyEvalExprs c ps st with
    | (.ok lvs, st') => (.ok (.callVal f lvs), st')
    | (.error er, st') => (.error er, st')
  | .regexCapture i =>
    match c.regexCaptures.get? i with
    | some str => (.ok (.value (.str str)), st)
    | none => (.error .panicked, st)
termination_by (sizeOf e, 0, 0)

/-- Left-to-right lazy evaluation of an expression sequence. -/
def lazyEvalExprs (c : ECtx) (es : List Expression) (st : LState) :
    Except Err (List LazyValue) × LState :=
  match es with
  | [] => (.ok [], st)
  | e :: rest =>
    match lazyEvalExpr c e st with
    | (.ok lv, st') =>
      match lazyEvalExprs c rest st' with
      | (.ok lvs, st'') => (.ok (lv :: lvs), st'')
      | (.error er, st'') => (.error er, st'')
    | (.error er, st') => (.error er, st')
termination_by (sizeOf es, 0, 0)

/-- Lazy `Variable::evaluate_lazy`: unscoped reads return the global's value
or the lazy value bound in the locals chain; scoped reads build a lazy
scoped lookup from the lazily evaluated scope. -/
def lazyVarEval (c : ECtx) (v : Variable) (st : LState) :
    Except Err LazyValue × LState :=
  match v with
  | .unscoped name =>
    match lookupKey name c.globals with
    | some val => (.ok (.value val), st)
    | none =>
      match envGet name st.locals with
      | some (lv, _) => (.ok lv, st)
      | none => (.error .undefinedVariable, st)
  | .scopedVar scopeExpr name =>
    match lazyEvalExpr c scopeExpr st with
    | (.ok sv, st') => (.ok (.scopedLookup sv name), st')
    | (.error er, st') => (.error er, st')
termination_by (sizeOf v, 0, 0)

/-- Lazy `Variable::add_lazy`: the value is wrapped in a fresh store thunk;
an unscoped declaration binds the handle in the locals (after the globals
collision check), a scoped declaration must be immutable
(`CannotDefineMutableScopedVariable`) and records the pending scoped
addition. -/
def lazyVarAdd (c : ECtx) (v : Variable) (lv : LazyValue) (mutbl : Bool)
    (st : LState) : Except Err Unit × LState :=
  match v with
  | .unscoped name =>
    if (lookupKey name c.globals).isSome then (.error .duplicateVariable, st)
    else
      let (k, st') := st.storeAdd lv
      match envAdd name (.ref k) mutbl st'.locals with
      | some l' => (.ok (), { st' with locals := l' })
      | none => (.error .duplicateVariable, st')
  | .scopedVar scopeExpr name =>
    if mutbl then (.error .cannotDefineMutableScopedVariable, st)
    else
      match lazyEvalExpr c scopeExpr st with
      | (.ok sv, st') =>
        let (k, st'') := st'.storeAdd lv
        (.ok (), { st'' with scopedPending := st''.scopedPending ++ [(sv, name, k)] })
      | (.error er, st') => (.error er, st')
termination_by (sizeOf v, 0, 0)

/-- Lazy `Variable::set_lazy`: a scoped target always fails with
`CannotAssignScopedVariable`; an unscoped target wraps the value in a store
thunk, then overwrites the mutable binding, distinguishing
`CannotAssignImmutableVariable` from `UndefinedVariable` on failure. -/
def lazyVarSet (c : ECtx) (v : Variable) (lv : LazyValue) (st : LState) :
    Except Err Unit × LState :=
  match v with
  | .unscoped name =>
    if (lookupKey name c.globals).isSome then
      (.error .cannotAssignImmutableVariable, st)
    else
      let (k, st') := st.storeAdd lv
      match envSet name (.ref k) st'.locals with
      | some l' => (.ok (), { st' with locals := l' })
      | none =>
        if (envGet name st'.locals).isSome then
          (.error .cannotAssignImmutableVariable, st')
        else (.error .undefinedVariable, st')
  | .scopedVar _ _ => (.error .cannotAssignScopedVariable, st)

/-- Lazy eager evaluation (`Expression::evaluate_eager`): evaluate lazily,
then force against the current store.  Used for expressions the checker
guarantees to be local: conditions, `for-in` iterables and scan subjects. -/
def lazyEvalEager (c : ECtx) (e : Expression) (st : LState) :
    Except Err Value × LState :=
  match lazyEvalExpr c e st with
  | (.ok lv, st') => forceVal c.fns c.source st'.store.length lv st'
  | (.error er, st') => (.error er, st')

/-- Lazy `Condition::test_eager`. -/
def lazyTestCond (c : ECtx) (cond : Condition) (st : LState) :
    Except Err Bool × LState :=
  match cond with
  | .someCond e =>
    match lazyEvalEager c e st with
    | (.ok v, st') => (.ok (!v.isNull), st')
    | (.error er, st') => (.error er, st')
  | .noneCond e =>
    match lazyEvalEager c e st with
    | (.ok v, st') => (.ok v.isNull, st')
    | (.error er, st') => (.error er, st')
  | .boolCond e =>
    match lazyEvalEager c e st with
    | (.ok v, st') =>
      match v.intoBoolean with
      | .ok b => (.ok b, st')
      | .error er => (.error er, st')
    | (.error er, st') => (.error er, st')

/-- Condition loop of `ast::If::execute_lazy` — the same accumulated
conjunction as the eager form, without short-circuiting. -/
def lazyEvalConds (c : ECtx) (conds : List Condition) (acc : Bool)
    (st : LState) : Except Err Bool × LState :=
  match conds with
  | [] => (.ok acc, st)
  | cond :: rest =>
    match lazyTestCond c cond st with
    | (.ok b, st') => lazyEvalConds c rest (acc && b) st'
    | (.error er, st') => (.error er, st')

/-- Arm loop of `ast::If::execute_lazy`. -/
def lazyIfArms (c : ECtx) (arms : List IfArm) (st : LState) :
    Except Err Unit × LState :=
  match arms with
  | [] => (.ok (), st)
  | .mk conds stmts :: rest =>
    match lazyEvalConds c conds true st with
    | (.ok b, st') =>
      if b then
        match lazyExecStmts c stmts st'.pushFrame with
        | (r, st'') => (r, st''.popFrame)
      else lazyIfArms c rest st'
    | (.error er, st') => (.error er, st')
termination_by (sizeOf arms, 0, 0)

/-- Attribute loop of the lazy attribute statements: each value expression
is evaluated lazily and paired with its name. -/
def lazyEvalAttrs (c : ECtx) (attrs : List (Identifier × Expression))
    (st : LState) : Except Err (List (Identifier × LazyValue)) × LState :=
  match attrs with
  | [] => (.ok [], st)
  | (name, e) :: rest =>
    match lazyEvalExpr c e st with
    | (.ok lv, st') =>
      match lazyEvalAttrs c rest st' with
      | (.ok lvs, st'') => (.ok ((name, lv) :: lvs), st'')
      | (.error er, st'') => (.error er, st'')
    | (.error er, st') => (.error er, st')

/-- Argument loop of `ast::Print::execute_lazy`. -/
def lazyPrintArgs (c : ECtx) (values : List Expression) (st : LState) :
    Except Err (List LazyPrintArg) × LState :=
  match values with
  | [] => (.ok [], st)
  | .strConst s :: rest =>
    match lazyPrintArgs c rest st with
    | (.ok args, st') => (.ok (.text s :: args), st')
    | (.error er, st') => (.error er, st')
  | e :: rest =>
    match lazyEvalExpr c e st with
    | (.ok lv, st') =>
      match lazyPrintArgs c rest st' with
      | (.ok args, st'') => (.ok (.val lv :: args), st'')
      | (.error er, st'') => (.error er, st'')
    | (.error er, st') => (.error er, st')

/-- Body loop of `ast::ForIn::execute_lazy`: the iterable is a concrete
list (evaluated eagerly by the caller); each element is bound as a concrete
lazy value in the cleared nested scope. -/
def lazyForInLoop (c : ECtx) (vr : Variable) (stmts : List Statement)
    (vals : List Value) (st : LState) : Except Err Unit × LState :=
  match vals with
  | [] => (.ok (), st)
  | v :: vs =>
    let st0 := st.clearTopFrame
    match lazyVarAdd c vr (.value v) false st0 with
    | (.ok _, st1) =>
      match lazyExecStmts c stmts st1 with
      | (.ok _, st2) => lazyForInLoop c vr stmts vs st2
      | (.error er, st2) => (.error er, st2)
    | (.error er, st1) => (.error er, st1)
termination_by (sizeOf vr + sizeOf stmts, 1, vals.length)
decreasing_by
all_goals simp_wf
· have hvr : 0 < sizeOf vr := by cases vr <;> simp_arith
  exact Prod.Lex.left _ _ (by omega)
· exact Prod.Lex.right _ (Prod.Lex.right _ (by omega))

/-- Iteration loop of `ast::Scan::execute_lazy` — identical tiling to the
eager scan, with the arm bodies executed lazily. -/
def lazyScanLoop (c : ECtx) (arms : List ScanArm) (s : List Char) (i : Nat)
    (st : LState) : Except Err Unit × LState :=
  if hi : i < s.length then
    match collectScanMatches (s.drop i) arms 0 with
    | .error e => (.error e, st)
    | .ok ms =>
      match ms with
      | [] => (.ok (), st)
      | m0 :: mrest =>
        match hw : sortByKey (fun p => (p.1.1.start, p.1.2)) (m0 :: mrest) with
        | [] => (.ok (), st)
        | winner :: _ =>
          match harm : arms.get? winner.1.2 with
          | none => (.error .panicked, st)
          | some (.mk re stmts) =>
              let caps := buildRegexCaptures (s.drop i) winner.1.1
              match lazyExecStmts { c with regexCaptures := caps } stmts st.pushFrame with
              | (.ok _, st') => lazyScanLoop c arms s (i + winner.1.1.stop) st'.popFrame
              | (.error er, st') => (.error er, st'.popFrame)
  else (.ok (), st)
termination_by (sizeOf arms, 1, s.length - i)
decreasing_by
all_goals simp_wf
· have h1 := List.sizeOf_lt_of_mem (List.get?_mem harm)
  have h2 : sizeOf stmts < sizeOf (ScanArm.mk re stmts) := by simp_arith
  exact Prod.Lex.left _ _ (by omega)
· have h3 := winner.2
  exact Prod.Lex.right _ (Prod.Lex.right _ (by omega))

/-- Lazy `Statement::execute_lazy`, dispatching to the per-variant executors
of `lazy_execution.rs`: declarations and assignments store thunks, node
creation allocates immediately, the graph-mutation statements defer to the
lazy graph program, control flow evaluates its scrutinees eagerly. -/
def lazyExecStmt (c : ECtx) (s : Statement) (st : LState) :
    Except Err Unit × LState :=
  match s with
  | .declareImmutable vr e =>
    match lazyEvalExpr c e st with
    | (.ok lv, st') => lazyVarAdd c vr lv false st'
    | (.error er, st') => (.error er, st')
  | .declareMutable vr e =>
    match lazyEvalExpr c e st with
    | (.ok lv, st') => lazyVarAdd c vr lv true st'
    | (.error er, st') => (.error er, st')
  | .assign vr e =>
    match lazyEvalExpr c e st with
    | (.ok lv, st') => lazyVarSet c vr lv st'
    | (.error er, st') => (.error er, st')
  | .createGraphNode vr =>
    let (r, g') := st.graph.addGraphNode
    lazyVarAdd c vr (.value (.graphNode r)) false { st with graph := g' }
  | .addGraphNodeAttribute nodeE attrs =>
    match lazyEvalExpr c nodeE st with
    | (.ok node, st') =>
      match lazyEvalAttrs c attrs st' with
      | (.ok lvs, st'') =>
        (.ok (), { st'' with lazyGraph := st''.lazyGraph ++ [.addGraphNodeAttr node lvs] })
      | (.error er, st'') => (.error er, st'')
    | (.error er, st') => (.error er, st')
  | .createEdge srcE sinkE =>
    match lazyEvalExpr c srcE st with
    | (.ok src, st1) =>
      match lazyEvalExpr c sinkE st1 with
      | (.ok sink, st2) =>
        (.ok (), { st2 with lazyGraph := st2.lazyGraph ++ [.createEdge src sink] })
      | (.error er, st2) => (.error er, st2)
    | (.error er, st1) => (.error er, st1)
  | .addEdgeAttribute srcE sinkE attrs =>
    match lazyEvalExpr c srcE st with
    | (.ok src, st1) =>
      match lazyEvalExpr c sinkE st1 with
      | (.ok sink, st2) =>
        match lazyEvalAttrs c attrs st2 with
        | (.ok lvs, st3) =>
          (.ok (), { st3 with lazyGraph := st3.lazyGraph ++ [.addEdgeAttr src sink lvs] })
        | (.error er, st3) => (.error er, st3)
      | (.error er, st2) => (.error er, st2)
    | (.error er, st1) => (.error er, st1)
  | .scan e arms =>
    match lazyEvalEager c e st with
    | (.ok v, st') =>
      match v.intoString with
      | .ok subject => lazyScanLoop c arms subject.data 0 st'
      | .error er => (.error er, st')
    | (.error er, st') => (.error er, st')
  | .print values =>
    match lazyPrintArgs c values st with
    | (.ok args, st') =>
      (.ok (), { st' with lazyGraph := st'.lazyGraph ++ [.printStmt args] })
    | (.error er, st') => (.error er, st')
  | .ifStmt arms => lazyIfArms c arms st
  | .forIn vr e stmts =>
    match lazyEvalEager c e st with
    | (.ok v, st') =>
      match v.intoList with
      | .ok vs =>
        match lazyForInLoop c vr stmts vs st'.pushFrame with
        | (r, st'') => (r, st''.popFrame)
      | .error er => (.error er, st')
    | (.error er, st') => (.error er, st')
termination_by (sizeOf s, 0, 0)
decreasing_by
all_goals simp_wf
· exact Prod.Lex.left _ _ (by omega)
· exact Prod.Lex.left _ _ (by omega)
· have he : 0 < sizeOf e := by cases e <;> simp_arith
  exact Prod.Lex.left _ _ (by omega)

/-- Statement loop of a lazy stanza body or nested block. -/
def lazyExecStmts (c : ECtx) (ss : List Statement) (st : LState) :
    Except Err Unit × LState :=
  match ss with
  | [] => (.ok (), st)
  | s :: rest =>
    match lazyExecStmt c s st with
    | (.ok _, st') => lazyExecStmts c rest st'
    | (.error er, st') => (.error er, st')
termination_by (sizeOf ss, 0, 0)

end

/-- Lazy `Stanza::execute_lazy` for one match: the locals are cleared, the
regex captures start empty, the full-match capture is resolved (registering
its node in the graph; it is otherwise only used for debug tracing), and the
statements are executed lazily. -/
def Stanza.executeLazy (fns : Functions) (source : String)
    (globals : Globals) (stz : Stanza) (mat : QueryMatch) (st : LState) :
    Except Err Unit × LState :=
  let c : ECtx := { source := source, fns := fns, globals := globals,
                    regexCaptures := [], mat := mat }
  let st0 := { st with locals := [[]] }
  match queryCaptureValue stz.fullMatchFileCaptureIndex .one mat st0.graph with
  | .error e => (.error e, st0)
  | .ok (_, g') => lazyExecStmts c stz.statements { st0 with graph := g' }

/-- Match loop of `File::execute_lazy_into`: the combined query's matches
arrive in cursor order; each is dispatched to the stanza whose pattern index
it carries (Rust indexes `self.stanzas[mat.pattern_index]`, panicking when
out of bounds). -/
def lazyMatchesLoop (fns : Functions) (source : String) (globals : Globals)
    (stanzas : List Stanza) :
    List QueryMatch → LState → Except Err Unit × LState
  | [], st => (.ok (), st)
  | mat :: rest, st =>
    match stanzas.get? mat.patternIndex with
    | none => (.error .panicked, st)
    | some stz =>
      match Stanza.executeLazy fns source globals stz mat st with
      | (.ok _, st') => lazyMatchesLoop fns source globals stanzas rest st'
      | (.error e, st') => (.error e, st')

/-- Modelled from the spec: the attribute loop of the deferred
node-attribute statement, forcing each value then adding it with duplicate
detection. -/
def runLazyNodeAttrs (fns : Functions) (source : String) (r : GraphNodeRef)
    (attrs : List (Identifier × LazyValue)) (st : LState) :
    Except Err Unit × LState :=
  match attrs with
  | [] => (.ok (), st)
  | (name, lv) :: rest =>
    match forceVal fns source st.store.length lv st with
    | (.ok v, st') =>
      match st'.graph.graphNodes.get? r with
      | none => (.error .panicked, st')
      | some node =>
        let (fresh, newAttrs) := node.attributes.add name v
        let node' : GraphNode := { node with attributes := newAttrs }
        let g' : Graph := { st'.graph with graphNodes := st'.graph.graphNodes.set r node' }
        let st'' := { st' with graph := g' }
        if fresh then runLazyNodeAttrs fns source r rest st''
        else (.error .duplicateAttribute, st'')
    | (.error er, st') => (.error er, st')

/-- Modelled from the spec: the attribute loop of the deferred
edge-attribute statement (`UndefinedEdge` when the edge does not exist). -/
def runLazyEdgeAttrs (fns : Functions) (source : String)
    (src sink : GraphNodeRef) (attrs : List (Identifier × LazyValue))
    (st : LState) : Except Err Unit × LState :=
  match attrs with
  | [] => (.ok (), st)
  | (name, lv) :: rest =>
    match forceVal fns source st.store.length lv st with
    | (.ok v, st') =>
      match st'.graph.graphNodes.get? src with
      | none => (.error .panicked, st')
      | some node =>
        match searchByKey sink node.outgoingEdges with
        | .inr _ => (.error .undefinedEdge, st')
        | .inl i =>
          match node.outgoingEdges.get? i with
          | none => (.error .panicked, st')
          | some (k, edge) =>
            let (fresh, attrs') := edge.attributes.add name v
            let edge' : Edge := { attributes := attrs' }
            let node' : GraphNode := { node with outgoingEdges := node.outgoingEdges.set i (k, edge') }
            let g' : Graph := { st'.graph with graphNodes := st'.graph.graphNodes.set src node' }
            let st'' := { st' with graph := g' }
            if fresh then runLazyEdgeAttrs fns source src sink rest st''
            else (.error .duplicateAttribute, st'')
    | (.error er, st') => (.error er, st')

/-- Modelled from the spec: the argument loop of the deferred print
statement. -/
def runLazyPrint (fns : Functions) (source : String) :
    List LazyPrintArg → LState → Except Err Unit × LState
  | [], st => (.ok (), st)
  | .text t :: rest, st =>
    runLazyPrint fns source rest { st with output := st.output ++ [t] }
  | .val lv :: rest, st =>
    match forceVal fns source st.store.length lv st with
    | (.ok v, st') =>
      runLazyPrint fns source rest
        { st' with output := st'.output ++ [v.displayWith st'.graph] }
    | (.error er, st') => (.error er, st')

/-- Modelled from the spec: evaluation of one deferred graph statement
(`lazy_execution/statements.rs` §4.6): force the thunks, then perform the
same graph mutation as the eager form with the same error conditions.  The
duplicate-detection map only enriches error messages and is elided. -/
def runLazyStmt (fns : Functions) (source : String) (stmt : LazyStmt)
    (st : LState) : Except Err Unit × LState :=
  match stmt with
  | .addGraphNodeAttr node attrs =>
    match forceVal fns source st.store.length node st with
    | (.ok v, st') =>
      match v.intoGraphNodeRef with
      | .ok r => runLazyNodeAttrs fns source r attrs st'
      | .error er => (.error er, st')
    | (.error er, st') => (.error er, st')
  | .createEdge srcL sinkL =>
    match forceVal fns source st.store.length srcL st with
    | (.ok sv, st1) =>
      match sv.intoGraphNodeRef with
      | .ok src =>
        match forceVal fns source st1.store.length sinkL st1 with
        | (.ok tv, st2) =>
          match tv.intoGraphNodeRef with
          | .ok sink =>
            match st2.graph.graphNodes.get? src with
            | none => (.error .panicked, st2)
            | some node =>
              let (fresh, node') := node.addEdge sink
              let g' : Graph := { st2.graph with graphNodes := st2.graph.graphNodes.set src node' }
              if fresh then (.ok (), { st2 with graph := g' })
              else (.error .duplicateEdge, st2)
          | .error er => (.error er, st2)
        | (.error er, st2) => (.error er, st2)
      | .error er => (.error er, st1)
    | (.error er, st1) => (.error er, st1)
  | .addEdgeAttr srcL sinkL attrs =>
    match forceVal fns source st.store.length srcL st with
    | (.ok sv, st1) =>
      match sv.intoGraphNodeRef with
      | .ok src =>
        match forceVal fns source st1.store.length sinkL st1 with
        | (.ok tv, st2) =>
          match tv.intoGraphNodeRef with
          | .ok sink => runLazyEdgeAttrs fns source src sink attrs st2
          | .error er => (.error er, st2)
        | (.error er, st2) => (.error er, st2)
      | .error er => (.error er, st1)
    | (.error er, st1) => (.error er, st1)
  | .printStmt args =>
    match runLazyPrint fns source args st with
    | (.ok _, st') => (.ok (), { st' with output := st'.output ++ ["\n"] })
    | (.error er, st') => (.error er, st')

/-- Final evaluation pass of `File::execute_lazy_into`: the deferred
statements run in appended order. -/
def runLazyGraph (fns : Functions) (source : String) :
    List LazyStmt → LState → Except Err Unit × LState
  | [], st => (.ok (), st)
  | stmt :: rest, st =>
    match runLazyStmt fns source stmt st with
    | (.ok _, st') => runLazyGraph fns source rest st'
    | (.error e, st') => (.error e, st')

/-- Lazy `File::execute_lazy_into`: the syntax-error precondition is checked
first (before any side effect), then all matches of the combined query run
in cursor order building the lazy graph program, and finally the program is
evaluated in appended order. -/
def File.executeLazyInto (f : File) (g : Graph) (rootHasError : Bool)
    (source : String) (fns : Functions) (globals : Globals)
    (mats : List QueryMatch) : Except Err Unit × LState :=
  let st0 : LState :=
    { graph := g, locals := [[]], store := [], memo := [],
      scopedPending := [], lazyGraph := [], output := [] }
  if !f.allowSyntaxErrors && rootHasError then
    (.error .parseTreeHasErrors, st0)
  else
    match lazyMatchesLoop fns source globals f.stanzas mats st0 with
    | (.ok _, st') => runLazyGraph fns source st'.lazyGraph st'
    | (.error e, st') => (.error e, st')

/-- Lazy `File::execute_lazy`: `execute_lazy_into` on a fresh graph. -/
def File.executeLazy (f : File) (rootHasError : Bool) (source : String)
    (fns : Functions) (globals : Globals) (mats : List QueryMatch) :
    Except Err Unit × LState :=
  File.executeLazyInto f Graph.new rootHasError source fns globals mats

/-- Reference semantics for the `if` statement, following the amended
claim's words: evaluate the arm's conditions left-to-right into a list of
booleans (an error in any condition propagates, even after a false one),
then take the conjunction of the whole list. -/
def condResults (c : ECtx) : List Condition → EState → Except Err (List Bool) × EState
  | [], st => (.ok [], st)
  | cond :: rest, st =>
    match testCond c cond st with
    | (.ok b, st') =>
      match condResults c rest st' with
      | (.ok bs, st'') => (.ok (b :: bs), st'')
      | (.error e, st'') => (.error e, st'')
    | (.error e, st') => (.error e, st')

/-- Reference semantics for the `if` statement (eager), following the
amended claim's words: the body of the first arm whose conjunction of
condition results is true executes in a nested scope; when no arm's
conjunction is true the statement has no effect. -/
def ifReference (c : ECtx) : List IfArm → EState → Except Err Unit × EState
  | [], st => (.ok (), st)
  | .mk conds stmts :: rest, st =>
    match condResults c conds st with
    | (.ok bs, st') =>
      if bs.all id then
        match execStmts c stmts st'.pushFrame with
        | (r, st'') => (r, st''.popFrame)
      else ifReference c rest st'
    | (.error e, st') => (.error e, st')

/-- Lazy counterpart of `condResults`. -/
def lazyCondResults (c : ECtx) : List Condition → LState → Except Err (List Bool) × LState
  | [], st => (.ok [], st)
  | cond :: rest, st =>
    match lazyTestCond c cond st with
    | (.ok b, st') =>
      match lazyCondResults c rest st' with
      | (.ok bs, st'') => (.ok (b :: bs), st'')
      | (.error e, st'') => (.error e, st'')
    | (.error e, st') => (.error e, st')

/-- Lazy counterpart of `ifReference`. -/
def lazyIfReference (c : ECtx) : List IfArm → LState → Except Err Unit × LState
  | [], st => (.ok (), st)
  | .mk conds stmts :: rest, st =>
    match lazyCondResults c conds st with
    | (.ok bs, st') =>
      if bs.all id then
        match lazyExecStmts c stmts st'.pushFrame with
        | (r, st'') => (r, st''.popFrame)
      else lazyIfReference c rest st'
    | (.error e, st') => (.error e, st')

/-- Strict lexicographic order on the scan sort keys. -/
def keyLt (a b : Nat × Nat) : Bool :=
  a.1 < b.1 || (a.1 = b.1 && a.2 < b.2)

/-- Selection of the hit minimizing the key, following the claim's words:
among the arms that matched, the one minimizing `(match start, arm index)`;
on equal keys the earlier element is kept. -/
def minByKey (f : α → Nat × Nat) : List α → Option α
  | [] => none
  | x :: xs => some (xs.foldl (fun acc y => if keyLt (f y) (f acc) then y else acc) x)

/-- Sample host node for concrete executions. -/
def sampleNode : HostNode := { id := 7, kind := "module", row := 0, col := 0 }

/-- Sample function registry: only unknown names. -/
def sampleFns : Functions := fun _ _ _ _ => .error .undefinedFunction

/-- Sample query match binding capture indices 0 and 1 to the sample
node. -/
def sampleMat : QueryMatch :=
  { patternIndex := 0, captures := [(0, sampleNode), (1, sampleNode)] }

/-- Sample eager context with empty globals and no regex captures. -/
def sampleECtx : ECtx :=
  { source := "pass", fns := sampleFns, globals := [],
    regexCaptures := [], mat := sampleMat }

/-- Sample eager state: empty graph, one empty locals frame. -/
def sampleEState : EState :=
  { graph := Graph.new, locals := [[]], scopedVars := [], output := [] }

/-- Sample lazy state. -/
def sampleLState : LState :=
  { graph := Graph.new, locals := [[]], store := [], memo := [],
    scopedPending := [], lazyGraph := [], output := [] }


/-- Sortedness invariant of the keyed containers of `graph.rs`: keys
strictly ascending. -/
def SortedKeys (l : List (Nat × α)) : Prop :=
  List.Chain' (fun a b => a.1 < b.1) l

/-- Decidability of the sortedness invariant, for concrete witnesses. -/
instance (l : List (Nat × α)) : Decidable (SortedKeys l) := by
  unfold SortedKeys
  infer_instance

/-- Transitivity of the key ordering, relating chains and pairwise
sortedness. -/
instance : IsTrans (Nat × α) (fun a b => a.1 < b.1) :=
  ⟨fun _ _ _ h1 h2 => lt_trans h1 h2⟩


/-- Sample regex for concrete scan executions: matches exactly the first
character of a non-empty haystack (leftmost match `(0, 1)`). -/
def sampleRegex : Regex := fun hay =>
  match hay with
  | [] => none
  | _ :: _ => some ⟨0, 1, []⟩


mutual

/-- Syntactic fragment for the mode-equivalence claim: expressions that use
no scoped variables and no function calls.  Calls are exactly the
expressions whose evaluation is deferred in lazy mode with an observable
effect (the registry receives the graph), which formalizes the claim's
"lazy-dependent attribute" exclusion; scoped variables are excluded by the
claim itself. -/
def Expression.plainB : Expression → Bool
  | .falseLit | .nullLit | .trueLit | .intConst _ | .strConst _ => true
  | .listComp es => Expression.plainListB es
  | .setComp es => Expression.plainListB es
  | .capture _ _ _ => true
  | .variableExpr v => Variable.plainB v
  | .call _ _ => false
  | .regexCapture _ => true

/-- Pointwise plainness of an expression sequence. -/
def Expression.plainListB : List Expression → Bool
  | [] => true
  | e :: rest => Expression.plainB e && Expression.plainListB rest

/-- Plainness of a variable reference: only unscoped names. -/
def Variable.plainB : Variable → Bool
  | .scopedVar _ _ => false
  | .unscoped _ => true

end

/-- Plainness of a condition. -/
def Condition.plainB : Condition → Bool
  | .someCond e => e.plainB
  | .noneCond e => e.plainB
  | .boolCond e => e.plainB

/-- Pointwise plainness of conditions. -/
def Condition.plainListB : List Condition → Bool
  | [] => true
  | c :: rest => Condition.plainB c && Condition.plainListB rest

/-- Plainness of attribute lists. -/
def attrsPlainB : List (Identifier × Expression) → Bool
  | [] => true
  | (_, e) :: rest => e.plainB && attrsPlainB rest

mutual

/-- Plainness of a statement: no scoped variables, no calls anywhere. -/
def Statement.plainB : Statement → Bool
  | .declareImmutable vr e => vr.plainB && e.plainB
  | .declareMutable vr e => vr.plainB && e.plainB
  | .assign vr e => vr.plainB && e.plainB
  | .createGraphNode vr => vr.plainB
  | .addGraphNodeAttribute node attrs => node.plainB && attrsPlainB attrs
  | .createEdge src sink => src.plainB && sink.plainB
  | .addEdgeAttribute src sink attrs =>
    src.plainB && sink.plainB && attrsPlainB attrs
  | .scan e arms => e.plainB && ScanArm.plainListB arms
  | .print values => Expression.plainListB values
  | .ifStmt arms => IfArm.plainListB arms
  | .forIn vr e stmts => vr.plainB && e.plainB && Statement.plainListB stmts

/-- Pointwise plainness of statements. -/
def Statement.plainListB : List Statement → Bool
  | [] => true
  | s :: rest => Statement.plainB s && Statement.plainListB rest

/-- Plainness of scan arms. -/
def ScanArm.plainListB : List ScanArm → Bool
  | [] => true
  | .mk _ stmts :: rest => Statement.plainListB stmts && ScanArm.plainListB rest

/-- Plainness of if arms. -/
def IfArm.plainListB : List IfArm → Bool
  | [] => true
  | .mk conds stmts :: rest =>
    Condition.plainListB conds && Statement.plainListB stmts && IfArm.plainListB rest

end

/-- Plainness of a file: every stanza's statements are plain. -/
def File.plainB (f : File) : Bool :=
  f.stanzas.all (fun stz => Statement.plainListB stz.statements)

mutual

/-- Well-formedness of a lazy value in the plain fragment: no scoped
lookups, no calls, and store references strictly below the given bound. -/
def LazyValue.pureBelow (n : Nat) : LazyValue → Bool
  | .value _ => true
  | .ref j => decide (j < n)
  | .scopedLookup _ _ => false
  | .listVal es => LazyValue.pureBelowList n es
  | .setVal es => LazyValue.pureBelowList n es
  | .callVal _ _ => false

/-- Pointwise well-formedness of lazy values. -/
def LazyValue.pureBelowList (n : Nat) : List LazyValue → Bool
  | [] => true
  | lv :: rest => LazyValue.pureBelow n lv && LazyValue.pureBelowList n rest

end

/-- Well-formed store of the plain fragment: every entry only references
strictly earlier entries and contains no calls or scoped lookups. -/
def WFStore (store : List LazyValue) : Prop :=
  ∀ i lv, store.get? i = some lv → LazyValue.pureBelow i lv = true

mutual

/-- Pure denotation of forcing a store handle in the plain fragment: the
effect-free counterpart of `forceRef` (no memoization, no graph, no
functions), used as the semantic value of thunks in the equivalence
proof. -/
def pforceRef (store : List LazyValue) (i : Nat) : Option Value :=
  match store.get? i with
  | none => none
  | some lv => pforceVal store i lv
termination_by (i + 1, 0)

/-- Pure denotation of forcing a lazy value in the plain fragment. -/
def pforceVal (store : List LazyValue) (bound : Nat) :
    LazyValue → Option Value
  | .value v => some v
  | .ref j => if h : j < bound then pforceRef store j else none
  | .scopedLookup _ _ => none
  | .listVal elems => (pforceVals store bound elems).map Value.list
  | .setVal elems =>
    (pforceVals store bound elems).map (fun vs => Value.vset (setOfList vs))
  | .callVal _ _ => none
termination_by lv => (bound, 1 + sizeOf lv)
decreasing_by
all_goals simp_wf
· rcases Nat.lt_or_ge (j + 1) bound with hb | hb
  · exact Prod.Lex.left _ _ hb
  · have hb2 : j + 1 = bound := Nat.le_antisymm h hb
    subst hb2
    exact Prod.Lex.right _ (by omega)
· exact Prod.Lex.right _ (by simp_arith)
· exact Prod.Lex.right _ (by simp_arith)

/-- Pure denotation of forcing a sequence of lazy values. -/
def pforceVals (store : List LazyValue) (bound : Nat) :
    List LazyValue → Option (List Value)
  | [] => some []
  | lv :: rest =>
    match pforceVal store bound lv with
    | none => none
    | some v => (pforceVals store bound rest).map (v :: ·)
termination_by lvs => (bound, 1 + sizeOf lvs)

end

/-- Pure denotation of a lazy frame: every binding's thunk forced at the
full store. -/
def frameForce (store : List LazyValue) : Frame LazyValue → Option (Frame Value)
  | [] => some []
  | (n, lv, m) :: rest =>
    match pforceVal store store.length lv with
    | none => none
    | some v => (frameForce store rest).map ((n, v, m) :: ·)

/-- Pure denotation of a lazy environment, frame by frame. -/
def envForce (store : List LazyValue) : Env LazyValue → Option (Env Value)
  | [] => some []
  | f :: rest =>
    match frameForce store f with
    | none => none
    | some fe => (envForce store rest).map (fe :: ·)

/-- Well-formedness of a lazy frame's thunks. -/
def frameWF (n : Nat) : Frame LazyValue → Bool
  | [] => true
  | (_, lv, _) :: rest => LazyValue.pureBelow n lv && frameWF n rest

/-- Well-formedness of a lazy environment's thunks. -/
def envWF (n : Nat) : Env LazyValue → Bool
  | [] => true
  | f :: rest => frameWF n f && envWF n rest

/-- Well-formedness of the thunks stored in an attribute list of a deferred
statement. -/
def lazyAttrsWF (n : Nat) : List (Identifier × LazyValue) → Bool
  | [] => true
  | (_, lv) :: rest => LazyValue.pureBelow n lv && lazyAttrsWF n rest

/-- Well-formedness of the thunks of one deferred statement. -/
def LazyStmt.wfB (n : Nat) : LazyStmt → Bool
  | .addGraphNodeAttr node attrs => LazyValue.pureBelow n node && lazyAttrsWF n attrs
  | .createEdge src sink => LazyValue.pureBelow n src && LazyValue.pureBelow n sink
  | .addEdgeAttr src sink attrs =>
    LazyValue.pureBelow n src && LazyValue.pureBelow n sink && lazyAttrsWF n attrs
  | .printStmt args => args.all (fun a =>
      match a with
      | .text _ => true
      | .val lv => LazyValue.pureBelow n lv)

/-- Well-formedness of the deferred program's thunks. -/
def lazyGraphWF (n : Nat) : List LazyStmt → Bool
  | [] => true
  | stmt :: rest => LazyStmt.wfB n stmt && lazyGraphWF n rest

/-- Pure application of the attribute loop of a deferred node-attribute
statement. -/
def papplyNodeAttrs (store : List LazyValue) (r : GraphNodeRef) :
    List (Identifier × LazyValue) → Graph → Option Graph
  | [], g => some g
  | (name, lv) :: rest, g =>
    match pforceVal store store.length lv with
    | none => none
    | some v =>
      match g.graphNodes.get? r with
      | none => none
      | some node =>
        let (fresh, newAttrs) := node.attributes.add name v
        if fresh then
          papplyNodeAttrs store r rest
            { g with graphNodes := g.graphNodes.set r { node with attributes := newAttrs } }
        else none

/-- Pure application of the attribute loop of a deferred edge-attribute
statement. -/
def papplyEdgeAttrs (store : List LazyValue) (src sink : GraphNodeRef) :
    List (Identifier × LazyValue) → Graph → Option Graph
  | [], g => some g
  | (name, lv) :: rest, g =>
    match pforceVal store store.length lv with
    | none => none
    | some v =>
      match g.graphNodes.get? src with
      | none => none
      | some node =>
        match searchByKey sink node.outgoingEdges with
        | .inr _ => none
        | .inl i =>
          match node.outgoingEdges.get? i with
          | none => none
          | some (k, edge) =>
            let (fresh, attrs') := edge.attributes.add name v
            if fresh then
              papplyEdgeAttrs store src sink rest
                { g with graphNodes := g.graphNodes.set src { node with outgoingEdges := node.outgoingEdges.set i (k, { attributes := attrs' }) } }
            else none

/-- Pure application of one deferred statement to a graph: the effect-free
counterpart of `runLazyStmt` (print statements do not change the graph). -/
def papplyStmt (store : List LazyValue) (stmt : LazyStmt) (g : Graph) :
    Option Graph :=
  match stmt with
  | .addGraphNodeAttr node attrs =>
    match pforceVal store store.length node with
    | some (.graphNode r) => papplyNodeAttrs store r attrs g
    | _ => none
  | .createEdge srcL sinkL =>
    match pforceVal store store.length srcL, pforceVal store store.length sinkL with
    | some (.graphNode src), some (.graphNode sink) =>
      match g.graphNodes.get? src with
      | none => none
      | some node =>
        let (fresh, node') := node.addEdge sink
        if fresh then
          some { g with graphNodes := g.graphNodes.set src node' }
        else none
    | _, _ => none
  | .addEdgeAttr srcL sinkL attrs =>
    match pforceVal store store.length srcL, pforceVal store store.length sinkL with
    | some (.graphNode src), some (.graphNode sink) =>
      papplyEdgeAttrs store src sink attrs g
    | _, _ => none
  | .printStmt _ => some g

/-- Pure application of the deferred program in appended order. -/
def papply (store : List LazyValue) : List LazyStmt → Graph → Option Graph
  | [], g => some g
  | stmt :: rest, g =>
    match papplyStmt store stmt g with
    | none => none
    | some g' => papply store rest g'

mutual

/-- Registration closure of a value: every syntax-node reference it contains
resolves in the given registry. -/
def Value.synRegB (m : List (SyntaxNodeRef × HostNode)) : Value → Bool
  | .null | .boolean _ | .integer _ | .str _ => true
  | .list es => Value.synRegListB m es
  | .vset es => Value.synRegListB m es
  | .syntaxNode r => (lookupKey r m).isSome
  | .graphNode _ => true

/-- Pointwise registration closure. -/
def Value.synRegListB (m : List (SyntaxNodeRef × HostNode)) : List Value → Bool
  | [] => true
  | v :: rest => Value.synRegB m v && Value.synRegListB m rest

end

/-- Registration closure of a frame's values. -/
def frameSynB (m : List (SyntaxNodeRef × HostNode)) : Frame Value → Bool
  | [] => true
  | (_, v, _) :: rest => Value.synRegB m v && frameSynB m rest

/-- Registration closure of an environment's values. -/
def envSynB (m : List (SyntaxNodeRef × HostNode)) : Env Value → Bool
  | [] => true
  | f :: rest => frameSynB m f && envSynB m rest

/-- Registration closure of an attribute set's values. -/
def attrsSynB (m : List (SyntaxNodeRef × HostNode)) (a : Attributes) : Bool :=
  Value.synRegListB m (a.values.map Prod.snd)

/-- Registration closure of a whole graph: the values of all node and edge
attributes resolve in the graph's own registry. -/
def graphSynB (g : Graph) : Bool :=
  g.graphNodes.all (fun node =>
    attrsSynB g.syntaxNodes node.attributes &&
      node.outgoingEdges.all (fun p => attrsSynB g.syntaxNodes p.2.attributes))

/-- Sub-map relation between registries: every binding of the first is a
binding of the second. -/
def SubMapN (m1 m2 : List (Nat × HostNode)) : Prop :=
  ∀ k v, lookupKey k m1 = some v → lookupKey k m2 = some v

/-- Soundness of a registry with respect to the pool of host nodes reachable
from the matches: every registered node comes from the pool and is keyed by
its own id. -/
def RegOK (pool : List HostNode) (m : List (Nat × HostNode)) : Prop :=
  ∀ p ∈ m, p.2 ∈ pool ∧ p.1 = p.2.id

/-- Host guarantee: within the pool, the node id determines the node. -/
def consistentB (pool : List HostNode) : Bool :=
  pool.all (fun a => pool.all (fun b => a.id ≠ b.id || a = b))

mutual

/-- Values free of syntax-node references (required of globals in the
equivalence claim: a global syntax-node value could display through the
mode-dependent registries). -/
def Value.synFreeB : Value → Bool
  | .null | .boolean _ | .integer _ | .str _ => true
  | .list es => Value.synFreeListB es
  | .vset es => Value.synFreeListB es
  | .syntaxNode _ => false
  | .graphNode _ => true

/-- Pointwise freedom from syntax-node references. -/
def Value.synFreeListB : List Value → Bool
  | [] => true
  | v :: rest => Value.synFreeB v && Value.synFreeListB rest

end

/-- Globals free of syntax-node references. -/
def globalsSynFreeB (g : Globals) : Bool :=
  g.all (fun p => Value.synFreeB p.2)

/-- Capture-index agreement for one capture under a match: the host
guarantees that filtering the match's captures by the stanza-local index and
by the file-wide index selects the same nodes. -/
def capAgreeB (mat : QueryMatch) (sIdx fIdx : Nat) : Bool :=
  decide (mat.captures.filter (fun c => c.1 = sIdx) =
    mat.captures.filter (fun c => c.1 = fIdx))

mutual

/-- Capture-index agreement over an expression. -/
def Expression.capAgree (mat : QueryMatch) : Expression → Bool
  | .falseLit | .nullLit | .trueLit | .intConst _ | .strConst _ => true
  | .listComp es => Expression.capAgreeList mat es
  | .setComp es => Expression.capAgreeList mat es
  | .capture sIdx fIdx _ => capAgreeB mat sIdx fIdx
  | .variableExpr v => Variable.capAgree mat v
  | .call _ ps => Expression.capAgreeList mat ps
  | .regexCapture _ => true

/-- Capture-index agreement over an expression sequence. -/
def Expression.capAgreeList (mat : QueryMatch) : List Expression → Bool
  | [] => true
  | e :: rest => Expression.capAgree mat e && Expression.capAgreeList mat rest

/-- Capture-index agreement over a variable reference. -/
def Variable.capAgree (mat : QueryMatch) : Variable → Bool
  | .scopedVar scope _ => Expression.capAgree mat scope
  | .unscoped _ => true

end

/-- Capture-index agreement over a condition. -/
def Condition.capAgree (mat : QueryMatch) : Condition → Bool
  | .someCond e => e.capAgree mat
  | .noneCond e => e.capAgree mat
  | .boolCond e => e.capAgree mat

/-- Capture-index agreement over conditions. -/
def Condition.capAgreeList (mat : QueryMatch) : List Condition → Bool
  | [] => true
  | c :: rest => Condition.capAgree mat c && Condition.capAgreeList mat rest

/-- Capture-index agreement over attribute lists. -/
def attrsCapAgree (mat : QueryMatch) : List (Identifier × Expression) → Bool
  | [] => true
  | (_, e) :: rest => e.capAgree mat && attrsCapAgree mat rest

mutual

/-- Capture-index agreement over a statement. -/
def Statement.capAgree (mat : QueryMatch) : Statement → Bool
  | .declareImmutable vr e => vr.capAgree mat && e.capAgree mat
  | .declareMutable vr e => vr.capAgree mat && e.capAgree mat
  | .assign vr e => vr.capAgree mat && e.capAgree mat
  | .createGraphNode vr => vr.capAgree mat
  | .addGraphNodeAttribute node attrs =>
    node.capAgree mat && attrsCapAgree mat attrs
  | .createEdge src sink => src.capAgree mat && sink.capAgree mat
  | .addEdgeAttribute src sink attrs =>
    src.capAgree mat && sink.capAgree mat && attrsCapAgree mat attrs
  | .scan e arms => e.capAgree mat && ScanArm.capAgreeList mat arms
  | .print values => Expression.capAgreeList mat values
  | .ifStmt arms => IfArm.capAgreeList mat arms
  | .forIn vr e stmts =>
    vr.capAgree mat && e.capAgree mat && Statement.capAgreeList mat stmts

/-- Capture-index agreement over statements. -/
def Statement.capAgreeList (mat : QueryMatch) : List Statement → Bool
  | [] => true
  | s :: rest => Statement.capAgree mat s && Statement.capAgreeList mat rest

/-- Capture-index agreement over scan arms. -/
def ScanArm.capAgreeList (mat : QueryMatch) : List ScanArm → Bool
  | [] => true
  | .mk _ stmts :: rest =>
    Statement.capAgreeList mat stmts && ScanArm.capAgreeList mat rest

/-- Capture-index agreement over if arms. -/
def IfArm.capAgreeList (mat : QueryMatch) : List IfArm → Bool
  | [] => true
  | .mk conds stmts :: rest =>
    Condition.capAgreeList mat conds && Statement.capAgreeList mat stmts &&
      IfArm.capAgreeList mat rest

end

/-- Capture-index agreement of a whole file against a match list: each
match agrees on the statements of the stanza it is dispatched to. -/
def File.capAgreeB (f : File) (mats : List QueryMatch) : Bool :=
  mats.all (fun mat =>
    match f.stanzas.get? mat.patternIndex with
    | some stz => Statement.capAgreeList mat stz.statements
    | none => true)

/-- Pool of host nodes reachable from a match list. -/
def matchPool (mats : List QueryMatch) : List HostNode :=
  mats.flatMap (fun m => m.captures.map Prod.snd)


/-- Memoization coherence: every evaluated slot agrees with the pure
denotation of its store entry. -/
def MemoOK (st : LState) : Prop :=
  st.memo.length = st.store.length ∧
  ∀ i v, st.memo.get? i = some (some v) → pforceRef st.store i = some v

/-- Host-guarantee pool consistency as a proposition. -/
def ConsistentPool (pool : List HostNode) : Prop :=
  ∀ a ∈ pool, ∀ b ∈ pool, a.id = b.id → a = b

/-- Static context obligations of the equivalence proof: globals without
syntax-node values, all captured nodes of the current match inside the
pool, and pool consistency. -/
def CtxOK (pool : List HostNode) (c : ECtx) : Prop :=
  globalsSynFreeB c.globals = true ∧
  (∀ p ∈ c.mat.captures, p.2 ∈ pool) ∧
  ConsistentPool pool

/-- Core simulation invariant between an eager state and a lazy state over
the plain fragment, maintained across every evaluation step: the store is
well formed and memo-coherent, the lazy locals denote the eager locals, the
eager syntax registry is a sub-map of the lazy one, both registries are
pool-sound, and the eager locals are registration-closed. -/
def SimCore (pool : List HostNode) (se : EState) (sl : LState) : Prop :=
  WFStore sl.store ∧
  MemoOK sl ∧
  envWF sl.store.length sl.locals = true ∧
  envForce sl.store sl.locals = some se.locals ∧
  SubMapN se.graph.syntaxNodes sl.graph.syntaxNodes ∧
  RegOK pool se.graph.syntaxNodes ∧
  RegOK pool sl.graph.syntaxNodes ∧
  envSynB se.graph.syntaxNodes se.locals = true

/-- Full simulation invariant, holding between statements: the core
invariant, well-formedness of the pending lazy program's thunks,
registration closure of the eager graph, and the key semantic link — the
pending lazy program applied to the lazy graph reproduces the eager node
vector. -/
def SimInv (pool : List HostNode) (se : EState) (sl : LState) : Prop :=
  SimCore pool se sl ∧
  lazyGraphWF sl.store.length sl.lazyGraph = true ∧
  graphSynB se.graph = true ∧
  ∃ G, papply sl.store sl.lazyGraph sl.graph = some G ∧
    G.graphNodes = se.graph.graphNodes

/-- Eager state change of an expression-only phase: the locals are
untouched, the node vector is untouched, and the syntax registry only
grows. -/
def EExpr (se se' : EState) : Prop :=
  se'.locals = se.locals ∧
  se'.graph.graphNodes = se.graph.graphNodes ∧
  SubMapN se.graph.syntaxNodes se'.graph.syntaxNodes

/-- Lazy state change of an eagerly-forced evaluation phase: everything but
the syntax registry and the memo table is untouched. -/
def LEval (sl sl' : LState) : Prop :=
  sl'.store = sl.store ∧
  sl'.locals = sl.locals ∧
  sl'.lazyGraph = sl.lazyGraph ∧
  sl'.output = sl.output ∧
  sl'.graph.graphNodes = sl.graph.graphNodes

/-- Lazy state change of an expression-only phase: additionally the memo
table is untouched. -/
def LExpr (sl sl' : LState) : Prop :=
  LEval sl sl' ∧ sl'.memo = sl.memo

/-- Level-`n` simulation statement for `evalExpr` against `lazyEvalExpr`:
on the plain fragment, when the eager evaluation succeeds the lazy one
succeeds with a thunk whose pure denotation is the eager value. -/
def SimExprP (pool : List HostNode) (n : Nat) : Prop :=
  ∀ c : ECtx, CtxOK pool c →
  ∀ e : Expression, sizeOf e < n →
  ∀ se sl, SimCore pool se sl → Expression.plainB e = true →
    Expression.capAgree c.mat e = true →
  ∀ v se', evalExpr c e se = (.ok v, se') →
  ∀ rl sl', lazyEvalExpr c e sl = (rl, sl') →
  ∃ lv, rl = .ok lv ∧ SimCore pool se' sl' ∧ EExpr se se' ∧ LExpr sl sl' ∧
    LazyValue.pureBelow sl'.store.length lv = true ∧
    pforceVal sl'.store sl'.store.length lv = some v ∧
    Value.synRegB se'.graph.syntaxNodes v = true

/-- Level-`n` simulation statement for `evalExprs` against
`lazyEvalExprs`. -/
def SimExprsP (pool : List HostNode) (n : Nat) : Prop :=
  ∀ c : ECtx, CtxOK pool c →
  ∀ es : List Expression, sizeOf es < n →
  ∀ se sl, SimCore pool se sl → Expression.plainListB es = true →
    Expression.capAgreeList c.mat es = true →
  ∀ vs se', evalExprs c es se = (.ok vs, se') →
  ∀ rl sl', lazyEvalExprs c es sl = (rl, sl') →
  ∃ lvs, rl = .ok lvs ∧ SimCore pool se' sl' ∧ EExpr se se' ∧ LExpr sl sl' ∧
    LazyValue.pureBelowList sl'.store.length lvs = true ∧
    pforceVals sl'.store sl'.store.length lvs = some vs ∧
    Value.synRegListB se'.graph.syntaxNodes vs = true

/-- Level-`n` simulation statement for `varGet` against `lazyVarEval`. -/
def SimVarGetP (pool : List HostNode) (n : Nat) : Prop :=
  ∀ c : ECtx, CtxOK pool c →
  ∀ vr : Variable, sizeOf vr < n →
  ∀ se sl, SimCore pool se sl → Variable.plainB vr = true →
  ∀ v se', varGet c vr se = (.ok v, se') →
  ∀ rl sl', lazyVarEval c vr sl = (rl, sl') →
  ∃ lv, rl = .ok lv ∧ se' = se ∧ sl' = sl ∧
    LazyValue.pureBelow sl.store.length lv = true ∧
    pforceVal sl.store sl.store.length lv = some v ∧
    Value.synRegB se.graph.syntaxNodes v = true

/-- Level-`n` simulation statement for `varAdd` against `lazyVarAdd`. -/
def SimVarAddP (pool : List HostNode) (n : Nat) : Prop :=
  ∀ c : ECtx, CtxOK pool c →
  ∀ vr : Variable, sizeOf vr < n →
  ∀ (v : Value) (lv : LazyValue) (mutbl : Bool) se sl, SimCore pool se sl →
    Variable.plainB vr = true →
    LazyValue.pureBelow sl.store.length lv = true →
    pforceVal sl.store sl.store.length lv = some v →
    Value.synRegB se.graph.syntaxNodes v = true →
  ∀ se', varAdd c vr v mutbl se = (.ok (), se') →
  ∀ rl sl', lazyVarAdd c vr lv mutbl sl = (rl, sl') →
  rl = .ok () ∧ SimCore pool se' sl' ∧ se'.graph = se.graph ∧
    sl'.graph = sl.graph ∧ sl'.lazyGraph = sl.lazyGraph ∧
    sl'.output = sl.output ∧ ∃ ext, sl'.store = sl.store ++ ext

/-- Level-`n` simulation statement for `varSet` against `lazyVarSet`. -/
def SimVarSetP (pool : List HostNode) (n : Nat) : Prop :=
  ∀ c : ECtx, CtxOK pool c →
  ∀ vr : Variable, sizeOf vr < n →
  ∀ (v : Value) (lv : LazyValue) se sl, SimCore pool se sl →
    Variable.plainB vr = true →
    LazyValue.pureBelow sl.store.length lv = true →
    pforceVal sl.store sl.store.length lv = some v →
    Value.synRegB se.graph.syntaxNodes v = true →
  ∀ se', varSet c vr v se = (.ok (), se') →
  ∀ rl sl', lazyVarSet c vr lv sl = (rl, sl') →
  rl = .ok () ∧ SimCore pool se' sl' ∧ se'.graph = se.graph ∧
    sl'.graph = sl.graph ∧ sl'.lazyGraph = sl.lazyGraph ∧
    sl'.output = sl.output ∧ ∃ ext, sl'.store = sl.store ++ ext

/-- Level-`n` simulation statement for `testCond` against `lazyTestCond`. -/
def SimCondP (pool : List HostNode) (n : Nat) : Prop :=
  ∀ c : ECtx, CtxOK pool c →
  ∀ cond : Condition, sizeOf cond < n →
  ∀ se sl, SimCore pool se sl → Condition.plainB cond = true →
    Condition.capAgree c.mat cond = true →
  ∀ b se', testCond c cond se = (.ok b, se') →
  ∀ rl sl', lazyTestCond c cond sl = (rl, sl') →
  rl = .ok b ∧ SimCore pool se' sl' ∧ EExpr se se' ∧ LEval sl sl'

/-- Level-`n` simulation statement for `evalConds` against
`lazyEvalConds`. -/
def SimCondsP (pool : List HostNode) (n : Nat) : Prop :=
  ∀ c : ECtx, CtxOK pool c →
  ∀ conds : List Condition, sizeOf conds < n →
  ∀ se sl, SimCore pool se sl → Condition.plainListB conds = true →
    Condition.capAgreeList c.mat conds = true →
  ∀ acc b se', evalConds c conds acc se = (.ok b, se') →
  ∀ rl sl', lazyEvalConds c conds acc sl = (rl, sl') →
  rl = .ok b ∧ SimCore pool se' sl' ∧ EExpr se se' ∧ LEval sl sl'

/-- Level-`n` simulation statement for `execIfArms` against `lazyIfArms`. -/
def SimIfArmsP (pool : List HostNode) (n : Nat) : Prop :=
  ∀ c : ECtx, CtxOK pool c →
  ∀ arms : List IfArm, sizeOf arms < n →
  ∀ se sl, SimInv pool se sl → IfArm.plainListB arms = true →
    IfArm.capAgreeList c.mat arms = true →
  ∀ se', execIfArms c arms se = (.ok (), se') →
  ∀ rl sl', lazyIfArms c arms sl = (rl, sl') →
  rl = .ok () ∧ SimInv pool se' sl' ∧
    SubMapN se.graph.syntaxNodes se'.graph.syntaxNodes

/-- Level-`n` simulation statement for the eager node-attribute loop against
the lazy attribute-evaluation loop: the deferred attribute list applies
purely to any graph with the starting node vector and reproduces the eager
result. -/
def SimNodeAttrsP (pool : List HostNode) (n : Nat) : Prop :=
  ∀ c : ECtx, CtxOK pool c →
  ∀ attrs : List (Identifier × Expression), sizeOf attrs < n →
  ∀ (r : GraphNodeRef) se sl, SimCore pool se sl → graphSynB se.graph = true →
    attrsPlainB attrs = true → attrsCapAgree c.mat attrs = true →
  ∀ se', execNodeAttrs c r attrs se = (.ok (), se') →
  ∀ rl sl', lazyEvalAttrs c attrs sl = (rl, sl') →
  ∃ lvs, rl = .ok lvs ∧ SimCore pool se' sl' ∧ se'.locals = se.locals ∧
    SubMapN se.graph.syntaxNodes se'.graph.syntaxNodes ∧
    graphSynB se'.graph = true ∧ LExpr sl sl' ∧
    lazyAttrsWF sl'.store.length lvs = true ∧
    ∀ g : Graph, g.graphNodes = se.graph.graphNodes →
      ∃ g', papplyNodeAttrs sl'.store r lvs g = some g' ∧
        g'.graphNodes = se'.graph.graphNodes ∧ g'.syntaxNodes = g.syntaxNodes

/-- Level-`n` simulation statement for the eager edge-attribute loop against
the lazy attribute-evaluation loop. -/
def SimEdgeAttrsP (pool : List HostNode) (n : Nat) : Prop :=
  ∀ c : ECtx, CtxOK pool c →
  ∀ attrs : List (Identifier × Expression), sizeOf attrs < n →
  ∀ (src sink : GraphNodeRef) se sl, SimCore pool se sl →
    graphSynB se.graph = true →
    attrsPlainB attrs = true → attrsCapAgree c.mat attrs = true →
  ∀ se', execEdgeAttrs c src sink attrs se = (.ok (), se') →
  ∀ rl sl', lazyEvalAttrs c attrs sl = (rl, sl') →
  ∃ lvs, rl = .ok lvs ∧ SimCore pool se' sl' ∧ se'.locals = se.locals ∧
    SubMapN se.graph.syntaxNodes se'.graph.syntaxNodes ∧
    graphSynB se'.graph = true ∧ LExpr sl sl' ∧
    lazyAttrsWF sl'.store.length lvs = true ∧
    ∀ g : Graph, g.graphNodes = se.graph.graphNodes →
      ∃ g', papplyEdgeAttrs sl'.store src sink lvs g = some g' ∧
        g'.graphNodes = se'.graph.graphNodes ∧ g'.syntaxNodes = g.syntaxNodes

/-- Level-`n` simulation statement for `execPrint` against
`lazyPrintArgs`. -/
def SimPrintP (pool : List HostNode) (n : Nat) : Prop :=
  ∀ c : ECtx, CtxOK pool c →
  ∀ values : List Expression, sizeOf values < n →
  ∀ se sl, SimCore pool se sl → Expression.plainListB values = true →
    Expression.capAgreeList c.mat values = true →
  ∀ se', execPrint c values se = (.ok (), se') →
  ∀ rl sl', lazyPrintArgs c values sl = (rl, sl') →
  ∃ largs, rl = .ok largs ∧ SimCore pool se' sl' ∧ EExpr se se' ∧
    LExpr sl sl' ∧
    LazyStmt.wfB sl'.store.length (.printStmt largs) = true

/-- Level-`n` simulation statement for `forInLoop` against
`lazyForInLoop`. -/
def SimForP (pool : List HostNode) (n : Nat) : Prop :=
  ∀ c : ECtx, CtxOK pool c →
  ∀ (vr : Variable) (stmts : List Statement), sizeOf vr + sizeOf stmts < n →
    Variable.plainB vr = true → Statement.plainListB stmts = true →
    Statement.capAgreeList c.mat stmts = true →
  ∀ vals se sl, SimInv pool se sl →
    Value.synRegListB se.graph.syntaxNodes vals = true →
  ∀ se', forInLoop c vr stmts vals se = (.ok (), se') →
  ∀ rl sl', lazyForInLoop c vr stmts vals sl = (rl, sl') →
  rl = .ok () ∧ SimInv pool se' sl' ∧
    SubMapN se.graph.syntaxNodes se'.graph.syntaxNodes

/-- Level-`n` simulation statement for `scanLoop` against `lazyScanLoop`. -/
def SimScanP (pool : List HostNode) (n : Nat) : Prop :=
  ∀ c : ECtx, CtxOK pool c →
  ∀ arms : List ScanArm, sizeOf arms < n →
    ScanArm.plainListB arms = true → ScanArm.capAgreeList c.mat arms = true →
  ∀ (s : List Char) (i : Nat) se sl, SimInv pool se sl →
  ∀ se', scanLoop c arms s i se = (.ok (), se') →
  ∀ rl sl', lazyScanLoop c arms s i sl = (rl, sl') →
  rl = .ok () ∧ SimInv pool se' sl' ∧
    SubMapN se.graph.syntaxNodes se'.graph.syntaxNodes

/-- Level-`n` simulation statement for `execStmt` against `lazyExecStmt`. -/
def SimStmtP (pool : List HostNode) (n : Nat) : Prop :=
  ∀ c : ECtx, CtxOK pool c →
  ∀ s : Statement, sizeOf s < n →
  ∀ se sl, SimInv pool se sl → Statement.plainB s = true →
    Statement.capAgree c.mat s = true →
  ∀ se', execStmt c s se = (.ok (), se') →
  ∀ rl sl', lazyExecStmt c s sl = (rl, sl') →
  rl = .ok () ∧ SimInv pool se' sl' ∧
    SubMapN se.graph.syntaxNodes se'.graph.syntaxNodes

/-- Level-`n` simulation statement for `execStmts` against
`lazyExecStmts`. -/
def SimStmtsP (pool : List HostNode) (n : Nat) : Prop :=
  ∀ c : ECtx, CtxOK pool c →
  ∀ ss : List Statement, sizeOf ss < n →
  ∀ se sl, SimInv pool se sl → Statement.plainListB ss = true →
    Statement.capAgreeList c.mat ss = true →
  ∀ se', execStmts c ss se = (.ok (), se') →
  ∀ rl sl', lazyExecStmts c ss sl = (rl, sl') →
  rl = .ok () ∧ SimInv pool se' sl' ∧
    SubMapN se.graph.syntaxNodes se'.graph.syntaxNodes

/-- Bundle of all level-`n` simulation statements, the motive of the strong
induction on the syntactic size measure. -/
structure SimBundle (pool : List HostNode) (n : Nat) : Prop where
  expr : SimExprP pool n
  exprs : SimExprsP pool n
  vget : SimVarGetP pool n
  vadd : SimVarAddP pool n
  vset : SimVarSetP pool n
  cond : SimCondP pool n
  conds : SimCondsP pool n
  ifArms : SimIfArmsP pool n
  nodeAttrs : SimNodeAttrsP pool n
  edgeAttrs : SimEdgeAttrsP pool n
  printArgs : SimPrintP pool n
  forLoop : SimForP pool n
  scanBody : SimScanP pool n
  stmt : SimStmtP pool n
  stmts : SimStmtsP pool n

/-- Host guarantees of the equivalence claim, as one decidable condition:
globals without syntax-node values, a pool in which the node id determines
the node, and every captured node inside the pool. -/
def hostOKB (pool : List HostNode) (globals : Globals)
    (mats : List QueryMatch) : Bool :=
  globalsSynFreeB globals && consistentB pool &&
    mats.all (fun m => m.captures.all (fun p => decide (p.2 ∈ pool)))

/-- Grouping of a positional per-stanza match table: as many groups as
stanzas, and every match in group `i` carries pattern index `i`. -/
def groupedB (f : File) (sm : List (List QueryMatch)) : Bool :=
  (decide (sm.length = f.stanzas.length)) &&
    sm.enum.all (fun p => p.2.all (fun m => decide (m.patternIndex = p.1)))


/-- Two-stanza file exercising the mode-equivalence claim: each stanza
creates one graph node and sets one string attribute on it ("a" in the
first stanza, "b" in the second). -/
def c1File : File :=
  { stanzas := [
      { statements := [.createGraphNode (.unscoped 0),
          .addGraphNodeAttribute (.variableExpr (.unscoped 0)) [(1, .strConst "a")]],
        fullMatchFileCaptureIndex := 0 },
      { statements := [.createGraphNode (.unscoped 0),
          .addGraphNodeAttribute (.variableExpr (.unscoped 0)) [(1, .strConst "b")]],
        fullMatchFileCaptureIndex := 0 }],
    allowSyntaxErrors := true }

/-- A match of the first stanza's pattern capturing the sample node as the
full match. -/
def c1m0 : QueryMatch := { patternIndex := 0, captures := [(0, sampleNode)] }

/-- A match of the second stanza's pattern capturing the sample node as the
full match. -/
def c1m1 : QueryMatch := { patternIndex := 1, captures := [(0, sampleNode)] }


-- ### Theorems ### --

/-- C6: in both modes, if `allow_syntax_errors` is false and the tree's root
node has an error, execution fails with `ParseTreeHasErrors` and the state —
in particular the graph passed in — is exactly the initial one: no node,
edge, attribute or syntax-node registration has happened. -/
theorem c6_syntax_error_precondition_before_side_effects
    (f : File) (g : Graph) (source : String) (fns : Functions)
    (globals : Globals) (stanzaMatches : List (List QueryMatch))
    (mats : List QueryMatch)
    (hallow : f.allowSyntaxErrors = false) :
    File.executeInto f g true source fns globals stanzaMatches =
      (.error .parseTreeHasErrors,
        { graph := g, locals := [[]], scopedVars := [], output := [] }) ∧
    File.executeLazyInto f g true source fns globals mats =
      (.error .parseTreeHasErrors,
        { graph := g, locals := [[]], store := [], memo := [],
          scopedPending := [], lazyGraph := [], output := [] }) := by
  constructor
  · simp [File.executeInto, hallow]
  · simp [File.executeLazyInto, hallow]

/-- Witness for C6 at a concrete input. -/
theorem c6_syntax_error_precondition_before_side_effects_witness :
    (File.mk [] false).allowSyntaxErrors = false ∧
    (File.executeInto (File.mk [] false) Graph.new true "pass" sampleFns [] [] =
      (.error .parseTreeHasErrors,
        { graph := Graph.new, locals := [[]], scopedVars := [], output := [] }) ∧
     File.executeLazyInto (File.mk [] false) Graph.new true "pass" sampleFns [] [] =
      (.error .parseTreeHasErrors,
        { graph := Graph.new, locals := [[]], store := [], memo := [],
          scopedPending := [], lazyGraph := [], output := [] })) :=
  ⟨rfl, c6_syntax_error_precondition_before_side_effects
    (File.mk [] false) Graph.new "pass" sampleFns [] [] [] rfl⟩

/-- C8: `Graph::add_graph_node` returns the number of nodes present before
the call and appends one fresh node; a `node` statement on an unscoped
target grows the node vector by exactly one in both modes; in lazy mode the
`CreateGraphNode` statement appends nothing to the lazy program (the index
is allocated during stanza execution, not during the final evaluation), and
on the successful path the bound thunk is the graph-node reference equal to
the node count before the call. -/
theorem c8_node_indices_allocated_in_execution_order :
    (∀ g : Graph, g.addGraphNode =
      (g.graphNodes.length, { g with graphNodes := g.graphNodes ++ [GraphNode.new] })) ∧
    (∀ (c : ECtx) (name : Identifier) (st : EState),
      ((execStmt c (.createGraphNode (.unscoped name)) st).2).graph.graphNodes =
        st.graph.graphNodes ++ [GraphNode.new]) ∧
    (∀ (c : ECtx) (name : Identifier) (st : LState),
      ((lazyExecStmt c (.createGraphNode (.unscoped name)) st).2).lazyGraph =
        st.lazyGraph ∧
      ((lazyExecStmt c (.createGraphNode (.unscoped name)) st).2).graph.graphNodes =
        st.graph.graphNodes ++ [GraphNode.new] ∧
      (lookupKey name c.globals = none →
        ((lazyExecStmt c (.createGraphNode (.unscoped name)) st).2).store =
          st.store ++ [.value (.graphNode st.graph.graphNodes.length)])) := by
  refine ⟨fun g => rfl, fun c name st => ?_, fun c name st => ?_⟩
  · simp only [execStmt, varAdd, Graph.addGraphNode]
    split
    · rfl
    · split <;> rfl
  · simp only [lazyExecStmt, lazyVarAdd, Graph.addGraphNode, LState.storeAdd]
    split
    · exact ⟨rfl, rfl, by intro h; simp_all⟩
    · refine ⟨?_, ?_, ?_⟩
      · split <;> rfl
      · split <;> rfl
      · intro _
        split <;> rfl

/-- C9: execution in either mode is a pure function of its inputs, so two
runs on identical inputs return identical results and graphs with identical
display output. -/
theorem c9_two_run_determinism
    (f : File) (g : Graph) (rootHasError : Bool) (source : String)
    (fns : Functions) (globals : Globals)
    (stanzaMatches : List (List QueryMatch)) (mats : List QueryMatch)
    (ctx : Identifier → String) :
    (File.executeInto f g rootHasError source fns globals stanzaMatches =
       File.executeInto f g rootHasError source fns globals stanzaMatches ∧
     ((File.executeInto f g rootHasError source fns globals stanzaMatches).2).graph.displayWith ctx =
       ((File.executeInto f g rootHasError source fns globals stanzaMatches).2).graph.displayWith ctx) ∧
    (File.executeLazyInto f g rootHasError source fns globals mats =
       File.executeLazyInto f g rootHasError source fns globals mats ∧
     ((File.executeLazyInto f g rootHasError source fns globals mats).2).graph.displayWith ctx =
       ((File.executeLazyInto f g rootHasError source fns globals mats).2).graph.displayWith ctx) :=
  ⟨⟨rfl, rfl⟩, ⟨rfl, rfl⟩⟩

/-- Helper: a hit of `searchByKey` names an entry that carries the key. -/
theorem searchByKey_inl {l : List (Nat × α)} {key i : Nat}
    (h : searchByKey key l = .inl i) : ∃ v, l.get? i = some (key, v) := by
  induction l generalizing i with
  | nil => simp [searchByKey] at h
  | cons p rest ih =>
    obtain ⟨k, w⟩ := p
    by_cases h1 : key < k
    · simp [searchByKey, h1] at h
    · by_cases h2 : key = k
      · have h' : (0 : Nat) = i := by
          simpa [searchByKey, h1, h2] using h
        subst h'
        subst h2
        exact ⟨w, rfl⟩
      · simp only [searchByKey, if_neg h1, if_neg h2] at h
        cases hs : searchByKey key rest with
        | inl j =>
          rw [hs] at h
          simp only [Sum.inl.injEq] at h
          subst h
          obtain ⟨v, hv⟩ := ih hs
          exact ⟨v, by simpa using hv⟩
        | inr j =>
          rw [hs] at h
          simp at h

/-- Helper: replacing the value of the found entry leaves the search result
unchanged. -/
theorem searchByKey_set {l : List (Nat × α)} {key i : Nat} {v : α}
    (h : searchByKey key l = .inl i) :
    searchByKey key (l.set i (key, v)) = .inl i := by
  induction l generalizing i with
  | nil => simp [searchByKey] at h
  | cons p rest ih =>
    obtain ⟨k, w⟩ := p
    by_cases h1 : key < k
    · simp [searchByKey, h1] at h
    · by_cases h2 : key = k
      · have h' : (0 : Nat) = i := by
          simpa [searchByKey, h1, h2] using h
        subst h'
        simp [searchByKey, h1, h2]
      · simp only [searchByKey, if_neg h1, if_neg h2] at h
        cases hs : searchByKey key rest with
        | inl j =>
          rw [hs] at h
          simp only [Sum.inl.injEq] at h
          subst h
          simp [List.set, searchByKey, h1, h2, ih hs]
        | inr j =>
          rw [hs] at h
          simp at h

/-- Helper: setting an index to the value it already holds is the
identity. -/
theorem list_set_get?_self {l : List α} {i : Nat} {a : α}
    (h : l.get? i = some a) : l.set i a = l := by
  induction l generalizing i with
  | nil => simp at h
  | cons x xs ih =>
    cases i with
    | zero =>
      injection h with h
      subst h
      rfl
    | succ i =>
      exact congrArg (x :: ·) (ih h)

/-- Helper: `listInsertAt` commutes with `map`. -/
theorem map_listInsertAt (f : α → β) (i : Nat) (a : α) (l : List α) :
    (listInsertAt i a l).map f = listInsertAt i (f a) (l.map f) := by
  induction l generalizing i with
  | nil => simp [listInsertAt]
  | cons x xs ih =>
    cases i with
    | zero => simp [listInsertAt]
    | succ i => simp [listInsertAt, ih]

/-- Helper: counting the inserted element. -/
theorem count_listInsertAt [DecidableEq α] (a : α) (i : Nat) (l : List α) :
    (listInsertAt i a l).count a = l.count a + 1 := by
  induction l generalizing i with
  | nil => simp [listInsertAt]
  | cons x xs ih =>
    cases i with
    | zero =>
      simp [listInsertAt, List.count_cons]
    | succ i =>
      simp [listInsertAt, List.count_cons, ih]
      omega

/-- Helper: a sorted head precedes every key of the tail. -/
theorem sortedKeys_rest_gt {p : Nat × α} {rest : List (Nat × α)}
    (hs : SortedKeys (p :: rest)) : ∀ q ∈ rest, p.1 < q.1 := by
  induction rest generalizing p with
  | nil => simp
  | cons r rs ih =>
    intro q hq
    have h1 : p.1 < r.1 := (List.chain'_cons.mp hs).1
    rcases List.mem_cons.mp hq with rfl | hq
    · exact h1
    · exact lt_trans h1 (ih (List.chain'_cons.mp hs).2 q hq)

/-- Helper: on a sorted list a miss means the key is absent. -/
theorem searchByKey_inr_not_mem {l : List (Nat × α)} {key i : Nat}
    (hs : SortedKeys l) (h : searchByKey key l = .inr i) :
    key ∉ l.map Prod.fst := by
  induction l generalizing i with
  | nil => simp
  | cons p rest ih =>
    obtain ⟨k, w⟩ := p
    have hs' : SortedKeys rest := List.Chain'.tail hs
    intro hmem
    simp only [List.map_cons, List.mem_cons] at hmem
    by_cases h1 : key < k
    · rcases hmem with rfl | hmem
      · omega
      · obtain ⟨⟨k', v'⟩, hk', hfst⟩ := List.mem_map.mp hmem
        have := sortedKeys_rest_gt hs _ hk'
        simp at this hfst
        omega
    · by_cases h2 : key = k
      · simp [searchByKey, h1, h2] at h
      · simp only [searchByKey, if_neg h1, if_neg h2] at h
        rcases hmem with rfl | hmem
        · omega
        · cases hsr : searchByKey key rest with
          | inl j => rw [hsr] at h; simp at h
          | inr j => exact ih hs' hsr hmem

/-- Helper: the head of an insertion is the new element or the old head. -/
theorem listInsertAt_head? (i : Nat) (a : α) (l : List α) :
    (listInsertAt i a l).head? = some a ∨
      (listInsertAt i a l).head? = l.head? := by
  cases l with
  | nil => simp [listInsertAt]
  | cons x xs =>
    cases i with
    | zero => simp [listInsertAt]
    | succ i => simp [listInsertAt]

/-- Helper: inserting at the reported insertion point keeps the keys
sorted. -/
theorem sortedKeys_listInsertAt {l : List (Nat × α)} {key i : Nat} {v : α}
    (hs : SortedKeys l) (h : searchByKey key l = .inr i) :
    SortedKeys (listInsertAt i (key, v) l) := by
  induction l generalizing i with
  | nil => simp [listInsertAt, SortedKeys]
  | cons p rest ih =>
    obtain ⟨k, w⟩ := p
    have hs' : SortedKeys rest := List.Chain'.tail hs
    by_cases h1 : key < k
    · have h' : (0 : Nat) = i := by
        simpa [searchByKey, h1] using h
      subst h'
      simp only [listInsertAt, SortedKeys]
      exact List.Chain'.cons h1 hs
    · by_cases h2 : key = k
      · simp [searchByKey, h1, h2] at h
      · simp only [searchByKey, if_neg h1, if_neg h2] at h
        cases hsr : searchByKey key rest with
        | inl j => rw [hsr] at h; simp at h
        | inr j =>
          rw [hsr] at h
          simp only [Sum.inr.injEq] at h
          subst h
          simp only [listInsertAt, SortedKeys]
          rw [List.chain'_cons']
          refine ⟨?_, ih hs' hsr⟩
          intro q hq
          rcases listInsertAt_head? j (key, v) rest with hh | hh
      

          · rw [hh] at hq
            injection hq with hq
            subst hq
            simp
            omega
          · rw [hh] at hq
            cases rest with
            | nil => simp at hq
            | cons r rs =>
              simp at hq
              subst hq
              exact (List.chain'_cons.mp hs).1

/-- Helper: keys sorted strictly ascending are pairwise distinct, so every
key is counted at most once. -/
theorem sortedKeys_count_le_one {l : List (Nat × α)}
    (hs : SortedKeys l) (t : Nat) : (l.map Prod.fst).count t ≤ 1 := by
  induction l with
  | nil => simp
  | cons p rest ih =>
    have hs' : SortedKeys rest := List.Chain'.tail hs
    simp only [List.map_cons, List.count_cons]
    by_cases ht : p.1 = t
    · subst ht
      have : (rest.map Prod.fst).count p.1 = 0 := by
        rw [List.count_eq_zero]
        intro hmem
        obtain ⟨q, hq, hfst⟩ := List.mem_map.mp hmem
        have := sortedKeys_rest_gt hs q hq
        omega
      simp [this]
    · have := ih hs'
      simp [ht]
      omega

/-- Helper: a sorted list containing a key counts it exactly once. -/
theorem sortedKeys_count_eq_one {l : List (Nat × α)}
    (hs : SortedKeys l) {t : Nat} (hmem : t ∈ l.map Prod.fst) :
    (l.map Prod.fst).count t = 1 := by
  have h1 := sortedKeys_count_le_one hs t
  have h2 := List.count_pos_iff_mem.mpr hmem
  omega

/-- C7: `GraphNode::add_edge` and `Attributes::add` preserve the sortedness
of the edge list (by sink) and of the attribute list (by name); after either
call the given key appears exactly once, and every key appears at most once
— no duplicate edge and no repeated attribute name can exist. -/
theorem c7_edge_and_attribute_uniqueness :
    (∀ (n : GraphNode) (sink : GraphNodeRef),
      SortedKeys n.outgoingEdges →
        SortedKeys ((n.addEdge sink).2).outgoingEdges ∧
        (((n.addEdge sink).2).outgoingEdges.map Prod.fst).count sink = 1 ∧
        (∀ t, (((n.addEdge sink).2).outgoingEdges.map Prod.fst).count t ≤ 1)) ∧
    (∀ (a : Attributes) (name : Identifier) (v : Value),
      SortedKeys a.values →
        SortedKeys ((a.add name v).2).values ∧
        (((a.add name v).2).values.map Prod.fst).count name = 1 ∧
        (∀ t, (((a.add name v).2).values.map Prod.fst).count t ≤ 1)) := by
  constructor
  · intro n sink hs
    unfold GraphNode.addEdge
    cases hsk : searchByKey sink n.outgoingEdges with
    | inl i =>
      obtain ⟨v, hv⟩ := searchByKey_inl hsk
      have hmem : sink ∈ n.outgoingEdges.map Prod.fst := by
        have : (sink, v) ∈ n.outgoingEdges := List.get?_mem hv
        exact List.mem_map.mpr ⟨_, this, rfl⟩
      exact ⟨hs, sortedKeys_count_eq_one hs hmem, sortedKeys_count_le_one hs⟩
    | inr i =>
      refine ⟨sortedKeys_listInsertAt hs hsk, ?_, ?_⟩
      · have hnot := searchByKey_inr_not_mem hs hsk
        simp only [map_listInsertAt]
        rw [count_listInsertAt]
        rw [List.count_eq_zero.mpr hnot]
      · intro t
        exact sortedKeys_count_le_one (sortedKeys_listInsertAt hs hsk) t
  · intro a name v hs
    unfold Attributes.add
    cases hsk : searchByKey name a.values with
    | inl i =>
      obtain ⟨v0, hv0⟩ := searchByKey_inl hsk
      have hfst : (a.values.set i (name, v)).map Prod.fst = a.values.map Prod.fst := by
        conv_rhs => rw [← list_set_get?_self hv0]
        rw [List.map_set, List.map_set]
      have hmem : name ∈ a.values.map Prod.fst := by
        have : (name, v0) ∈ a.values := List.get?_mem hv0
        exact List.mem_map.mpr ⟨_, this, rfl⟩
      have hsorted : SortedKeys (a.values.set i (name, v)) := by
        unfold SortedKeys
        rw [List.chain'_iff_pairwise]
        have hp2 : List.Pairwise (fun x y : Nat => x < y) (a.values.map Prod.fst) := by
          refine List.pairwise_map.mpr ?_
          exact List.chain'_iff_pairwise.mp hs
        rw [← hfst] at hp2
        exact List.pairwise_map.mp hp2
      refine ⟨hsorted, ?_, ?_⟩
      · rw [hfst]
        exact sortedKeys_count_eq_one hs hmem
      · intro t
        rw [hfst]
        exact sortedKeys_count_le_one hs t
    | inr i =>
      refine ⟨sortedKeys_listInsertAt hs hsk, ?_, ?_⟩
      · have hnot := searchByKey_inr_not_mem hs hsk
        simp only [map_listInsertAt]
        rw [count_listInsertAt]
        rw [List.count_eq_zero.mpr hnot]
      · intro t
        exact sortedKeys_count_le_one (sortedKeys_listInsertAt hs hsk) t

/-- Witness for C7 at concrete inputs. -/
theorem c7_edge_and_attribute_uniqueness_witness :
    (SortedKeys (GraphNode.new.outgoingEdges) ∧
      SortedKeys ((GraphNode.new.addEdge 3).2).outgoingEdges ∧
      (((GraphNode.new.addEdge 3).2).outgoingEdges.map Prod.fst).count 3 = 1) ∧
    (SortedKeys (Attributes.new.values) ∧
      SortedKeys ((Attributes.new.add 5 .null).2).values ∧
      (((Attributes.new.add 5 .null).2).values.map Prod.fst).count 5 = 1) := by
  refine ⟨⟨by decide, ?_, ?_⟩, ⟨by decide, ?_, ?_⟩⟩
  · exact (c7_edge_and_attribute_uniqueness.1 GraphNode.new 3 (by decide)).1
  · exact (c7_edge_and_attribute_uniqueness.1 GraphNode.new 3 (by decide)).2.1
  · exact (c7_edge_and_attribute_uniqueness.2 Attributes.new 5 .null (by decide)).1
  · exact (c7_edge_and_attribute_uniqueness.2 Attributes.new 5 .null (by decide)).2.1

/-- Helper: an index that holds a value is in bounds. -/
theorem list_get?_some_lt {l : List α} {i : Nat} {a : α}
    (h : l.get? i = some a) : i < l.length := by
  induction l generalizing i with
  | nil => simp at h
  | cons x xs ih =>
    cases i with
    | zero => simp
    | succ i => simpa using ih h

/-- Helper: reading back the element just written. -/
theorem list_get?_set_self {l : List α} {i : Nat} (h : i < l.length)
    (a : α) : (l.set i a).get? i = some a := by
  induction l generalizing i with
  | nil => simp at h
  | cons x xs ih =>
    cases i with
    | zero => rfl
    | succ i => simpa using ih (by simpa using h)

/-- C10: `Attributes::add` on a name already present replaces the stored
value and only then reports the duplicate: the call returns `Err`, the
attribute now holds the new value, and the key set is unchanged.
Consequently an `attr` statement that hits a duplicate leaves the graph
already mutated: the middle clause shows the statement-level error state in
general, and the closed clause exhibits a two-attribute statement whose
first attribute (`2`) remains added and whose duplicate write (`1 ↦ 9`) is
visible in the final graph next to the `DuplicateAttribute` error. -/
theorem c10_duplicate_attribute_replaces_before_failing :
    (∀ (a : Attributes) (name : Identifier) (v v0 : Value),
      a.get name = some v0 →
        (a.add name v).1 = false ∧
        ((a.add name v).2).get name = some v ∧
        ((a.add name v).2).values.map Prod.fst = a.values.map Prod.fst) ∧
    (∀ (c : ECtx) (r : GraphNodeRef) (name : Identifier) (e : Expression)
        (rest : List (Identifier × Expression)) (st st' : EState)
        (v v0 : Value) (node : GraphNode),
      evalExpr c e st = (.ok v, st') →
      st'.graph.graphNodes.get? r = some node →
      node.attributes.get name = some v0 →
        execNodeAttrs c r ((name, e) :: rest) st =
          (.error .duplicateAttribute,
            { st' with graph := { st'.graph with graphNodes := st'.graph.graphNodes.set r { node with attributes := (node.attributes.add name v).2 } } })) ∧
    (execStmts sampleECtx
        [.createGraphNode (.unscoped 10),
         .addGraphNodeAttribute (.variableExpr (.unscoped 10)) [(1, .intConst 1)],
         .addGraphNodeAttribute (.variableExpr (.unscoped 10))
           [(2, .intConst 2), (1, .intConst 9)]] sampleEState =
      (.error .duplicateAttribute,
        { graph :=
            { syntaxNodes := [],
              graphNodes := [{ outgoingEdges := [], attributes := ⟨[(1, .integer 9), (2, .integer 2)]⟩ }] },
          locals := [[(10, .graphNode 0, false)]], scopedVars := [],
          output := [] })) := by
  refine ⟨?_, ?_, ?_⟩
  · intro a name v v0 hget
    unfold Attributes.get at hget
    cases hsk : searchByKey name a.values with
    | inl i =>
      rw [hsk] at hget
      obtain ⟨w, hw⟩ := searchByKey_inl hsk
      refine ⟨by simp [Attributes.add, hsk], ?_, ?_⟩
      · have hset := searchByKey_set (v := v) hsk
        simp only [Attributes.add, hsk, Attributes.get, hset]
        rw [list_get?_set_self (list_get?_some_lt hw)]
        rfl
      · have hid := list_set_get?_self hw
        simp only [Attributes.add, hsk]
        conv_rhs => rw [← hid]
        rw [List.map_set, List.map_set]
    | inr i =>
      rw [hsk] at hget
      simp at hget
  · intro c r name e rest st st' v v0 node heval hnode hdup
    have hfalse : (node.attributes.add name v).1 = false := by
      unfold Attributes.get at hdup
      cases hsk : searchByKey name node.attributes.values with
      | inl i => simp [Attributes.add, hsk]
      | inr i => rw [hsk] at hdup; simp at hdup
    rcases hx : node.attributes.add name v with ⟨fl, a2⟩
    rw [hx] at hfalse
    simp only at hfalse
    subst hfalse
    simp only [execNodeAttrs, heval, hnode, hx]
    rfl
  · simp [execStmts, execStmt, evalExpr, varGet, varAdd, envAdd, envGet,
      frameAdd, frameGet, lookupKey, Graph.addGraphNode, GraphNode.new,
      execNodeAttrs, Attributes.add, Attributes.new, searchByKey,
      listInsertAt, Value.intoGraphNodeRef, sampleECtx, sampleEState,
      Graph.new]

/-- Witness for C10 at a concrete attribute set. -/
theorem c10_duplicate_attribute_replaces_before_failing_witness :
    Attributes.get ⟨[(1, Value.null)]⟩ 1 = some Value.null ∧
    ((⟨[(1, Value.null)]⟩ : Attributes).add 1 (.boolean true)).1 = false ∧
    (((⟨[(1, Value.null)]⟩ : Attributes).add 1 (.boolean true)).2).get 1 =
      some (.boolean true) :=
  ⟨rfl,
   (c10_duplicate_attribute_replaces_before_failing.1
      ⟨[(1, Value.null)]⟩ 1 (.boolean true) .null rfl).1,
   (c10_duplicate_attribute_replaces_before_failing.1
      ⟨[(1, Value.null)]⟩ 1 (.boolean true) .null rfl).2.1⟩

/-- C3 (amended): a regex capture `$k` that is in bounds of
`current_regex_captures` yields that string in both modes; out of bounds,
the eager evaluator reports `UndefinedRegexCapture` while the lazy one
indexes the vector directly and panics instead of returning an error. -/
theorem c3_regex_capture_semantics (c : ECtx) (k : Nat) (st : EState)
    (stl : LState) :
    (∀ s : String, c.regexCaptures.get? k = some s →
      evalExpr c (.regexCapture k) st = (.ok (.str s), st) ∧
      lazyEvalExpr c (.regexCapture k) stl = (.ok (.value (.str s)), stl)) ∧
    (c.regexCaptures.get? k = none →
      evalExpr c (.regexCapture k) st = (.error .undefinedRegexCapture, st) ∧
      lazyEvalExpr c (.regexCapture k) stl = (.error .panicked, stl)) := by
  constructor
  · intro sv h
    rw [List.get?_eq_getElem?] at h
    constructor
    · simp [evalExpr, h]
    · simp [lazyEvalExpr, h]
  · intro h
    rw [List.get?_eq_getElem?] at h
    constructor
    · simp [evalExpr, h]
    · simp [lazyEvalExpr, h]

/-- Witness for C3 at a concrete capture list. -/
theorem c3_regex_capture_semantics_witness :
    ({ sampleECtx with regexCaptures := ["a"] } : ECtx).regexCaptures.get? 0 =
      some "a" ∧
    evalExpr { sampleECtx with regexCaptures := ["a"] } (.regexCapture 0)
      sampleEState = (.ok (.str "a"), sampleEState) ∧
    lazyEvalExpr { sampleECtx with regexCaptures := ["a"] } (.regexCapture 0)
      sampleLState = (.ok (.value (.str "a")), sampleLState) :=
  ⟨rfl,
   ((c3_regex_capture_semantics { sampleECtx with regexCaptures := ["a"] } 0
      sampleEState sampleLState).1 "a" rfl).1,
   ((c3_regex_capture_semantics { sampleECtx with regexCaptures := ["a"] } 0
      sampleEState sampleLState).1 "a" rfl).2⟩

/-- Counterexample for C3 as stated: with no regex captures in scope, the
lazy evaluation of `$0` panics (out-of-bounds indexing) — it does not return
`UndefinedRegexCapture`. -/
theorem c3_regex_capture_counterexample :
    lazyEvalExpr sampleECtx (.regexCapture 0) sampleLState =
      (.error .panicked, sampleLState) ∧
    Err.panicked ≠ Err.undefinedRegexCapture := by
  constructor
  · simp [lazyEvalExpr, sampleECtx]
  · decide

/-- C4 (amended): in lazy mode a `set` on a scoped variable always fails
with `CannotAssignScopedVariable`, before evaluating anything.  In eager
mode `ScopedVariable::set` instead performs the assignment against the
node's variable map once the scope evaluates to a syntax node: it fails
with `DuplicateVariable` (not `CannotAssignScopedVariable`) when the
variable is unbound or immutable there, and succeeds when the variable is
bound mutably. -/
theorem c4_assign_scoped_variable (c : ECtx) (scopeE : Expression)
    (name : Identifier) (val : Value) (lv : LazyValue) (stl : LState)
    (st st' : EState) (r : SyntaxNodeRef) :
    lazyVarSet c (.scopedVar scopeE name) lv stl =
      (.error .cannotAssignScopedVariable, stl) ∧
    (evalExpr c scopeE st = (.ok (.syntaxNode r), st') →
      (frameGet name (scopedGetFrame st'.scopedVars r).1 = none →
        varSet c (.scopedVar scopeE name) val st =
          (.error .duplicateVariable,
            { st' with scopedVars := (scopedGetFrame st'.scopedVars r).2 })) ∧
      (∀ v0, frameGet name (scopedGetFrame st'.scopedVars r).1 = some (v0, false) →
        varSet c (.scopedVar scopeE name) val st =
          (.error .duplicateVariable,
            { st' with scopedVars := (scopedGetFrame st'.scopedVars r).2 })) ∧
      (∀ v0, frameGet name (scopedGetFrame st'.scopedVars r).1 = some (v0, true) →
        varSet c (.scopedVar scopeE name) val st =
          (.ok (), { st' with scopedVars := scopedPutFrame (scopedGetFrame st'.scopedVars r).2 r (frameSetValue name val (scopedGetFrame st'.scopedVars r).1) }))) := by
  refine ⟨by simp [lazyVarSet], ?_⟩
  intro heval
  refine ⟨?_, ?_, ?_⟩
  · intro hget
    simp [varSet, heval, frameSet, hget]
  · intro v0 hget
    simp [varSet, heval, frameSet, hget]
  · intro v0 hget
    simp [varSet, heval, frameSet, hget]

/-- Witness for C4: the scope expression is the sample capture, which
evaluates to syntax node 7 with no scoped bindings. -/
theorem c4_assign_scoped_variable_witness :
    evalExpr sampleECtx (.capture 0 1 .one) sampleEState =
      (.ok (.syntaxNode 7),
        { graph := { syntaxNodes := [(7, sampleNode)], graphNodes := [] },
          locals := [[]], scopedVars := [], output := [] }) ∧
    frameGet 3 (scopedGetFrame ([] : Scoped) 7).1 = none ∧
    lazyVarSet sampleECtx (.scopedVar (.capture 0 1 .one) 3) (.value .null)
      sampleLState = (.error .cannotAssignScopedVariable, sampleLState) ∧
    varSet sampleECtx (.scopedVar (.capture 0 1 .one) 3) .null sampleEState =
      (.error .duplicateVariable,
        { graph := { syntaxNodes := [(7, sampleNode)], graphNodes := [] },
          locals := [[]], scopedVars := [(7, [])], output := [] }) := by
  have heval : evalExpr sampleECtx (.capture 0 1 .one) sampleEState =
      (.ok (.syntaxNode 7),
        { graph := { syntaxNodes := [(7, sampleNode)], graphNodes := [] },
          locals := [[]], scopedVars := [], output := [] }) := by
    simp [evalExpr, queryCaptureValue, sampleECtx, sampleEState, sampleMat,
      sampleNode, Graph.addSyntaxNode, Graph.new, keyInsert]
  have h := c4_assign_scoped_variable sampleECtx (.capture 0 1 .one) 3 .null
    (.value .null) sampleLState sampleEState
    { graph := { syntaxNodes := [(7, sampleNode)], graphNodes := [] },
      locals := [[]], scopedVars := [], output := [] } 7
  exact ⟨heval, rfl, h.1, (h.2 heval).1 rfl⟩

/-- Counterexample for C4 as stated: in eager mode a `set` on an undefined
scoped variable fails with `DuplicateVariable`, not
`CannotAssignScopedVariable`; and after an eager `var` declaration of the
scoped variable the `set` even succeeds. -/
theorem c4_assign_scoped_variable_counterexample :
    (execStmts sampleECtx
       [.assign (.scopedVar (.capture 0 1 .one) 3) .nullLit] sampleEState).1 =
      .error .duplicateVariable ∧
    (execStmts sampleECtx
       [.declareMutable (.scopedVar (.capture 0 1 .one) 3) .nullLit,
        .assign (.scopedVar (.capture 0 1 .one) 3) .trueLit] sampleEState).1 =
      .ok () ∧
    Err.duplicateVariable ≠ Err.cannotAssignScopedVariable := by
  refine ⟨?_, ?_, by decide⟩
  · simp [execStmts, execStmt, evalExpr, varSet, queryCaptureValue,
      sampleECtx, sampleEState, sampleMat, sampleNode, Graph.addSyntaxNode,
      Graph.new, keyInsert, scopedGetFrame, frameSet, frameGet, lookupKey]
  · simp [execStmts, execStmt, evalExpr, varSet, varAdd, queryCaptureValue,
      sampleECtx, sampleEState, sampleMat, sampleNode, Graph.addSyntaxNode,
      Graph.new, keyInsert, scopedGetFrame, scopedPutFrame, frameSet,
      frameSetValue, frameAdd, frameGet, lookupKey]

/-- Witness for C8's conditional clause at a concrete input. -/
theorem c8_node_indices_allocated_in_execution_order_witness :
    lookupKey 10 sampleECtx.globals = none ∧
    ((lazyExecStmt sampleECtx (.createGraphNode (.unscoped 10)) sampleLState).2).store =
      sampleLState.store ++ [.value (.graphNode sampleLState.graph.graphNodes.length)] ∧
    ((execStmt sampleECtx (.createGraphNode (.unscoped 10)) sampleEState).2).graph.graphNodes =
      sampleEState.graph.graphNodes ++ [GraphNode.new] :=
  ⟨rfl,
   (c8_node_indices_allocated_in_execution_order.2.2 sampleECtx 10 sampleLState).2.2 rfl,
   c8_node_indices_allocated_in_execution_order.2.1 sampleECtx 10 sampleEState⟩

/-- Helper for C2: the accumulated conjunction loop of `If::execute` equals
collecting all condition results first and conjoining them afterwards. -/
theorem evalConds_eq_condResults (c : ECtx) (conds : List Condition)
    (acc : Bool) (st : EState) :
    evalConds c conds acc st =
      (match condResults c conds st with
       | (.ok bs, st') => (.ok (acc && bs.all id), st')
       | (.error e, st') => (.error e, st')) := by
  induction conds generalizing acc st with
  | nil => simp [evalConds, condResults]
  | cons cond rest ih =>
    rw [evalConds, condResults]
    cases htc : testCond c cond st with
    | mk res st1 =>
      cases res with
      | ok b =>
        dsimp only
        rw [ih]
        cases hcr : condResults c rest st1 with
        | mk res2 st2 =>
          cases res2 with
          | ok bs => simp [Bool.and_assoc]
          | error e => simp
      | error e => simp

/-- Helper for C2, lazy side. -/
theorem lazyEvalConds_eq_lazyCondResults (c : ECtx) (conds : List Condition)
    (acc : Bool) (st : LState) :
    lazyEvalConds c conds acc st =
      (match lazyCondResults c conds st with
       | (.ok bs, st') => (.ok (acc && bs.all id), st')
       | (.error e, st') => (.error e, st')) := by
  induction conds generalizing acc st with
  | nil => simp [lazyEvalConds, lazyCondResults]
  | cons cond rest ih =>
    rw [lazyEvalConds, lazyCondResults]
    cases htc : lazyTestCond c cond st with
    | mk res st1 =>
      cases res with
      | ok b =>
        dsimp only
        rw [ih]
        cases hcr : lazyCondResults c rest st1 with
        | mk res2 st2 =>
          cases res2 with
          | ok bs => simp [Bool.and_assoc]
          | error e => simp
      | error e => simp

/-- C2 (amended): in both modes the arm conditions are all evaluated left to
right — the conjunction is accumulated without short-circuiting, so an error
raised by a later condition propagates even when an earlier condition was
already false; the body of the first arm whose conjunction is true executes
in a nested scope; when no arm's conjunction is true the statement has no
effect.  Stated as equality with the reference interpreters `ifReference`
and `lazyIfReference`, which implement exactly that description. -/
theorem c2_if_statement_semantics :
    (∀ (c : ECtx) (arms : List IfArm) (st : EState),
      execIfArms c arms st = ifReference c arms st) ∧
    (∀ (c : ECtx) (arms : List IfArm) (stl : LState),
      lazyIfArms c arms stl = lazyIfReference c arms stl) := by
  constructor
  · intro c arms
    induction arms with
    | nil => intro st; rw [execIfArms, ifReference]
    | cons arm rest ih =>
      intro st
      obtain ⟨conds, stmts⟩ := arm
      rw [execIfArms, ifReference, evalConds_eq_condResults]
      cases hcr : condResults c conds st with
      | mk res st' =>
        cases res with
        | ok bs =>
          simp only [Bool.true_and]
          cases hall : bs.all id with
          | true => simp
          | false => simpa using ih st'
        | error e => simp
  · intro c arms
    induction arms with
    | nil => intro st; rw [lazyIfArms, lazyIfReference]
    | cons arm rest ih =>
      intro st
      obtain ⟨conds, stmts⟩ := arm
      rw [lazyIfArms, lazyIfReference, lazyEvalConds_eq_lazyCondResults]
      cases hcr : lazyCondResults c conds st with
      | mk res st' =>
        cases res with
        | ok bs =>
          simp only [Bool.true_and]
          cases hall : bs.all id with
          | true => simp
          | false => simpa using ih st'
        | error e => simp

/-- Counterexample for C2 as stated: an arm whose first condition is false
still evaluates its second condition, and the `ExpectedBoolean` error that
condition raises aborts the statement in both modes — whereas the claim says
the remaining conditions are not evaluated and cannot raise errors, so the
statement should have had no effect. -/
theorem c2_if_statement_counterexample :
    (execStmt sampleECtx
      (.ifStmt [.mk [.boolCond .falseLit, .boolCond .nullLit] []])
      sampleEState).1 = .error .expectedBoolean ∧
    (lazyExecStmt sampleECtx
      (.ifStmt [.mk [.boolCond .falseLit, .boolCond .nullLit] []])
      sampleLState).1 = .error .expectedBoolean := by
  constructor
  · simp [execStmt, execIfArms, evalConds, testCond, evalExpr,
      Value.intoBoolean]
  · simp [lazyExecStmt, lazyIfArms, lazyEvalConds, lazyTestCond,
      lazyEvalEager, lazyEvalExpr, forceVal, Value.intoBoolean]

/-- Helper: totality of the scan key order. -/
theorem keyLe_total (a b : Nat × Nat) : keyLe a b = true ∨ keyLe b a = true := by
  simp [keyLe]
  omega

/-- Helper: strict and reversed non-strict key comparisons conflict. -/
theorem keyLt_keyLe_absurd {a b : Nat × Nat} (h1 : keyLt a b = true)
    (h2 : keyLe b a = true) : False := by
  simp [keyLt] at h1
  simp [keyLe] at h2
  omega

/-- Helper: membership in a sorted insertion. -/
theorem mem_insertSorted {f : α → Nat × Nat} {x a : α} {l : List α} :
    a ∈ insertSorted f x l ↔ a = x ∨ a ∈ l := by
  induction l with
  | nil => simp [insertSorted]
  | cons y ys ih =>
    by_cases h : keyLe (f x) (f y) = true
    · simp [insertSorted, h]
    · simp only [insertSorted, if_neg h, List.mem_cons, ih]
      tauto

/-- Helper: membership is preserved by the scan sort. -/
theorem mem_sortByKey {f : α → Nat × Nat} {a : α} {l : List α} :
    a ∈ sortByKey f l ↔ a ∈ l := by
  induction l with
  | nil => simp [sortByKey]
  | cons x xs ih =>
    simp [sortByKey, mem_insertSorted, ih]

/-- Helper: the head of a sorted insertion. -/
theorem insertSorted_head? (f : α → Nat × Nat) (x : α) (l : List α) :
    (insertSorted f x l).head? = some x ∨
      (insertSorted f x l).head? = l.head? := by
  cases l with
  | nil => simp [insertSorted]
  | cons y ys =>
    by_cases h : keyLe (f x) (f y) = true
    · simp [insertSorted, h]
    · simp [insertSorted, h]

/-- Helper: sorted insertion preserves chains of the key order. -/
theorem chain'_insertSorted {f : α → Nat × Nat} {x : α} {l : List α}
    (hs : List.Chain' (fun a b => keyLe (f a) (f b) = true) l) :
    List.Chain' (fun a b => keyLe (f a) (f b) = true) (insertSorted f x l) := by
  induction l with
  | nil => simp [insertSorted]
  | cons y ys ih =>
    by_cases h : keyLe (f x) (f y) = true
    · simp only [insertSorted, if_pos h]
      exact List.Chain'.cons h hs
    · simp only [insertSorted, if_neg h]
      rw [List.chain'_cons']
      refine ⟨?_, ih (List.Chain'.tail hs)⟩
      intro z hz
      rcases insertSorted_head? f x ys with hh | hh
      · rw [hh] at hz
        injection hz with hz
        subst hz
        rcases keyLe_total (f x) (f y) with h' | h'
        · exact absurd h' h
        · exact h'
      · rw [hh] at hz
        cases ys with
        | nil => simp at hz
        | cons u us =>
          injection hz with hz
          subst hz
          exact (List.chain'_cons.mp hs).1

/-- Helper: the scan sort produces a chain of the key order. -/
theorem chain'_sortByKey (f : α → Nat × Nat) (l : List α) :
    List.Chain' (fun a b => keyLe (f a) (f b) = true) (sortByKey f l) := by
  induction l with
  | nil => simp [sortByKey]
  | cons x xs ih => exact chain'_insertSorted ih

/-- Helper: the head of the scan sort is key-minimal among all elements. -/
theorem sortByKey_head_min {f : α → Nat × Nat} {l : List α} {y : α}
    {ys : List α} (h : sortByKey f l = y :: ys) :
    ∀ m ∈ l, keyLe (f y) (f m) = true := by
  intro m hm
  have hm' : m ∈ y :: ys := by
    rw [← h]
    exact mem_sortByKey.mpr hm
  rcases List.mem_cons.mp hm' with rfl | hm'
  · simp [keyLe]
  · have hchain := chain'_sortByKey f l
    rw [h] at hchain
    haveI : IsTrans α (fun a b => keyLe (f a) (f b) = true) := by
      refine ⟨fun a b c h1 h2 => ?_⟩
      simp [keyLe] at h1 h2 ⊢
      omega
    have hpw := List.chain'_iff_pairwise.mp hchain
    exact (List.pairwise_cons.mp hpw).1 m hm'

/-- Helper: an element strictly key-below every other element of the list
is the head of the scan sort. -/
theorem sortByKey_head_eq {f : α → Nat × Nat} {l : List α} {w : α}
    (hw : w ∈ l) (hmin : ∀ m ∈ l, m ≠ w → keyLt (f w) (f m) = true) :
    ∃ tl, sortByKey f l = w :: tl := by
  cases hsrt : sortByKey f l with
  | nil =>
    have : w ∈ sortByKey f l := mem_sortByKey.mpr hw
    rw [hsrt] at this
    simp at this
  | cons y ys =>
    have hy : y ∈ l := mem_sortByKey.mp (by rw [hsrt]; simp)
    by_cases hyw : y = w
    · subst hyw
      exact ⟨ys, rfl⟩
    · have h1 := hmin y hy hyw
      have h2 := sortByKey_head_min hsrt w hw
      exact (keyLt_keyLe_absurd h1 h2).elim

/-- C5: one iteration of the eager scan.  If the cursor is inside the
subject and no arm's regex matches the remaining input, the scan terminates
successfully with the state unchanged (likewise when the cursor has reached
the end).  If the arms produce hits and `w` is the hit that strictly
minimizes `(match start offset, arm declaration index)` among them, then the
body of `w`'s arm executes, in a nested scope, with the regex captures of
`w`'s match — and afterwards the cursor advances by exactly the end offset
of `w`'s whole match.  (Hits carry non-empty matches by construction; an
empty leftmost match aborts the collection with `EmptyRegexCapture` before
any arm executes, so no arm is executed in that case either.) -/
theorem c5_scan_selection (c : ECtx) (arms : List ScanArm) (s : List Char)
    (i : Nat) (st : EState) :
    (i < s.length → collectScanMatches (s.drop i) arms 0 = .ok [] →
      scanLoop c arms s i st = (.ok (), st)) ∧
    (¬ i < s.length → scanLoop c arms s i st = (.ok (), st)) ∧
    (∀ (ms : List ScanHit) (w : ScanHit) (re : Regex) (stmts : List Statement),
      i < s.length →
      collectScanMatches (s.drop i) arms 0 = .ok ms →
      w ∈ ms →
      (∀ m ∈ ms, m ≠ w → keyLt (w.1.1.start, w.1.2) (m.1.1.start, m.1.2) = true) →
      arms.get? w.1.2 = some (.mk re stmts) →
      scanLoop c arms s i st =
        (match execStmts { c with regexCaptures := buildRegexCaptures (s.drop i) w.1.1 } stmts st.pushFrame with
         | (.ok _, st') => scanLoop c arms s (i + w.1.1.stop) st'.popFrame
         | (.error er, st') => (.error er, st'.popFrame))) := by
  refine ⟨?_, ?_, ?_⟩
  · intro hi hcol
    rw [scanLoop]
    simp [hi, hcol]
  · intro hi
    rw [scanLoop]
    simp [hi]
  · intro ms w re stmts hi hcol hw hmin harm
    obtain ⟨tl, hsrt⟩ :=
      sortByKey_head_eq (f := fun p => (p.1.1.start, p.1.2)) hw hmin
    rw [scanLoop]
    cases ms with
    | nil => simp at hw
    | cons m0 mrest =>
      simp only [dif_pos hi, hcol]
      split
      · rename_i heq
        rw [hsrt] at heq
        cases heq
      · rename_i winner tail heq
        rw [hsrt] at heq
        injection heq with h1 h2
        subst h1
        split
        · rename_i hnone
          rw [harm] at hnone
          cases hnone
        · rename_i re2 stmts2 hsome
          rw [harm] at hsome
          injection hsome with h3
          cases h3
          rfl

/-- Witness for C5: a single arm matching the first character tiles the
two-character subject in two iterations and terminates successfully. -/
theorem c5_scan_selection_witness :
    (0 < ("ab".data).length) ∧
    collectScanMatches (("ab".data).drop 0) [ScanArm.mk sampleRegex []] 0 =
      .ok [⟨(⟨0, 1, []⟩, 0), Nat.zero_lt_one⟩] ∧
    ([ScanArm.mk sampleRegex []].get? 0 = some (.mk sampleRegex [])) ∧
    scanLoop sampleECtx [ScanArm.mk sampleRegex []] "ab".data 0 sampleEState =
      (.ok (), sampleEState) := by
  refine ⟨by decide, rfl, rfl, ?_⟩
  have h := (c5_scan_selection sampleECtx [ScanArm.mk sampleRegex []]
      "ab".data 0 sampleEState).2.2
    [⟨(⟨0, 1, []⟩, 0), Nat.zero_lt_one⟩] ⟨(⟨0, 1, []⟩, 0), Nat.zero_lt_one⟩
    sampleRegex []
    (by decide) rfl (by simp)
    (by
      intro m hm hne
      rw [List.mem_singleton] at hm
      exact absurd hm hne)
    rfl
  rw [h]
  have h2 := (c5_scan_selection sampleECtx [ScanArm.mk sampleRegex []]
      "ab".data 1 (sampleEState.pushFrame.popFrame)).2.2
    [⟨(⟨0, 1, []⟩, 0), Nat.zero_lt_one⟩] ⟨(⟨0, 1, []⟩, 0), Nat.zero_lt_one⟩
    sampleRegex []
    (by decide) rfl (by simp)
    (by
      intro m hm hne
      rw [List.mem_singleton] at hm
      exact absurd hm hne)
    rfl
  rw [execStmts]
  dsimp only
  rw [h2]
  rw [execStmts]
  dsimp only
  have h3 := (c5_scan_selection sampleECtx [ScanArm.mk sampleRegex []]
      "ab".data 2 (sampleEState.pushFrame.popFrame.pushFrame.popFrame)).2.1
    (by decide)
  rw [h3]
  rfl

/-- Helper: lookup after an insert-or-replace. -/
theorem lookupKey_keyInsert (k k' : Nat) (v : α) (m : List (Nat × α)) :
    lookupKey k' (keyInsert k v m) =
      if k' = k then some v else lookupKey k' m := by
  induction m with
  | nil => by_cases h : k' = k <;> simp [keyInsert, lookupKey, h]
  | cons p rest ih =>
    obtain ⟨k0, v0⟩ := p
    by_cases h0 : k = k0
    · subst h0
      by_cases h : k' = k <;> simp [keyInsert, lookupKey, h]
    · by_cases h : k' = k0
      · subst h
        by_cases h2 : k' = k
        · omega
        · simp [keyInsert, if_neg h0, lookupKey, h2]
      · simp [keyInsert, if_neg h0, lookupKey, h, ih]

mutual

/-- Helper: boundedness is monotone in the bound. -/
theorem pureBelow_mono {n n' : Nat} (hle : n ≤ n') :
    ∀ lv, LazyValue.pureBelow n lv = true → LazyValue.pureBelow n' lv = true
  | .value v, _ => by simp [LazyValue.pureBelow]
  | .ref j, h => by
    simp [LazyValue.pureBelow] at h ⊢
    omega
  | .scopedLookup s nm, h => by simp [LazyValue.pureBelow] at h
  | .listVal es, h => by
    simp only [LazyValue.pureBelow] at h ⊢
    exact pureBelowList_mono hle es h
  | .setVal es, h => by
    simp only [LazyValue.pureBelow] at h ⊢
    exact pureBelowList_mono hle es h
  | .callVal f as, h => by simp [LazyValue.pureBelow] at h

/-- Helper: pointwise boundedness is monotone in the bound. -/
theorem pureBelowList_mono {n n' : Nat} (hle : n ≤ n') :
    ∀ lvs, LazyValue.pureBelowList n lvs = true →
      LazyValue.pureBelowList n' lvs = true
  | [], _ => rfl
  | lv :: rest, h => by
    simp only [LazyValue.pureBelowList, Bool.and_eq_true] at h ⊢
    exact ⟨pureBelow_mono hle lv h.1, pureBelowList_mono hle rest h.2⟩

end

mutual

/-- Helper: raising the bound does not change the pure denotation of a
value whose references are below the original bound. -/
theorem pforceVal_raise (store : List LazyValue) {bound b' : Nat}
    (hle : bound ≤ b') :
    ∀ lv, LazyValue.pureBelow bound lv = true →
      pforceVal store b' lv = pforceVal store bound lv
  | .value v, _ => by simp [pforceVal]
  | .ref j, h => by
    have hj : j < bound := by simpa [LazyValue.pureBelow] using h
    simp only [pforceVal]
    rw [dif_pos hj, dif_pos (lt_of_lt_of_le hj hle)]
  | .scopedLookup s nm, h => by simp [LazyValue.pureBelow] at h
  | .listVal es, h => by
    simp only [LazyValue.pureBelow] at h
    simp only [pforceVal]
    rw [pforceVals_raise store hle es h]
  | .setVal es, h => by
    simp only [LazyValue.pureBelow] at h
    simp only [pforceVal]
    rw [pforceVals_raise store hle es h]
  | .callVal f as, h => by simp [LazyValue.pureBelow] at h

/-- Helper: the list form of `pforceVal_raise`. -/
theorem pforceVals_raise (store : List LazyValue) {bound b' : Nat}
    (hle : bound ≤ b') :
    ∀ lvs, LazyValue.pureBelowList bound lvs = true →
      pforceVals store b' lvs = pforceVals store bound lvs
  | [], _ => by simp [pforceVals]
  | lv :: rest, h => by
    have h' : LazyValue.pureBelow bound lv = true ∧
        LazyValue.pureBelowList bound rest = true := by
      simpa [LazyValue.pureBelowList] using h
    simp only [pforceVals]
    rw [pforceVal_raise store hle lv h'.1]
    cases pforceVal store bound lv with
    | none => rfl
    | some v => rw [pforceVals_raise store hle rest h'.2]

end

/-- Helper: membership in the result of `keyInsert`. -/
theorem mem_keyInsert {k : Nat} {v : α} :
    ∀ (m : List (Nat × α)) (p : Nat × α), p ∈ keyInsert k v m →
      p = (k, v) ∨ p ∈ m := by
  intro m
  induction m with
  | nil =>
    intro p hp
    simp [keyInsert] at hp
    exact Or.inl hp
  | cons q rest ih =>
    intro p hp
    obtain ⟨k0, v0⟩ := q
    by_cases h0 : k = k0
    · subst h0
      simp [keyInsert] at hp
      rcases hp with h | h
      · exact Or.inl h
      · exact Or.inr (List.mem_cons_of_mem _ h)
    · simp only [keyInsert, if_neg h0, List.mem_cons] at hp
      rcases hp with h | h
      · exact Or.inr (by simp [h])
      · rcases ih p h with h2 | h2
        · exact Or.inl h2
        · exact Or.inr (List.mem_cons_of_mem _ h2)

/-- Helper: a successful `lookupKey` exhibits a member. -/
theorem lookupKey_mem {k : Nat} {w : α} :
    ∀ {m : List (Nat × α)}, lookupKey k m = some w → (k, w) ∈ m := by
  intro m
  induction m with
  | nil => intro h; simp [lookupKey] at h
  | cons q rest ih =>
    intro h
    obtain ⟨k0, v0⟩ := q
    by_cases h0 : k = k0
    · subst h0
      simp [lookupKey] at h
      simp [h]
    · simp only [lookupKey, if_neg h0] at h
      exact List.mem_cons_of_mem _ (ih h)

/-- Helper: `keyInsert` never removes a key. -/
theorem lookupKey_isSome_keyInsert {k' k : Nat} {v : α} {m : List (Nat × α)}
    (h : (lookupKey k' m).isSome = true) :
    (lookupKey k' (keyInsert k v m)).isSome = true := by
  rw [lookupKey_keyInsert]
  by_cases hk : k' = k <;> simp [hk, h]

/-- Helper: the sub-map relation is reflexive. -/
theorem SubMapN_refl (m : List (Nat × HostNode)) : SubMapN m m :=
  fun _ _ h => h

/-- Helper: the sub-map relation is transitive. -/
theorem SubMapN_trans {m1 m2 m3 : List (Nat × HostNode)}
    (h1 : SubMapN m1 m2) (h2 : SubMapN m2 m3) : SubMapN m1 m3 :=
  fun k v h => h2 k v (h1 k v h)

/-- Helper: inserting the same binding on both sides preserves the sub-map
relation. -/
theorem SubMapN_keyInsert_both {m1 m2 : List (Nat × HostNode)} {k : Nat}
    {v : HostNode} (h : SubMapN m1 m2) :
    SubMapN (keyInsert k v m1) (keyInsert k v m2) := by
  intro k' w hw
  rw [lookupKey_keyInsert] at hw ⊢
  by_cases hk : k' = k
  · simpa [hk] using hw
  · rw [if_neg hk] at hw ⊢
    exact h k' w hw

/-- Helper: a pool-sound registry maps a key to a pool node carrying that
key as its id. -/
theorem RegOK_lookup {pool : List HostNode} {m : List (Nat × HostNode)}
    {k : Nat} {w : HostNode} (hr : RegOK pool m) (h : lookupKey k m = some w) :
    w ∈ pool ∧ k = w.id :=
  hr (k, w) (lookupKey_mem h)

/-- Helper: registering a pool node on the right only preserves the sub-map
relation, because pool consistency makes any overwrite a no-op. -/
theorem SubMapN_keyInsert_right {pool : List HostNode}
    {m1 m2 : List (Nat × HostNode)} {nd : HostNode}
    (hc : ConsistentPool pool) (hr : RegOK pool m1) (hp : nd ∈ pool)
    (h : SubMapN m1 m2) : SubMapN m1 (keyInsert nd.id nd m2) := by
  intro k w hw
  rw [lookupKey_keyInsert]
  by_cases hk : k = nd.id
  · obtain ⟨hwp, hwid⟩ := RegOK_lookup hr hw
    have : w = nd := hc w hwp nd hp (by omega)
    simp [hk, this]
  · rw [if_neg hk]
    exact h k w hw

/-- Helper: registering a pool node grows a pool-sound registry into a
super-map of itself. -/
theorem SubMapN_keyInsert_self {pool : List HostNode}
    {m : List (Nat × HostNode)} {nd : HostNode}
    (hc : ConsistentPool pool) (hr : RegOK pool m) (hp : nd ∈ pool) :
    SubMapN m (keyInsert nd.id nd m) :=
  SubMapN_keyInsert_right hc hr hp (SubMapN_refl m)

/-- Helper: registering a pool node preserves pool-soundness. -/
theorem RegOK_keyInsert {pool : List HostNode} {m : List (Nat × HostNode)}
    {nd : HostNode} (hr : RegOK pool m) (hp : nd ∈ pool) :
    RegOK pool (keyInsert nd.id nd m) := by
  intro p hmem
  rcases mem_keyInsert m p hmem with h | h
  · subst h; exact ⟨hp, rfl⟩
  · exact hr p h

mutual

/-- Helper: registration closure of a value is monotone in the registry. -/
theorem synRegB_mono {m m' : List (Nat × HostNode)} (hs : SubMapN m m') :
    ∀ v, Value.synRegB m v = true → Value.synRegB m' v = true
  | .null, _ => rfl
  | .boolean _, _ => rfl
  | .integer _, _ => rfl
  | .str _, _ => rfl
  | .list es, h => by
    simp only [Value.synRegB] at h ⊢
    exact synRegListB_mono hs es h
  | .vset es, h => by
    simp only [Value.synRegB] at h ⊢
    exact synRegListB_mono hs es h
  | .syntaxNode r, h => by
    simp only [Value.synRegB] at h ⊢
    obtain ⟨nd, hnd⟩ := Option.isSome_iff_exists.mp h
    rw [hs r nd hnd]
    rfl
  | .graphNode _, _ => rfl

/-- Helper: the list form of `synRegB_mono`. -/
theorem synRegListB_mono {m m' : List (Nat × HostNode)} (hs : SubMapN m m') :
    ∀ vs, Value.synRegListB m vs = true → Value.synRegListB m' vs = true
  | [], _ => rfl
  | v :: rest, h => by
    simp only [Value.synRegListB, Bool.and_eq_true] at h ⊢
    exact ⟨synRegB_mono hs v h.1, synRegListB_mono hs rest h.2⟩

end

mutual

/-- Helper: a syntax-free value is registration-closed in any registry. -/
theorem synFreeB_synRegB {m : List (Nat × HostNode)} :
    ∀ v, Value.synFreeB v = true → Value.synRegB m v = true
  | .null, _ => rfl
  | .boolean _, _ => rfl
  | .integer _, _ => rfl
  | .str _, _ => rfl
  | .list es, h => by
    simp only [Value.synFreeB] at h
    simp only [Value.synRegB]
    exact synFreeListB_synRegListB es h
  | .vset es, h => by
    simp only [Value.synFreeB] at h
    simp only [Value.synRegB]
    exact synFreeListB_synRegListB es h
  | .syntaxNode _, h => by simp [Value.synFreeB] at h
  | .graphNode _, _ => rfl

/-- Helper: the list form of `synFreeB_synRegB`. -/
theorem synFreeListB_synRegListB {m : List (Nat × HostNode)} :
    ∀ vs, Value.synFreeListB vs = true → Value.synRegListB m vs = true
  | [], _ => rfl
  | v :: rest, h => by
    simp only [Value.synFreeListB, Bool.and_eq_true] at h
    simp only [Value.synRegListB, Bool.and_eq_true]
    exact ⟨synFreeB_synRegB v h.1, synFreeListB_synRegListB rest h.2⟩

end

/-- Helper: pointwise characterization of list registration closure. -/
theorem synRegListB_all {m : List (Nat × HostNode)} :
    ∀ {vs : List Value}, Value.synRegListB m vs = true ↔
      ∀ v ∈ vs, Value.synRegB m v = true := by
  intro vs
  induction vs with
  | nil => simp [Value.synRegListB]
  | cons v rest ih =>
    simp only [Value.synRegListB, Bool.and_eq_true, ih, List.mem_cons]
    constructor
    · rintro ⟨h1, h2⟩ w (rfl | hw)
      · exact h1
      · exact h2 w hw
    · intro h
      exact ⟨h v (Or.inl rfl), fun w hw => h w (Or.inr hw)⟩

/-- Helper: membership in `setInsert`. -/
theorem mem_setInsert {a v : Value} :
    ∀ {l : List Value}, a ∈ setInsert v l → a = v ∨ a ∈ l := by
  intro l
  induction l with
  | nil => intro h; simp [setInsert] at h; exact Or.inl h
  | cons w rest ih =>
    intro h
    simp only [setInsert] at h
    rcases hc : Value.cmp v w with _ | _ | _ <;> rw [hc] at h
    · rcases List.mem_cons.mp h with h1 | h1
      · exact Or.inl h1
      · exact Or.inr h1
    · exact Or.inr h
    · rcases List.mem_cons.mp h with h1 | h1
      · exact Or.inr (by simp [h1])
      · rcases ih h1 with h2 | h2
        · exact Or.inl h2
        · exact Or.inr (List.mem_cons_of_mem _ h2)

/-- Helper: membership in the left fold collecting a set. -/
theorem mem_foldl_setInsert {a : Value} :
    ∀ (l acc : List Value),
      a ∈ l.foldl (fun acc v => setInsert v acc) acc → a ∈ acc ∨ a ∈ l := by
  intro l
  induction l with
  | nil => intro acc h; exact Or.inl h
  | cons v rest ih =>
    intro acc h
    simp only [List.foldl_cons] at h
    rcases ih (setInsert v acc) h with h1 | h1
    · rcases mem_setInsert h1 with h2 | h2
      · exact Or.inr (by simp [h2])
      · exact Or.inl h2
    · exact Or.inr (List.mem_cons_of_mem _ h1)

/-- Helper: membership in `setOfList`. -/
theorem mem_setOfList {a : Value} {l : List Value} (h : a ∈ setOfList l) :
    a ∈ l := by
  unfold setOfList at h
  rcases mem_foldl_setInsert l [] h with h1 | h1
  · simp at h1
  · exact h1

/-- Helper: deduplication preserves registration closure. -/
theorem synRegListB_setOfList {m : List (Nat × HostNode)} {vs : List Value}
    (h : Value.synRegListB m vs = true) :
    Value.synRegListB m (setOfList vs) = true := by
  rw [synRegListB_all] at h ⊢
  exact fun v hv => h v (mem_setOfList hv)

mutual

/-- Helper: value display only consults registered syntax nodes, so it is
stable under registry growth. -/
theorem displayWith_submap {g1 g2 : Graph}
    (hs : SubMapN g1.syntaxNodes g2.syntaxNodes) :
    ∀ v, Value.synRegB g1.syntaxNodes v = true →
      Value.displayWith g2 v = Value.displayWith g1 v
  | .null, _ => rfl
  | .boolean _, _ => rfl
  | .integer _, _ => rfl
  | .str _, _ => rfl
  | .list es, h => by
    simp only [Value.synRegB] at h
    simp only [Value.displayWith]
    rw [displayListWith_submap hs es h]
  | .vset es, h => by
    simp only [Value.synRegB] at h
    simp only [Value.displayWith]
    rw [displayListWith_submap hs es h]
  | .syntaxNode r, h => by
    simp only [Value.synRegB] at h
    obtain ⟨nd, hnd⟩ := Option.isSome_iff_exists.mp h
    simp only [Value.displayWith]
    rw [hnd, hs r nd hnd]
  | .graphNode _, _ => rfl

/-- Helper: the list form of `displayWith_submap`. -/
theorem displayListWith_submap {g1 g2 : Graph}
    (hs : SubMapN g1.syntaxNodes g2.syntaxNodes) :
    ∀ vs, Value.synRegListB g1.syntaxNodes vs = true →
      Value.displayListWith g2 vs = Value.displayListWith g1 vs
  | [], _ => rfl
  | [v], h => by
    simp only [Value.synRegListB, Bool.and_eq_true] at h
    simp only [Value.displayListWith]
    rw [displayWith_submap hs v h.1]
  | v :: w :: rest, h => by
    simp only [Value.synRegListB, Bool.and_eq_true] at h
    simp only [Value.displayListWith]
    rw [displayWith_submap hs v h.1]
    rw [displayListWith_submap hs (w :: rest) (by
      simp only [Value.synRegListB, Bool.and_eq_true]
      exact h.2)]

end

/-- Helper: attribute display is stable under registry growth when the
values are registration-closed. -/
theorem attrs_displayWith_submap {g1 g2 : Graph}
    (hs : SubMapN g1.syntaxNodes g2.syntaxNodes)
    {a : Attributes} (ctx : Identifier → String)
    (h : attrsSynB g1.syntaxNodes a = true) :
    a.displayWith ctx g2 = a.displayWith ctx g1 := by
  unfold Attributes.displayWith
  congr 1
  apply List.map_congr_left
  intro p hp
  have hv : Value.synRegB g1.syntaxNodes p.2 = true := by
    have := (synRegListB_all).mp h p.2 (List.mem_map_of_mem Prod.snd hp)
    exact this
  rw [displayWith_submap hs p.2 hv]

/-- Helper: full-graph display depends only on the node vector and the
lookups of the registered syntax nodes, so two graphs with the same nodes
whose registries agree on the first one's bindings display identically,
provided the first graph is registration-closed. -/
theorem graph_display_submap {g1 g2 : Graph} (ctx : Identifier → String)
    (hn : g2.graphNodes = g1.graphNodes)
    (hs : SubMapN g1.syntaxNodes g2.syntaxNodes)
    (hb : graphSynB g1 = true) :
    Graph.displayWith ctx g2 = Graph.displayWith ctx g1 := by
  unfold Graph.displayWith
  rw [hn]
  congr 1
  apply List.map_congr_left
  intro p hp
  have hmem : p.2 ∈ g1.graphNodes := List.snd_mem_of_mem_enum hp
  unfold graphSynB at hb
  rw [List.all_eq_true] at hb
  have hnode := hb p.2 hmem
  rw [Bool.and_eq_true] at hnode
  unfold GraphNode.displayWith
  rw [attrs_displayWith_submap hs ctx hnode.1]
  congr 2
  apply List.map_congr_left
  intro q hq
  rw [List.all_eq_true] at hnode
  have hedge := hnode.2 q hq
  rw [attrs_displayWith_submap hs ctx hedge]

mutual

/-- Helper: appending to the store does not change the pure denotation of a
reference into the original store. -/
theorem pforceRef_ext (store ext : List LazyValue) (hwf : WFStore store)
    (i : Nat) (hi : i < store.length) :
    pforceRef (store ++ ext) i = pforceRef store i := by
  have hg : (store ++ ext).get? i = store.get? i := by
    rw [List.get?_eq_getElem?, List.get?_eq_getElem?,
      List.getElem?_append_left hi]
  simp only [pforceRef]
  rw [hg]
  rcases hsome : store.get? i with _ | lv
  · rfl
  · exact pforceVal_ext store ext hwf i (le_of_lt hi) lv (hwf i lv hsome)
termination_by (i + 1, 0)
decreasing_by
all_goals simp_wf
exact Prod.Lex.left _ _ (by omega)

/-- Helper: appending to the store does not change the pure denotation of a
value whose references land in the original store. -/
theorem pforceVal_ext (store ext : List LazyValue) (hwf : WFStore store)
    (bound : Nat) (hb : bound ≤ store.length) :
    ∀ lv : LazyValue, LazyValue.pureBelow bound lv = true →
      pforceVal (store ++ ext) bound lv = pforceVal store bound lv
  | .value v, _ => by simp [pforceVal]
  | .ref j, hp => by
    have hj : j < bound := by simpa [LazyValue.pureBelow] using hp
    simp only [pforceVal]
    rw [dif_pos hj, dif_pos hj]
    exact pforceRef_ext store ext hwf j (lt_of_lt_of_le hj hb)
  | .scopedLookup s nm, hp => by simp [LazyValue.pureBelow] at hp
  | .listVal es, hp => by
    simp only [LazyValue.pureBelow] at hp
    simp only [pforceVal]
    rw [pforceVals_ext store ext hwf bound hb es hp]
  | .setVal es, hp => by
    simp only [LazyValue.pureBelow] at hp
    simp only [pforceVal]
    rw [pforceVals_ext store ext hwf bound hb es hp]
  | .callVal f as, hp => by simp [LazyValue.pureBelow] at hp
termination_by lv => (bound, 1 + sizeOf lv)
decreasing_by
all_goals simp_wf
· rcases Nat.lt_or_ge (j + 1) bound with hb2 | hb2
  · exact Prod.Lex.left _ _ hb2
  · have hb3 : j + 1 = bound := Nat.le_antisymm hj hb2
    subst hb3
    exact Prod.Lex.right _ (by omega)
· exact Prod.Lex.right _ (by simp_arith)
· exact Prod.Lex.right _ (by simp_arith)

/-- Helper: the list form of `pforceVal_ext`. -/
theorem pforceVals_ext (store ext : List LazyValue) (hwf : WFStore store)
    (bound : Nat) (hb : bound ≤ store.length) :
    ∀ lvs : List LazyValue, LazyValue.pureBelowList bound lvs = true →
      pforceVals (store ++ ext) bound lvs = pforceVals store bound lvs
  | [], _ => by simp [pforceVals]
  | lv :: rest, hp => by
    have hp' : LazyValue.pureBelow bound lv = true ∧
        LazyValue.pureBelowList bound rest = true := by
      simpa [LazyValue.pureBelowList] using hp
    simp only [pforceVals]
    rw [pforceVal_ext store ext hwf bound hb lv hp'.1]
    cases pforceVal store bound lv with
    | none => rfl
    | some v => rw [pforceVals_ext store ext hwf bound hb rest hp'.2]
termination_by lvs => (bound, 1 + sizeOf lvs)
decreasing_by
all_goals simp_wf
· exact Prod.Lex.right _ (by simp_arith)
· exact Prod.Lex.right _ (by simp_arith)

end

/-- Helper: combined store extension and bound raise for the pure
denotation at the full store. -/
theorem pforce_extend (store ext : List LazyValue) (hwf : WFStore store)
    (lv : LazyValue) (hp : LazyValue.pureBelow store.length lv = true) :
    pforceVal (store ++ ext) (store ++ ext).length lv =
      pforceVal store store.length lv := by
  rw [pforceVal_raise (store ++ ext)
    (by rw [List.length_append]; omega) lv hp]
  exact pforceVal_ext store ext hwf store.length (le_refl _) lv hp

mutual

/-- Helper: the force-bridge for store handles.  On a well-formed,
memo-coherent state, `forceRef` succeeds with exactly the pure denotation
and only rewrites the memo table, keeping it coherent. -/
theorem forceRef_pure (fns : Functions) (source : String)
    (st : LState) (hwf : WFStore st.store) (hm : MemoOK st)
    (i : Nat) (hi : i < st.store.length) :
    ∃ v m', pforceRef st.store i = some v ∧
      forceRef fns source i st = (.ok v, { st with memo := m' }) ∧
      m'.length = st.store.length ∧
      (∀ j w, m'.get? j = some (some w) → pforceRef st.store j = some w) := by
  obtain ⟨lv, hlv⟩ : ∃ lv, st.store.get? i = some lv := by
    rw [List.get?_eq_getElem?]
    exact ⟨_, List.getElem?_eq_getElem hi⟩
  simp only [forceRef]
  split
  · rename_i v hmg
    refine ⟨v, st.memo, ?_, ?_, hm.1, hm.2⟩
    · exact hm.2 i v hmg
    · rfl
  · rename_i hne
    rw [hlv]
    dsimp only
    obtain ⟨v, m1, hpf, hfv, hlen, hcoh⟩ :=
      forceVal_pure fns source st hwf hm i (le_of_lt hi) lv (hwf i lv hlv)
    rw [hfv]
    dsimp only
    refine ⟨v, m1.set i (some v), ?_, rfl, by simp [hlen], ?_⟩
    · simp only [pforceRef]
      rw [hlv]
      exact hpf
    · intro j w hj
      by_cases hij : j = i
      · subst hij
        rw [List.get?_eq_getElem?, List.getElem?_set_self (by omega)] at hj
        cases hj
        simp only [pforceRef]
        rw [hlv]
        exact hpf
      · rw [List.get?_eq_getElem?, List.getElem?_set_ne (by omega),
          ← List.get?_eq_getElem?] at hj
        exact hcoh j w hj
termination_by (i + 1, 0)
decreasing_by
all_goals simp_wf
exact Prod.Lex.left _ _ (by omega)

/-- Helper: the force-bridge for lazy values over the plain fragment:
forcing succeeds with the pure denotation and only rewrites the memo
table. -/
theorem forceVal_pure (fns : Functions) (source : String)
    (st : LState) (hwf : WFStore st.store) (hm : MemoOK st)
    (bound : Nat) (hb : bound ≤ st.store.length) :
    ∀ lv : LazyValue, LazyValue.pureBelow bound lv = true →
    ∃ v m', pforceVal st.store bound lv = some v ∧
      forceVal fns source bound lv st = (.ok v, { st with memo := m' }) ∧
      m'.length = st.store.length ∧
      (∀ j w, m'.get? j = some (some w) → pforceRef st.store j = some w)
  | .value v, _ => by
    refine ⟨v, st.memo, by simp [pforceVal], ?_, hm.1, hm.2⟩
    simp [forceVal]
  | .ref j, hp => by
    have hj : j < bound := by simpa [LazyValue.pureBelow] using hp
    simp only [forceVal, pforceVal]
    rw [dif_pos hj, dif_pos hj]
    exact forceRef_pure fns source st hwf hm j (lt_of_lt_of_le hj hb)
  | .scopedLookup s nm, hp => by simp [LazyValue.pureBelow] at hp
  | .listVal es, hp => by
    simp only [LazyValue.pureBelow] at hp
    obtain ⟨vs, m', hpfs, hfvs, hlen, hcoh⟩ :=
      forceVals_pure fns source st hwf hm bound hb es hp
    refine ⟨.list vs, m', ?_, ?_, hlen, hcoh⟩
    · simp only [pforceVal]
      rw [hpfs]
      rfl
    · simp only [forceVal]
      rw [hfvs]
  | .setVal es, hp => by
    simp only [LazyValue.pureBelow] at hp
    obtain ⟨vs, m', hpfs, hfvs, hlen, hcoh⟩ :=
      forceVals_pure fns source st hwf hm bound hb es hp
    refine ⟨.vset (setOfList vs), m', ?_, ?_, hlen, hcoh⟩
    · simp only [pforceVal]
      rw [hpfs]
      rfl
    · simp only [forceVal]
      rw [hfvs]
  | .callVal f as, hp => by simp [LazyValue.pureBelow] at hp
termination_by lv => (bound, 1 + sizeOf lv)
decreasing_by
all_goals simp_wf
· rcases Nat.lt_or_ge (j + 1) bound with hb2 | hb2
  · exact Prod.Lex.left _ _ hb2
  · have hb3 : j + 1 = bound := Nat.le_antisymm hj hb2
    subst hb3
    exact Prod.Lex.right _ (by omega)
· exact Prod.Lex.right _ (by simp_arith)
· exact Prod.Lex.right _ (by simp_arith)

/-- Helper: the list form of the force-bridge. -/
theorem forceVals_pure (fns : Functions) (source : String)
    (st : LState) (hwf : WFStore st.store) (hm : MemoOK st)
    (bound : Nat) (hb : bound ≤ st.store.length) :
    ∀ lvs : List LazyValue, LazyValue.pureBelowList bound lvs = true →
    ∃ vs m', pforceVals st.store bound lvs = some vs ∧
      forceVals fns source bound lvs st = (.ok vs, { st with memo := m' }) ∧
      m'.length = st.store.length ∧
      (∀ j w, m'.get? j = some (some w) → pforceRef st.store j = some w)
  | [], _ => by
    refine ⟨[], st.memo, by simp [pforceVals], ?_, hm.1, hm.2⟩
    simp [forceVals]
  | lv :: rest, hp => by
    have hp' : LazyValue.pureBelow bound lv = true ∧
        LazyValue.pureBelowList bound rest = true := by
      simpa [LazyValue.pureBelowList] using hp
    obtain ⟨v, m1, hpf, hfv, hlen1, hcoh1⟩ :=
      forceVal_pure fns source st hwf hm bound hb lv hp'.1
    have hm1 : MemoOK { st with memo := m1 } := ⟨hlen1, hcoh1⟩
    obtain ⟨vs, m2, hpfs, hfvs, hlen2, hcoh2⟩ :=
      forceVals_pure fns source { st with memo := m1 } hwf hm1 bound hb
        rest hp'.2
    have hpfs' : pforceVals st.store bound rest = some vs := hpfs
    have hfvs' : forceVals fns source bound rest { st with memo := m1 } =
        (.ok vs, { st with memo := m2 }) := hfvs
    refine ⟨v :: vs, m2, ?_, ?_, hlen2, hcoh2⟩
    · simp only [pforceVals]
      rw [hpf]
      dsimp only
      rw [hpfs']
      rfl
    · simp only [forceVals]
      rw [hfv]
      dsimp only
      rw [hfvs']
termination_by lvs => (bound, 1 + sizeOf lvs)
decreasing_by
all_goals simp_wf
· exact Prod.Lex.right _ (by simp_arith)
· exact Prod.Lex.right _ (by simp_arith)

end

/-- Helper: frame thunk-boundedness is monotone in the bound. -/
theorem frameWF_mono {n n' : Nat} (h : n ≤ n') :
    ∀ f : Frame LazyValue, frameWF n f = true → frameWF n' f = true
  | [], _ => rfl
  | (_, lv, _) :: rest, hp => by
    simp only [frameWF, Bool.and_eq_true] at hp ⊢
    exact ⟨pureBelow_mono h lv hp.1, frameWF_mono h rest hp.2⟩

/-- Helper: environment thunk-boundedness is monotone in the bound. -/
theorem envWF_mono {n n' : Nat} (h : n ≤ n') :
    ∀ env : Env LazyValue, envWF n env = true → envWF n' env = true
  | [], _ => rfl
  | f :: rest, hp => by
    simp only [envWF, Bool.and_eq_true] at hp ⊢
    exact ⟨frameWF_mono h f hp.1, envWF_mono h rest hp.2⟩

/-- Helper: the denotation of a well-formed frame is stable under store
append. -/
theorem frameForce_ext (store ext : List LazyValue) (hwf : WFStore store) :
    ∀ f : Frame LazyValue, frameWF store.length f = true →
      frameForce (store ++ ext) f = frameForce store f
  | [], _ => rfl
  | (nm, lv, m) :: rest, hp => by
    simp only [frameWF, Bool.and_eq_true] at hp
    simp only [frameForce]
    rw [pforce_extend store ext hwf lv hp.1]
    cases pforceVal store store.length lv with
    | none => rfl
    | some v => rw [frameForce_ext store ext hwf rest hp.2]

/-- Helper: the denotation of a well-formed environment is stable under
store append. -/
theorem envForce_ext (store ext : List LazyValue) (hwf : WFStore store) :
    ∀ env : Env LazyValue, envWF store.length env = true →
      envForce (store ++ ext) env = envForce store env
  | [], _ => rfl
  | f :: rest, hp => by
    simp only [envWF, Bool.and_eq_true] at hp
    simp only [envForce]
    rw [frameForce_ext store ext hwf f hp.1]
    cases frameForce store f with
    | none => rfl
    | some fe => rw [envForce_ext store ext hwf rest hp.2]

/-- Helper: inversion of a successful frame denotation on a cons cell. -/
theorem frameForce_cons_inv {store : List LazyValue} {nm : Identifier}
    {lv : LazyValue} {m : Bool} {rest : Frame LazyValue} {fe : Frame Value}
    (h : frameForce store ((nm, lv, m) :: rest) = some fe) :
    ∃ v fr, pforceVal store store.length lv = some v ∧
      frameForce store rest = some fr ∧ fe = (nm, v, m) :: fr := by
  simp only [frameForce] at h
  rcases hv : pforceVal store store.length lv with _ | v <;> rw [hv] at h
  · simp at h
  · rw [Option.map_eq_some'] at h
    obtain ⟨fr, hfr, hfe⟩ := h
    exact ⟨v, fr, rfl, hfr, hfe.symm⟩

/-- Helper: inversion of a successful environment denotation on a cons
cell. -/
theorem envForce_cons_inv {store : List LazyValue} {f : Frame LazyValue}
    {rest : Env LazyValue} {envE : Env Value}
    (h : envForce store (f :: rest) = some envE) :
    ∃ fe restE, frameForce store f = some fe ∧
      envForce store rest = some restE ∧ envE = fe :: restE := by
  simp only [envForce] at h
  rcases hf : frameForce store f with _ | fe <;> rw [hf] at h
  · simp at h
  · rw [Option.map_eq_some'] at h
    obtain ⟨restE, hrest, henv⟩ := h
    exact ⟨fe, restE, rfl, hrest, henv.symm⟩

/-- Helper: inversion of a denotation of the empty environment. -/
theorem envForce_nil_inv {store : List LazyValue} {envE : Env Value}
    (h : envForce store [] = some envE) : envE = [] := by
  simp only [envForce, Option.some.injEq] at h
  exact h.symm

/-- Helper: a frame denotation turns absent bindings into absent
bindings, in both directions. -/
theorem frameForce_get_none {store : List LazyValue} :
    ∀ {f : Frame LazyValue} {fe : Frame Value},
      frameForce store f = some fe → ∀ nm : Identifier,
      (frameGet nm f = none ↔ frameGet nm fe = none) := by
  intro f
  induction f with
  | nil =>
    intro fe h nm
    simp only [frameForce, Option.some.injEq] at h
    subst h
    simp [frameGet]
  | cons p rest ih =>
    intro fe h nm
    obtain ⟨nm0, lv0, m0⟩ := p
    obtain ⟨v0, fr, _, hfr, hfe⟩ := frameForce_cons_inv h
    subst hfe
    by_cases hnm : nm = nm0
    · simp [frameGet, hnm]
    · simp only [frameGet, if_neg hnm]
      exact ih hfr nm

/-- Helper: a frame denotation maps present bindings to their forced
values, preserving mutability. -/
theorem frameForce_get_some {store : List LazyValue} :
    ∀ {f : Frame LazyValue} {fe : Frame Value},
      frameForce store f = some fe →
    ∀ {nm : Identifier} {lv : LazyValue} {m : Bool},
      frameGet nm f = some (lv, m) →
      ∃ v, pforceVal store store.length lv = some v ∧
        frameGet nm fe = some (v, m) := by
  intro f
  induction f with
  | nil => intro fe h nm lv m hg; simp [frameGet] at hg
  | cons p rest ih =>
    intro fe h nm lv m hg
    obtain ⟨nm0, lv0, m0⟩ := p
    obtain ⟨v0, fr, hv0, hfr, hfe⟩ := frameForce_cons_inv h
    subst hfe
    by_cases hnm : nm = nm0
    · simp only [frameGet, if_pos hnm] at hg
      cases hg
      exact ⟨v0, hv0, by simp [frameGet, if_pos hnm]⟩
    · simp only [frameGet, if_neg hnm] at hg
      obtain ⟨v, hv, hget⟩ := ih hfr hg
      exact ⟨v, hv, by simpa [frameGet, if_neg hnm] using hget⟩

/-- Helper: an environment denotation turns absent bindings into absent
bindings. -/
theorem envForce_get_none {store : List LazyValue} :
    ∀ {env : Env LazyValue} {envE : Env Value},
      envForce store env = some envE → ∀ nm : Identifier,
      (envGet nm env = none ↔ envGet nm envE = none) := by
  intro env
  induction env with
  | nil =>
    intro envE h nm
    have := envForce_nil_inv h
    subst this
    simp [envGet]
  | cons f rest ih =>
    intro envE h nm
    obtain ⟨fe, restE, hf, hrest, henv⟩ := envForce_cons_inv h
    subst henv
    simp only [envGet]
    rcases hg : frameGet nm f with _ | p
    · rw [(frameForce_get_none hf nm).mp hg]
      exact ih hrest nm
    · obtain ⟨v, _, hget⟩ := frameForce_get_some hf hg
      rw [hget]
      simp

/-- Helper: an environment denotation maps present bindings to their forced
values, preserving mutability. -/
theorem envForce_get_some {store : List LazyValue} :
    ∀ {env : Env LazyValue} {envE : Env Value},
      envForce store env = some envE →
    ∀ {nm : Identifier} {lv : LazyValue} {m : Bool},
      envGet nm env = some (lv, m) →
      ∃ v, pforceVal store store.length lv = some v ∧
        envGet nm envE = some (v, m) := by
  intro env
  induction env with
  | nil => intro envE h nm lv m hg; simp [envGet] at hg
  | cons f rest ih =>
    intro envE h nm lv m hg
    obtain ⟨fe, restE, hf, hrest, henv⟩ := envForce_cons_inv h
    subst henv
    simp only [envGet] at hg ⊢
    rcases hg0 : frameGet nm f with _ | p <;> rw [hg0] at hg
    · rw [(frameForce_get_none hf nm).mp hg0]
      exact ih hrest hg
    · cases hg
      obtain ⟨v, hv, hget⟩ := frameForce_get_some hf hg0
      rw [hget]
      exact ⟨v, hv, rfl⟩

/-- Helper: case equation of `frameAdd` on an unbound name. -/
theorem frameAdd_eq_fresh {nm : Identifier} {f : Frame α}
    (hg : frameGet nm f = none) (lv : α) (m : Bool) :
    frameAdd nm lv m f = some ((nm, lv, m) :: f) := by
  unfold frameAdd
  rw [hg]

/-- Helper: case equation of `frameAdd` on a bound name. -/
theorem frameAdd_eq_bound {nm : Identifier} {f : Frame α} {p : α × Bool}
    (hg : frameGet nm f = some p) (lv : α) (m : Bool) :
    frameAdd nm lv m f = none := by
  unfold frameAdd
  rw [hg]

/-- Helper: case equation of `frameSet` on a mutable binding. -/
theorem frameSet_eq_mut {nm : Identifier} {f : Frame α} {lv0 : α}
    (hg : frameGet nm f = some (lv0, true)) (lv : α) :
    frameSet nm lv f = some (frameSetValue nm lv f) := by
  unfold frameSet
  rw [hg]

/-- Helper: case equation of `frameSet` on an immutable binding. -/
theorem frameSet_eq_immut {nm : Identifier} {f : Frame α} {lv0 : α}
    (hg : frameGet nm f = some (lv0, false)) (lv : α) :
    frameSet nm lv f = none := by
  unfold frameSet
  rw [hg]

/-- Helper: case equation of `frameSet` on an unbound name. -/
theorem frameSet_eq_unbound {nm : Identifier} {f : Frame α}
    (hg : frameGet nm f = none) (lv : α) :
    frameSet nm lv f = none := by
  unfold frameSet
  rw [hg]

/-- Helper: case equation of `envAdd` when an outer frame binds the name
immutably. -/
theorem envAdd_eq_blocked {nm : Identifier} {rest : Env α} {lv0 : α}
    (hg : envGet nm rest = some (lv0, false)) (lv : α) (m : Bool)
    (f : Frame α) :
    envAdd nm lv m (f :: rest) = none := by
  unfold envAdd
  dsimp only
  rw [hg]

/-- Helper: case equation of `envAdd` when no outer frame binds the
name. -/
theorem envAdd_eq_free {nm : Identifier} {rest : Env α}
    (hg : envGet nm rest = none) (lv : α) (m : Bool) (f : Frame α) :
    envAdd nm lv m (f :: rest) =
      match frameAdd nm lv m f with
      | some f' => some (f' :: rest)
      | none => none := by
  unfold envAdd
  dsimp only
  rw [hg]

/-- Helper: case equation of `envAdd` when an outer frame binds the name
mutably. -/
theorem envAdd_eq_mut {nm : Identifier} {rest : Env α} {lv0 : α}
    (hg : envGet nm rest = some (lv0, true)) (lv : α) (m : Bool)
    (f : Frame α) :
    envAdd nm lv m (f :: rest) =
      match frameAdd nm lv m f with
      | some f' => some (f' :: rest)
      | none => none := by
  unfold envAdd
  dsimp only
  rw [hg]

/-- Helper: case equation of `envSet` on a mutable innermost binding. -/
theorem envSet_eq_mut {nm : Identifier} {f : Frame α} {lv0 : α}
    (hg : frameGet nm f = some (lv0, true)) (lv : α) (rest : Env α) :
    envSet nm lv (f :: rest) = some (frameSetValue nm lv f :: rest) := by
  unfold envSet
  rw [hg]

/-- Helper: case equation of `envSet` on an immutable innermost binding. -/
theorem envSet_eq_immut {nm : Identifier} {f : Frame α} {lv0 : α}
    (hg : frameGet nm f = some (lv0, false)) (lv : α) (rest : Env α) :
    envSet nm lv (f :: rest) = none := by
  unfold envSet
  rw [hg]

/-- Helper: case equation of `envSet` on a name unbound in the innermost
frame. -/
theorem envSet_eq_outer {nm : Identifier} {f : Frame α}
    (hg : frameGet nm f = none) (lv : α) (rest : Env α) :
    envSet nm lv (f :: rest) = (envSet nm lv rest).map (f :: ·) := by
  conv_lhs => unfold envSet
  rw [hg]

/-- Helper: correspondence of `frameAdd` across a frame denotation. -/
theorem frameAdd_corr {store : List LazyValue} {f : Frame LazyValue}
    {fe : Frame Value} (hf : frameForce store f = some fe)
    {lv : LazyValue} {v : Value}
    (hv : pforceVal store store.length lv = some v)
    (nm : Identifier) (m : Bool) :
    match frameAdd nm lv m f with
    | none => frameAdd nm v m fe = none
    | some f' => ∃ fe', frameAdd nm v m fe = some fe' ∧
        frameForce store f' = some fe' := by
  rcases hg : frameGet nm f with _ | p
  · have hgE : frameGet nm fe = none := (frameForce_get_none hf nm).mp hg
    rw [frameAdd_eq_fresh hg lv m]
    refine ⟨(nm, v, m) :: fe, frameAdd_eq_fresh hgE v m, ?_⟩
    simp only [frameForce]
    rw [hv, hf]
    rfl
  · obtain ⟨lv0, m0⟩ := p
    obtain ⟨v0, _, hget⟩ := frameForce_get_some hf hg
    rw [frameAdd_eq_bound hg lv m]
    exact frameAdd_eq_bound hget v m

/-- Helper: correspondence of `frameSetValue` across a frame denotation. -/
theorem frameSetValue_corr {store : List LazyValue} :
    ∀ {f : Frame LazyValue} {fe : Frame Value},
      frameForce store f = some fe →
    ∀ {lv : LazyValue} {v : Value},
      pforceVal store store.length lv = some v →
    ∀ nm : Identifier,
      frameForce store (frameSetValue nm lv f) =
        some (frameSetValue nm v fe) := by
  intro f
  induction f with
  | nil =>
    intro fe h lv v hv nm
    simp only [frameForce, Option.some.injEq] at h
    subst h
    simp [frameSetValue, frameForce]
  | cons p rest ih =>
    intro fe h lv v hv nm
    obtain ⟨nm0, lv0, m0⟩ := p
    obtain ⟨v0, fr, hv0, hfr, hfe⟩ := frameForce_cons_inv h
    subst hfe
    by_cases hnm : nm = nm0
    · simp only [frameSetValue, if_pos hnm, frameForce]
      rw [hv, hfr]
      rfl
    · simp only [frameSetValue, if_neg hnm, frameForce]
      rw [hv0, ih hfr hv nm]
      rfl

/-- Helper: correspondence of `frameSet` across a frame denotation. -/
theorem frameSet_corr {store : List LazyValue} {f : Frame LazyValue}
    {fe : Frame Value} (hf : frameForce store f = some fe)
    {lv : LazyValue} {v : Value}
    (hv : pforceVal store store.length lv = some v) (nm : Identifier) :
    match frameSet nm lv f with
    | none => frameSet nm v fe = none
    | some f' => ∃ fe', frameSet nm v fe = some fe' ∧
        frameForce store f' = some fe' := by
  rcases hg : frameGet nm f with _ | p
  · rw [frameSet_eq_unbound hg lv]
    exact frameSet_eq_unbound ((frameForce_get_none hf nm).mp hg) v
  · obtain ⟨lv0, m0⟩ := p
    obtain ⟨v0, _, hget⟩ := frameForce_get_some hf hg
    cases m0
    · rw [frameSet_eq_immut hg lv]
      exact frameSet_eq_immut hget v
    · rw [frameSet_eq_mut hg lv]
      exact ⟨frameSetValue nm v fe, frameSet_eq_mut hget v,
        frameSetValue_corr hf hv nm⟩

/-- Helper: correspondence of `envAdd` across an environment denotation. -/
theorem envAdd_corr {store : List LazyValue} {env : Env LazyValue}
    {envE : Env Value} (he : envForce store env = some envE)
    {lv : LazyValue} {v : Value}
    (hv : pforceVal store store.length lv = some v)
    (nm : Identifier) (m : Bool) :
    match envAdd nm lv m env with
    | none => envAdd nm v m envE = none
    | some env' => ∃ envE', envAdd nm v m envE = some envE' ∧
        envForce store env' = some envE' := by
  cases env with
  | nil =>
    have := envForce_nil_inv he
    subst this
    simp [envAdd]
  | cons f rest =>
    obtain ⟨fe, restE, hf, hrest, henv⟩ := envForce_cons_inv he
    subst henv
    have hadd := frameAdd_corr hf hv nm m
    rcases hg : envGet nm rest with _ | p
    · have hgE : envGet nm restE = none := (envForce_get_none hrest nm).mp hg
      rw [envAdd_eq_free hg lv m f, envAdd_eq_free hgE v m fe]
      rcases ha : frameAdd nm lv m f with _ | f' <;> rw [ha] at hadd
      · rw [hadd]
      · obtain ⟨fe', hfe', hforce⟩ := hadd
        rw [hfe']
        refine ⟨fe' :: restE, rfl, ?_⟩
        simp only [envForce]
        rw [hforce, hrest]
        rfl
    · obtain ⟨lv0, m0⟩ := p
      obtain ⟨v0, _, hget⟩ := envForce_get_some hrest hg
      cases m0
      · rw [envAdd_eq_blocked hg lv m f, envAdd_eq_blocked hget v m fe]
      · rw [envAdd_eq_mut hg lv m f, envAdd_eq_mut hget v m fe]
        rcases ha : frameAdd nm lv m f with _ | f' <;> rw [ha] at hadd
        · rw [hadd]
        · obtain ⟨fe', hfe', hforce⟩ := hadd
          rw [hfe']
          refine ⟨fe' :: restE, rfl, ?_⟩
          simp only [envForce]
          rw [hforce, hrest]
          rfl

/-- Helper: correspondence of `envSet` across an environment denotation. -/
theorem envSet_corr {store : List LazyValue} :
    ∀ {env : Env LazyValue} {envE : Env Value},
      envForce store env = some envE →
    ∀ {lv : LazyValue} {v : Value},
      pforceVal store store.length lv = some v →
    ∀ nm : Identifier,
    match envSet nm lv env with
    | none => envSet nm v envE = none
    | some env' => ∃ envE', envSet nm v envE = some envE' ∧
        envForce store env' = some envE' := by
  intro env
  induction env with
  | nil =>
    intro envE he lv v hv nm
    have := envForce_nil_inv he
    subst this
    simp [envSet]
  | cons f rest ih =>
    intro envE he lv v hv nm
    obtain ⟨fe, restE, hf, hrest, henv⟩ := envForce_cons_inv he
    subst henv
    rcases hg : frameGet nm f with _ | p
    · have hgE : frameGet nm fe = none := (frameForce_get_none hf nm).mp hg
      rw [envSet_eq_outer hg lv rest, envSet_eq_outer hgE v restE]
      have hrec := ih hrest hv nm
      rcases hsr : envSet nm lv rest with _ | rest' <;> rw [hsr] at hrec
      · rw [hrec]
        rfl
      · obtain ⟨restE', hrestE', hforce⟩ := hrec
        rw [hrestE']
        refine ⟨fe :: restE', rfl, ?_⟩
        simp only [envForce]
        rw [hf, hforce]
        rfl
    · obtain ⟨lv0, m0⟩ := p
      obtain ⟨v0, _, hget⟩ := frameForce_get_some hf hg
      cases m0
      · rw [envSet_eq_immut hg lv rest]
        exact envSet_eq_immut hget v restE
      · rw [envSet_eq_mut hg lv rest]
        exact ⟨frameSetValue nm v fe :: restE, envSet_eq_mut hget v restE, by
          simp only [envForce]
          rw [frameSetValue_corr hf hv nm, hrest]
          rfl⟩

/-- Helper: `frameAdd` preserves frame thunk-boundedness. -/
theorem frameWF_frameAdd {n : Nat} {f f' : Frame LazyValue}
    {nm : Identifier} {lv : LazyValue} {m : Bool}
    (hwf : frameWF n f = true) (hlv : LazyValue.pureBelow n lv = true)
    (h : frameAdd nm lv m f = some f') : frameWF n f' = true := by
  rcases hg : frameGet nm f with _ | p
  · rw [frameAdd_eq_fresh hg lv m] at h
    cases h
    simp only [frameWF, Bool.and_eq_true]
    exact ⟨hlv, hwf⟩
  · rw [frameAdd_eq_bound hg lv m] at h
    cases h

/-- Helper: `frameSetValue` preserves frame thunk-boundedness. -/
theorem frameWF_setValue {n : Nat} {lv : LazyValue}
    (hlv : LazyValue.pureBelow n lv = true) (nm : Identifier) :
    ∀ {f : Frame LazyValue}, frameWF n f = true →
      frameWF n (frameSetValue nm lv f) = true := by
  intro f
  induction f with
  | nil => intro h; exact h
  | cons p rest ih =>
    intro h
    obtain ⟨nm0, lv0, m0⟩ := p
    simp only [frameWF, Bool.and_eq_true] at h
    by_cases hnm : nm = nm0
    · simp only [frameSetValue, if_pos hnm, frameWF, Bool.and_eq_true]
      exact ⟨hlv, h.2⟩
    · simp only [frameSetValue, if_neg hnm, frameWF, Bool.and_eq_true]
      exact ⟨h.1, ih h.2⟩

/-- Helper: `envAdd` preserves environment thunk-boundedness. -/
theorem envWF_envAdd {n : Nat} {nm : Identifier} {lv : LazyValue} {m : Bool}
    (hlv : LazyValue.pureBelow n lv = true) :
    ∀ {env env' : Env LazyValue}, envWF n env = true →
      envAdd nm lv m env = some env' → envWF n env' = true := by
  intro env
  cases env with
  | nil => intro env' _ h; cases h
  | cons f rest =>
    intro env' hwf h
    simp only [envWF, Bool.and_eq_true] at hwf
    have hfin : ∀ f', frameAdd nm lv m f = some f' → env' = f' :: rest →
        envWF n env' = true := by
      intro f' ha hkeep
      subst hkeep
      simp only [envWF, Bool.and_eq_true]
      exact ⟨frameWF_frameAdd hwf.1 hlv ha, hwf.2⟩
    rcases hg : envGet nm rest with _ | p
    · rw [envAdd_eq_free hg lv m f] at h
      rcases ha : frameAdd nm lv m f with _ | f' <;> rw [ha] at h
      · cases h
      · cases h
        exact hfin f' ha rfl
    · obtain ⟨lv0, m0⟩ := p
      cases m0
      · rw [envAdd_eq_blocked hg lv m f] at h
        cases h
      · rw [envAdd_eq_mut hg lv m f] at h
        rcases ha : frameAdd nm lv m f with _ | f' <;> rw [ha] at h
        · cases h
        · cases h
          exact hfin f' ha rfl

/-- Helper: `envSet` preserves environment thunk-boundedness. -/
theorem envWF_envSet {n : Nat} {nm : Identifier} {lv : LazyValue}
    (hlv : LazyValue.pureBelow n lv = true) :
    ∀ {env env' : Env LazyValue}, envWF n env = true →
      envSet nm lv env = some env' → envWF n env' = true := by
  intro env
  induction env with
  | nil => intro env' _ h; cases h
  | cons f rest ih =>
    intro env' hwf h
    simp only [envWF, Bool.and_eq_true] at hwf
    rcases hg : frameGet nm f with _ | p
    · rw [envSet_eq_outer hg lv rest] at h
      rcases hsr : envSet nm lv rest with _ | rest' <;> rw [hsr] at h
      · cases h
      · cases h
        simp only [envWF, Bool.and_eq_true]
        exact ⟨hwf.1, ih hwf.2 hsr⟩
    · obtain ⟨lv0, m0⟩ := p
      cases m0
      · rw [envSet_eq_immut hg lv rest] at h
        cases h
      · rw [envSet_eq_mut hg lv rest] at h
        cases h
        simp only [envWF, Bool.and_eq_true]
        exact ⟨frameWF_setValue hlv nm hwf.1, hwf.2⟩

/-- Helper: frame registration closure is monotone in the registry. -/
theorem frameSynB_mono {m m' : List (Nat × HostNode)} (hs : SubMapN m m') :
    ∀ fe : Frame Value, frameSynB m fe = true → frameSynB m' fe = true
  | [], _ => rfl
  | (_, v, _) :: rest, hp => by
    simp only [frameSynB, Bool.and_eq_true] at hp ⊢
    exact ⟨synRegB_mono hs v hp.1, frameSynB_mono hs rest hp.2⟩

/-- Helper: environment registration closure is monotone in the
registry. -/
theorem envSynB_mono {m m' : List (Nat × HostNode)} (hs : SubMapN m m') :
    ∀ envE : Env Value, envSynB m envE = true → envSynB m' envE = true
  | [], _ => rfl
  | fe :: rest, hp => by
    simp only [envSynB, Bool.and_eq_true] at hp ⊢
    exact ⟨frameSynB_mono hs fe hp.1, envSynB_mono hs rest hp.2⟩

/-- Helper: a looked-up binding of a registration-closed frame is
registration-closed. -/
theorem frameGet_synB {m : List (Nat × HostNode)} {nm : Identifier}
    {v : Value} {mu : Bool} :
    ∀ {fe : Frame Value}, frameSynB m fe = true →
      frameGet nm fe = some (v, mu) → Value.synRegB m v = true := by
  intro fe
  induction fe with
  | nil => intro _ hg; simp [frameGet] at hg
  | cons p rest ih =>
    intro hb hg
    obtain ⟨nm0, v0, m0⟩ := p
    simp only [frameSynB, Bool.and_eq_true] at hb
    by_cases hnm : nm = nm0
    · simp only [frameGet, if_pos hnm] at hg
      cases hg
      exact hb.1
    · simp only [frameGet, if_neg hnm] at hg
      exact ih hb.2 hg

/-- Helper: a looked-up binding of a registration-closed environment is
registration-closed. -/
theorem envGet_synB {m : List (Nat × HostNode)} {nm : Identifier}
    {v : Value} {mu : Bool} :
    ∀ {envE : Env Value}, envSynB m envE = true →
      envGet nm envE = some (v, mu) → Value.synRegB m v = true := by
  intro envE
  induction envE with
  | nil => intro _ hg; simp [envGet] at hg
  | cons fe rest ih =>
    intro hb hg
    simp only [envSynB, Bool.and_eq_true] at hb
    simp only [envGet] at hg
    rcases hg0 : frameGet nm fe with _ | p <;> rw [hg0] at hg
    · exact ih hb.2 hg
    · cases hg
      exact frameGet_synB hb.1 hg0

/-- Helper: `frameAdd` preserves frame registration closure. -/
theorem frameSynB_frameAdd {m : List (Nat × HostNode)} {nm : Identifier}
    {v : Value} {mu : Bool} {fe fe' : Frame Value}
    (hb : frameSynB m fe = true) (hv : Value.synRegB m v = true)
    (h : frameAdd nm v mu fe = some fe') : frameSynB m fe' = true := by
  rcases hg : frameGet nm fe with _ | p
  · rw [frameAdd_eq_fresh hg v mu] at h
    cases h
    simp only [frameSynB, Bool.and_eq_true]
    exact ⟨hv, hb⟩
  · rw [frameAdd_eq_bound hg v mu] at h
    cases h

/-- Helper: `frameSetValue` preserves frame registration closure. -/
theorem frameSynB_setValue {m : List (Nat × HostNode)} {v : Value}
    (hv : Value.synRegB m v = true) (nm : Identifier) :
    ∀ {fe : Frame Value}, frameSynB m fe = true →
      frameSynB m (frameSetValue nm v fe) = true := by
  intro fe
  induction fe with
  | nil => intro h; exact h
  | cons p rest ih =>
    intro h
    obtain ⟨nm0, v0, m0⟩ := p
    simp only [frameSynB, Bool.and_eq_true] at h
    by_cases hnm : nm = nm0
    · simp only [frameSetValue, if_pos hnm, frameSynB, Bool.and_eq_true]
      exact ⟨hv, h.2⟩
    · simp only [frameSetValue, if_neg hnm, frameSynB, Bool.and_eq_true]
      exact ⟨h.1, ih h.2⟩

/-- Helper: `envAdd` preserves environment registration closure. -/
theorem envSynB_envAdd {m : List (Nat × HostNode)} {nm : Identifier}
    {v : Value} {mu : Bool} (hv : Value.synRegB m v = true) :
    ∀ {envE envE' : Env Value}, envSynB m envE = true →
      envAdd nm v mu envE = some envE' → envSynB m envE' = true := by
  intro envE
  cases envE with
  | nil => intro envE' _ h; cases h
  | cons fe rest =>
    intro envE' hb h
    simp only [envSynB, Bool.and_eq_true] at hb
    have hfin : ∀ fe', frameAdd nm v mu fe = some fe' →
        envE' = fe' :: rest → envSynB m envE' = true := by
      intro fe' ha hkeep
      subst hkeep
      simp only [envSynB, Bool.and_eq_true]
      exact ⟨frameSynB_frameAdd hb.1 hv ha, hb.2⟩
    rcases hg : envGet nm rest with _ | p
    · rw [envAdd_eq_free hg v mu fe] at h
      rcases ha : frameAdd nm v mu fe with _ | fe' <;> rw [ha] at h
      · cases h
      · cases h
        exact hfin fe' ha rfl
    · obtain ⟨v0, m0⟩ := p
      cases m0
      · rw [envAdd_eq_blocked hg v mu fe] at h
        cases h
      · rw [envAdd_eq_mut hg v mu fe] at h
        rcases ha : frameAdd nm v mu fe with _ | fe' <;> rw [ha] at h
        · cases h
        · cases h
          exact hfin fe' ha rfl

/-- Helper: `envSet` preserves environment registration closure. -/
theorem envSynB_envSet {m : List (Nat × HostNode)} {nm : Identifier}
    {v : Value} (hv : Value.synRegB m v = true) :
    ∀ {envE envE' : Env Value}, envSynB m envE = true →
      envSet nm v envE = some envE' → envSynB m envE' = true := by
  intro envE
  induction envE with
  | nil => intro envE' _ h; cases h
  | cons fe rest ih =>
    intro envE' hb h
    simp only [envSynB, Bool.and_eq_true] at hb
    rcases hg : frameGet nm fe with _ | p
    · rw [envSet_eq_outer hg v rest] at h
      rcases hsr : envSet nm v rest with _ | rest' <;> rw [hsr] at h
      · cases h
      · cases h
        simp only [envSynB, Bool.and_eq_true]
        exact ⟨hb.1, ih hb.2 hsr⟩
    · obtain ⟨v0, m0⟩ := p
      cases m0
      · rw [envSet_eq_immut hg v rest] at h
        cases h
      · rw [envSet_eq_mut hg v rest] at h
        cases h
        simp only [envSynB, Bool.and_eq_true]
        exact ⟨frameSynB_setValue hv nm hb.1, hb.2⟩

/-- Helper: pushing an empty frame commutes with the environment
denotation. -/
theorem envForce_push {store : List LazyValue} {env : Env LazyValue}
    {envE : Env Value} (h : envForce store env = some envE) :
    envForce store ([] :: env) = some ([] :: envE) := by
  simp only [envForce, frameForce]
  rw [h]
  rfl

/-- Helper: dropping the innermost frame commutes with the environment
denotation. -/
theorem envForce_tail {store : List LazyValue} {env : Env LazyValue}
    {envE : Env Value} (h : envForce store env = some envE) :
    envForce store env.tail = some envE.tail := by
  cases env with
  | nil =>
    have := envForce_nil_inv h
    subst this
    exact h
  | cons f rest =>
    obtain ⟨fe, restE, _, hrest, henv⟩ := envForce_cons_inv h
    subst henv
    exact hrest

/-- Helper: clearing the innermost frame commutes with the environment
denotation. -/
theorem envForce_clear {store : List LazyValue} {env : Env LazyValue}
    {envE : Env Value} (h : envForce store env = some envE) :
    envForce store
        (match env with | [] => [] | _ :: rest => [] :: rest) =
      some (match envE with | [] => [] | _ :: rest => [] :: rest) := by
  cases env with
  | nil =>
    have := envForce_nil_inv h
    subst this
    rfl
  | cons f rest =>
    obtain ⟨fe, restE, _, hrest, henv⟩ := envForce_cons_inv h
    subst henv
    exact envForce_push hrest

/-- Helper: pushing an empty frame preserves boundedness. -/
theorem envWF_push {n : Nat} {env : Env LazyValue}
    (h : envWF n env = true) : envWF n ([] :: env) = true := by
  simp [envWF, frameWF, h]

/-- Helper: dropping the innermost frame preserves boundedness. -/
theorem envWF_tail {n : Nat} {env : Env LazyValue}
    (h : envWF n env = true) : envWF n env.tail = true := by
  cases env with
  | nil => exact h
  | cons f rest =>
    simp only [envWF, Bool.and_eq_true] at h
    exact h.2

/-- Helper: clearing the innermost frame preserves boundedness. -/
theorem envWF_clear {n : Nat} {env : Env LazyValue}
    (h : envWF n env = true) :
    envWF n (match env with | [] => [] | _ :: rest => [] :: rest) = true := by
  cases env with
  | nil => rfl
  | cons f rest =>
    simp only [envWF, Bool.and_eq_true] at h
    exact envWF_push h.2

/-- Helper: pushing an empty frame preserves registration closure. -/
theorem envSynB_push {m : List (Nat × HostNode)} {envE : Env Value}
    (h : envSynB m envE = true) : envSynB m ([] :: envE) = true := by
  simp [envSynB, frameSynB, h]

/-- Helper: dropping the innermost frame preserves registration closure. -/
theorem envSynB_tail {m : List (Nat × HostNode)} {envE : Env Value}
    (h : envSynB m envE = true) : envSynB m envE.tail = true := by
  cases envE with
  | nil => exact h
  | cons fe rest =>
    simp only [envSynB, Bool.and_eq_true] at h
    exact h.2

/-- Helper: clearing the innermost frame preserves registration closure. -/
theorem envSynB_clear {m : List (Nat × HostNode)} {envE : Env Value}
    (h : envSynB m envE = true) :
    envSynB m (match envE with | [] => [] | _ :: rest => [] :: rest) =
      true := by
  cases envE with
  | nil => rfl
  | cons fe rest =>
    simp only [envSynB, Bool.and_eq_true] at h
    exact envSynB_push h.2

/-- Helper: membership in `listInsertAt`. -/
theorem mem_listInsertAt {a x : α} :
    ∀ {i : Nat} {l : List α}, a ∈ listInsertAt i x l → a = x ∨ a ∈ l := by
  intro i l
  induction l generalizing i with
  | nil =>
    intro h
    simp [listInsertAt] at h
    exact Or.inl h
  | cons y ys ih =>
    intro h
    cases i with
    | zero =>
      simp only [listInsertAt, List.mem_cons] at h
      rcases h with h | h
      · exact Or.inl h
      · exact Or.inr (List.mem_cons.mpr h)
    | succ j =>
      simp only [listInsertAt, List.mem_cons] at h
      rcases h with h | h
      · exact Or.inr (by simp [h])
      · rcases ih h with h2 | h2
        · exact Or.inl h2
        · exact Or.inr (List.mem_cons_of_mem _ h2)

/-- Helper: pointwise characterization of `attrsSynB`. -/
theorem attrsSynB_iff {m : List (Nat × HostNode)} {a : Attributes} :
    attrsSynB m a = true ↔
      ∀ p ∈ a.values, Value.synRegB m p.2 = true := by
  unfold attrsSynB
  rw [synRegListB_all]
  constructor
  · intro h p hp
    exact h p.2 (List.mem_map_of_mem Prod.snd hp)
  · intro h v hv
    obtain ⟨p, hp, hv2⟩ := List.mem_map.mp hv
    subst hv2
    exact h p hp

/-- Helper: `Attributes.add` preserves registration closure of the
values. -/
theorem attrsSynB_add {m : List (Nat × HostNode)} {a : Attributes}
    {name : Identifier} {v : Value}
    (hb : attrsSynB m a = true) (hv : Value.synRegB m v = true) :
    attrsSynB m (a.add name v).2 = true := by
  rw [attrsSynB_iff] at hb ⊢
  unfold Attributes.add
  rcases searchByKey name a.values with i | i
  · intro p hp
    rcases List.mem_or_eq_of_mem_set hp with h | h
    · exact hb p h
    · subst h
      exact hv
  · intro p hp
    rcases mem_listInsertAt hp with h | h
    · subst h
      exact hv
    · exact hb p h

/-- Helper: element-wise characterization of `graphSynB`. -/
theorem graphSynB_iff {g : Graph} :
    graphSynB g = true ↔
      ∀ node ∈ g.graphNodes,
        attrsSynB g.syntaxNodes node.attributes = true ∧
        ∀ q ∈ node.outgoingEdges,
          attrsSynB g.syntaxNodes q.2.attributes = true := by
  unfold graphSynB
  rw [List.all_eq_true]
  constructor
  · intro h node hn
    have := h node hn
    rw [Bool.and_eq_true, List.all_eq_true] at this
    exact ⟨this.1, this.2⟩
  · intro h node hn
    rw [Bool.and_eq_true, List.all_eq_true]
    exact ⟨(h node hn).1, (h node hn).2⟩

/-- Helper: graph registration closure transports to a graph with the same
nodes and a larger registry. -/
theorem graphSynB_transport {g g' : Graph} (hb : graphSynB g = true)
    (hn : g'.graphNodes = g.graphNodes)
    (hs : SubMapN g.syntaxNodes g'.syntaxNodes) : graphSynB g' = true := by
  rw [graphSynB_iff] at hb ⊢
  rw [hn]
  intro node hnd
  obtain ⟨h1, h2⟩ := hb node hnd
  constructor
  · rw [attrsSynB_iff] at h1 ⊢
    exact fun p hp => synRegB_mono hs p.2 (h1 p hp)
  · intro q hq
    have h3 := h2 q hq
    rw [attrsSynB_iff] at h3 ⊢
    exact fun p hp => synRegB_mono hs p.2 (h3 p hp)

/-- Helper: updating one node with registration-closed attributes preserves
graph registration closure. -/
theorem graphSynB_setNode {g : Graph} {r : GraphNodeRef} {node' : GraphNode}
    (hb : graphSynB g = true)
    (h1 : attrsSynB g.syntaxNodes node'.attributes = true)
    (h2 : ∀ q ∈ node'.outgoingEdges,
      attrsSynB g.syntaxNodes q.2.attributes = true) :
    graphSynB { g with graphNodes := g.graphNodes.set r node' } = true := by
  rw [graphSynB_iff] at hb ⊢
  intro node hn
  rcases List.mem_or_eq_of_mem_set hn with h | h
  · exact hb node h
  · subst h
    exact ⟨h1, h2⟩

/-- Helper: appending a fresh empty node preserves graph registration
closure. -/
theorem graphSynB_addGraphNode {g : Graph} (hb : graphSynB g = true) :
    graphSynB (g.addGraphNode).2 = true := by
  rw [graphSynB_iff] at hb ⊢
  intro node hn
  unfold Graph.addGraphNode at hn
  rcases List.mem_append.mp hn with h | h
  · exact hb node h
  · simp only [List.mem_singleton] at h
    subst h
    refine ⟨rfl, ?_⟩
    intro q hq
    simp [GraphNode.new] at hq

/-- Helper: the pure node-attribute application never touches the syntax
registry. -/
theorem papplyNodeAttrs_syn {store : List LazyValue} {r : GraphNodeRef} :
    ∀ {attrs : List (Identifier × LazyValue)} {g g' : Graph},
      papplyNodeAttrs store r attrs g = some g' →
      g'.syntaxNodes = g.syntaxNodes := by
  intro attrs
  induction attrs with
  | nil =>
    intro g g' h
    simp only [papplyNodeAttrs, Option.some.injEq] at h
    subst h
    rfl
  | cons p rest ih =>
    intro g g' h
    obtain ⟨name, lv⟩ := p
    simp only [papplyNodeAttrs] at h
    rcases hv : pforceVal store store.length lv with _ | v <;> rw [hv] at h
    · cases h
    · rcases hn : g.graphNodes.get? r with _ | node <;> rw [hn] at h
      · cases h
      · dsimp only at h
        rcases hfr : (node.attributes.add name v).1 <;> rw [hfr] at h
        · cases h
        · rw [if_pos rfl] at h
          exact (ih h).trans rfl

/-- Helper: the pure edge-attribute application never touches the syntax
registry. -/
theorem papplyEdgeAttrs_syn {store : List LazyValue}
    {src sink : GraphNodeRef} :
    ∀ {attrs : List (Identifier × LazyValue)} {g g' : Graph},
      papplyEdgeAttrs store src sink attrs g = some g' →
      g'.syntaxNodes = g.syntaxNodes := by
  intro attrs
  induction attrs with
  | nil =>
    intro g g' h
    simp only [papplyEdgeAttrs, Option.some.injEq] at h
    subst h
    rfl
  | cons p rest ih =>
    intro g g' h
    obtain ⟨name, lv⟩ := p
    simp only [papplyEdgeAttrs] at h
    rcases hv : pforceVal store store.length lv with _ | v <;> rw [hv] at h
    · cases h
    · rcases hn : g.graphNodes.get? src with _ | node <;> rw [hn] at h
      · cases h
      · dsimp only at h
        rcases hsr : searchByKey sink node.outgoingEdges with i | i <;>
          rw [hsr] at h <;> dsimp only at h
        · rcases he : node.outgoingEdges.get? i with _ | q <;> rw [he] at h
          · cases h
          · obtain ⟨k, edge⟩ := q
            dsimp only at h
            rcases hfr : (edge.attributes.add name v).1 <;> rw [hfr] at h
            · cases h
            · rw [if_pos rfl] at h
              exact (ih h).trans rfl
        · cases h

/-- Helper: the pure application of one deferred statement never touches
the syntax registry. -/
theorem papplyStmt_syn {store : List LazyValue} {stmt : LazyStmt}
    {g g' : Graph} (h : papplyStmt store stmt g = some g') :
    g'.syntaxNodes = g.syntaxNodes := by
  cases stmt with
  | addGraphNodeAttr node attrs =>
    simp only [papplyStmt] at h
    rcases hv : pforceVal store store.length node with _ | v <;> rw [hv] at h
    · cases h
    · cases v <;> try cases h
      dsimp only at h
      exact papplyNodeAttrs_syn h
  | createEdge srcL sinkL =>
    simp only [papplyStmt] at h
    rcases hv : pforceVal store store.length srcL with _ | v <;> rw [hv] at h
    · cases h
    · cases v <;> try cases h
      rename_i src
      rcases hw : pforceVal store store.length sinkL with _ | w <;>
        rw [hw] at h
      · cases h
      · cases w <;> try cases h
        rename_i sink
        dsimp only at h
        rcases hn : g.graphNodes.get? src with _ | node <;> rw [hn] at h
        · cases h
        · dsimp only at h
          rcases hfr : (node.addEdge sink).1 <;> rw [hfr] at h
          · cases h
          · rw [if_pos rfl] at h
            simp only [Option.some.injEq] at h
            subst h
            rfl
  | addEdgeAttr srcL sinkL attrs =>
    simp only [papplyStmt] at h
    rcases hv : pforceVal store store.length srcL with _ | v <;> rw [hv] at h
    · cases h
    · cases v <;> try cases h
      rename_i src
      rcases hw : pforceVal store store.length sinkL with _ | w <;>
        rw [hw] at h
      · cases h
      · cases w <;> try cases h
        rename_i sink
        dsimp only at h
        exact papplyEdgeAttrs_syn h
  | printStmt args =>
    simp only [papplyStmt, Option.some.injEq] at h
    subst h
    rfl

/-- Helper: the pure application of the deferred program never touches the
syntax registry. -/
theorem papply_syn {store : List LazyValue} :
    ∀ {stmts : List LazyStmt} {g g' : Graph},
      papply store stmts g = some g' → g'.syntaxNodes = g.syntaxNodes := by
  intro stmts
  induction stmts with
  | nil =>
    intro g g' h
    simp only [papply, Option.some.injEq] at h
    subst h
    rfl
  | cons stmt rest ih =>
    intro g g' h
    simp only [papply] at h
    rcases hs : papplyStmt store stmt g with _ | g1 <;> rw [hs] at h
    · cases h
    · exact (ih h).trans (papplyStmt_syn hs)

/-- Helper: the pure node-attribute application depends only on the node
vector of its graph argument. -/
theorem papplyNodeAttrs_congr {store : List LazyValue} {r : GraphNodeRef} :
    ∀ {attrs : List (Identifier × LazyValue)} {g1 g1' : Graph},
      papplyNodeAttrs store r attrs g1 = some g1' →
      ∀ g2 : Graph, g2.graphNodes = g1.graphNodes →
      ∃ g2', papplyNodeAttrs store r attrs g2 = some g2' ∧
        g2'.graphNodes = g1'.graphNodes := by
  intro attrs
  induction attrs with
  | nil =>
    intro g1 g1' h g2 hn
    simp only [papplyNodeAttrs, Option.some.injEq] at h
    subst h
    exact ⟨g2, rfl, hn⟩
  | cons p rest ih =>
    intro g1 g1' h g2 hn
    obtain ⟨name, lv⟩ := p
    simp only [papplyNodeAttrs] at h ⊢
    rcases hv : pforceVal store store.length lv with _ | v <;> rw [hv] at h
    · cases h
    · rcases hg : g1.graphNodes.get? r with _ | node <;> rw [hg] at h
      · cases h
      · dsimp only at h
        rw [hn, hg]
        dsimp only
        rcases hfr : (node.attributes.add name v).1 <;> rw [hfr] at h
        · cases h
        · rw [if_pos rfl] at h ⊢
          exact ih h _ rfl

/-- Helper: the pure edge-attribute application depends only on the node
vector of its graph argument. -/
theorem papplyEdgeAttrs_congr {store : List LazyValue}
    {src sink : GraphNodeRef} :
    ∀ {attrs : List (Identifier × LazyValue)} {g1 g1' : Graph},
      papplyEdgeAttrs store src sink attrs g1 = some g1' →
      ∀ g2 : Graph, g2.graphNodes = g1.graphNodes →
      ∃ g2', papplyEdgeAttrs store src sink attrs g2 = some g2' ∧
        g2'.graphNodes = g1'.graphNodes := by
  intro attrs
  induction attrs with
  | nil =>
    intro g1 g1' h g2 hn
    simp only [papplyEdgeAttrs, Option.some.injEq] at h
    subst h
    exact ⟨g2, rfl, hn⟩
  | cons p rest ih =>
    intro g1 g1' h g2 hn
    obtain ⟨name, lv⟩ := p
    simp only [papplyEdgeAttrs] at h ⊢
    rcases hv : pforceVal store store.length lv with _ | v <;> rw [hv] at h
    · cases h
    · rcases hg : g1.graphNodes.get? src with _ | node <;> rw [hg] at h
      · cases h
      · dsimp only at h
        rw [hn, hg]
        dsimp only
        rcases hsr : searchByKey sink node.outgoingEdges with i | i <;>
          rw [hsr] at h <;> dsimp only at h ⊢
        · rcases he : node.outgoingEdges.get? i with _ | q <;> rw [he] at h
          · cases h
          · obtain ⟨k, edge⟩ := q
            dsimp only at h ⊢
            rcases hfr : (edge.attributes.add name v).1 <;> rw [hfr] at h
            · cases h
            · rw [if_pos rfl] at h ⊢
              exact ih h _ rfl
        · cases h

/-- Helper: the pure application of one deferred statement depends only on
the node vector of its graph argument. -/
theorem papplyStmt_congr {store : List LazyValue} {stmt : LazyStmt}
    {g1 g1' : Graph} (h : papplyStmt store stmt g1 = some g1')
    (g2 : Graph) (hn : g2.graphNodes = g1.graphNodes) :
    ∃ g2', papplyStmt store stmt g2 = some g2' ∧
      g2'.graphNodes = g1'.graphNodes := by
  cases stmt with
  | addGraphNodeAttr node attrs =>
    simp only [papplyStmt] at h ⊢
    rcases hv : pforceVal store store.length node with _ | v <;> rw [hv] at h
    · cases h
    · cases v <;> try cases h
      dsimp only at h ⊢
      exact papplyNodeAttrs_congr h g2 hn
  | createEdge srcL sinkL =>
    simp only [papplyStmt] at h ⊢
    rcases hv : pforceVal store store.length srcL with _ | v <;> rw [hv] at h
    · cases h
    · cases v <;> try cases h
      rename_i src
      rcases hw : pforceVal store store.length sinkL with _ | w <;>
        rw [hw] at h
      · cases h
      · cases w <;> try cases h
        rename_i sink
        dsimp only at h ⊢
        rcases hg : g1.graphNodes.get? src with _ | node <;> rw [hg] at h
        · cases h
        · dsimp only at h
          rw [hn, hg]
          dsimp only
          rcases hfr : (node.addEdge sink).1 <;> rw [hfr] at h
          · cases h
          · rw [if_pos rfl] at h ⊢
            simp only [Option.some.injEq] at h
            subst h
            exact ⟨_, rfl, rfl⟩
  | addEdgeAttr srcL sinkL attrs =>
    simp only [papplyStmt] at h ⊢
    rcases hv : pforceVal store store.length srcL with _ | v <;> rw [hv] at h
    · cases h
    · cases v <;> try cases h
      rename_i src
      rcases hw : pforceVal store store.length sinkL with _ | w <;>
        rw [hw] at h
      · cases h
      · cases w <;> try cases h
        rename_i sink
        dsimp only at h ⊢
        exact papplyEdgeAttrs_congr h g2 hn
  | printStmt args =>
    simp only [papplyStmt, Option.some.injEq] at h ⊢
    subst h
    exact ⟨g2, rfl, hn⟩

/-- Helper: the pure application of the deferred program depends only on
the node vector of its graph argument. -/
theorem papply_congr {store : List LazyValue} :
    ∀ {stmts : List LazyStmt} {g1 g1' : Graph},
      papply store stmts g1 = some g1' →
      ∀ g2 : Graph, g2.graphNodes = g1.graphNodes →
      ∃ g2', papply store stmts g2 = some g2' ∧
        g2'.graphNodes = g1'.graphNodes := by
  intro stmts
  induction stmts with
  | nil =>
    intro g1 g1' h g2 hn
    simp only [papply, Option.some.injEq] at h
    subst h
    exact ⟨g2, rfl, hn⟩
  | cons stmt rest ih =>
    intro g1 g1' h g2 hn
    simp only [papply] at h ⊢
    rcases hs : papplyStmt store stmt g1 with _ | gm <;> rw [hs] at h
    · cases h
    · obtain ⟨gm2, hgm2, hnm⟩ := papplyStmt_congr hs g2 hn
      rw [hgm2]
      exact ih h gm2 hnm

/-- Helper: attribute-thunk boundedness is monotone in the bound. -/
theorem lazyAttrsWF_mono {n n' : Nat} (h : n ≤ n') :
    ∀ attrs : List (Identifier × LazyValue),
      lazyAttrsWF n attrs = true → lazyAttrsWF n' attrs = true
  | [], _ => rfl
  | (_, lv) :: rest, hp => by
    simp only [lazyAttrsWF, Bool.and_eq_true] at hp ⊢
    exact ⟨pureBelow_mono h lv hp.1, lazyAttrsWF_mono h rest hp.2⟩

/-- Helper: deferred-statement thunk boundedness is monotone in the
bound. -/
theorem wfB_mono {n n' : Nat} (h : n ≤ n') :
    ∀ stmt : LazyStmt, LazyStmt.wfB n stmt = true →
      LazyStmt.wfB n' stmt = true := by
  intro stmt hp
  cases stmt with
  | addGraphNodeAttr node attrs =>
    simp only [LazyStmt.wfB, Bool.and_eq_true] at hp ⊢
    exact ⟨pureBelow_mono h node hp.1, lazyAttrsWF_mono h attrs hp.2⟩
  | createEdge src sink =>
    simp only [LazyStmt.wfB, Bool.and_eq_true] at hp ⊢
    exact ⟨pureBelow_mono h src hp.1, pureBelow_mono h sink hp.2⟩
  | addEdgeAttr src sink attrs =>
    simp only [LazyStmt.wfB, Bool.and_eq_true] at hp ⊢
    exact ⟨⟨pureBelow_mono h src hp.1.1, pureBelow_mono h sink hp.1.2⟩,
      lazyAttrsWF_mono h attrs hp.2⟩
  | printStmt args =>
    simp only [LazyStmt.wfB, List.all_eq_true] at hp ⊢
    intro a ha
    have := hp a ha
    cases a with
    | text s => exact this
    | val lv => exact pureBelow_mono h lv this

/-- Helper: program-thunk boundedness is monotone in the bound. -/
theorem lazyGraphWF_mono {n n' : Nat} (h : n ≤ n') :
    ∀ stmts : List LazyStmt,
      lazyGraphWF n stmts = true → lazyGraphWF n' stmts = true
  | [], _ => rfl
  | stmt :: rest, hp => by
    simp only [lazyGraphWF, Bool.and_eq_true] at hp ⊢
    exact ⟨wfB_mono h stmt hp.1, lazyGraphWF_mono h rest hp.2⟩

/-- Helper: appending programs preserves thunk boundedness. -/
theorem lazyGraphWF_append {n : Nat} :
    ∀ {l1 l2 : List LazyStmt}, lazyGraphWF n l1 = true →
      lazyGraphWF n l2 = true → lazyGraphWF n (l1 ++ l2) = true := by
  intro l1
  induction l1 with
  | nil => intro l2 _ h2; exact h2
  | cons stmt rest ih =>
    intro l2 h1 h2
    simp only [lazyGraphWF, Bool.and_eq_true] at h1
    simp only [List.cons_append, lazyGraphWF, Bool.and_eq_true]
    exact ⟨h1.1, ih h1.2 h2⟩

/-- Helper: the pure node-attribute application is stable under store
append when the thunks land in the original store. -/
theorem papplyNodeAttrs_store_ext {store ext : List LazyValue}
    (hwf : WFStore store) {r : GraphNodeRef} :
    ∀ {attrs : List (Identifier × LazyValue)},
      lazyAttrsWF store.length attrs = true → ∀ g : Graph,
      papplyNodeAttrs (store ++ ext) r attrs g =
        papplyNodeAttrs store r attrs g := by
  intro attrs
  induction attrs with
  | nil => intro _ g; rfl
  | cons p rest ih =>
    intro hp g
    obtain ⟨name, lv⟩ := p
    simp only [lazyAttrsWF, Bool.and_eq_true] at hp
    simp only [papplyNodeAttrs]
    rw [pforce_extend store ext hwf lv hp.1]
    split
    · rfl
    · split
      · rfl
      · split
        · exact ih hp.2 _
        · rfl

/-- Helper: the pure edge-attribute application is stable under store
append when the thunks land in the original store. -/
theorem papplyEdgeAttrs_store_ext {store ext : List LazyValue}
    (hwf : WFStore store) {src sink : GraphNodeRef} :
    ∀ {attrs : List (Identifier × LazyValue)},
      lazyAttrsWF store.length attrs = true → ∀ g : Graph,
      papplyEdgeAttrs (store ++ ext) src sink attrs g =
        papplyEdgeAttrs store src sink attrs g := by
  intro attrs
  induction attrs with
  | nil => intro _ g; rfl
  | cons p rest ih =>
    intro hp g
    obtain ⟨name, lv⟩ := p
    simp only [lazyAttrsWF, Bool.and_eq_true] at hp
    simp only [papplyEdgeAttrs]
    rw [pforce_extend store ext hwf lv hp.1]
    split
    · rfl
    · split
      · rfl
      · split
        · rfl
        · split
          · rfl
          · split
            · exact ih hp.2 _
            · rfl

/-- Helper: the pure application of one deferred statement is stable under
store append when its thunks land in the original store. -/
theorem papplyStmt_store_ext {store ext : List LazyValue}
    (hwf : WFStore store) {stmt : LazyStmt}
    (hp : LazyStmt.wfB store.length stmt = true) (g : Graph) :
    papplyStmt (store ++ ext) stmt g = papplyStmt store stmt g := by
  cases stmt with
  | addGraphNodeAttr node attrs =>
    simp only [LazyStmt.wfB, Bool.and_eq_true] at hp
    simp only [papplyStmt]
    rw [pforce_extend store ext hwf node hp.1]
    split
    · exact papplyNodeAttrs_store_ext hwf hp.2 g
    · rfl
  | createEdge src sink =>
    simp only [LazyStmt.wfB, Bool.and_eq_true] at hp
    simp only [papplyStmt]
    rw [pforce_extend store ext hwf src hp.1,
      pforce_extend store ext hwf sink hp.2]
  | addEdgeAttr src sink attrs =>
    simp only [LazyStmt.wfB, Bool.and_eq_true] at hp
    simp only [papplyStmt]
    rw [pforce_extend store ext hwf src hp.1.1,
      pforce_extend store ext hwf sink hp.1.2]
    split
    · exact papplyEdgeAttrs_store_ext hwf hp.2 g
    · rfl
  | printStmt args => rfl

/-- Helper: the pure application of the deferred program is stable under
store append when its thunks land in the original store. -/
theorem papply_store_ext {store ext : List LazyValue}
    (hwf : WFStore store) :
    ∀ {stmts : List LazyStmt}, lazyGraphWF store.length stmts = true →
      ∀ g : Graph, papply (store ++ ext) stmts g = papply store stmts g := by
  intro stmts
  induction stmts with
  | nil => intro _ g; rfl
  | cons stmt rest ih =>
    intro hp g
    simp only [lazyGraphWF, Bool.and_eq_true] at hp
    simp only [papply]
    rw [papplyStmt_store_ext hwf hp.1 g]
    split
    · rfl
    · exact ih hp.2 _

/-- Helper: splitting the pure application of a concatenated program. -/
theorem papply_append {store : List LazyValue} :
    ∀ (l1 l2 : List LazyStmt) (g : Graph),
      papply store (l1 ++ l2) g =
        match papply store l1 g with
        | none => none
        | some g' => papply store l2 g' := by
  intro l1
  induction l1 with
  | nil => intro l2 g; rfl
  | cons stmt rest ih =>
    intro l2 g
    simp only [List.cons_append, papply]
    split
    · rfl
    · exact ih l2 _

/-- Helper: appending a bounded thunk preserves store well-formedness. -/
theorem WFStore_append {store : List LazyValue} {lv : LazyValue}
    (hwf : WFStore store)
    (hlv : LazyValue.pureBelow store.length lv = true) :
    WFStore (store ++ [lv]) := by
  intro i lv' hget
  have hlen : i < store.length + 1 := by
    have := list_get?_some_lt hget
    simpa using this
  by_cases hi : i < store.length
  · rw [List.get?_eq_getElem?, List.getElem?_append_left hi,
      ← List.get?_eq_getElem?] at hget
    exact hwf i lv' hget
  · have hieq : i = store.length := by omega
    subst hieq
    rw [List.get?_eq_getElem?, List.getElem?_concat_length] at hget
    cases hget
    exact hlv

/-- Helper: appending one thunk with a fresh memo slot preserves memo
coherence. -/
theorem MemoOK_storeAdd {st : LState} {lv : LazyValue} (hm : MemoOK st)
    (hwf : WFStore st.store) :
    MemoOK { st with store := st.store ++ [lv], memo := st.memo ++ [none] } := by
  constructor
  · simp [hm.1]
  · intro i v hget
    have hlen : i < st.memo.length + 1 := by
      have := list_get?_some_lt hget
      simpa using this
    by_cases hi : i < st.memo.length
    · rw [List.get?_eq_getElem?, List.getElem?_append_left hi,
        ← List.get?_eq_getElem?] at hget
      have hi2 : i < st.store.length := by
        have := hm.1
        omega
      show pforceRef (st.store ++ [lv]) i = some v
      rw [pforceRef_ext st.store [lv] hwf i hi2]
      exact hm.2 i v hget
    · have hieq : i = st.memo.length := by omega
      subst hieq
      rw [List.get?_eq_getElem?, List.getElem?_concat_length] at hget
      simp at hget

/-- Helper: the values returned by the quantified capture registration are
the ids of the captured nodes, independently of the graph. -/
theorem addAll_fst :
    ∀ (ns : List HostNode) (g : Graph),
      (addAllSyntaxNodes ns g).1 =
        ns.map (fun nd => Value.syntaxNode nd.id) := by
  intro ns
  induction ns with
  | nil => intro g; rfl
  | cons nd rest ih =>
    intro g
    simp only [addAllSyntaxNodes, Graph.addSyntaxNode, List.map_cons]
    rw [ih]

/-- Helper: registering syntax nodes does not change the node vector. -/
theorem addAll_graphNodes :
    ∀ (ns : List HostNode) (g : Graph),
      (addAllSyntaxNodes ns g).2.graphNodes = g.graphNodes := by
  intro ns
  induction ns with
  | nil => intro g; rfl
  | cons nd rest ih =>
    intro g
    simp only [addAllSyntaxNodes, Graph.addSyntaxNode]
    rw [ih]

/-- Helper: registering pool nodes grows the registry into a pool-sound
super-map. -/
theorem addAll_reg {pool : List HostNode} (hc : ConsistentPool pool) :
    ∀ (ns : List HostNode) (g : Graph),
      (∀ nd ∈ ns, nd ∈ pool) → RegOK pool g.syntaxNodes →
      SubMapN g.syntaxNodes (addAllSyntaxNodes ns g).2.syntaxNodes ∧
      RegOK pool (addAllSyntaxNodes ns g).2.syntaxNodes := by
  intro ns
  induction ns with
  | nil => intro g _ hr; exact ⟨SubMapN_refl _, hr⟩
  | cons nd rest ih =>
    intro g hp hr
    have hnd : nd ∈ pool := hp nd (by simp)
    have hrest : ∀ x ∈ rest, x ∈ pool := fun x hx =>
      hp x (List.mem_cons_of_mem _ hx)
    simp only [addAllSyntaxNodes, Graph.addSyntaxNode]
    have hr' : RegOK pool (keyInsert nd.id nd g.syntaxNodes) :=
      RegOK_keyInsert hr hnd
    obtain ⟨hs2, hr2⟩ := ih { g with syntaxNodes := keyInsert nd.id nd g.syntaxNodes } hrest hr'
    exact ⟨SubMapN_trans (SubMapN_keyInsert_self hc hr hnd) hs2, hr2⟩

/-- Helper: registering the same pool nodes on two registries preserves the
sub-map relation. -/
theorem addAll_submap_pair {pool : List HostNode} (hc : ConsistentPool pool) :
    ∀ (ns : List HostNode) (g1 g2 : Graph),
      (∀ nd ∈ ns, nd ∈ pool) →
      RegOK pool g1.syntaxNodes → RegOK pool g2.syntaxNodes →
      SubMapN g1.syntaxNodes g2.syntaxNodes →
      SubMapN (addAllSyntaxNodes ns g1).2.syntaxNodes
        (addAllSyntaxNodes ns g2).2.syntaxNodes := by
  intro ns
  induction ns with
  | nil => intro g1 g2 _ _ _ hs; exact hs
  | cons nd rest ih =>
    intro g1 g2 hp hr1 hr2 hs
    have hnd : nd ∈ pool := hp nd (by simp)
    have hrest : ∀ x ∈ rest, x ∈ pool := fun x hx =>
      hp x (List.mem_cons_of_mem _ hx)
    simp only [addAllSyntaxNodes, Graph.addSyntaxNode]
    exact ih { g1 with syntaxNodes := keyInsert nd.id nd g1.syntaxNodes }
      { g2 with syntaxNodes := keyInsert nd.id nd g2.syntaxNodes } hrest
      (RegOK_keyInsert hr1 hnd) (RegOK_keyInsert hr2 hnd)
      (SubMapN_keyInsert_both hs)

/-- Helper: the values produced by the quantified capture registration are
registration-closed in the resulting registry. -/
theorem addAll_synReg {pool : List HostNode} (hc : ConsistentPool pool) :
    ∀ (ns : List HostNode) (g : Graph),
      (∀ nd ∈ ns, nd ∈ pool) → RegOK pool g.syntaxNodes →
      Value.synRegListB (addAllSyntaxNodes ns g).2.syntaxNodes
        (addAllSyntaxNodes ns g).1 = true := by
  intro ns
  induction ns with
  | nil => intro g _ _; rfl
  | cons nd rest ih =>
    intro g hp hr
    have hnd : nd ∈ pool := hp nd (by simp)
    have hrest : ∀ x ∈ rest, x ∈ pool := fun x hx =>
      hp x (List.mem_cons_of_mem _ hx)
    simp only [addAllSyntaxNodes, Graph.addSyntaxNode]
    simp only [Value.synRegListB, Bool.and_eq_true]
    set g' : Graph := { g with syntaxNodes := keyInsert nd.id nd g.syntaxNodes } with hg'
    have hr' : RegOK pool g'.syntaxNodes := RegOK_keyInsert hr hnd
    constructor
    · simp only [Value.synRegB]
      obtain ⟨hs2, _⟩ := addAll_reg hc rest g' hrest hr'
      have hbase : lookupKey nd.id g'.syntaxNodes = some nd := by
        rw [hg']
        show lookupKey nd.id (keyInsert nd.id nd g.syntaxNodes) = some nd
        rw [lookupKey_keyInsert]
        simp
      rw [hs2 nd.id nd hbase]
      rfl
    · exact ih g' hrest hr'

/-- Helper: a successful capture value registers only pool nodes, never
touches the node vector, and grows the registry into a pool-sound
super-map. -/
theorem queryCaptureValue_reg {pool : List HostNode}
    (hc : ConsistentPool pool) {mat : QueryMatch}
    (hm : ∀ p ∈ mat.captures, p.2 ∈ pool) (idx : Nat) (q : Quant)
    {g : Graph} (hr : RegOK pool g.syntaxNodes) {v : Value} {g' : Graph}
    (h : queryCaptureValue idx q mat g = .ok (v, g')) :
    SubMapN g.syntaxNodes g'.syntaxNodes ∧ RegOK pool g'.syntaxNodes ∧
      g'.graphNodes = g.graphNodes := by
  unfold queryCaptureValue at h
  have hpool : ∀ nd ∈ (mat.captures.filter (fun c => c.1 = idx)).map Prod.snd,
      nd ∈ pool := by
    intro nd hnd
    obtain ⟨p, hp, hnd2⟩ := List.mem_map.mp hnd
    subst hnd2
    exact hm p (List.mem_filter.mp hp).1
  cases q with
  | zero => cases h
  | one =>
    rcases hns : (mat.captures.filter (fun c => c.1 = idx)).map Prod.snd
        with _ | ⟨nd, rest⟩ <;> rw [hns] at h
    · cases h
    · simp only [Graph.addSyntaxNode, Except.ok.injEq, Prod.mk.injEq] at h
      obtain ⟨_, hg⟩ := h
      subst hg
      have hnd : nd ∈ pool := hpool nd (by rw [hns]; simp)
      exact ⟨SubMapN_keyInsert_self hc hr hnd, RegOK_keyInsert hr hnd, rfl⟩
  | zeroOrOne =>
    rcases hns : (mat.captures.filter (fun c => c.1 = idx)).map Prod.snd
        with _ | ⟨nd, rest⟩ <;> rw [hns] at h
    · simp only [Except.ok.injEq, Prod.mk.injEq] at h
      obtain ⟨_, hg⟩ := h
      subst hg
      exact ⟨SubMapN_refl _, hr, rfl⟩
    · simp only [Graph.addSyntaxNode, Except.ok.injEq, Prod.mk.injEq] at h
      obtain ⟨_, hg⟩ := h
      subst hg
      have hnd : nd ∈ pool := hpool nd (by rw [hns]; simp)
      exact ⟨SubMapN_keyInsert_self hc hr hnd, RegOK_keyInsert hr hnd, rfl⟩
  | zeroOrMore =>
    simp only [Except.ok.injEq, Prod.mk.injEq] at h
    obtain ⟨_, hg⟩ := h
    subst hg
    obtain ⟨hs, hr'⟩ := addAll_reg hc _ g hpool hr
    exact ⟨hs, hr', addAll_graphNodes _ g⟩
  | oneOrMore =>
    simp only [Except.ok.injEq, Prod.mk.injEq] at h
    obtain ⟨_, hg⟩ := h
    subst hg
    obtain ⟨hs, hr'⟩ := addAll_reg hc _ g hpool hr
    exact ⟨hs, hr', addAll_graphNodes _ g⟩

/-- Helper: evaluation equation of the capture value under the `one`
quantifier. -/
theorem qcv_one_eq (idx : Nat) (mat : QueryMatch) (g : Graph) :
    queryCaptureValue idx Quant.one mat g =
      (match (mat.captures.filter (fun c => c.1 = idx)).map Prod.snd with
      | [] => .error .panicked
      | n :: _ => .ok (.syntaxNode n.id,
          { g with syntaxNodes := keyInsert n.id n g.syntaxNodes })) := rfl

/-- Helper: evaluation equation of the capture value under the `zeroOrOne`
quantifier. -/
theorem qcv_zeroOrOne_eq (idx : Nat) (mat : QueryMatch) (g : Graph) :
    queryCaptureValue idx Quant.zeroOrOne mat g =
      (match (mat.captures.filter (fun c => c.1 = idx)).map Prod.snd with
      | [] => .ok (.null, g)
      | n :: _ => .ok (.syntaxNode n.id,
          { g with syntaxNodes := keyInsert n.id n g.syntaxNodes })) := rfl

/-- Helper: evaluation equation of the capture value under the `zeroOrMore`
quantifier. -/
theorem qcv_zeroOrMore_eq (idx : Nat) (mat : QueryMatch) (g : Graph) :
    queryCaptureValue idx Quant.zeroOrMore mat g =
      .ok (.list (addAllSyntaxNodes
          ((mat.captures.filter (fun c => c.1 = idx)).map Prod.snd) g).1,
        (addAllSyntaxNodes
          ((mat.captures.filter (fun c => c.1 = idx)).map Prod.snd) g).2) := rfl

/-- Helper: evaluation equation of the capture value under the `oneOrMore`
quantifier. -/
theorem qcv_oneOrMore_eq (idx : Nat) (mat : QueryMatch) (g : Graph) :
    queryCaptureValue idx Quant.oneOrMore mat g =
      .ok (.list (addAllSyntaxNodes
          ((mat.captures.filter (fun c => c.1 = idx)).map Prod.snd) g).1,
        (addAllSyntaxNodes
          ((mat.captures.filter (fun c => c.1 = idx)).map Prod.snd) g).2) := rfl

/-- Helper: under capture-index agreement, the eager capture value (against
the stanza index and the eager graph) and the lazy capture value (against
the file index and the lazy graph) coincide, and the two registries grow in
step. -/
theorem queryCaptureValue_sim {pool : List HostNode}
    (hc : ConsistentPool pool) {mat : QueryMatch}
    (hm : ∀ p ∈ mat.captures, p.2 ∈ pool) {sIdx fIdx : Nat}
    (hagree : capAgreeB mat sIdx fIdx = true) (q : Quant) {g1 g2 : Graph}
    (hsub : SubMapN g1.syntaxNodes g2.syntaxNodes)
    (hr1 : RegOK pool g1.syntaxNodes) (hr2 : RegOK pool g2.syntaxNodes)
    {v1 : Value} {g1' : Graph}
    (h : queryCaptureValue sIdx q mat g1 = .ok (v1, g1')) :
    ∃ g2', queryCaptureValue fIdx q mat g2 = .ok (v1, g2') ∧
      SubMapN g1'.syntaxNodes g2'.syntaxNodes ∧
      Value.synRegB g1'.syntaxNodes v1 = true := by
  have hfeq : mat.captures.filter (fun c => c.1 = sIdx) =
      mat.captures.filter (fun c => c.1 = fIdx) := by
    unfold capAgreeB at hagree
    exact of_decide_eq_true hagree
  have hpool : ∀ nd ∈ (mat.captures.filter (fun c => c.1 = sIdx)).map Prod.snd,
      nd ∈ pool := by
    intro nd hnd
    obtain ⟨p, hp, hnd2⟩ := List.mem_map.mp hnd
    subst hnd2
    exact hm p (List.mem_filter.mp hp).1
  cases q with
  | zero =>
    rw [show queryCaptureValue sIdx Quant.zero mat g1 =
      .error .panicked from rfl] at h
    cases h
  | one =>
    rw [qcv_one_eq] at h
    rw [qcv_one_eq, ← hfeq]
    rcases hns : (mat.captures.filter (fun c => c.1 = sIdx)).map Prod.snd
        with _ | ⟨nd, rest⟩ <;> rw [hns] at h ⊢
    · cases h
    · simp only [Except.ok.injEq, Prod.mk.injEq] at h
      obtain ⟨hv, hg⟩ := h
      subst hg
      subst hv
      refine ⟨_, rfl, SubMapN_keyInsert_both hsub, ?_⟩
      simp only [Value.synRegB]
      show (lookupKey nd.id (keyInsert nd.id nd g1.syntaxNodes)).isSome = true
      rw [lookupKey_keyInsert]
      simp
  | zeroOrOne =>
    rw [qcv_zeroOrOne_eq] at h
    rw [qcv_zeroOrOne_eq, ← hfeq]
    rcases hns : (mat.captures.filter (fun c => c.1 = sIdx)).map Prod.snd
        with _ | ⟨nd, rest⟩ <;> rw [hns] at h ⊢
    · simp only [Except.ok.injEq, Prod.mk.injEq] at h
      obtain ⟨hv, hg⟩ := h
      subst hg
      subst hv
      exact ⟨g2, rfl, hsub, rfl⟩
    · simp only [Except.ok.injEq, Prod.mk.injEq] at h
      obtain ⟨hv, hg⟩ := h
      subst hg
      subst hv
      refine ⟨_, rfl, SubMapN_keyInsert_both hsub, ?_⟩
      simp only [Value.synRegB]
      show (lookupKey nd.id (keyInsert nd.id nd g1.syntaxNodes)).isSome = true
      rw [lookupKey_keyInsert]
      simp
  | zeroOrMore =>
    rw [qcv_zeroOrMore_eq] at h
    rw [qcv_zeroOrMore_eq, ← hfeq]
    simp only [Except.ok.injEq, Prod.mk.injEq] at h
    obtain ⟨hv, hg⟩ := h
    subst hg
    subst hv
    refine ⟨_, ?_, addAll_submap_pair hc _ g1 g2 hpool hr1 hr2 hsub, ?_⟩
    · rw [addAll_fst _ g1, addAll_fst _ g2]
    · simp only [Value.synRegB]
      exact addAll_synReg hc _ g1 hpool hr1
  | oneOrMore =>
    rw [qcv_oneOrMore_eq] at h
    rw [qcv_oneOrMore_eq, ← hfeq]
    simp only [Except.ok.injEq, Prod.mk.injEq] at h
    obtain ⟨hv, hg⟩ := h
    subst hg
    subst hv
    refine ⟨_, ?_, addAll_submap_pair hc _ g1 g2 hpool hr1 hr2 hsub, ?_⟩
    · rw [addAll_fst _ g1, addAll_fst _ g2]
    · simp only [Value.synRegB]
      exact addAll_synReg hc _ g1 hpool hr1

/-- Helper: every expression has positive size. -/
theorem sizeOf_pos_expr (e : Expression) : 0 < sizeOf e := by
  cases e <;> simp_arith

/-- Helper: every variable reference has positive size. -/
theorem sizeOf_pos_var (vr : Variable) : 0 < sizeOf vr := by
  cases vr <;> simp_arith

/-- Helper: every list has positive size. -/
theorem sizeOf_pos_list {α : Type} [SizeOf α] (l : List α) : 0 < sizeOf l := by
  cases l <;> simp_arith

/-- Helper: reflexivity of the eager expression-phase change relation. -/
theorem EExpr_refl (se : EState) : EExpr se se :=
  ⟨rfl, rfl, SubMapN_refl _⟩

/-- Helper: transitivity of the eager expression-phase change relation. -/
theorem EExpr_trans {s1 s2 s3 : EState} (h1 : EExpr s1 s2)
    (h2 : EExpr s2 s3) : EExpr s1 s3 :=
  ⟨h2.1.trans h1.1, h2.2.1.trans h1.2.1, SubMapN_trans h1.2.2 h2.2.2⟩

/-- Helper: reflexivity of the lazy evaluation-phase change relation. -/
theorem LEval_refl (sl : LState) : LEval sl sl :=
  ⟨rfl, rfl, rfl, rfl, rfl⟩

/-- Helper: transitivity of the lazy evaluation-phase change relation. -/
theorem LEval_trans {s1 s2 s3 : LState} (h1 : LEval s1 s2)
    (h2 : LEval s2 s3) : LEval s1 s3 :=
  ⟨h2.1.trans h1.1, h2.2.1.trans h1.2.1, h2.2.2.1.trans h1.2.2.1,
    h2.2.2.2.1.trans h1.2.2.2.1, h2.2.2.2.2.trans h1.2.2.2.2⟩

/-- Helper: reflexivity of the lazy expression-phase change relation. -/
theorem LExpr_refl (sl : LState) : LExpr sl sl :=
  ⟨LEval_refl sl, rfl⟩

/-- Helper: transitivity of the lazy expression-phase change relation. -/
theorem LExpr_trans {s1 s2 s3 : LState} (h1 : LExpr s1 s2)
    (h2 : LExpr s2 s3) : LExpr s1 s3 :=
  ⟨LEval_trans h1.1 h2.1, h2.2.trans h1.2⟩

/-- Helper: the core invariant survives a registry-only graph update on
both sides. -/
theorem SimCore_graphUpd {pool : List HostNode} {se : EState} {sl : LState}
    (hI : SimCore pool se sl) {g1' g2' : Graph}
    (hsub' : SubMapN g1'.syntaxNodes g2'.syntaxNodes)
    (hr1' : RegOK pool g1'.syntaxNodes) (hr2' : RegOK pool g2'.syntaxNodes)
    (hgrow : SubMapN se.graph.syntaxNodes g1'.syntaxNodes) :
    SimCore pool { se with graph := g1' } { sl with graph := g2' } := by
  obtain ⟨hwf, hm, hewf, hef, _, _, _, hsyn⟩ := hI
  exact ⟨hwf, hm, hewf, hef, hsub', hr1', hr2',
    envSynB_mono hgrow _ hsyn⟩

/-- Helper: a global looked up from syntax-free globals is syntax-free. -/
theorem globals_lookup_synFree {globals : Globals} {nm : Identifier}
    {val : Value} (hg : globalsSynFreeB globals = true)
    (h : lookupKey nm globals = some val) : Value.synFreeB val = true := by
  unfold globalsSynFreeB at hg
  rw [List.all_eq_true] at hg
  exact hg (nm, val) (lookupKey_mem h)

/-- Helper: a binding of a bounded frame is bounded. -/
theorem frameGet_wf {n : Nat} {nm : Identifier} {lv : LazyValue} {m : Bool} :
    ∀ {f : Frame LazyValue}, frameWF n f = true →
      frameGet nm f = some (lv, m) → LazyValue.pureBelow n lv = true := by
  intro f
  induction f with
  | nil => intro _ hg; simp [frameGet] at hg
  | cons p rest ih =>
    intro hwf hg
    obtain ⟨nm0, lv0, m0⟩ := p
    simp only [frameWF, Bool.and_eq_true] at hwf
    by_cases hnm : nm = nm0
    · simp only [frameGet, if_pos hnm] at hg
      cases hg
      exact hwf.1
    · simp only [frameGet, if_neg hnm] at hg
      exact ih hwf.2 hg

/-- Helper: a binding of a bounded environment is bounded. -/
theorem envGet_wf {n : Nat} {nm : Identifier} {lv : LazyValue} {m : Bool} :
    ∀ {env : Env LazyValue}, envWF n env = true →
      envGet nm env = some (lv, m) → LazyValue.pureBelow n lv = true := by
  intro env
  induction env with
  | nil => intro _ hg; simp [envGet] at hg
  | cons f rest ih =>
    intro hwf hg
    simp only [envWF, Bool.and_eq_true] at hwf
    simp only [envGet] at hg
    rcases hg0 : frameGet nm f with _ | p <;> rw [hg0] at hg
    · exact ih hwf.2 hg
    · cases hg
      exact frameGet_wf hwf.1 hg0

/-- Simulation step for `varGet` against `lazyVarEval` (the plain fragment
admits only unscoped variables). -/
theorem sim_step_vget (pool : List HostNode) (n : Nat) :
    SimVarGetP pool n := by
  intro c hC vr hsz se sl hI hpl v se' he rl sl' hl
  obtain ⟨hwf, hm, hewf, hef, hsub, hr1, hr2, hsyn⟩ := hI
  cases vr with
  | scopedVar scopeE nm => simp [Variable.plainB] at hpl
  | unscoped nm =>
    simp only [varGet] at he
    simp only [lazyVarEval] at hl
    rcases hg : lookupKey nm c.globals with _ | val <;> rw [hg] at he hl
    · rcases hge : envGet nm se.locals with _ | p <;> rw [hge] at he
      · cases he
      · obtain ⟨val, mu⟩ := p
        simp only [Prod.mk.injEq] at he
        obtain ⟨hv, hse⟩ := he
        cases hv
        subst hse
        rcases hgl : envGet nm sl.locals with _ | q <;> rw [hgl] at hl
        · rw [(envForce_get_none hef nm).mp hgl] at hge
          cases hge
        · obtain ⟨lv0, mu0⟩ := q
          obtain ⟨v0, hv0, hgete⟩ := envForce_get_some hef hgl
          rw [hge] at hgete
          simp only [Option.some.injEq, Prod.mk.injEq] at hgete
          obtain ⟨hveq, hmeq⟩ := hgete
          subst hveq
          simp only [Prod.mk.injEq] at hl
          obtain ⟨hrl, hsl⟩ := hl
          subst hsl
          refine ⟨lv0, hrl.symm, rfl, rfl, ?_, hv0, ?_⟩
          · exact envGet_wf hewf hgl
          · exact envGet_synB hsyn hge
    · simp only [Prod.mk.injEq] at he hl
      obtain ⟨hv, hse⟩ := he
      cases hv
      subst hse
      obtain ⟨hrl, hsl⟩ := hl
      subst hsl
      refine ⟨.value v, hrl.symm, rfl, rfl, rfl, by simp [pforceVal], ?_⟩
      exact synFreeB_synRegB v (globals_lookup_synFree hC.1 hg)

/-- Helper: the pure denotation of a fresh handle to an appended thunk is
the thunk's denotation at the original store. -/
theorem pforce_fresh_ref {store : List LazyValue} {lv : LazyValue}
    {v : Value} (hwf : WFStore store)
    (hplv : LazyValue.pureBelow store.length lv = true)
    (hpfv : pforceVal store store.length lv = some v) :
    pforceVal (store ++ [lv]) (store ++ [lv]).length
      (.ref store.length) = some v := by
  simp only [pforceVal]
  rw [dif_pos (by simp)]
  simp only [pforceRef]
  have hget : (store ++ [lv]).get? store.length = some lv := by
    rw [List.get?_eq_getElem?, List.getElem?_concat_length]
  rw [hget]
  dsimp only
  rw [pforceVal_ext store [lv] hwf store.length (le_refl _) lv hplv]
  exact hpfv

/-- Simulation step for `varAdd` against `lazyVarAdd` on the plain
fragment. -/
theorem sim_step_vadd (pool : List HostNode) (n : Nat) :
    SimVarAddP pool n := by
  intro c hC vr hsz v lv mutbl se sl hI hpl hplv hpfv hsv se' he rl sl' hl
  obtain ⟨hwf, hm, hewf, hef, hsub, hr1, hr2, hsyn⟩ := hI
  cases vr with
  | scopedVar scopeE nm => simp [Variable.plainB] at hpl
  | unscoped nm =>
    simp only [varAdd] at he
    simp only [lazyVarAdd, LState.storeAdd] at hl
    cases hgI : (lookupKey nm c.globals).isSome with
    | true =>
      rw [if_pos hgI] at he
      simp at he
    | false =>
      rw [if_neg (by simp [hgI])] at he hl
      rcases hA : envAdd nm v mutbl se.locals with _ | le' <;> rw [hA] at he
      · simp at he
      · simp only [Prod.mk.injEq] at he
        obtain ⟨_, hse⟩ := he
        subst hse
        have hef' : envForce (sl.store ++ [lv]) sl.locals = some se.locals := by
          rw [envForce_ext sl.store [lv] hwf sl.locals hewf]
          exact hef
        have hpf' := pforce_fresh_ref hwf hplv hpfv
        have hcorr := envAdd_corr hef' hpf' nm mutbl
        rcases hAL : envAdd nm (.ref sl.store.length) mutbl sl.locals
            with _ | ll' <;> rw [hAL] at hl hcorr
        · rw [hA] at hcorr
          cases hcorr
        · obtain ⟨le2, hle2, hforce⟩ := hcorr
          rw [hA] at hle2
          simp only [Option.some.injEq] at hle2
          subst hle2
          simp only [Prod.mk.injEq] at hl
          obtain ⟨hrl, hsl⟩ := hl
          subst hsl
          refine ⟨hrl.symm, ?_, rfl, rfl, rfl, rfl, ⟨[lv], rfl⟩⟩
          refine ⟨WFStore_append hwf hplv, MemoOK_storeAdd hm hwf, ?_, hforce,
            hsub, hr1, hr2, envSynB_envAdd hsv hsyn hA⟩
          refine envWF_envAdd ?_ (envWF_mono (by simp) sl.locals hewf) hAL
          simp [LazyValue.pureBelow]

/-- Simulation step for `varSet` against `lazyVarSet` on the plain
fragment. -/
theorem sim_step_vset (pool : List HostNode) (n : Nat) :
    SimVarSetP pool n := by
  intro c hC vr hsz v lv se sl hI hpl hplv hpfv hsv se' he rl sl' hl
  obtain ⟨hwf, hm, hewf, hef, hsub, hr1, hr2, hsyn⟩ := hI
  cases vr with
  | scopedVar scopeE nm => simp [Variable.plainB] at hpl
  | unscoped nm =>
    simp only [varSet] at he
    simp only [lazyVarSet, LState.storeAdd] at hl
    cases hgI : (lookupKey nm c.globals).isSome with
    | true =>
      rw [if_pos hgI] at he
      simp at he
    | false =>
      rw [if_neg (by simp [hgI])] at he hl
      rcases hA : envSet nm v se.locals with _ | le' <;> rw [hA] at he
      · cases hq : (envGet nm se.locals).isSome with
        | true =>
          rw [hq, if_pos rfl] at he
          simp at he
        | false =>
          rw [hq, if_neg (by simp)] at he
          simp at he
      · simp only [Prod.mk.injEq] at he
        obtain ⟨_, hse⟩ := he
        subst hse
        have hef' : envForce (sl.store ++ [lv]) sl.locals = some se.locals := by
          rw [envForce_ext sl.store [lv] hwf sl.locals hewf]
          exact hef
        have hpf' := pforce_fresh_ref hwf hplv hpfv
        have hcorr := envSet_corr hef' hpf' nm
        rcases hAL : envSet nm (.ref sl.store.length) sl.locals
            with _ | ll' <;> rw [hAL] at hl hcorr
        · rw [hA] at hcorr
          cases hcorr
        · obtain ⟨le2, hle2, hforce⟩ := hcorr
          rw [hA] at hle2
          simp only [Option.some.injEq] at hle2
          subst hle2
          simp only [Prod.mk.injEq] at hl
          obtain ⟨hrl, hsl⟩ := hl
          subst hsl
          refine ⟨hrl.symm, ?_, rfl, rfl, rfl, rfl, ⟨[lv], rfl⟩⟩
          refine ⟨WFStore_append hwf hplv, MemoOK_storeAdd hm hwf, ?_, hforce,
            hsub, hr1, hr2, envSynB_envSet hsv hsyn hA⟩
          refine envWF_envSet ?_ (envWF_mono (by simp) sl.locals hewf) hAL
          simp [LazyValue.pureBelow]

/-- Simulation step for `evalExpr` against `lazyEvalExpr` on the plain
fragment, given the simulation bundle at all smaller levels. -/
theorem sim_step_expr (pool : List HostNode) (n : Nat)
    (IH : ∀ m, m < n → SimBundle pool m) : SimExprP pool n := by
  intro c hC e hsz se sl hI hpl hca v se' he rl sl' hl
  cases e with
  | falseLit =>
    simp only [evalExpr] at he
    simp only [lazyEvalExpr] at hl
    simp only [Prod.mk.injEq, Except.ok.injEq] at he hl
    obtain ⟨hv, hse⟩ := he
    subst hv
    subst hse
    obtain ⟨hrl, hsl⟩ := hl
    subst hsl
    exact ⟨.value (.boolean false), hrl.symm, hI, EExpr_refl se,
      LExpr_refl sl, rfl, by simp [pforceVal], rfl⟩
  | nullLit =>
    simp only [evalExpr] at he
    simp only [lazyEvalExpr] at hl
    simp only [Prod.mk.injEq, Except.ok.injEq] at he hl
    obtain ⟨hv, hse⟩ := he
    subst hv
    subst hse
    obtain ⟨hrl, hsl⟩ := hl
    subst hsl
    exact ⟨.value .null, hrl.symm, hI, EExpr_refl se,
      LExpr_refl sl, rfl, by simp [pforceVal], rfl⟩
  | trueLit =>
    simp only [evalExpr] at he
    simp only [lazyEvalExpr] at hl
    simp only [Prod.mk.injEq, Except.ok.injEq] at he hl
    obtain ⟨hv, hse⟩ := he
    subst hv
    subst hse
    obtain ⟨hrl, hsl⟩ := hl
    subst hsl
    exact ⟨.value (.boolean true), hrl.symm, hI, EExpr_refl se,
      LExpr_refl sl, rfl, by simp [pforceVal], rfl⟩
  | intConst k =>
    simp only [evalExpr] at he
    simp only [lazyEvalExpr] at hl
    simp only [Prod.mk.injEq, Except.ok.injEq] at he hl
    obtain ⟨hv, hse⟩ := he
    subst hv
    subst hse
    obtain ⟨hrl, hsl⟩ := hl
    subst hsl
    exact ⟨.value (.integer k), hrl.symm, hI, EExpr_refl se,
      LExpr_refl sl, rfl, by simp [pforceVal], rfl⟩
  | strConst str =>
    simp only [evalExpr] at he
    simp only [lazyEvalExpr] at hl
    simp only [Prod.mk.injEq, Except.ok.injEq] at he hl
    obtain ⟨hv, hse⟩ := he
    subst hv
    subst hse
    obtain ⟨hrl, hsl⟩ := hl
    subst hsl
    exact ⟨.value (.str str), hrl.symm, hI, EExpr_refl se,
      LExpr_refl sl, rfl, by simp [pforceVal], rfl⟩
  | listComp elems =>
    simp only [evalExpr] at he
    simp only [lazyEvalExpr] at hl
    simp only [Expression.plainB] at hpl
    simp only [Expression.capAgree] at hca
    rcases h1 : evalExprs c elems se with ⟨r1, se1⟩
    rw [h1] at he
    cases r1 with
    | error er => simp at he
    | ok vs =>
      dsimp only at he
      simp only [Prod.mk.injEq, Except.ok.injEq] at he
      obtain ⟨hv, hse⟩ := he
      subst hv
      subst hse
      rcases h2 : lazyEvalExprs c elems sl with ⟨r2, sl2⟩
      rw [h2] at hl
      obtain ⟨lvs, hr2, hcore, hee, hle, hpb, hpf, hsynl⟩ :=
        (IH (sizeOf (Expression.listComp elems)) hsz).exprs c hC elems
          (by simp_arith) se sl hI hpl hca vs se1 h1 r2 sl2 h2
      subst hr2
      dsimp only at hl
      simp only [Prod.mk.injEq] at hl
      obtain ⟨hrl, hsl⟩ := hl
      subst hsl
      refine ⟨.listVal lvs, hrl.symm, hcore, hee, hle, ?_, ?_, ?_⟩
      · simpa [LazyValue.pureBelow] using hpb
      · simp only [pforceVal]
        rw [hpf]
        rfl
      · simpa [Value.synRegB] using hsynl
  | setComp elems =>
    simp only [evalExpr] at he
    simp only [lazyEvalExpr] at hl
    simp only [Expression.plainB] at hpl
    simp only [Expression.capAgree] at hca
    rcases h1 : evalExprs c elems se with ⟨r1, se1⟩
    rw [h1] at he
    cases r1 with
    | error er => simp at he
    | ok vs =>
      dsimp only at he
      simp only [Prod.mk.injEq, Except.ok.injEq] at he
      obtain ⟨hv, hse⟩ := he
      subst hv
      subst hse
      rcases h2 : lazyEvalExprs c elems sl with ⟨r2, sl2⟩
      rw [h2] at hl
      obtain ⟨lvs, hr2, hcore, hee, hle, hpb, hpf, hsynl⟩ :=
        (IH (sizeOf (Expression.setComp elems)) hsz).exprs c hC elems
          (by simp_arith) se sl hI hpl hca vs se1 h1 r2 sl2 h2
      subst hr2
      dsimp only at hl
      simp only [Prod.mk.injEq] at hl
      obtain ⟨hrl, hsl⟩ := hl
      subst hsl
      refine ⟨.setVal lvs, hrl.symm, hcore, hee, hle, ?_, ?_, ?_⟩
      · simpa [LazyValue.pureBelow] using hpb
      · simp only [pforceVal]
        rw [hpf]
        rfl
      · simp only [Value.synRegB]
        exact synRegListB_setOfList hsynl
  | capture sIdx fIdx q =>
    simp only [evalExpr] at he
    simp only [lazyEvalExpr] at hl
    simp only [Expression.capAgree] at hca
    obtain ⟨hwf, hm, hewf, hef, hsub, hr1, hr2, hsyn⟩ := hI
    rcases h1 : queryCaptureValue sIdx q c.mat se.graph with e1 | p1 <;>
      rw [h1] at he
    · simp at he
    · obtain ⟨v1, g1'⟩ := p1
      dsimp only at he
      simp only [Prod.mk.injEq, Except.ok.injEq] at he
      obtain ⟨hv, hse⟩ := he
      subst hv
      subst hse
      obtain ⟨g2', h2, hsub', hsynv⟩ :=
        queryCaptureValue_sim hC.2.2 hC.2.1 hca q hsub hr1 hr2 h1
      obtain ⟨hg1s, hg1r, hg1n⟩ :=
        queryCaptureValue_reg hC.2.2 hC.2.1 sIdx q hr1 h1
      obtain ⟨hg2s, hg2r, hg2n⟩ :=
        queryCaptureValue_reg hC.2.2 hC.2.1 fIdx q hr2 h2
      rw [h2] at hl
      dsimp only at hl
      simp only [Prod.mk.injEq] at hl
      obtain ⟨hrl, hsl⟩ := hl
      subst hsl
      refine ⟨.value v1, hrl.symm, ?_, ⟨rfl, hg1n, hg1s⟩,
        ⟨⟨rfl, rfl, rfl, rfl, hg2n⟩, rfl⟩, rfl, by simp [pforceVal], hsynv⟩
      exact SimCore_graphUpd ⟨hwf, hm, hewf, hef, hsub, hr1, hr2, hsyn⟩
        hsub' hg1r hg2r hg1s
  | variableExpr vr =>
    simp only [evalExpr] at he
    simp only [lazyEvalExpr] at hl
    simp only [Expression.plainB] at hpl
    obtain ⟨lv, hrl, hse, hsl, hpb, hpf, hsv⟩ :=
      sim_step_vget pool n c hC vr
        (lt_trans (by simp_arith) hsz) se sl hI hpl v se' he rl sl' hl
    subst hse
    subst hsl
    exact ⟨lv, hrl, hI, EExpr_refl _, LExpr_refl _, hpb, hpf, hsv⟩
  | call f ps => simp [Expression.plainB] at hpl
  | regexCapture i =>
    simp only [evalExpr] at he
    simp only [lazyEvalExpr] at hl
    rcases hg : c.regexCaptures.get? i with _ | str <;> rw [hg] at he hl
    · simp at he
    · dsimp only at he hl
      simp only [Prod.mk.injEq, Except.ok.injEq] at he hl
      obtain ⟨hv, hse⟩ := he
      subst hv
      subst hse
      obtain ⟨hrl, hsl⟩ := hl
      subst hsl
      exact ⟨.value (.str str), hrl.symm, hI, EExpr_refl se,
        LExpr_refl sl, rfl, by simp [pforceVal], rfl⟩

/-- Simulation step for `evalExprs` against `lazyEvalExprs` on the plain
fragment, given the simulation bundle at all smaller levels. -/
theorem sim_step_exprs (pool : List HostNode) (n : Nat)
    (IH : ∀ m, m < n → SimBundle pool m) : SimExprsP pool n := by
  intro c hC es hsz se sl hI hpl hca vs se' he rl sl' hl
  cases es with
  | nil =>
    simp only [evalExprs] at he
    simp only [lazyEvalExprs] at hl
    simp only [Prod.mk.injEq, Except.ok.injEq] at he hl
    obtain ⟨hv, hse⟩ := he
    subst hv
    subst hse
    obtain ⟨hrl, hsl⟩ := hl
    subst hsl
    exact ⟨[], hrl.symm, hI, EExpr_refl _, LExpr_refl _, rfl,
      by simp [pforceVals], rfl⟩
  | cons e rest =>
    simp only [evalExprs] at he
    simp only [lazyEvalExprs] at hl
    simp only [Expression.plainListB, Bool.and_eq_true] at hpl
    simp only [Expression.capAgreeList, Bool.and_eq_true] at hca
    rcases h1 : evalExpr c e se with ⟨r1, se1⟩
    rw [h1] at he
    cases r1 with
    | error er => simp at he
    | ok v1 =>
      dsimp only at he
      rcases h2 : evalExprs c rest se1 with ⟨r2, se2⟩
      rw [h2] at he
      cases r2 with
      | error er => simp at he
      | ok vs2 =>
        dsimp only at he
        simp only [Prod.mk.injEq, Except.ok.injEq] at he
        obtain ⟨hv, hse⟩ := he
        subst hv
        subst hse
        rcases g1 : lazyEvalExpr c e sl with ⟨q1, sl1⟩
        rw [g1] at hl
        obtain ⟨lv, hq1, hcore1, hee1, hle1, hpb1, hpf1, hsyn1⟩ :=
          (IH (sizeOf (e :: rest)) hsz).expr c hC e (by simp_arith)
            se sl hI hpl.1 hca.1 v1 se1 h1 q1 sl1 g1
        subst hq1
        dsimp only at hl
        rcases g2 : lazyEvalExprs c rest sl1 with ⟨q2, sl2⟩
        rw [g2] at hl
        obtain ⟨lvs, hq2, hcore2, hee2, hle2, hpb2, hpf2, hsyn2⟩ :=
          (IH (sizeOf (e :: rest)) hsz).exprs c hC rest (by simp_arith)
            se1 sl1 hcore1 hpl.2 hca.2 vs2 se2 h2 q2 sl2 g2
        subst hq2
        dsimp only at hl
        simp only [Prod.mk.injEq] at hl
        obtain ⟨hrl, hsl⟩ := hl
        subst hsl
        have hst1 : sl1.store = sl.store := hle1.1.1
        have hst2 : sl2.store = sl1.store := hle2.1.1
        refine ⟨lv :: lvs, hrl.symm, hcore2, EExpr_trans hee1 hee2,
          LExpr_trans hle1 hle2, ?_, ?_, ?_⟩
        · simp only [LazyValue.pureBelowList, Bool.and_eq_true]
          rw [hst2]
          exact ⟨hpb1, by rw [← hst2]; exact hpb2⟩
        · simp only [pforceVals]
          rw [hst2, hpf1, ← hst2, hpf2]
          rfl
        · simp only [Value.synRegListB, Bool.and_eq_true]
          exact ⟨synRegB_mono hee2.2.2 v1 hsyn1, hsyn2⟩

/-- Helper: the core invariant survives a coherent memo-table rewrite. -/
theorem SimCore_memoUpd {pool : List HostNode} {se : EState} {sl : LState}
    (hI : SimCore pool se sl) {m' : List (Option Value)}
    (hm' : MemoOK { sl with memo := m' }) :
    SimCore pool se { sl with memo := m' } := by
  obtain ⟨hwf, _, hewf, hef, hsub, hr1, hr2, hsyn⟩ := hI
  exact ⟨hwf, hm', hewf, hef, hsub, hr1, hr2, hsyn⟩

/-- Simulation step for the eagerly-forced lazy evaluation
(`Expression::evaluate_eager`) against the eager evaluation: the forced
value is exactly the eager value, and only the memo table and the lazy
registry change. -/
theorem sim_step_eagerEval (pool : List HostNode) (n : Nat)
    (IH : ∀ m, m < n → SimBundle pool m) (c : ECtx) (hC : CtxOK pool c)
    (e : Expression) (hsz : sizeOf e < n) (se : EState) (sl : LState)
    (hI : SimCore pool se sl) (hpl : Expression.plainB e = true)
    (hca : Expression.capAgree c.mat e = true) (v : Value) (se' : EState)
    (he : evalExpr c e se = (.ok v, se')) (rl : Except Err Value)
    (sl' : LState) (hl : lazyEvalEager c e sl = (rl, sl')) :
    rl = .ok v ∧ SimCore pool se' sl' ∧ EExpr se se' ∧ LEval sl sl' ∧
      Value.synRegB se'.graph.syntaxNodes v = true := by
  simp only [lazyEvalEager] at hl
  rcases g1 : lazyEvalExpr c e sl with ⟨q1, sl1⟩
  rw [g1] at hl
  obtain ⟨lv, hq1, hcore1, hee1, hle1, hpb1, hpf1, hsyn1⟩ :=
    sim_step_expr pool n IH c hC e hsz se sl hI hpl hca v se' he
      q1 sl1 g1
  subst hq1
  dsimp only at hl
  obtain ⟨v', m', hpf', hfv, hlen, hcoh⟩ :=
    forceVal_pure c.fns c.source sl1 hcore1.1 hcore1.2.1
      sl1.store.length (le_refl _) lv hpb1
  rw [hpf1] at hpf'
  simp only [Option.some.injEq] at hpf'
  subst hpf'
  rw [hfv] at hl
  simp only [Prod.mk.injEq] at hl
  obtain ⟨hrl, hsl⟩ := hl
  subst hsl
  refine ⟨hrl.symm, SimCore_memoUpd hcore1 ⟨hlen, hcoh⟩, hee1, ?_, hsyn1⟩
  exact LEval_trans hle1.1 ⟨rfl, rfl, rfl, rfl, rfl⟩

/-- Simulation step for `testCond` against `lazyTestCond` on the plain
fragment. -/
theorem sim_step_cond (pool : List HostNode) (n : Nat)
    (IH : ∀ m, m < n → SimBundle pool m) : SimCondP pool n := by
  intro c hC cond hsz se sl hI hpl hca b se' he rl sl' hl
  cases cond with
  | someCond e =>
    simp only [testCond] at he
    simp only [lazyTestCond] at hl
    simp only [Condition.plainB] at hpl
    simp only [Condition.capAgree] at hca
    rcases h1 : evalExpr c e se with ⟨r1, se1⟩
    rw [h1] at he
    cases r1 with
    | error er => simp at he
    | ok v =>
      dsimp only at he
      simp only [Prod.mk.injEq, Except.ok.injEq] at he
      obtain ⟨hv, hse⟩ := he
      subst hv
      subst hse
      rcases g1 : lazyEvalEager c e sl with ⟨q1, sl2⟩
      rw [g1] at hl
      obtain ⟨hq1, hcore, hee, hle, _⟩ := sim_step_eagerEval pool n IH c hC e
        (by have h1 : sizeOf e < sizeOf (Condition.someCond e) := by simp_arith
            omega) se sl hI hpl hca v se1 h1
        q1 sl2 g1
      subst hq1
      dsimp only at hl
      simp only [Prod.mk.injEq] at hl
      obtain ⟨hrl, hsl⟩ := hl
      subst hsl
      exact ⟨hrl.symm, hcore, hee, hle⟩
  | noneCond e =>
    simp only [testCond] at he
    simp only [lazyTestCond] at hl
    simp only [Condition.plainB] at hpl
    simp only [Condition.capAgree] at hca
    rcases h1 : evalExpr c e se with ⟨r1, se1⟩
    rw [h1] at he
    cases r1 with
    | error er => simp at he
    | ok v =>
      dsimp only at he
      simp only [Prod.mk.injEq, Except.ok.injEq] at he
      obtain ⟨hv, hse⟩ := he
      subst hv
      subst hse
      rcases g1 : lazyEvalEager c e sl with ⟨q1, sl2⟩
      rw [g1] at hl
      obtain ⟨hq1, hcore, hee, hle, _⟩ := sim_step_eagerEval pool n IH c hC e
        (by have h1 : sizeOf e < sizeOf (Condition.noneCond e) := by simp_arith
            omega) se sl hI hpl hca v se1 h1
        q1 sl2 g1
      subst hq1
      dsimp only at hl
      simp only [Prod.mk.injEq] at hl
      obtain ⟨hrl, hsl⟩ := hl
      subst hsl
      exact ⟨hrl.symm, hcore, hee, hle⟩
  | boolCond e =>
    simp only [testCond] at he
    simp only [lazyTestCond] at hl
    simp only [Condition.plainB] at hpl
    simp only [Condition.capAgree] at hca
    rcases h1 : evalExpr c e se with ⟨r1, se1⟩
    rw [h1] at he
    cases r1 with
    | error er => simp at he
    | ok v =>
      dsimp only at he
      rcases g1 : lazyEvalEager c e sl with ⟨q1, sl2⟩
      rw [g1] at hl
      obtain ⟨hq1, hcore, hee, hle, _⟩ := sim_step_eagerEval pool n IH c hC e
        (by have h1 : sizeOf e < sizeOf (Condition.boolCond e) := by simp_arith
            omega) se sl hI hpl hca v se1 h1
        q1 sl2 g1
      subst hq1
      dsimp only at hl
      rcases hb : v.intoBoolean with er | b1 <;> rw [hb] at he hl
      · simp at he
      · dsimp only at he hl
        simp only [Prod.mk.injEq, Except.ok.injEq] at he hl
        obtain ⟨hv, hse⟩ := he
        subst hv
        subst hse
        obtain ⟨hrl, hsl⟩ := hl
        subst hsl
        exact ⟨hrl.symm, hcore, hee, hle⟩

/-- Simulation step for `evalConds` against `lazyEvalConds` on the plain
fragment. -/
theorem sim_step_conds (pool : List HostNode) (n : Nat)
    (IH : ∀ m, m < n → SimBundle pool m) : SimCondsP pool n := by
  intro c hC conds hsz se sl hI hpl hca acc b se' he rl sl' hl
  induction conds generalizing acc se sl with
  | nil =>
    simp only [evalConds] at he
    simp only [lazyEvalConds] at hl
    simp only [Prod.mk.injEq, Except.ok.injEq] at he hl
    obtain ⟨hb, hse⟩ := he
    subst hb
    subst hse
    obtain ⟨hrl, hsl⟩ := hl
    subst hsl
    exact ⟨hrl.symm, hI, EExpr_refl _, LEval_refl _⟩
  | cons cond rest ihc =>
    simp only [evalConds] at he
    simp only [lazyEvalConds] at hl
    simp only [Condition.plainListB, Bool.and_eq_true] at hpl
    simp only [Condition.capAgreeList, Bool.and_eq_true] at hca
    rcases h1 : testCond c cond se with ⟨r1, se1⟩
    rw [h1] at he
    cases r1 with
    | error er => simp at he
    | ok b1 =>
      dsimp only at he
      rcases g1 : lazyTestCond c cond sl with ⟨q1, sl1⟩
      rw [g1] at hl
      obtain ⟨hq1, hcore1, hee1, hle1⟩ :=
        sim_step_cond pool n IH c hC cond (by
          have h1 : sizeOf cond < sizeOf (cond :: rest) := by simp_arith
          omega) se sl hI hpl.1 hca.1 b1 se1 h1 q1 sl1 g1
      subst hq1
      dsimp only at hl
      obtain ⟨hrl, hcore2, hee2, hle2⟩ :=
        ihc (by
          have h1 : sizeOf rest < sizeOf (cond :: rest) := by simp_arith
          omega) se1 sl1 hcore1 hpl.2 hca.2 (acc && b1) he hl
      exact ⟨hrl, hcore2, EExpr_trans hee1 hee2, LEval_trans hle1 hle2⟩

/-- Simulation step for the eager node-attribute loop against the lazy
attribute-evaluation loop on the plain fragment. -/
theorem sim_step_nodeAttrs (pool : List HostNode) (n : Nat)
    (IH : ∀ m, m < n → SimBundle pool m) : SimNodeAttrsP pool n := by
  intro c hC attrs hsz r se sl hI hg hpl hca se' he rl sl' hl
  induction attrs generalizing se sl rl sl' with
  | nil =>
    simp only [execNodeAttrs] at he
    simp only [lazyEvalAttrs] at hl
    simp only [Prod.mk.injEq, Except.ok.injEq] at he hl
    obtain ⟨_, hse⟩ := he
    subst hse
    obtain ⟨hrl, hsl⟩ := hl
    subst hsl
    refine ⟨[], hrl.symm, hI, rfl, SubMapN_refl _, hg, LExpr_refl _, rfl, ?_⟩
    intro g hgn
    exact ⟨g, rfl, hgn, rfl⟩
  | cons p rest ihc =>
    obtain ⟨name, e⟩ := p
    simp only [execNodeAttrs] at he
    simp only [lazyEvalAttrs] at hl
    simp only [attrsPlainB, Bool.and_eq_true] at hpl
    simp only [attrsCapAgree, Bool.and_eq_true] at hca
    rcases h1 : evalExpr c e se with ⟨r1, se1⟩
    rw [h1] at he
    cases r1 with
    | error er => simp at he
    | ok v =>
      dsimp only at he
      rcases g1 : lazyEvalExpr c e sl with ⟨q1, sl1⟩
      rw [g1] at hl
      obtain ⟨lv, hq1, hcore1, hee1, hle1, hpb1, hpf1, hsyn1⟩ :=
        sim_step_expr pool n IH c hC e (by
          have h2 : sizeOf e < sizeOf ((name, e) :: rest) := by simp_arith
          omega) se sl hI hpl.1 hca.1 v se1 h1 q1 sl1 g1
      subst hq1
      dsimp only at hl
      rcases hn : se1.graph.graphNodes.get? r with _ | node <;> rw [hn] at he
      · simp at he
      · dsimp only at he
        rcases hfr : (node.attributes.add name v).1 <;> rw [hfr] at he
        · rw [if_neg (by simp)] at he
          simp at he
        · rw [if_pos rfl] at he
          have hg1 : graphSynB se1.graph = true :=
            graphSynB_transport hg hee1.2.1 hee1.2.2
          obtain ⟨hattrs, hedges⟩ := graphSynB_iff.mp hg1 node (List.get?_mem hn)
          have hg2 : graphSynB { se1.graph with graphNodes := se1.graph.graphNodes.set r { node with attributes := (node.attributes.add name v).2 } } = true := by
            refine graphSynB_setNode hg1 ?_ ?_
            · exact attrsSynB_add hattrs hsyn1
            · exact hedges
          rcases g2 : lazyEvalAttrs c rest sl1 with ⟨q2, sl2⟩
          rw [g2] at hl
          obtain ⟨lvs, hq2, hcoreF, hlocF, hsubF, hgsF, hleF, hwfF, hpapF⟩ :=
            ihc (by
              have h2 : sizeOf rest < sizeOf ((name, e) :: rest) := by
                simp_arith
              omega) { se1 with graph := { se1.graph with graphNodes := se1.graph.graphNodes.set r { node with attributes := (node.attributes.add name v).2 } } } sl1 hcore1 hg2 hpl.2 hca.2 he q2 sl2 g2
          subst hq2
          dsimp only at hl
          simp only [Prod.mk.injEq] at hl
          obtain ⟨hrl, hsl⟩ := hl
          subst hsl
          have hst1 : sl1.store = sl.store := hle1.1.1
          have hst2 : sl2.store = sl1.store := hleF.1.1
          refine ⟨(name, lv) :: lvs, hrl.symm, hcoreF, ?_, ?_, hgsF,
            LExpr_trans hle1 hleF, ?_, ?_⟩
          · rw [hlocF]
            exact hee1.1
          · exact SubMapN_trans hee1.2.2 hsubF
          · simp only [lazyAttrsWF, Bool.and_eq_true]
            rw [hst2, hst1]
            refine ⟨by rw [← hst1]; exact hpb1, by rw [← hst1, ← hst2]; exact hwfF⟩
          · intro g hgn
            simp only [papplyNodeAttrs]
            have hpf2 : pforceVal sl2.store sl2.store.length lv = some v := by
              rw [hst2]
              exact hpf1
            rw [hpf2]
            have hgr : g.graphNodes.get? r = some node := by
              rw [hgn, ← hee1.2.1]
              exact hn
            rw [hgr]
            dsimp only
            rw [hfr, if_pos rfl]
            refine hpapF _ ?_
            show g.graphNodes.set r _ = se1.graph.graphNodes.set r _
            rw [hgn, ← hee1.2.1]

/-- Simulation step for the eager edge-attribute loop against the lazy
attribute-evaluation loop on the plain fragment. -/
theorem sim_step_edgeAttrs (pool : List HostNode) (n : Nat)
    (IH : ∀ m, m < n → SimBundle pool m) : SimEdgeAttrsP pool n := by
  intro c hC attrs hsz src sink se sl hI hg hpl hca se' he rl sl' hl
  induction attrs generalizing se sl rl sl' with
  | nil =>
    simp only [execEdgeAttrs] at he
    simp only [lazyEvalAttrs] at hl
    simp only [Prod.mk.injEq, Except.ok.injEq] at he hl
    obtain ⟨_, hse⟩ := he
    subst hse
    obtain ⟨hrl, hsl⟩ := hl
    subst hsl
    refine ⟨[], hrl.symm, hI, rfl, SubMapN_refl _, hg, LExpr_refl _, rfl, ?_⟩
    intro g hgn
    exact ⟨g, rfl, hgn, rfl⟩
  | cons p rest ihc =>
    obtain ⟨name, e⟩ := p
    simp only [execEdgeAttrs] at he
    simp only [lazyEvalAttrs] at hl
    simp only [attrsPlainB, Bool.and_eq_true] at hpl
    simp only [attrsCapAgree, Bool.and_eq_true] at hca
    rcases h1 : evalExpr c e se with ⟨r1, se1⟩
    rw [h1] at he
    cases r1 with
    | error er => simp at he
    | ok v =>
      dsimp only at he
      rcases g1 : lazyEvalExpr c e sl with ⟨q1, sl1⟩
      rw [g1] at hl
      obtain ⟨lv, hq1, hcore1, hee1, hle1, hpb1, hpf1, hsyn1⟩ :=
        sim_step_expr pool n IH c hC e (by
          have h2 : sizeOf e < sizeOf ((name, e) :: rest) := by simp_arith
          omega) se sl hI hpl.1 hca.1 v se1 h1 q1 sl1 g1
      subst hq1
      dsimp only at hl
      rcases hn : se1.graph.graphNodes.get? src with _ | node <;> rw [hn] at he
      · simp at he
      · dsimp only at he
        rcases hsk : searchByKey sink node.outgoingEdges with i | i <;>
          rw [hsk] at he
        · dsimp only at he
          rcases hedge : node.outgoingEdges.get? i with _ | q <;>
            rw [hedge] at he
          · simp at he
          · obtain ⟨k, edge⟩ := q
            dsimp only at he
            rcases hfr : (edge.attributes.add name v).1 <;> rw [hfr] at he
            · rw [if_neg (by simp)] at he
              simp at he
            · rw [if_pos rfl] at he
              have hg1 : graphSynB se1.graph = true :=
                graphSynB_transport hg hee1.2.1 hee1.2.2
              obtain ⟨hattrs, hedges⟩ :=
                graphSynB_iff.mp hg1 node (List.get?_mem hn)
              have hg2 : graphSynB { se1.graph with graphNodes := se1.graph.graphNodes.set src { node with outgoingEdges := node.outgoingEdges.set i (k, { attributes := (edge.attributes.add name v).2 }) } } = true := by
                refine graphSynB_setNode hg1 hattrs ?_
                intro q hq
                rcases List.mem_or_eq_of_mem_set hq with hq2 | hq2
                · exact hedges q hq2
                · subst hq2
                  exact attrsSynB_add (hedges (k, edge)
                    (List.get?_mem hedge)) hsyn1
              rcases g2 : lazyEvalAttrs c rest sl1 with ⟨q2, sl2⟩
              rw [g2] at hl
              obtain ⟨lvs, hq2, hcoreF, hlocF, hsubF, hgsF, hleF, hwfF, hpapF⟩ :=
                ihc (by
                  have h2 : sizeOf rest < sizeOf ((name, e) :: rest) := by
                    simp_arith
                  omega) { se1 with graph := { se1.graph with graphNodes := se1.graph.graphNodes.set src { node with outgoingEdges := node.outgoingEdges.set i (k, { attributes := (edge.attributes.add name v).2 }) } } } sl1 hcore1 hg2 hpl.2 hca.2 he q2 sl2 g2
              subst hq2
              dsimp only at hl
              simp only [Prod.mk.injEq] at hl
              obtain ⟨hrl, hsl⟩ := hl
              subst hsl
              have hst1 : sl1.store = sl.store := hle1.1.1
              have hst2 : sl2.store = sl1.store := hleF.1.1
              refine ⟨(name, lv) :: lvs, hrl.symm, hcoreF, ?_, ?_, hgsF,
                LExpr_trans hle1 hleF, ?_, ?_⟩
              · rw [hlocF]
                exact hee1.1
              · exact SubMapN_trans hee1.2.2 hsubF
              · simp only [lazyAttrsWF, Bool.and_eq_true]
                rw [hst2, hst1]
                refine ⟨by rw [← hst1]; exact hpb1,
                  by rw [← hst1, ← hst2]; exact hwfF⟩
              · intro g hgn
                simp only [papplyEdgeAttrs]
                have hpf2 : pforceVal sl2.store sl2.store.length lv = some v := by
                  rw [hst2]
                  exact hpf1
                rw [hpf2]
                have hgr : g.graphNodes.get? src = some node := by
                  rw [hgn, ← hee1.2.1]
                  exact hn
                rw [hgr]
                dsimp only
                rw [hsk]
                dsimp only
                rw [hedge]
                dsimp only
                rw [hfr, if_pos rfl]
                refine hpapF _ ?_
                show g.graphNodes.set src _ = se1.graph.graphNodes.set src _
                rw [hgn, ← hee1.2.1]
        · simp at he

/-- Simulation step for `execPrint` against `lazyPrintArgs` on the plain
fragment. -/
theorem sim_step_print (pool : List HostNode) (n : Nat)
    (IH : ∀ m, m < n → SimBundle pool m) : SimPrintP pool n := by
  intro c hC values hsz se sl hI hpl hca se' he rl sl' hl
  induction values generalizing se sl rl sl' with
  | nil =>
    simp only [execPrint] at he
    simp only [lazyPrintArgs] at hl
    simp only [Prod.mk.injEq, Except.ok.injEq] at he hl
    obtain ⟨_, hse⟩ := he
    subst hse
    obtain ⟨hrl, hsl⟩ := hl
    subst hsl
    exact ⟨[], hrl.symm, hI, EExpr_refl _, LExpr_refl _, rfl⟩
  | cons e rest ihc =>
    cases e with
    | strConst str =>
      simp only [execPrint] at he
      simp only [lazyPrintArgs] at hl
      simp only [Expression.plainListB, Bool.and_eq_true] at hpl
      simp only [Expression.capAgreeList, Bool.and_eq_true] at hca
      rcases g2 : lazyPrintArgs c rest sl with ⟨q2, sl2⟩
      rw [g2] at hl
      obtain ⟨largs, hq2, hcoreF, heeF, hleF, hwfF⟩ :=
        ihc (by
          have h2 : sizeOf rest <
              sizeOf (Expression.strConst str :: rest) := by simp_arith
          omega) { se with output := se.output ++ [str] } sl hI hpl.2 hca.2
          he q2 sl2 g2
      subst hq2
      dsimp only at hl
      simp only [Prod.mk.injEq] at hl
      obtain ⟨hrl, hsl⟩ := hl
      subst hsl
      refine ⟨.text str :: largs, hrl.symm, hcoreF, heeF, hleF, ?_⟩
      simp only [LazyStmt.wfB, List.all_cons, Bool.and_eq_true] at hwfF ⊢
      exact ⟨by trivial, hwfF⟩
    | falseLit =>
      simp only [execPrint] at he
      simp only [lazyPrintArgs] at hl
      simp only [Expression.plainListB, Bool.and_eq_true] at hpl
      simp only [Expression.capAgreeList, Bool.and_eq_true] at hca
      rcases h1 : evalExpr c (Expression.falseLit) se with ⟨r1, se1⟩
      rw [h1] at he
      cases r1 with
      | error er => simp at he
      | ok v =>
        dsimp only at he
        rcases g1 : lazyEvalExpr c (Expression.falseLit) sl with ⟨q1, sl1⟩
        rw [g1] at hl
        obtain ⟨lv, hq1, hcore1, hee1, hle1, hpb1, hpf1, hsyn1⟩ :=
          sim_step_expr pool n IH c hC (Expression.falseLit) (by
            have h2 : sizeOf (Expression.falseLit) < sizeOf ((Expression.falseLit) :: rest) := by simp_arith
            omega) se sl hI hpl.1 hca.1 v se1 h1 q1 sl1 g1
        subst hq1
        dsimp only at hl
        rcases g2 : lazyPrintArgs c rest sl1 with ⟨q2, sl2⟩
        rw [g2] at hl
        obtain ⟨largs, hq2, hcoreF, heeF, hleF, hwfF⟩ :=
          ihc (by
            have h2 : sizeOf rest < sizeOf ((Expression.falseLit) :: rest) := by simp_arith
            omega) { se1 with output := se1.output ++ [v.displayWith se1.graph] } sl1 hcore1 hpl.2 hca.2 he q2 sl2 g2
        subst hq2
        dsimp only at hl
        simp only [Prod.mk.injEq] at hl
        obtain ⟨hrl, hsl⟩ := hl
        subst hsl
        have hst1 : sl1.store = sl.store := hle1.1.1
        have hst2 : sl2.store = sl1.store := hleF.1.1
        refine ⟨.val lv :: largs, hrl.symm, hcoreF, EExpr_trans hee1 heeF,
          LExpr_trans hle1 hleF, ?_⟩
        simp only [LazyStmt.wfB, List.all_cons, Bool.and_eq_true] at hwfF ⊢
        rw [hst2, hst1]
        exact ⟨by rw [← hst1]; exact hpb1, by rw [← hst1, ← hst2]; exact hwfF⟩
    | nullLit =>
      simp only [execPrint] at he
      simp only [lazyPrintArgs] at hl
      simp only [Expression.plainListB, Bool.and_eq_true] at hpl
      simp only [Expression.capAgreeList, Bool.and_eq_true] at hca
      rcases h1 : evalExpr c (Expression.nullLit) se with ⟨r1, se1⟩
      rw [h1] at he
      cases r1 with
      | error er => simp at he
      | ok v =>
        dsimp only at he
        rcases g1 : lazyEvalExpr c (Expression.nullLit) sl with ⟨q1, sl1⟩
        rw [g1] at hl
        obtain ⟨lv, hq1, hcore1, hee1, hle1, hpb1, hpf1, hsyn1⟩ :=
          sim_step_expr pool n IH c hC (Expression.nullLit) (by
            have h2 : sizeOf (Expression.nullLit) < sizeOf ((Expression.nullLit) :: rest) := by simp_arith
            omega) se sl hI hpl.1 hca.1 v se1 h1 q1 sl1 g1
        subst hq1
        dsimp only at hl
        rcases g2 : lazyPrintArgs c rest sl1 with ⟨q2, sl2⟩
        rw [g2] at hl
        obtain ⟨largs, hq2, hcoreF, heeF, hleF, hwfF⟩ :=
          ihc (by
            have h2 : sizeOf rest < sizeOf ((Expression.nullLit) :: rest) := by simp_arith
            omega) { se1 with output := se1.output ++ [v.displayWith se1.graph] } sl1 hcore1 hpl.2 hca.2 he q2 sl2 g2
        subst hq2
        dsimp only at hl
        simp only [Prod.mk.injEq] at hl
        obtain ⟨hrl, hsl⟩ := hl
        subst hsl
        have hst1 : sl1.store = sl.store := hle1.1.1
        have hst2 : sl2.store = sl1.store := hleF.1.1
        refine ⟨.val lv :: largs, hrl.symm, hcoreF, EExpr_trans hee1 heeF,
          LExpr_trans hle1 hleF, ?_⟩
        simp only [LazyStmt.wfB, List.all_cons, Bool.and_eq_true] at hwfF ⊢
        rw [hst2, hst1]
        exact ⟨by rw [← hst1]; exact hpb1, by rw [← hst1, ← hst2]; exact hwfF⟩
    | trueLit =>
      simp only [execPrint] at he
      simp only [lazyPrintArgs] at hl
      simp only [Expression.plainListB, Bool.and_eq_true] at hpl
      simp only [Expression.capAgreeList, Bool.and_eq_true] at hca
      rcases h1 : evalExpr c (Expression.trueLit) se with ⟨r1, se1⟩
      rw [h1] at he
      cases r1 with
      | error er => simp at he
      | ok v =>
        dsimp only at he
        rcases g1 : lazyEvalExpr c (Expression.trueLit) sl with ⟨q1, sl1⟩
        rw [g1] at hl
        obtain ⟨lv, hq1, hcore1, hee1, hle1, hpb1, hpf1, hsyn1⟩ :=
          sim_step_expr pool n IH c hC (Expression.trueLit) (by
            have h2 : sizeOf (Expression.trueLit) < sizeOf ((Expression.trueLit) :: rest) := by simp_arith
            omega) se sl hI hpl.1 hca.1 v se1 h1 q1 sl1 g1
        subst hq1
        dsimp only at hl
        rcases g2 : lazyPrintArgs c rest sl1 with ⟨q2, sl2⟩
        rw [g2] at hl
        obtain ⟨largs, hq2, hcoreF, heeF, hleF, hwfF⟩ :=
          ihc (by
            have h2 : sizeOf rest < sizeOf ((Expression.trueLit) :: rest) := by simp_arith
            omega) { se1 with output := se1.output ++ [v.displayWith se1.graph] } sl1 hcore1 hpl.2 hca.2 he q2 sl2 g2
        subst hq2
        dsimp only at hl
        simp only [Prod.mk.injEq] at hl
        obtain ⟨hrl, hsl⟩ := hl
        subst hsl
        have hst1 : sl1.store = sl.store := hle1.1.1
        have hst2 : sl2.store = sl1.store := hleF.1.1
        refine ⟨.val lv :: largs, hrl.symm, hcoreF, EExpr_trans hee1 heeF,
          LExpr_trans hle1 hleF, ?_⟩
        simp only [LazyStmt.wfB, List.all_cons, Bool.and_eq_true] at hwfF ⊢
        rw [hst2, hst1]
        exact ⟨by rw [← hst1]; exact hpb1, by rw [← hst1, ← hst2]; exact hwfF⟩
    | intConst k =>
      simp only [execPrint] at he
      simp only [lazyPrintArgs] at hl
      simp only [Expression.plainListB, Bool.and_eq_true] at hpl
      simp only [Expression.capAgreeList, Bool.and_eq_true] at hca
      rcases h1 : evalExpr c (Expression.intConst k) se with ⟨r1, se1⟩
      rw [h1] at he
      cases r1 with
      | error er => simp at he
      | ok v =>
        dsimp only at he
        rcases g1 : lazyEvalExpr c (Expression.intConst k) sl with ⟨q1, sl1⟩
        rw [g1] at hl
        obtain ⟨lv, hq1, hcore1, hee1, hle1, hpb1, hpf1, hsyn1⟩ :=
          sim_step_expr pool n IH c hC (Expression.intConst k) (by
            have h2 : sizeOf (Expression.intConst k) < sizeOf ((Expression.intConst k) :: rest) := by simp_arith
            omega) se sl hI hpl.1 hca.1 v se1 h1 q1 sl1 g1
        subst hq1
        dsimp only at hl
        rcases g2 : lazyPrintArgs c rest sl1 with ⟨q2, sl2⟩
        rw [g2] at hl
        obtain ⟨largs, hq2, hcoreF, heeF, hleF, hwfF⟩ :=
          ihc (by
            have h2 : sizeOf rest < sizeOf ((Expression.intConst k) :: rest) := by simp_arith
            omega) { se1 with output := se1.output ++ [v.displayWith se1.graph] } sl1 hcore1 hpl.2 hca.2 he q2 sl2 g2
        subst hq2
        dsimp only at hl
        simp only [Prod.mk.injEq] at hl
        obtain ⟨hrl, hsl⟩ := hl
        subst hsl
        have hst1 : sl1.store = sl.store := hle1.1.1
        have hst2 : sl2.store = sl1.store := hleF.1.1
        refine ⟨.val lv :: largs, hrl.symm, hcoreF, EExpr_trans hee1 heeF,
          LExpr_trans hle1 hleF, ?_⟩
        simp only [LazyStmt.wfB, List.all_cons, Bool.and_eq_true] at hwfF ⊢
        rw [hst2, hst1]
        exact ⟨by rw [← hst1]; exact hpb1, by rw [← hst1, ← hst2]; exact hwfF⟩
    | listComp es =>
      simp only [execPrint] at he
      simp only [lazyPrintArgs] at hl
      simp only [Expression.plainListB, Bool.and_eq_true] at hpl
      simp only [Expression.capAgreeList, Bool.and_eq_true] at hca
      rcases h1 : evalExpr c (Expression.listComp es) se with ⟨r1, se1⟩
      rw [h1] at he
      cases r1 with
      | error er => simp at he
      | ok v =>
        dsimp only at he
        rcases g1 : lazyEvalExpr c (Expression.listComp es) sl with ⟨q1, sl1⟩
        rw [g1] at hl
        obtain ⟨lv, hq1, hcore1, hee1, hle1, hpb1, hpf1, hsyn1⟩ :=
          sim_step_expr pool n IH c hC (Expression.listComp es) (by
            have h2 : sizeOf (Expression.listComp es) < sizeOf ((Expression.listComp es) :: rest) := by simp_arith
            omega) se sl hI hpl.1 hca.1 v se1 h1 q1 sl1 g1
        subst hq1
        dsimp only at hl
        rcases g2 : lazyPrintArgs c rest sl1 with ⟨q2, sl2⟩
        rw [g2] at hl
        obtain ⟨largs, hq2, hcoreF, heeF, hleF, hwfF⟩ :=
          ihc (by
            have h2 : sizeOf rest < sizeOf ((Expression.listComp es) :: rest) := by simp_arith
            omega) { se1 with output := se1.output ++ [v.displayWith se1.graph] } sl1 hcore1 hpl.2 hca.2 he q2 sl2 g2
        subst hq2
        dsimp only at hl
        simp only [Prod.mk.injEq] at hl
        obtain ⟨hrl, hsl⟩ := hl
        subst hsl
        have hst1 : sl1.store = sl.store := hle1.1.1
        have hst2 : sl2.store = sl1.store := hleF.1.1
        refine ⟨.val lv :: largs, hrl.symm, hcoreF, EExpr_trans hee1 heeF,
          LExpr_trans hle1 hleF, ?_⟩
        simp only [LazyStmt.wfB, List.all_cons, Bool.and_eq_true] at hwfF ⊢
        rw [hst2, hst1]
        exact ⟨by rw [← hst1]; exact hpb1, by rw [← hst1, ← hst2]; exact hwfF⟩
    | setComp es =>
      simp only [execPrint] at he
      simp only [lazyPrintArgs] at hl
      simp only [Expression.plainListB, Bool.and_eq_true] at hpl
      simp only [Expression.capAgreeList, Bool.and_eq_true] at hca
      rcases h1 : evalExpr c (Expression.setComp es) se with ⟨r1, se1⟩
      rw [h1] at he
      cases r1 with
      | error er => simp at he
      | ok v =>
        dsimp only at he
        rcases g1 : lazyEvalExpr c (Expression.setComp es) sl with ⟨q1, sl1⟩
        rw [g1] at hl
        obtain ⟨lv, hq1, hcore1, hee1, hle1, hpb1, hpf1, hsyn1⟩ :=
          sim_step_expr pool n IH c hC (Expression.setComp es) (by
            have h2 : sizeOf (Expression.setComp es) < sizeOf ((Expression.setComp es) :: rest) := by simp_arith
            omega) se sl hI hpl.1 hca.1 v se1 h1 q1 sl1 g1
        subst hq1
        dsimp only at hl
        rcases g2 : lazyPrintArgs c rest sl1 with ⟨q2, sl2⟩
        rw [g2] at hl
        obtain ⟨largs, hq2, hcoreF, heeF, hleF, hwfF⟩ :=
          ihc (by
            have h2 : sizeOf rest < sizeOf ((Expression.setComp es) :: rest) := by simp_arith
            omega) { se1 with output := se1.output ++ [v.displayWith se1.graph] } sl1 hcore1 hpl.2 hca.2 he q2 sl2 g2
        subst hq2
        dsimp only at hl
        simp only [Prod.mk.injEq] at hl
        obtain ⟨hrl, hsl⟩ := hl
        subst hsl
        have hst1 : sl1.store = sl.store := hle1.1.1
        have hst2 : sl2.store = sl1.store := hleF.1.1
        refine ⟨.val lv :: largs, hrl.symm, hcoreF, EExpr_trans hee1 heeF,
          LExpr_trans hle1 hleF, ?_⟩
        simp only [LazyStmt.wfB, List.all_cons, Bool.and_eq_true] at hwfF ⊢
        rw [hst2, hst1]
        exact ⟨by rw [← hst1]; exact hpb1, by rw [← hst1, ← hst2]; exact hwfF⟩
    | capture a b q =>
      simp only [execPrint] at he
      simp only [lazyPrintArgs] at hl
      simp only [Expression.plainListB, Bool.and_eq_true] at hpl
      simp only [Expression.capAgreeList, Bool.and_eq_true] at hca
      rcases h1 : evalExpr c (Expression.capture a b q) se with ⟨r1, se1⟩
      rw [h1] at he
      cases r1 with
      | error er => simp at he
      | ok v =>
        dsimp only at he
        rcases g1 : lazyEvalExpr c (Expression.capture a b q) sl with ⟨q1, sl1⟩
        rw [g1] at hl
        obtain ⟨lv, hq1, hcore1, hee1, hle1, hpb1, hpf1, hsyn1⟩ :=
          sim_step_expr pool n IH c hC (Expression.capture a b q) (by
            have h2 : sizeOf (Expression.capture a b q) < sizeOf ((Expression.capture a b q) :: rest) := by simp_arith
            omega) se sl hI hpl.1 hca.1 v se1 h1 q1 sl1 g1
        subst hq1
        dsimp only at hl
        rcases g2 : lazyPrintArgs c rest sl1 with ⟨q2, sl2⟩
        rw [g2] at hl
        obtain ⟨largs, hq2, hcoreF, heeF, hleF, hwfF⟩ :=
          ihc (by
            have h2 : sizeOf rest < sizeOf ((Expression.capture a b q) :: rest) := by simp_arith
            omega) { se1 with output := se1.output ++ [v.displayWith se1.graph] } sl1 hcore1 hpl.2 hca.2 he q2 sl2 g2
        subst hq2
        dsimp only at hl
        simp only [Prod.mk.injEq] at hl
        obtain ⟨hrl, hsl⟩ := hl
        subst hsl
        have hst1 : sl1.store = sl.store := hle1.1.1
        have hst2 : sl2.store = sl1.store := hleF.1.1
        refine ⟨.val lv :: largs, hrl.symm, hcoreF, EExpr_trans hee1 heeF,
          LExpr_trans hle1 hleF, ?_⟩
        simp only [LazyStmt.wfB, List.all_cons, Bool.and_eq_true] at hwfF ⊢
        rw [hst2, hst1]
        exact ⟨by rw [← hst1]; exact hpb1, by rw [← hst1, ← hst2]; exact hwfF⟩
    | variableExpr vr =>
      simp only [execPrint] at he
      simp only [lazyPrintArgs] at hl
      simp only [Expression.plainListB, Bool.and_eq_true] at hpl
      simp only [Expression.capAgreeList, Bool.and_eq_true] at hca
      rcases h1 : evalExpr c (Expression.variableExpr vr) se with ⟨r1, se1⟩
      rw [h1] at he
      cases r1 with
      | error er => simp at he
      | ok v =>
        dsimp only at he
        rcases g1 : lazyEvalExpr c (Expression.variableExpr vr) sl with ⟨q1, sl1⟩
        rw [g1] at hl
        obtain ⟨lv, hq1, hcore1, hee1, hle1, hpb1, hpf1, hsyn1⟩ :=
          sim_step_expr pool n IH c hC (Expression.variableExpr vr) (by
            have h2 : sizeOf (Expression.variableExpr vr) < sizeOf ((Expression.variableExpr vr) :: rest) := by simp_arith
            omega) se sl hI hpl.1 hca.1 v se1 h1 q1 sl1 g1
        subst hq1
        dsimp only at hl
        rcases g2 : lazyPrintArgs c rest sl1 with ⟨q2, sl2⟩
        rw [g2] at hl
        obtain ⟨largs, hq2, hcoreF, heeF, hleF, hwfF⟩ :=
          ihc (by
            have h2 : sizeOf rest < sizeOf ((Expression.variableExpr vr) :: rest) := by simp_arith
            omega) { se1 with output := se1.output ++ [v.displayWith se1.graph] } sl1 hcore1 hpl.2 hca.2 he q2 sl2 g2
        subst hq2
        dsimp only at hl
        simp only [Prod.mk.injEq] at hl
        obtain ⟨hrl, hsl⟩ := hl
        subst hsl
        have hst1 : sl1.store = sl.store := hle1.1.1
        have hst2 : sl2.store = sl1.store := hleF.1.1
        refine ⟨.val lv :: largs, hrl.symm, hcoreF, EExpr_trans hee1 heeF,
          LExpr_trans hle1 hleF, ?_⟩
        simp only [LazyStmt.wfB, List.all_cons, Bool.and_eq_true] at hwfF ⊢
        rw [hst2, hst1]
        exact ⟨by rw [← hst1]; exact hpb1, by rw [← hst1, ← hst2]; exact hwfF⟩
    | call f ps =>
      simp only [execPrint] at he
      simp only [lazyPrintArgs] at hl
      simp only [Expression.plainListB, Bool.and_eq_true] at hpl
      simp only [Expression.capAgreeList, Bool.and_eq_true] at hca
      rcases h1 : evalExpr c (Expression.call f ps) se with ⟨r1, se1⟩
      rw [h1] at he
      cases r1 with
      | error er => simp at he
      | ok v =>
        dsimp only at he
        rcases g1 : lazyEvalExpr c (Expression.call f ps) sl with ⟨q1, sl1⟩
        rw [g1] at hl
        obtain ⟨lv, hq1, hcore1, hee1, hle1, hpb1, hpf1, hsyn1⟩ :=
          sim_step_expr pool n IH c hC (Expression.call f ps) (by
            have h2 : sizeOf (Expression.call f ps) < sizeOf ((Expression.call f ps) :: rest) := by simp_arith
            omega) se sl hI hpl.1 hca.1 v se1 h1 q1 sl1 g1
        subst hq1
        dsimp only at hl
        rcases g2 : lazyPrintArgs c rest sl1 with ⟨q2, sl2⟩
        rw [g2] at hl
        obtain ⟨largs, hq2, hcoreF, heeF, hleF, hwfF⟩ :=
          ihc (by
            have h2 : sizeOf rest < sizeOf ((Expression.call f ps) :: rest) := by simp_arith
            omega) { se1 with output := se1.output ++ [v.displayWith se1.graph] } sl1 hcore1 hpl.2 hca.2 he q2 sl2 g2
        subst hq2
        dsimp only at hl
        simp only [Prod.mk.injEq] at hl
        obtain ⟨hrl, hsl⟩ := hl
        subst hsl
        have hst1 : sl1.store = sl.store := hle1.1.1
        have hst2 : sl2.store = sl1.store := hleF.1.1
        refine ⟨.val lv :: largs, hrl.symm, hcoreF, EExpr_trans hee1 heeF,
          LExpr_trans hle1 hleF, ?_⟩
        simp only [LazyStmt.wfB, List.all_cons, Bool.and_eq_true] at hwfF ⊢
        rw [hst2, hst1]
        exact ⟨by rw [← hst1]; exact hpb1, by rw [← hst1, ← hst2]; exact hwfF⟩
    | regexCapture i =>
      simp only [execPrint] at he
      simp only [lazyPrintArgs] at hl
      simp only [Expression.plainListB, Bool.and_eq_true] at hpl
      simp only [Expression.capAgreeList, Bool.and_eq_true] at hca
      rcases h1 : evalExpr c (Expression.regexCapture i) se with ⟨r1, se1⟩
      rw [h1] at he
      cases r1 with
      | error er => simp at he
      | ok v =>
        dsimp only at he
        rcases g1 : lazyEvalExpr c (Expression.regexCapture i) sl with ⟨q1, sl1⟩
        rw [g1] at hl
        obtain ⟨lv, hq1, hcore1, hee1, hle1, hpb1, hpf1, hsyn1⟩ :=
          sim_step_expr pool n IH c hC (Expression.regexCapture i) (by
            have h2 : sizeOf (Expression.regexCapture i) < sizeOf ((Expression.regexCapture i) :: rest) := by simp_arith
            omega) se sl hI hpl.1 hca.1 v se1 h1 q1 sl1 g1
        subst hq1
        dsimp only at hl
        rcases g2 : lazyPrintArgs c rest sl1 with ⟨q2, sl2⟩
        rw [g2] at hl
        obtain ⟨largs, hq2, hcoreF, heeF, hleF, hwfF⟩ :=
          ihc (by
            have h2 : sizeOf rest < sizeOf ((Expression.regexCapture i) :: rest) := by simp_arith
            omega) { se1 with output := se1.output ++ [v.displayWith se1.graph] } sl1 hcore1 hpl.2 hca.2 he q2 sl2 g2
        subst hq2
        dsimp only at hl
        simp only [Prod.mk.injEq] at hl
        obtain ⟨hrl, hsl⟩ := hl
        subst hsl
        have hst1 : sl1.store = sl.store := hle1.1.1
        have hst2 : sl2.store = sl1.store := hleF.1.1
        refine ⟨.val lv :: largs, hrl.symm, hcoreF, EExpr_trans hee1 heeF,
          LExpr_trans hle1 hleF, ?_⟩
        simp only [LazyStmt.wfB, List.all_cons, Bool.and_eq_true] at hwfF ⊢
        rw [hst2, hst1]
        exact ⟨by rw [← hst1]; exact hpb1, by rw [← hst1, ← hst2]; exact hwfF⟩

/-- Helper: the full invariant survives pushing a fresh scope on both
sides. -/
theorem SimInv_push {pool : List HostNode} {se : EState} {sl : LState}
    (hI : SimInv pool se sl) : SimInv pool se.pushFrame sl.pushFrame := by
  obtain ⟨⟨hwf, hm, hewf, hef, hsub, hr1, hr2, hsyn⟩, hlg, hgs, G, hpap, hG⟩ := hI
  exact ⟨⟨hwf, hm, envWF_push hewf, envForce_push hef, hsub, hr1, hr2,
    envSynB_push hsyn⟩, hlg, hgs, G, hpap, hG⟩

/-- Helper: the full invariant survives dropping the innermost scope on
both sides. -/
theorem SimInv_pop {pool : List HostNode} {se : EState} {sl : LState}
    (hI : SimInv pool se sl) : SimInv pool se.popFrame sl.popFrame := by
  obtain ⟨⟨hwf, hm, hewf, hef, hsub, hr1, hr2, hsyn⟩, hlg, hgs, G, hpap, hG⟩ := hI
  exact ⟨⟨hwf, hm, envWF_tail hewf, envForce_tail hef, hsub, hr1, hr2,
    envSynB_tail hsyn⟩, hlg, hgs, G, hpap, hG⟩

/-- Helper: the full invariant survives clearing the innermost scope on
both sides. -/
theorem SimInv_clear {pool : List HostNode} {se : EState} {sl : LState}
    (hI : SimInv pool se sl) :
    SimInv pool se.clearTopFrame sl.clearTopFrame := by
  obtain ⟨⟨hwf, hm, hewf, hef, hsub, hr1, hr2, hsyn⟩, hlg, hgs, G, hpap, hG⟩ := hI
  cases hsl2 : sl.locals with
  | nil =>
    rw [hsl2] at hef
    have h0 : se.locals = [] := envForce_nil_inv hef
    simp only [EState.clearTopFrame, LState.clearTopFrame, hsl2, h0]
    exact ⟨⟨hwf, hm, rfl, rfl, hsub, hr1, hr2, rfl⟩, hlg, hgs, G, hpap, hG⟩
  | cons f rest =>
    rw [hsl2] at hef hewf
    obtain ⟨fe, restE, hf, hrest, henv⟩ := envForce_cons_inv hef
    simp only [envWF, Bool.and_eq_true] at hewf
    simp only [EState.clearTopFrame, LState.clearTopFrame, hsl2, henv]
    refine ⟨⟨hwf, hm, envWF_push hewf.2, envForce_push hrest, hsub, hr1,
      hr2, ?_⟩, hlg, hgs, G, hpap, hG⟩
    rw [henv] at hsyn
    simp only [envSynB, Bool.and_eq_true] at hsyn
    exact envSynB_push hsyn.2

/-- Helper: the full invariant is recovered after an expression-only
phase. -/
theorem SimInv_afterExpr {pool : List HostNode} {se se1 : EState}
    {sl sl1 : LState} (hI : SimInv pool se sl)
    (hcore : SimCore pool se1 sl1) (hee : EExpr se se1)
    (hle : LEval sl sl1) : SimInv pool se1 sl1 := by
  obtain ⟨_, hlg, hgs, G, hpap, hG⟩ := hI
  refine ⟨hcore, ?_, graphSynB_transport hgs hee.2.1 hee.2.2, ?_⟩
  · rw [hle.1, hle.2.2.1]
    exact hlg
  · obtain ⟨G2, hpap2, hn2⟩ := papply_congr hpap sl1.graph hle.2.2.2.2
    rw [hle.1, hle.2.2.1]
    exact ⟨G2, hpap2, by rw [hn2, hG, ← hee.2.1]⟩

/-- Helper: the full invariant is recovered after a variable binding
phase (`varAdd` or `varSet`). -/
theorem SimInv_afterVar {pool : List HostNode} {se se1 : EState}
    {sl sl1 : LState} (hI : SimInv pool se sl)
    (hcore : SimCore pool se1 sl1) (hgE : se1.graph = se.graph)
    (hgL : sl1.graph = sl.graph) (hlgr : sl1.lazyGraph = sl.lazyGraph)
    (hst : ∃ ext, sl1.store = sl.store ++ ext) : SimInv pool se1 sl1 := by
  obtain ⟨⟨hwf, _, _, _, _, _, _, _⟩, hlg, hgs, G, hpap, hG⟩ := hI
  obtain ⟨ext, hext⟩ := hst
  refine ⟨hcore, ?_, ?_, ?_⟩
  · rw [hlgr, hext]
    exact lazyGraphWF_mono (by simp) sl.lazyGraph hlg
  · rw [hgE]
    exact hgs
  · rw [hlgr, hgL, hext, papply_store_ext hwf hlg sl.graph]
    exact ⟨G, hpap, by rw [hG, hgE]⟩

/-- Helper: the pure node-attribute application preserves the node-vector
length. -/
theorem papplyNodeAttrs_length {store : List LazyValue} {r : GraphNodeRef} :
    ∀ {attrs : List (Identifier × LazyValue)} {g g' : Graph},
      papplyNodeAttrs store r attrs g = some g' →
      g'.graphNodes.length = g.graphNodes.length := by
  intro attrs
  induction attrs with
  | nil =>
    intro g g' h
    simp only [papplyNodeAttrs, Option.some.injEq] at h
    subst h
    rfl
  | cons p rest ih =>
    intro g g' h
    obtain ⟨name, lv⟩ := p
    simp only [papplyNodeAttrs] at h
    rcases hv : pforceVal store store.length lv with _ | v <;> rw [hv] at h
    · cases h
    · rcases hn : g.graphNodes.get? r with _ | node <;> rw [hn] at h
      · cases h
      · dsimp only at h
        rcases hfr : (node.attributes.add name v).1 <;> rw [hfr] at h
        · cases h
        · rw [if_pos rfl] at h
          have := ih h
          simpa using this

/-- Helper: the pure edge-attribute application preserves the node-vector
length. -/
theorem papplyEdgeAttrs_length {store : List LazyValue}
    {src sink : GraphNodeRef} :
    ∀ {attrs : List (Identifier × LazyValue)} {g g' : Graph},
      papplyEdgeAttrs store src sink attrs g = some g' →
      g'.graphNodes.length = g.graphNodes.length := by
  intro attrs
  induction attrs with
  | nil =>
    intro g g' h
    simp only [papplyEdgeAttrs, Option.some.injEq] at h
    subst h
    rfl
  | cons p rest ih =>
    intro g g' h
    obtain ⟨name, lv⟩ := p
    simp only [papplyEdgeAttrs] at h
    rcases hv : pforceVal store store.length lv with _ | v <;> rw [hv] at h
    · cases h
    · rcases hn : g.graphNodes.get? src with _ | node <;> rw [hn] at h
      · cases h
      · dsimp only at h
        rcases hsr : searchByKey sink node.outgoingEdges with i | i <;>
          rw [hsr] at h <;> dsimp only at h
        · rcases he : node.outgoingEdges.get? i with _ | q <;> rw [he] at h
          · cases h
          · obtain ⟨k, edge⟩ := q
            dsimp only at h
            rcases hfr : (edge.attributes.add name v).1 <;> rw [hfr] at h
            · cases h
            · rw [if_pos rfl] at h
              have := ih h
              simpa using this
        · cases h

/-- Helper: the pure application of one deferred statement preserves the
node-vector length. -/
theorem papplyStmt_length {store : List LazyValue} {stmt : LazyStmt}
    {g g' : Graph} (h : papplyStmt store stmt g = some g') :
    g'.graphNodes.length = g.graphNodes.length := by
  cases stmt with
  | addGraphNodeAttr node attrs =>
    simp only [papplyStmt] at h
    rcases hv : pforceVal store store.length node with _ | v <;> rw [hv] at h
    · cases h
    · cases v <;> try cases h
      dsimp only at h
      exact papplyNodeAttrs_length h
  | createEdge srcL sinkL =>
    simp only [papplyStmt] at h
    rcases hv : pforceVal store store.length srcL with _ | v <;> rw [hv] at h
    · cases h
    · cases v <;> try cases h
      rename_i src
      rcases hw : pforceVal store store.length sinkL with _ | w <;>
        rw [hw] at h
      · cases h
      · cases w <;> try cases h
        rename_i sink
        dsimp only at h
        rcases hn : g.graphNodes.get? src with _ | node <;> rw [hn] at h
        · cases h
        · dsimp only at h
          rcases hfr : (node.addEdge sink).1 <;> rw [hfr] at h
          · cases h
          · rw [if_pos rfl] at h
            simp only [Option.some.injEq] at h
            subst h
            simp
  | addEdgeAttr srcL sinkL attrs =>
    simp only [papplyStmt] at h
    rcases hv : pforceVal store store.length srcL with _ | v <;> rw [hv] at h
    · cases h
    · cases v <;> try cases h
      rename_i src
      rcases hw : pforceVal store store.length sinkL with _ | w <;>
        rw [hw] at h
      · cases h
      · cases w <;> try cases h
        rename_i sink
        dsimp only at h
        exact papplyEdgeAttrs_length h
  | printStmt args =>
    simp only [papplyStmt, Option.some.injEq] at h
    subst h
    rfl

/-- Helper: the pure application of the deferred program preserves the
node-vector length. -/
theorem papply_length {store : List LazyValue} :
    ∀ {stmts : List LazyStmt} {g g' : Graph},
      papply store stmts g = some g' →
      g'.graphNodes.length = g.graphNodes.length := by
  intro stmts
  induction stmts with
  | nil =>
    intro g g' h
    simp only [papply, Option.some.injEq] at h
    subst h
    rfl
  | cons stmt rest ih =>
    intro g g' h
    simp only [papply] at h
    rcases hs : papplyStmt store stmt g with _ | g1 <;> rw [hs] at h
    · cases h
    · exact (ih h).trans (papplyStmt_length hs)

/-- Simulation step for `execIfArms` against `lazyIfArms` on the plain
fragment: both sides agree on the selected arm and the full invariant is
re-established. -/
theorem sim_step_ifArms (pool : List HostNode) (n : Nat)
    (IH : ∀ m, m < n → SimBundle pool m) : SimIfArmsP pool n := by
  intro c hC arms hsz se sl hI hpl hca se' he rl sl' hl
  induction arms generalizing se sl with
  | nil =>
    simp only [execIfArms] at he
    simp only [lazyIfArms] at hl
    simp only [Prod.mk.injEq] at he hl
    obtain ⟨_, hse⟩ := he
    obtain ⟨hrl, hsl⟩ := hl
    subst hse
    subst hsl
    exact ⟨hrl.symm, hI, SubMapN_refl _⟩
  | cons arm rest ihc =>
    obtain ⟨conds, stmts⟩ := arm
    simp only [execIfArms] at he
    simp only [lazyIfArms] at hl
    simp only [IfArm.plainListB, Bool.and_eq_true] at hpl
    simp only [IfArm.capAgreeList, Bool.and_eq_true] at hca
    rcases h1 : evalConds c conds true se with ⟨r1, se1⟩
    rw [h1] at he
    cases r1 with
    | error er => simp at he
    | ok b =>
      dsimp only at he
      rcases g1 : lazyEvalConds c conds true sl with ⟨q1, sl1⟩
      rw [g1] at hl
      obtain ⟨hq1, hcore1, hee1, hle1⟩ :=
        sim_step_conds pool n IH c hC conds (by
          have h2 : sizeOf conds < sizeOf (IfArm.mk conds stmts :: rest) := by
            simp_arith
          omega) se sl hI.1 hpl.1.1 hca.1.1 true b se1 h1 q1 sl1 g1
      subst hq1
      dsimp only at hl
      have hI1 : SimInv pool se1 sl1 := SimInv_afterExpr hI hcore1 hee1 hle1
      cases b with
      | false =>
        rw [if_neg (by simp)] at he hl
        obtain ⟨hok, hI2, hsub2⟩ := ihc (by
          have h2 : sizeOf rest < sizeOf (IfArm.mk conds stmts :: rest) := by
            simp_arith
          omega) se1 sl1 hI1 hpl.2 hca.2 he hl
        exact ⟨hok, hI2, SubMapN_trans hee1.2.2 hsub2⟩
      | true =>
        rw [if_pos rfl] at he hl
        rcases h2 : execStmts c stmts se1.pushFrame with ⟨r2, se2⟩
        rw [h2] at he
        dsimp only at he
        simp only [Prod.mk.injEq] at he
        obtain ⟨hr2, hse⟩ := he
        rw [hr2] at h2
        rcases g2 : lazyExecStmts c stmts sl1.pushFrame with ⟨q2, sl2⟩
        rw [g2] at hl
        obtain ⟨hq2, hI2, hsub2⟩ :=
          (IH (sizeOf (IfArm.mk conds stmts :: rest)) hsz).stmts c hC stmts (by
            simp_arith) se1.pushFrame sl1.pushFrame (SimInv_push hI1)
            hpl.1.2 hca.1.2 se2 h2 q2 sl2 g2
        subst hq2
        dsimp only at hl
        simp only [Prod.mk.injEq] at hl
        obtain ⟨hrl, hsl⟩ := hl
        subst hse
        subst hsl
        refine ⟨hrl.symm, SimInv_pop hI2, ?_⟩
        exact SubMapN_trans hee1.2.2 hsub2

/-- Simulation step for `forInLoop` against `lazyForInLoop` on the plain
fragment: each iteration clears the nested scope, binds the element and
runs the body in lockstep. -/
theorem sim_step_forLoop (pool : List HostNode) (n : Nat)
    (IH : ∀ m, m < n → SimBundle pool m) : SimForP pool n := by
  intro c hC vr stmts hsz hplv hpls hca vals se sl hI hsynL se' he rl sl' hl
  induction vals generalizing se sl with
  | nil =>
    simp only [forInLoop] at he
    simp only [lazyForInLoop] at hl
    simp only [Prod.mk.injEq] at he hl
    obtain ⟨_, hse⟩ := he
    obtain ⟨hrl, hsl⟩ := hl
    subst hse
    subst hsl
    exact ⟨hrl.symm, hI, SubMapN_refl _⟩
  | cons v vs ihc =>
    simp only [forInLoop] at he
    simp only [lazyForInLoop] at hl
    simp only [Value.synRegListB, Bool.and_eq_true] at hsynL
    rcases h1 : varAdd c vr v false se.clearTopFrame with ⟨r1, se1⟩
    rw [h1] at he
    cases r1 with
    | error er => simp at he
    | ok u =>
      cases u
      dsimp only at he
      rcases g1 : lazyVarAdd c vr (.value v) false sl.clearTopFrame
        with ⟨q1, sl1⟩
      rw [g1] at hl
      have hIc : SimInv pool se.clearTopFrame sl.clearTopFrame :=
        SimInv_clear hI
      obtain ⟨hq1, hcore1, hgE1, hgL1, hlgr1, hout1, hst1⟩ :=
        sim_step_vadd pool n c hC vr (by
          have h2 := sizeOf_pos_list stmts
          omega) v (.value v) false se.clearTopFrame sl.clearTopFrame hIc.1
          hplv (by simp [LazyValue.pureBelow]) (by simp [pforceVal]) hsynL.1
          se1 h1 q1 sl1 g1
      subst hq1
      dsimp only at hl
      have hI1 : SimInv pool se1 sl1 :=
        SimInv_afterVar hIc hcore1 hgE1 hgL1 hlgr1 hst1
      rcases h2 : execStmts c stmts se1 with ⟨r2, se2⟩
      rw [h2] at he
      cases r2 with
      | error er => simp at he
      | ok u2 =>
        cases u2
        dsimp only at he
        rcases g2 : lazyExecStmts c stmts sl1 with ⟨q2, sl2⟩
        rw [g2] at hl
        obtain ⟨hq2, hI2, hsub2⟩ :=
          (IH (sizeOf stmts + 1) (by
            have h3 := sizeOf_pos_var vr
            omega)).stmts c hC stmts (by omega) se1 sl1 hI1 hpls hca
            se2 h2 q2 sl2 g2
        subst hq2
        dsimp only at hl
        have hsubA : SubMapN se.graph.syntaxNodes se2.graph.syntaxNodes := by
          have h3 : se1.graph.syntaxNodes = se.graph.syntaxNodes := by
            simp [hgE1, EState.clearTopFrame]
          rw [← h3]
          exact hsub2
        obtain ⟨hok, hI3, hsub3⟩ :=
          ihc se2 sl2 hI2 (synRegListB_mono hsubA vs hsynL.2) he hl
        exact ⟨hok, hI3, SubMapN_trans hsubA hsub3⟩

/-- Helper: eager scan exit equation when the cursor is past the end. -/
theorem scanLoop_exit (c : ECtx) (arms : List ScanArm) (s : List Char)
    (i : Nat) (st : EState) (hi : ¬ i < s.length) :
    scanLoop c arms s i st = (.ok (), st) := by
  rw [scanLoop]
  simp [hi]

/-- Helper: eager scan equation when the hit collection fails. -/
theorem scanLoop_errCol (c : ECtx) (arms : List ScanArm) (s : List Char)
    (i : Nat) (st : EState) (e : Err) (hi : i < s.length)
    (hcol : collectScanMatches (s.drop i) arms 0 = .error e) :
    scanLoop c arms s i st = (.error e, st) := by
  rw [scanLoop]
  simp [hi, hcol]

/-- Helper: eager scan equation when no arm produced a hit. -/
theorem scanLoop_noMatch (c : ECtx) (arms : List ScanArm) (s : List Char)
    (i : Nat) (st : EState) {ms : List ScanHit} (hi : i < s.length)
    (hcol : collectScanMatches (s.drop i) arms 0 = .ok ms)
    (hsrt : sortByKey (fun p => (p.1.1.start, p.1.2)) ms = []) :
    scanLoop c arms s i st = (.ok (), st) := by
  rw [scanLoop]
  cases ms with
  | nil => simp [hi, hcol]
  | cons m0 mrest =>
    simp only [dif_pos hi, hcol]
    split
    · rfl
    · rename_i winner tail heq
      rw [hsrt] at heq
      cases heq

/-- Helper: eager scan equation when the winning arm index is out of
bounds. -/
theorem scanLoop_panic (c : ECtx) (arms : List ScanArm) (s : List Char)
    (i : Nat) (st : EState) {ms : List ScanHit} {winner : ScanHit}
    {wtail : List ScanHit} (hi : i < s.length)
    (hcol : collectScanMatches (s.drop i) arms 0 = .ok ms)
    (hsrt : sortByKey (fun p => (p.1.1.start, p.1.2)) ms = winner :: wtail)
    (harm : arms.get? winner.1.2 = none) :
    scanLoop c arms s i st = (.error .panicked, st) := by
  rw [scanLoop]
  cases ms with
  | nil => simp [sortByKey] at hsrt
  | cons m0 mrest =>
    simp only [dif_pos hi, hcol]
    split
    · rename_i heq
      rw [hsrt] at heq
      cases heq
    · rename_i w tail heq
      rw [hsrt] at heq
      injection heq with h1 h2
      subst h1
      split
      · rfl
      · rename_i re2 stmts2 hsome
        rw [harm] at hsome
        cases hsome

/-- Helper: eager scan equation for the winning arm — the body runs in a
nested scope with the hit's captures and the cursor advances by its end
offset. -/
theorem scanLoop_hit (c : ECtx) (arms : List ScanArm) (s : List Char)
    (i : Nat) (st : EState) {ms : List ScanHit} {winner : ScanHit}
    {wtail : List ScanHit} {re : Regex} {stmts : List Statement}
    (hi : i < s.length)
    (hcol : collectScanMatches (s.drop i) arms 0 = .ok ms)
    (hsrt : sortByKey (fun p => (p.1.1.start, p.1.2)) ms = winner :: wtail)
    (harm : arms.get? winner.1.2 = some (.mk re stmts)) :
    scanLoop c arms s i st =
      (match execStmts { c with regexCaptures := buildRegexCaptures (s.drop i) winner.1.1 } stmts st.pushFrame with
       | (.ok _, st1) => scanLoop c arms s (i + winner.1.1.stop) st1.popFrame
       | (.error er, st1) => (.error er, st1.popFrame)) := by
  rw [scanLoop]
  cases ms with
  | nil => simp [sortByKey] at hsrt
  | cons m0 mrest =>
    simp only [dif_pos hi, hcol]
    split
    · rename_i heq
      rw [hsrt] at heq
      cases heq
    · rename_i w tail heq
      rw [hsrt] at heq
      injection heq with h1 h2
      subst h1
      split
      · rename_i hnone
        rw [harm] at hnone
        cases hnone
      · rename_i re2 stmts2 hsome
        rw [harm] at hsome
        injection hsome with h3
        cases h3
        rfl

/-- Helper: lazy scan exit equation when the cursor is past the end. -/
theorem lazyScanLoop_exit (c : ECtx) (arms : List ScanArm) (s : List Char)
    (i : Nat) (st : LState) (hi : ¬ i < s.length) :
    lazyScanLoop c arms s i st = (.ok (), st) := by
  rw [lazyScanLoop]
  simp [hi]

/-- Helper: lazy scan equation when no arm produced a hit. -/
theorem lazyScanLoop_noMatch (c : ECtx) (arms : List ScanArm) (s : List Char)
    (i : Nat) (st : LState) {ms : List ScanHit} (hi : i < s.length)
    (hcol : collectScanMatches (s.drop i) arms 0 = .ok ms)
    (hsrt : sortByKey (fun p => (p.1.1.start, p.1.2)) ms = []) :
    lazyScanLoop c arms s i st = (.ok (), st) := by
  rw [lazyScanLoop]
  cases ms with
  | nil => simp [hi, hcol]
  | cons m0 mrest =>
    simp only [dif_pos hi, hcol]
    split
    · rfl
    · rename_i winner tail heq
      rw [hsrt] at heq
      cases heq

/-- Helper: lazy scan equation for the winning arm. -/
theorem lazyScanLoop_hit (c : ECtx) (arms : List ScanArm) (s : List Char)
    (i : Nat) (st : LState) {ms : List ScanHit} {winner : ScanHit}
    {wtail : List ScanHit} {re : Regex} {stmts : List Statement}
    (hi : i < s.length)
    (hcol : collectScanMatches (s.drop i) arms 0 = .ok ms)
    (hsrt : sortByKey (fun p => (p.1.1.start, p.1.2)) ms = winner :: wtail)
    (harm : arms.get? winner.1.2 = some (.mk re stmts)) :
    lazyScanLoop c arms s i st =
      (match lazyExecStmts { c with regexCaptures := buildRegexCaptures (s.drop i) winner.1.1 } stmts st.pushFrame with
       | (.ok _, st1) => lazyScanLoop c arms s (i + winner.1.1.stop) st1.popFrame
       | (.error er, st1) => (.error er, st1.popFrame)) := by
  rw [lazyScanLoop]
  cases ms with
  | nil => simp [sortByKey] at hsrt
  | cons m0 mrest =>
    simp only [dif_pos hi, hcol]
    split
    · rename_i heq
      rw [hsrt] at heq
      cases heq
    · rename_i w tail heq
      rw [hsrt] at heq
      injection heq with h1 h2
      subst h1
      split
      · rename_i hnone
        rw [harm] at hnone
        cases hnone
      · rename_i re2 stmts2 hsome
        rw [harm] at hsome
        injection hsome with h3
        cases h3
        rfl

/-- Helper: plainness of a scan-arm list gives plainness of any arm body
selected by index. -/
theorem scanArm_plain_get {arms : List ScanArm}
    (hp : ScanArm.plainListB arms = true) :
    ∀ {k : Nat} {re : Regex} {stmts : List Statement},
      arms.get? k = some (.mk re stmts) →
      Statement.plainListB stmts = true := by
  induction arms with
  | nil =>
    intro k re stmts h
    simp at h
  | cons arm rest ih =>
    intro k re stmts h
    obtain ⟨re0, stmts0⟩ := arm
    simp only [ScanArm.plainListB, Bool.and_eq_true] at hp
    cases k with
    | zero =>
      simp only [List.get?_cons_zero, Option.some.injEq] at h
      injection h with h1 h2
      subst h2
      exact hp.1
    | succ k =>
      simp only [List.get?_cons_succ] at h
      exact ih hp.2 h

/-- Helper: capture agreement of a scan-arm list gives agreement of any
arm body selected by index. -/
theorem scanArm_capAgree_get {mat : QueryMatch} {arms : List ScanArm}
    (hc : ScanArm.capAgreeList mat arms = true) :
    ∀ {k : Nat} {re : Regex} {stmts : List Statement},
      arms.get? k = some (.mk re stmts) →
      Statement.capAgreeList mat stmts = true := by
  induction arms with
  | nil =>
    intro k re stmts h
    simp at h
  | cons arm rest ih =>
    intro k re stmts h
    obtain ⟨re0, stmts0⟩ := arm
    simp only [ScanArm.capAgreeList, Bool.and_eq_true] at hc
    cases k with
    | zero =>
      simp only [List.get?_cons_zero, Option.some.injEq] at h
      injection h with h1 h2
      subst h2
      exact hc.1
    | succ k =>
      simp only [List.get?_cons_succ] at h
      exact ih hc.2 h

/-- Simulation step for `scanLoop` against `lazyScanLoop` on the plain
fragment: both modes collect the same hits, pick the same winner and run
its body in lockstep, so the whole tiling agrees. -/
theorem sim_step_scanBody (pool : List HostNode) (n : Nat)
    (IH : ∀ m, m < n → SimBundle pool m) : SimScanP pool n := by
  intro c hC arms hsz hpl hca s i se sl hI se' he rl sl' hl
  have main : ∀ fuel i se sl, s.length - i ≤ fuel → SimInv pool se sl →
      ∀ se2, scanLoop c arms s i se = (.ok (), se2) →
      ∀ rl2 sl2, lazyScanLoop c arms s i sl = (rl2, sl2) →
      rl2 = .ok () ∧ SimInv pool se2 sl2 ∧
        SubMapN se.graph.syntaxNodes se2.graph.syntaxNodes := by
    intro fuel
    induction fuel with
    | zero =>
      intro i se sl hfu hI se2 he rl2 sl2 hl
      rw [scanLoop_exit c arms s i se (by omega)] at he
      rw [lazyScanLoop_exit c arms s i sl (by omega)] at hl
      simp only [Prod.mk.injEq] at he hl
      obtain ⟨_, hse⟩ := he
      obtain ⟨hrl, hsl⟩ := hl
      subst hse
      subst hsl
      exact ⟨hrl.symm, hI, SubMapN_refl _⟩
    | succ fuel ihf =>
      intro i se sl hfu hI se2 he rl2 sl2 hl
      by_cases hi : i < s.length
      · rcases hcol : collectScanMatches (s.drop i) arms 0 with e | ms
        · rw [scanLoop_errCol c arms s i se e hi hcol] at he
          simp at he
        · cases hsrt : sortByKey (fun p => (p.1.1.start, p.1.2)) ms with
          | nil =>
            rw [scanLoop_noMatch c arms s i se hi hcol hsrt] at he
            rw [lazyScanLoop_noMatch c arms s i sl hi hcol hsrt] at hl
            simp only [Prod.mk.injEq] at he hl
            obtain ⟨_, hse⟩ := he
            obtain ⟨hrl, hsl⟩ := hl
            subst hse
            subst hsl
            exact ⟨hrl.symm, hI, SubMapN_refl _⟩
          | cons winner wtail =>
            rcases harm : arms.get? winner.1.2 with _ | arm
            · rw [scanLoop_panic c arms s i se hi hcol hsrt harm] at he
              simp at he
            · obtain ⟨re, stmts⟩ := arm
              rw [scanLoop_hit c arms s i se hi hcol hsrt harm] at he
              rw [lazyScanLoop_hit c arms s i sl hi hcol hsrt harm] at hl
              rcases h2 : execStmts { c with regexCaptures := buildRegexCaptures (s.drop i) winner.1.1 } stmts se.pushFrame with ⟨r2, se3⟩
              rw [h2] at he
              cases r2 with
              | error er => simp at he
              | ok u2 =>
                cases u2
                dsimp only at he
                rcases g2 : lazyExecStmts { c with regexCaptures := buildRegexCaptures (s.drop i) winner.1.1 } stmts sl.pushFrame with ⟨q2, sl3⟩
                rw [g2] at hl
                obtain ⟨hq2, hI2, hsub2⟩ :=
                  (IH (sizeOf arms) hsz).stmts
                    { c with regexCaptures := buildRegexCaptures (s.drop i) winner.1.1 }
                    hC stmts
                    (by
                      have h3 := List.sizeOf_lt_of_mem (List.get?_mem harm)
                      have h4 : sizeOf stmts < sizeOf (ScanArm.mk re stmts) := by
                        simp_arith
                      omega)
                    se.pushFrame sl.pushFrame (SimInv_push hI)
                    (scanArm_plain_get hpl harm) (scanArm_capAgree_get hca harm)
                    se3 h2 q2 sl3 g2
                subst hq2
                dsimp only at hl
                obtain ⟨hok, hI3, hsub3⟩ :=
                  ihf (i + winner.1.1.stop) se3.popFrame sl3.popFrame
                    (by
                      have h5 := winner.2
                      omega)
                    (SimInv_pop hI2) se2 he rl2 sl2 hl
                refine ⟨hok, hI3, SubMapN_trans ?_ hsub3⟩
                exact hsub2
      · rw [scanLoop_exit c arms s i se hi] at he
        rw [lazyScanLoop_exit c arms s i sl hi] at hl
        simp only [Prod.mk.injEq] at he hl
        obtain ⟨_, hse⟩ := he
        obtain ⟨hrl, hsl⟩ := hl
        subst hse
        subst hsl
        exact ⟨hrl.symm, hI, SubMapN_refl _⟩
  exact main (s.length - i) i se sl (le_refl _) hI se' he rl sl' hl

/-- Helper: the pure node-attribute application commutes with appending a
fresh node at the end of the node vector. -/
theorem papplyNodeAttrs_nodeAppend {store : List LazyValue}
    {r : GraphNodeRef} {nd : GraphNode} :
    ∀ {attrs : List (Identifier × LazyValue)} {g g' : Graph},
      papplyNodeAttrs store r attrs g = some g' →
      papplyNodeAttrs store r attrs
        { g with graphNodes := g.graphNodes ++ [nd] } =
        some { g' with graphNodes := g'.graphNodes ++ [nd] } := by
  intro attrs
  induction attrs with
  | nil =>
    intro g g' h
    simp only [papplyNodeAttrs, Option.some.injEq] at h ⊢
    subst h
    rfl
  | cons p rest ih =>
    intro g g' h
    obtain ⟨name, lv⟩ := p
    simp only [papplyNodeAttrs] at h ⊢
    rcases hv : pforceVal store store.length lv with _ | v <;> rw [hv] at h
    · cases h
    · dsimp only at h ⊢
      rcases hn : g.graphNodes.get? r with _ | node <;> rw [hn] at h
      · cases h
      · dsimp only at h
        have hr : r < g.graphNodes.length := list_get?_some_lt hn
        have hn2 : (g.graphNodes ++ [nd]).get? r = some node := by
          rw [List.get?_eq_getElem?, List.getElem?_append_left hr,
            ← List.get?_eq_getElem?]
          exact hn
        rw [hn2]
        dsimp only
        rcases hfr : (node.attributes.add name v).1 <;> rw [hfr] at h
        · cases h
        · rw [if_pos rfl] at h ⊢
          rw [List.set_append_left _ _ hr]
          exact ih h

/-- Helper: the pure edge-attribute application commutes with appending a
fresh node at the end of the node vector. -/
theorem papplyEdgeAttrs_nodeAppend {store : List LazyValue}
    {src sink : GraphNodeRef} {nd : GraphNode} :
    ∀ {attrs : List (Identifier × LazyValue)} {g g' : Graph},
      papplyEdgeAttrs store src sink attrs g = some g' →
      papplyEdgeAttrs store src sink attrs
        { g with graphNodes := g.graphNodes ++ [nd] } =
        some { g' with graphNodes := g'.graphNodes ++ [nd] } := by
  intro attrs
  induction attrs with
  | nil =>
    intro g g' h
    simp only [papplyEdgeAttrs, Option.some.injEq] at h ⊢
    subst h
    rfl
  | cons p rest ih =>
    intro g g' h
    obtain ⟨name, lv⟩ := p
    simp only [papplyEdgeAttrs] at h ⊢
    rcases hv : pforceVal store store.length lv with _ | v <;> rw [hv] at h
    · cases h
    · dsimp only at h ⊢
      rcases hn : g.graphNodes.get? src with _ | node <;> rw [hn] at h
      · cases h
      · dsimp only at h
        have hr : src < g.graphNodes.length := list_get?_some_lt hn
        have hn2 : (g.graphNodes ++ [nd]).get? src = some node := by
          rw [List.get?_eq_getElem?, List.getElem?_append_left hr,
            ← List.get?_eq_getElem?]
          exact hn
        rw [hn2]
        dsimp only
        rcases hsr : searchByKey sink node.outgoingEdges with i | i <;>
          rw [hsr] at h <;> dsimp only at h ⊢
        · rcases he : node.outgoingEdges.get? i with _ | q <;> rw [he] at h
          · cases h
          · obtain ⟨k, edge⟩ := q
            dsimp only at h ⊢
            rcases hfr : (edge.attributes.add name v).1 <;> rw [hfr] at h
            · cases h
            · rw [if_pos rfl] at h ⊢
              rw [List.set_append_left _ _ hr]
              exact ih h
        · cases h

/-- Helper: the pure application of one deferred statement commutes with
appending a fresh node at the end of the node vector. -/
theorem papplyStmt_nodeAppend {store : List LazyValue} {stmt : LazyStmt}
    {nd : GraphNode} {g g' : Graph} (h : papplyStmt store stmt g = some g') :
    papplyStmt store stmt { g with graphNodes := g.graphNodes ++ [nd] } =
      some { g' with graphNodes := g'.graphNodes ++ [nd] } := by
  cases stmt with
  | addGraphNodeAttr node attrs =>
    simp only [papplyStmt] at h ⊢
    rcases hv : pforceVal store store.length node with _ | v <;> rw [hv] at h
    · cases h
    · cases v <;> try cases h
      dsimp only at h ⊢
      exact papplyNodeAttrs_nodeAppend h
  | createEdge srcL sinkL =>
    simp only [papplyStmt] at h ⊢
    rcases hv : pforceVal store store.length srcL with _ | v <;> rw [hv] at h
    · cases h
    · cases v <;> try cases h
      rename_i src
      rcases hw : pforceVal store store.length sinkL with _ | w <;>
        rw [hw] at h
      · cases h
      · cases w <;> try cases h
        rename_i sink
        dsimp only at h ⊢
        rcases hn : g.graphNodes.get? src with _ | node <;> rw [hn] at h
        · cases h
        · dsimp only at h
          have hr : src < g.graphNodes.length := list_get?_some_lt hn
          have hn2 : (g.graphNodes ++ [nd]).get? src = some node := by
            rw [List.get?_eq_getElem?, List.getElem?_append_left hr,
              ← List.get?_eq_getElem?]
            exact hn
          rw [hn2]
          dsimp only
          rcases hfr : (node.addEdge sink).1 <;> rw [hfr] at h
          · cases h
          · rw [if_pos rfl] at h ⊢
            simp only [Option.some.injEq] at h ⊢
            subst h
            rw [List.set_append_left _ _ hr]
  | addEdgeAttr srcL sinkL attrs =>
    simp only [papplyStmt] at h ⊢
    rcases hv : pforceVal store store.length srcL with _ | v <;> rw [hv] at h
    · cases h
    · cases v <;> try cases h
      rename_i src
      rcases hw : pforceVal store store.length sinkL with _ | w <;>
        rw [hw] at h
      · cases h
      · cases w <;> try cases h
        rename_i sink
        dsimp only at h ⊢
        exact papplyEdgeAttrs_nodeAppend h
  | printStmt args =>
    simp only [papplyStmt, Option.some.injEq] at h ⊢
    subst h
    rfl

/-- Helper: the pure application of the deferred program commutes with
appending a fresh node at the end of the node vector. -/
theorem papply_nodeAppend {store : List LazyValue} {nd : GraphNode} :
    ∀ {stmts : List LazyStmt} {g g' : Graph},
      papply store stmts g = some g' →
      papply store stmts { g with graphNodes := g.graphNodes ++ [nd] } =
        some { g' with graphNodes := g'.graphNodes ++ [nd] } := by
  intro stmts
  induction stmts with
  | nil =>
    intro g g' h
    simp only [papply, Option.some.injEq] at h ⊢
    subst h
    rfl
  | cons stmt rest ih =>
    intro g g' h
    simp only [papply] at h ⊢
    rcases hs : papplyStmt store stmt g with _ | g1 <;> rw [hs] at h
    · cases h
    · rw [papplyStmt_nodeAppend hs]
      exact ih h

/-- Helper: inserting a fresh edge on an existing node preserves graph
registration closure. -/
theorem graphSynB_addEdge {g : Graph} {src sink : GraphNodeRef}
    {node : GraphNode} (hb : graphSynB g = true)
    (hn : g.graphNodes.get? src = some node) :
    graphSynB { g with graphNodes := g.graphNodes.set src (node.addEdge sink).2 } = true := by
  have hmem : node ∈ g.graphNodes := List.get?_mem hn
  have hnode := (graphSynB_iff.mp hb) node hmem
  refine graphSynB_setNode hb ?_ ?_
  · unfold GraphNode.addEdge
    rcases hsk : searchByKey sink node.outgoingEdges with i | i <;>
      dsimp only
    · exact hnode.1
    · exact hnode.1
  · intro q hq
    unfold GraphNode.addEdge at hq
    rcases hsk : searchByKey sink node.outgoingEdges with i | i <;>
      rw [hsk] at hq <;> dsimp only at hq
    · exact hnode.2 q hq
    · rcases mem_listInsertAt hq with h | h
      · subst h
        rfl
      · exact hnode.2 q h

/-- Helper: appending one well-formed deferred statement whose pure
application reproduces the eager node vector preserves the full
invariant. -/
theorem SimInv_append_stmt {pool : List HostNode} {se2 : EState}
    {sl2 : LState} (hcore : SimCore pool se2 sl2)
    (hwfL : lazyGraphWF sl2.store.length sl2.lazyGraph = true)
    (hgs : graphSynB se2.graph = true)
    {stmt : LazyStmt} (hwfS : LazyStmt.wfB sl2.store.length stmt = true)
    (hpap : ∃ G, papply sl2.store sl2.lazyGraph sl2.graph = some G ∧
      ∃ G', papplyStmt sl2.store stmt G = some G' ∧
        G'.graphNodes = se2.graph.graphNodes) :
    SimInv pool se2 { sl2 with lazyGraph := sl2.lazyGraph ++ [stmt] } := by
  obtain ⟨G, hpap1, G', hstmt, hG'⟩ := hpap
  refine ⟨hcore, ?_, hgs, ?_⟩
  · exact lazyGraphWF_append hwfL (by simp [lazyGraphWF, hwfS])
  · refine ⟨G', ?_, hG'⟩
    show papply sl2.store (sl2.lazyGraph ++ [stmt]) sl2.graph = some G'
    rw [papply_append, hpap1]
    simp [papply, hstmt]

/-- Simulation step for `execStmt` against `lazyExecStmt` on the plain
fragment: a successful eager statement is matched by the lazy one, with the
deferred graph program extended so that its pure application keeps
reproducing the eager node vector. -/
theorem sim_step_stmt (pool : List HostNode) (n : Nat)
    (IH : ∀ m, m < n → SimBundle pool m) : SimStmtP pool n := by
  intro c hC s hsz se sl hI hpl hca se' he rl sl' hl
  cases s with
  | declareImmutable vr e =>
    simp only [execStmt] at he
    simp only [lazyExecStmt] at hl
    simp only [Statement.plainB, Bool.and_eq_true] at hpl
    simp only [Statement.capAgree, Bool.and_eq_true] at hca
    rcases h1 : evalExpr c e se with ⟨r1, se1⟩
    rw [h1] at he
    cases r1 with
    | error er => simp at he
    | ok v =>
      dsimp only at he
      rcases g1 : lazyEvalExpr c e sl with ⟨q1, sl1⟩
      rw [g1] at hl
      obtain ⟨lv, hq1, hcore1, hee1, hle1, hpb1, hpf1, hsyn1⟩ :=
        sim_step_expr pool n IH c hC e (by
          have h9 : sizeOf e < sizeOf (Statement.declareImmutable vr e) := by
            simp_arith
          omega) se sl hI.1 hpl.2 hca.2 v se1 h1 q1 sl1 g1
      subst hq1
      dsimp only at hl
      have hI1 : SimInv pool se1 sl1 := SimInv_afterExpr hI hcore1 hee1 hle1.1
      obtain ⟨hrl, hcore2, hgE2, hgL2, hlgr2, hout2, hst2⟩ :=
        sim_step_vadd pool n c hC vr (by
          have h9 : sizeOf vr < sizeOf (Statement.declareImmutable vr e) := by
            simp_arith
          omega) v lv false se1 sl1 hcore1 hpl.1 hpb1 hpf1 hsyn1 se' he
          rl sl' hl
      refine ⟨hrl, SimInv_afterVar hI1 hcore2 hgE2 hgL2 hlgr2 hst2, ?_⟩
      rw [hgE2]
      exact hee1.2.2
  | declareMutable vr e =>
    simp only [execStmt] at he
    simp only [lazyExecStmt] at hl
    simp only [Statement.plainB, Bool.and_eq_true] at hpl
    simp only [Statement.capAgree, Bool.and_eq_true] at hca
    rcases h1 : evalExpr c e se with ⟨r1, se1⟩
    rw [h1] at he
    cases r1 with
    | error er => simp at he
    | ok v =>
      dsimp only at he
      rcases g1 : lazyEvalExpr c e sl with ⟨q1, sl1⟩
      rw [g1] at hl
      obtain ⟨lv, hq1, hcore1, hee1, hle1, hpb1, hpf1, hsyn1⟩ :=
        sim_step_expr pool n IH c hC e (by
          have h9 : sizeOf e < sizeOf (Statement.declareMutable vr e) := by
            simp_arith
          omega) se sl hI.1 hpl.2 hca.2 v se1 h1 q1 sl1 g1
      subst hq1
      dsimp only at hl
      have hI1 : SimInv pool se1 sl1 := SimInv_afterExpr hI hcore1 hee1 hle1.1
      obtain ⟨hrl, hcore2, hgE2, hgL2, hlgr2, hout2, hst2⟩ :=
        sim_step_vadd pool n c hC vr (by
          have h9 : sizeOf vr < sizeOf (Statement.declareMutable vr e) := by
            simp_arith
          omega) v lv true se1 sl1 hcore1 hpl.1 hpb1 hpf1 hsyn1 se' he
          rl sl' hl
      refine ⟨hrl, SimInv_afterVar hI1 hcore2 hgE2 hgL2 hlgr2 hst2, ?_⟩
      rw [hgE2]
      exact hee1.2.2
  | assign vr e =>
    simp only [execStmt] at he
    simp only [lazyExecStmt] at hl
    simp only [Statement.plainB, Bool.and_eq_true] at hpl
    simp only [Statement.capAgree, Bool.and_eq_true] at hca
    rcases h1 : evalExpr c e se with ⟨r1, se1⟩
    rw [h1] at he
    cases r1 with
    | error er => simp at he
    | ok v =>
      dsimp only at he
      rcases g1 : lazyEvalExpr c e sl with ⟨q1, sl1⟩
      rw [g1] at hl
      obtain ⟨lv, hq1, hcore1, hee1, hle1, hpb1, hpf1, hsyn1⟩ :=
        sim_step_expr pool n IH c hC e (by
          have h9 : sizeOf e < sizeOf (Statement.assign vr e) := by
            simp_arith
          omega) se sl hI.1 hpl.2 hca.2 v se1 h1 q1 sl1 g1
      subst hq1
      dsimp only at hl
      have hI1 : SimInv pool se1 sl1 := SimInv_afterExpr hI hcore1 hee1 hle1.1
      obtain ⟨hrl, hcore2, hgE2, hgL2, hlgr2, hout2, hst2⟩ :=
        sim_step_vset pool n c hC vr (by
          have h9 : sizeOf vr < sizeOf (Statement.assign vr e) := by
            simp_arith
          omega) v lv se1 sl1 hcore1 hpl.1 hpb1 hpf1 hsyn1 se' he rl sl' hl
      refine ⟨hrl, SimInv_afterVar hI1 hcore2 hgE2 hgL2 hlgr2 hst2, ?_⟩
      rw [hgE2]
      exact hee1.2.2
  | createGraphNode vr =>
    simp only [execStmt, Graph.addGraphNode] at he
    simp only [lazyExecStmt, Graph.addGraphNode] at hl
    simp only [Statement.plainB] at hpl
    obtain ⟨⟨hwf, hm, hewf, hef, hsub, hr1, hr2, hsyn⟩, hlg, hgs, G, hpap, hG⟩ := hI
    have hlen : se.graph.graphNodes.length = sl.graph.graphNodes.length := by
      have h9 := papply_length hpap
      rw [hG] at h9
      exact h9
    have hIA : SimInv pool
        { se with graph := { se.graph with graphNodes := se.graph.graphNodes ++ [GraphNode.new] } }
        { sl with graph := { sl.graph with graphNodes := sl.graph.graphNodes ++ [GraphNode.new] } } := by
      refine ⟨⟨hwf, hm, hewf, hef, hsub, hr1, hr2, hsyn⟩, hlg, ?_, ?_⟩
      · exact graphSynB_addGraphNode hgs
      · refine ⟨{ G with graphNodes := G.graphNodes ++ [GraphNode.new] },
          papply_nodeAppend hpap, ?_⟩
        show G.graphNodes ++ [GraphNode.new] = se.graph.graphNodes ++ [GraphNode.new]
        rw [hG]
    obtain ⟨hrl, hcore2, hgE2, hgL2, hlgr2, hout2, hst2⟩ :=
      sim_step_vadd pool n c hC vr (by
        have h9 : sizeOf vr < sizeOf (Statement.createGraphNode vr) := by
          simp_arith
        omega) (.graphNode se.graph.graphNodes.length)
        (.value (.graphNode sl.graph.graphNodes.length)) false
        { se with graph := { se.graph with graphNodes := se.graph.graphNodes ++ [GraphNode.new] } }
        { sl with graph := { sl.graph with graphNodes := sl.graph.graphNodes ++ [GraphNode.new] } }
        hIA.1 hpl (by simp [LazyValue.pureBelow])
        (by simp only [pforceVal]; rw [hlen]) rfl se' he rl sl' hl
    refine ⟨hrl, SimInv_afterVar hIA hcore2 hgE2 hgL2 hlgr2 hst2, ?_⟩
    rw [hgE2]
    exact SubMapN_refl _
  | addGraphNodeAttribute nodeE attrs =>
    simp only [execStmt] at he
    simp only [lazyExecStmt] at hl
    simp only [Statement.plainB, Bool.and_eq_true] at hpl
    simp only [Statement.capAgree, Bool.and_eq_true] at hca
    rcases h1 : evalExpr c nodeE se with ⟨r1, se1⟩
    rw [h1] at he
    cases r1 with
    | error er => simp at he
    | ok v =>
      dsimp only at he
      rcases g1 : lazyEvalExpr c nodeE sl with ⟨q1, sl1⟩
      rw [g1] at hl
      obtain ⟨lv, hq1, hcore1, hee1, hle1, hpb1, hpf1, hsyn1⟩ :=
        sim_step_expr pool n IH c hC nodeE (by
          have h9 : sizeOf nodeE < sizeOf (Statement.addGraphNodeAttribute nodeE attrs) := by
            simp_arith
          omega) se sl hI.1 hpl.1 hca.1 v se1 h1 q1 sl1 g1
      subst hq1
      dsimp only at hl
      have hI1 : SimInv pool se1 sl1 := SimInv_afterExpr hI hcore1 hee1 hle1.1
      cases v <;> dsimp only [Value.intoGraphNodeRef] at he
      case graphNode r =>
        rcases g2 : lazyEvalAttrs c attrs sl1 with ⟨q2, sl2⟩
        rw [g2] at hl
        obtain ⟨lvs, hq2, hcore2, hloc2, hsub2, hgs2, hlx2, hwfA2, hgapp⟩ :=
          sim_step_nodeAttrs pool n IH c hC attrs (by
            have h9 : sizeOf attrs < sizeOf (Statement.addGraphNodeAttribute nodeE attrs) := by
              simp_arith
            omega) r se1 sl1 hcore1 hI1.2.2.1 hpl.2 hca.2 se' he q2 sl2 g2
        subst hq2
        dsimp only at hl
        simp only [Prod.mk.injEq] at hl
        obtain ⟨hrl, hsl⟩ := hl
        subst hsl
        have hst12 : sl2.store = sl1.store := hlx2.1.1
        have hlg12 : sl2.lazyGraph = sl1.lazyGraph := hlx2.1.2.2.1
        have hgn12 : sl2.graph.graphNodes = sl1.graph.graphNodes := hlx2.1.2.2.2.2
        refine ⟨hrl.symm, ?_, SubMapN_trans hee1.2.2 hsub2⟩
        refine SimInv_append_stmt hcore2 ?_ hgs2 ?_ ?_
        · rw [hst12, hlg12]
          exact hI1.2.1
        · simp only [LazyStmt.wfB, Bool.and_eq_true]
          refine ⟨?_, hwfA2⟩
          rw [hst12]
          exact hpb1
        · obtain ⟨G1, hpapG1, hGn1⟩ := hI1.2.2.2
          have hpap2 : papply sl2.store sl2.lazyGraph sl1.graph = some G1 := by
            rw [hst12, hlg12]
            exact hpapG1
          obtain ⟨G2, hpapG2, hGn2⟩ := papply_congr hpap2 sl2.graph hgn12
          refine ⟨G2, hpapG2, ?_⟩
          have hGn2' : G2.graphNodes = se1.graph.graphNodes := by
            rw [hGn2, hGn1]
          obtain ⟨g', hg', hg'n, hg's⟩ := hgapp G2 hGn2'
          refine ⟨g', ?_, hg'n⟩
          simp only [papplyStmt]
          have hpf1' : pforceVal sl2.store sl2.store.length lv =
              some (.graphNode r) := by
            rw [hst12]
            exact hpf1
          rw [hpf1']
          exact hg'
      all_goals simp at he
  | createEdge srcE sinkE =>
    simp only [execStmt] at he
    simp only [lazyExecStmt] at hl
    simp only [Statement.plainB, Bool.and_eq_true] at hpl
    simp only [Statement.capAgree, Bool.and_eq_true] at hca
    rcases h1 : evalExpr c srcE se with ⟨r1, se1⟩
    rw [h1] at he
    cases r1 with
    | error er => simp at he
    | ok sv =>
      dsimp only at he
      rcases g1 : lazyEvalExpr c srcE sl with ⟨q1, sl1⟩
      rw [g1] at hl
      obtain ⟨lsrc, hq1, hcore1, hee1, hle1, hpb1, hpf1, hsyn1⟩ :=
        sim_step_expr pool n IH c hC srcE (by
          have h9 : sizeOf srcE < sizeOf (Statement.createEdge srcE sinkE) := by
            simp_arith
          omega) se sl hI.1 hpl.1 hca.1 sv se1 h1 q1 sl1 g1
      subst hq1
      dsimp only at hl
      have hI1 : SimInv pool se1 sl1 := SimInv_afterExpr hI hcore1 hee1 hle1.1
      cases sv <;> dsimp only [Value.intoGraphNodeRef] at he
      case graphNode src =>
        rcases h2 : evalExpr c sinkE se1 with ⟨r2, se2⟩
        rw [h2] at he
        cases r2 with
        | error er => simp at he
        | ok tv =>
          dsimp only at he
          rcases g2 : lazyEvalExpr c sinkE sl1 with ⟨q2, sl2⟩
          rw [g2] at hl
          obtain ⟨lsink, hq2, hcore2, hee2, hle2, hpb2, hpf2, hsyn2⟩ :=
            sim_step_expr pool n IH c hC sinkE (by
              have h9 : sizeOf sinkE < sizeOf (Statement.createEdge srcE sinkE) := by
                simp_arith
              omega) se1 sl1 hcore1 hpl.2 hca.2 tv se2 h2 q2 sl2 g2
          subst hq2
          dsimp only at hl
          have hI2 : SimInv pool se2 sl2 :=
            SimInv_afterExpr hI1 hcore2 hee2 hle2.1
          cases tv <;> dsimp only [Value.intoGraphNodeRef] at he
          case graphNode sink =>
            rcases hn : se2.graph.graphNodes.get? src with _ | node <;>
              rw [hn] at he
            · simp at he
            · dsimp only at he
              rcases hfr : (node.addEdge sink).1 <;> rw [hfr] at he
              · rw [if_neg (by simp)] at he
                simp at he
              · rw [if_pos rfl] at he
                simp only [Prod.mk.injEq] at he hl
                obtain ⟨_, hse⟩ := he
                obtain ⟨hrl, hsl⟩ := hl
                subst hse
                subst hsl
                refine ⟨hrl.symm, ?_, SubMapN_trans hee1.2.2 hee2.2.2⟩
                refine SimInv_append_stmt ?_ ?_ ?_ ?_ ?_
                · exact hcore2
                · exact hI2.2.1
                · exact graphSynB_addEdge hI2.2.2.1 hn
                · simp only [LazyStmt.wfB, Bool.and_eq_true]
                  refine ⟨?_, hpb2⟩
                  rw [hle2.1.1]
                  exact hpb1
                · obtain ⟨G, hpapG, hGn⟩ := hI2.2.2.2
                  refine ⟨G, hpapG, ?_⟩
                  have hn' : G.graphNodes.get? src = some node := by
                    rw [hGn]
                    exact hn
                  have hpf1' : pforceVal sl2.store sl2.store.length lsrc =
                      some (.graphNode src) := by
                    rw [hle2.1.1]
                    exact hpf1
                  refine ⟨{ G with graphNodes := G.graphNodes.set src (node.addEdge sink).2 }, ?_, ?_⟩
                  · simp only [papplyStmt]
                    rw [hpf1', hpf2]
                    dsimp only
                    rw [hn']
                    dsimp only
                    rw [hfr]
                    rw [if_pos rfl]
                  · show G.graphNodes.set src (node.addEdge sink).2 =
                      se2.graph.graphNodes.set src (node.addEdge sink).2
                    rw [hGn]
          all_goals simp at he
      all_goals simp at he
  | addEdgeAttribute srcE sinkE attrs =>
    simp only [execStmt] at he
    simp only [lazyExecStmt] at hl
    simp only [Statement.plainB, Bool.and_eq_true] at hpl
    simp only [Statement.capAgree, Bool.and_eq_true] at hca
    rcases h1 : evalExpr c srcE se with ⟨r1, se1⟩
    rw [h1] at he
    cases r1 with
    | error er => simp at he
    | ok sv =>
      dsimp only at he
      rcases g1 : lazyEvalExpr c srcE sl with ⟨q1, sl1⟩
      rw [g1] at hl
      obtain ⟨lsrc, hq1, hcore1, hee1, hle1, hpb1, hpf1, hsyn1⟩ :=
        sim_step_expr pool n IH c hC srcE (by
          have h9 : sizeOf srcE < sizeOf (Statement.addEdgeAttribute srcE sinkE attrs) := by
            simp_arith
          omega) se sl hI.1 hpl.1.1 hca.1.1 sv se1 h1 q1 sl1 g1
      subst hq1
      dsimp only at hl
      have hI1 : SimInv pool se1 sl1 := SimInv_afterExpr hI hcore1 hee1 hle1.1
      cases sv <;> dsimp only [Value.intoGraphNodeRef] at he
      case graphNode src =>
        rcases h2 : evalExpr c sinkE se1 with ⟨r2, se2⟩
        rw [h2] at he
        cases r2 with
        | error er => simp at he
        | ok tv =>
          dsimp only at he
          rcases g2 : lazyEvalExpr c sinkE sl1 with ⟨q2, sl2⟩
          rw [g2] at hl
          obtain ⟨lsink, hq2, hcore2, hee2, hle2, hpb2, hpf2, hsyn2⟩ :=
            sim_step_expr pool n IH c hC sinkE (by
              have h9 : sizeOf sinkE < sizeOf (Statement.addEdgeAttribute srcE sinkE attrs) := by
                simp_arith
              omega) se1 sl1 hcore1 hpl.1.2 hca.1.2 tv se2 h2 q2 sl2 g2
          subst hq2
          dsimp only at hl
          have hI2 : SimInv pool se2 sl2 :=
            SimInv_afterExpr hI1 hcore2 hee2 hle2.1
          cases tv <;> dsimp only [Value.intoGraphNodeRef] at he
          case graphNode sink =>
            rcases g3 : lazyEvalAttrs c attrs sl2 with ⟨q3, sl3⟩
            rw [g3] at hl
            obtain ⟨lvs, hq3, hcore3, hloc3, hsub3, hgs3, hlx3, hwfA3, hgapp⟩ :=
              sim_step_edgeAttrs pool n IH c hC attrs (by
                have h9 : sizeOf attrs < sizeOf (Statement.addEdgeAttribute srcE sinkE attrs) := by
                  simp_arith
                omega) src sink se2 sl2 hcore2 hI2.2.2.1 hpl.2 hca.2 se' he
                q3 sl3 g3
            subst hq3
            dsimp only at hl
            simp only [Prod.mk.injEq] at hl
            obtain ⟨hrl, hsl⟩ := hl
            subst hsl
            have hst23 : sl3.store = sl2.store := hlx3.1.1
            have hlg23 : sl3.lazyGraph = sl2.lazyGraph := hlx3.1.2.2.1
            have hgn23 : sl3.graph.graphNodes = sl2.graph.graphNodes :=
              hlx3.1.2.2.2.2
            refine ⟨hrl.symm, ?_,
              SubMapN_trans hee1.2.2 (SubMapN_trans hee2.2.2 hsub3)⟩
            refine SimInv_append_stmt hcore3 ?_ hgs3 ?_ ?_
            · rw [hst23, hlg23]
              exact hI2.2.1
            · simp only [LazyStmt.wfB, Bool.and_eq_true]
              refine ⟨⟨?_, ?_⟩, hwfA3⟩
              · rw [hst23, hle2.1.1]
                exact hpb1
              · rw [hst23]
                exact hpb2
            · obtain ⟨G1, hpapG1, hGn1⟩ := hI2.2.2.2
              have hpap2 : papply sl3.store sl3.lazyGraph sl2.graph = some G1 := by
                rw [hst23, hlg23]
                exact hpapG1
              obtain ⟨G2, hpapG2, hGn2⟩ := papply_congr hpap2 sl3.graph hgn23
              refine ⟨G2, hpapG2, ?_⟩
              have hGn2' : G2.graphNodes = se2.graph.graphNodes := by
                rw [hGn2, hGn1]
              obtain ⟨g', hg', hg'n, hg's⟩ := hgapp G2 hGn2'
              refine ⟨g', ?_, hg'n⟩
              simp only [papplyStmt]
              have hpf1' : pforceVal sl3.store sl3.store.length lsrc =
                  some (.graphNode src) := by
                rw [hst23, hle2.1.1]
                exact hpf1
              have hpf2' : pforceVal sl3.store sl3.store.length lsink =
                  some (.graphNode sink) := by
                rw [hst23]
                exact hpf2
              rw [hpf1', hpf2']
              exact hg'
          all_goals simp at he
      all_goals simp at he
  | scan e arms =>
    simp only [execStmt] at he
    simp only [lazyExecStmt] at hl
    simp only [Statement.plainB, Bool.and_eq_true] at hpl
    simp only [Statement.capAgree, Bool.and_eq_true] at hca
    rcases h1 : evalExpr c e se with ⟨r1, se1⟩
    rw [h1] at he
    cases r1 with
    | error er => simp at he
    | ok v =>
      dsimp only at he
      rcases g1 : lazyEvalEager c e sl with ⟨q1, sl1⟩
      rw [g1] at hl
      obtain ⟨hq1, hcore1, hee1, hle1, hsyn1⟩ :=
        sim_step_eagerEval pool n IH c hC e (by
          have h9 : sizeOf e < sizeOf (Statement.scan e arms) := by
            simp_arith
          omega) se sl hI.1 hpl.1 hca.1 v se1 h1 q1 sl1 g1
      subst hq1
      dsimp only at hl
      have hI1 : SimInv pool se1 sl1 := SimInv_afterExpr hI hcore1 hee1 hle1
      cases v <;> dsimp only [Value.intoString] at he hl
      case str subject =>
        obtain ⟨hok, hI2, hsub2⟩ :=
          sim_step_scanBody pool n IH c hC arms (by
            have h9 : sizeOf arms < sizeOf (Statement.scan e arms) := by
              simp_arith
            omega) hpl.2 hca.2 subject.data 0 se1 sl1 hI1 se' he rl sl' hl
        exact ⟨hok, hI2, SubMapN_trans hee1.2.2 hsub2⟩
      all_goals simp at he
  | print values =>
    simp only [execStmt] at he
    simp only [lazyExecStmt] at hl
    simp only [Statement.plainB] at hpl
    simp only [Statement.capAgree] at hca
    rcases h1 : execPrint c values se with ⟨r1, se1⟩
    rw [h1] at he
    cases r1 with
    | error er => simp at he
    | ok u1 =>
      cases u1
      dsimp only at he
      simp only [Prod.mk.injEq] at he
      obtain ⟨_, hse⟩ := he
      rcases g1 : lazyPrintArgs c values sl with ⟨q1, sl1⟩
      rw [g1] at hl
      obtain ⟨largs, hq1, hcore1, hee1, hle1, hwfP⟩ :=
        sim_step_print pool n IH c hC values (by
          have h9 : sizeOf values < sizeOf (Statement.print values) := by
            simp_arith
          omega) se sl hI.1 hpl hca se1 h1 q1 sl1 g1
      subst hq1
      dsimp only at hl
      simp only [Prod.mk.injEq] at hl
      obtain ⟨hrl, hsl⟩ := hl
      subst hse
      subst hsl
      have hI1 : SimInv pool se1 sl1 := SimInv_afterExpr hI hcore1 hee1 hle1.1
      refine ⟨hrl.symm, ?_, hee1.2.2⟩
      refine SimInv_append_stmt hI1.1 hI1.2.1 hI1.2.2.1 hwfP ?_
      obtain ⟨G, hpapG, hGn⟩ := hI1.2.2.2
      exact ⟨G, hpapG, G, by simp [papplyStmt], hGn⟩
  | ifStmt arms =>
    simp only [execStmt] at he
    simp only [lazyExecStmt] at hl
    simp only [Statement.plainB] at hpl
    simp only [Statement.capAgree] at hca
    exact sim_step_ifArms pool n IH c hC arms (by
      have h9 : sizeOf arms < sizeOf (Statement.ifStmt arms) := by
        simp_arith
      omega) se sl hI hpl hca se' he rl sl' hl
  | forIn vr e stmts =>
    simp only [execStmt] at he
    simp only [lazyExecStmt] at hl
    simp only [Statement.plainB, Bool.and_eq_true] at hpl
    simp only [Statement.capAgree, Bool.and_eq_true] at hca
    rcases h1 : evalExpr c e se with ⟨r1, se1⟩
    rw [h1] at he
    cases r1 with
    | error er => simp at he
    | ok v =>
      dsimp only at he
      rcases g1 : lazyEvalEager c e sl with ⟨q1, sl1⟩
      rw [g1] at hl
      obtain ⟨hq1, hcore1, hee1, hle1, hsyn1⟩ :=
        sim_step_eagerEval pool n IH c hC e (by
          have h9 : sizeOf e < sizeOf (Statement.forIn vr e stmts) := by
            simp_arith
          omega) se sl hI.1 hpl.1.2 hca.1.2 v se1 h1 q1 sl1 g1
      subst hq1
      dsimp only at hl
      have hI1 : SimInv pool se1 sl1 := SimInv_afterExpr hI hcore1 hee1 hle1
      cases v <;> dsimp only [Value.intoList] at he hl
      case list vs =>
        rcases h2 : forInLoop c vr stmts vs se1.pushFrame with ⟨r2, se2⟩
        rw [h2] at he
        dsimp only at he
        simp only [Prod.mk.injEq] at he
        obtain ⟨hr2, hse⟩ := he
        rw [hr2] at h2
        rcases g2 : lazyForInLoop c vr stmts vs sl1.pushFrame with ⟨q2, sl2⟩
        rw [g2] at hl
        obtain ⟨hq2, hI2, hsub2⟩ :=
          sim_step_forLoop pool n IH c hC vr stmts (by
            have h9 : sizeOf vr + sizeOf stmts < sizeOf (Statement.forIn vr e stmts) := by
              simp_arith
            omega) hpl.1.1 hpl.2 hca.2 vs se1.pushFrame sl1.pushFrame
            (SimInv_push hI1) (by simpa [Value.synRegB] using hsyn1)
            se2 h2 q2 sl2 g2
        subst hq2
        dsimp only at hl
        simp only [Prod.mk.injEq] at hl
        obtain ⟨hrl, hsl⟩ := hl
        subst hse
        subst hsl
        exact ⟨hrl.symm, SimInv_pop hI2, SubMapN_trans hee1.2.2 hsub2⟩
      all_goals simp at he

/-- Simulation step for `execStmts` against `lazyExecStmts` on the plain
fragment. -/
theorem sim_step_stmts (pool : List HostNode) (n : Nat)
    (IH : ∀ m, m < n → SimBundle pool m) : SimStmtsP pool n := by
  intro c hC ss hsz se sl hI hpl hca se' he rl sl' hl
  induction ss generalizing se sl with
  | nil =>
    simp only [execStmts] at he
    simp only [lazyExecStmts] at hl
    simp only [Prod.mk.injEq] at he hl
    obtain ⟨_, hse⟩ := he
    obtain ⟨hrl, hsl⟩ := hl
    subst hse
    subst hsl
    exact ⟨hrl.symm, hI, SubMapN_refl _⟩
  | cons s rest ihc =>
    simp only [execStmts] at he
    simp only [lazyExecStmts] at hl
    simp only [Statement.plainListB, Bool.and_eq_true] at hpl
    simp only [Statement.capAgreeList, Bool.and_eq_true] at hca
    rcases h1 : execStmt c s se with ⟨r1, se1⟩
    rw [h1] at he
    cases r1 with
    | error er => simp at he
    | ok u1 =>
      cases u1
      dsimp only at he
      rcases g1 : lazyExecStmt c s sl with ⟨q1, sl1⟩
      rw [g1] at hl
      obtain ⟨hq1, hI1, hsub1⟩ :=
        sim_step_stmt pool n IH c hC s (by
          have h9 : sizeOf s < sizeOf (s :: rest) := by simp_arith
          omega) se sl hI hpl.1 hca.1 se1 h1 q1 sl1 g1
      subst hq1
      dsimp only at hl
      obtain ⟨hok, hI2, hsub2⟩ := ihc (by
        have h9 : sizeOf rest < sizeOf (s :: rest) := by simp_arith
        omega) se1 sl1 hI1 hpl.2 hca.2 he hl
      exact ⟨hok, hI2, SubMapN_trans hsub1 hsub2⟩

/-- All level-`n` simulation statements hold, by strong induction on the
syntactic size measure. -/
theorem simAll (pool : List HostNode) : ∀ n, SimBundle pool n := by
  intro n
  induction n using Nat.strong_induction_on with
  | _ n IH =>
    exact ⟨sim_step_expr pool n IH, sim_step_exprs pool n IH,
      sim_step_vget pool n, sim_step_vadd pool n, sim_step_vset pool n,
      sim_step_cond pool n IH, sim_step_conds pool n IH,
      sim_step_ifArms pool n IH, sim_step_nodeAttrs pool n IH,
      sim_step_edgeAttrs pool n IH, sim_step_print pool n IH,
      sim_step_forLoop pool n IH, sim_step_scanBody pool n IH,
      sim_step_stmt pool n IH, sim_step_stmts pool n IH⟩

/-- Helper: when the pending node-attribute thunks are bounded and their
pure application succeeds, the final-phase attribute loop succeeds with
exactly the purely-applied graph, touching only the memo table and the
graph. -/
theorem runLazyNodeAttrs_pure (fns : Functions) (source : String)
    (r : GraphNodeRef) :
    ∀ (attrs : List (Identifier × LazyValue)) (st : LState),
      WFStore st.store → MemoOK st →
      lazyAttrsWF st.store.length attrs = true →
      ∀ {g' : Graph}, papplyNodeAttrs st.store r attrs st.graph = some g' →
      ∃ st', runLazyNodeAttrs fns source r attrs st = (.ok (), st') ∧
        st'.store = st.store ∧ st'.graph = g' ∧ MemoOK st' := by
  intro attrs
  induction attrs with
  | nil =>
    intro st hwf hm hwfA g' hp
    simp only [papplyNodeAttrs, Option.some.injEq] at hp
    subst hp
    exact ⟨st, by simp [runLazyNodeAttrs], rfl, rfl, hm⟩
  | cons p rest ih =>
    intro st hwf hm hwfA g' hp
    obtain ⟨name, lv⟩ := p
    simp only [lazyAttrsWF, Bool.and_eq_true] at hwfA
    simp only [papplyNodeAttrs] at hp
    obtain ⟨v, m', hpf, hfv, hml, hmc⟩ :=
      forceVal_pure fns source st hwf hm st.store.length (le_refl _) lv hwfA.1
    rw [hpf] at hp
    simp only [runLazyNodeAttrs]
    rw [hfv]
    dsimp only at hp ⊢
    rcases hn : st.graph.graphNodes.get? r with _ | node <;> rw [hn] at hp
    · cases hp
    · dsimp only at hp ⊢
      rcases hfr : (node.attributes.add name v).1 <;> rw [hfr] at hp
      · cases hp
      · rw [if_pos rfl] at hp ⊢
        exact ih { st with memo := m', graph := { st.graph with graphNodes := st.graph.graphNodes.set r { node with attributes := (node.attributes.add name v).2 } } } hwf ⟨hml, hmc⟩ hwfA.2 hp

/-- Helper: final-phase edge-attribute loop against its pure application. -/
theorem runLazyEdgeAttrs_pure (fns : Functions) (source : String)
    (src sink : GraphNodeRef) :
    ∀ (attrs : List (Identifier × LazyValue)) (st : LState),
      WFStore st.store → MemoOK st →
      lazyAttrsWF st.store.length attrs = true →
      ∀ {g' : Graph},
        papplyEdgeAttrs st.store src sink attrs st.graph = some g' →
      ∃ st', runLazyEdgeAttrs fns source src sink attrs st = (.ok (), st') ∧
        st'.store = st.store ∧ st'.graph = g' ∧ MemoOK st' := by
  intro attrs
  induction attrs with
  | nil =>
    intro st hwf hm hwfA g' hp
    simp only [papplyEdgeAttrs, Option.some.injEq] at hp
    subst hp
    exact ⟨st, by simp [runLazyEdgeAttrs], rfl, rfl, hm⟩
  | cons p rest ih =>
    intro st hwf hm hwfA g' hp
    obtain ⟨name, lv⟩ := p
    simp only [lazyAttrsWF, Bool.and_eq_true] at hwfA
    simp only [papplyEdgeAttrs] at hp
    obtain ⟨v, m', hpf, hfv, hml, hmc⟩ :=
      forceVal_pure fns source st hwf hm st.store.length (le_refl _) lv hwfA.1
    rw [hpf] at hp
    simp only [runLazyEdgeAttrs]
    rw [hfv]
    dsimp only at hp ⊢
    rcases hn : st.graph.graphNodes.get? src with _ | node <;> rw [hn] at hp
    · cases hp
    · dsimp only at hp ⊢
      rcases hsr : searchByKey sink node.outgoingEdges with i | i <;>
        rw [hsr] at hp <;> dsimp only at hp ⊢
      · rcases he : node.outgoingEdges.get? i with _ | q <;> rw [he] at hp
        · cases hp
        · obtain ⟨k, edge⟩ := q
          dsimp only at hp ⊢
          rcases hfr : (edge.attributes.add name v).1 <;> rw [hfr] at hp
          · cases hp
          · rw [if_pos rfl] at hp ⊢
            exact ih { st with memo := m', graph := { st.graph with graphNodes := st.graph.graphNodes.set src { node with outgoingEdges := node.outgoingEdges.set i (k, { attributes := (edge.attributes.add name v).2 }) } } } hwf ⟨hml, hmc⟩ hwfA.2 hp
      · cases hp

/-- Helper: the final-phase print loop always succeeds on bounded thunks and
leaves the store and graph unchanged. -/
theorem runLazyPrint_pure (fns : Functions) (source : String) :
    ∀ (args : List LazyPrintArg) (st : LState),
      WFStore st.store → MemoOK st →
      LazyStmt.wfB st.store.length (.printStmt args) = true →
      ∃ st', runLazyPrint fns source args st = (.ok (), st') ∧
        st'.store = st.store ∧ st'.graph = st.graph ∧ MemoOK st' := by
  intro args
  induction args with
  | nil =>
    intro st hwf hm hwfP
    exact ⟨st, by simp [runLazyPrint], rfl, rfl, hm⟩
  | cons a rest ih =>
    intro st hwf hm hwfP
    simp only [LazyStmt.wfB, List.all_cons, Bool.and_eq_true] at hwfP
    cases a with
    | text t =>
      simp only [runLazyPrint]
      exact ih { st with output := st.output ++ [t] } hwf hm
        (by simp [LazyStmt.wfB, hwfP.2])
    | val lv =>
      obtain ⟨v, m', hpf, hfv, hml, hmc⟩ :=
        forceVal_pure fns source st hwf hm st.store.length (le_refl _) lv
          hwfP.1
      simp only [runLazyPrint]
      rw [hfv]
      dsimp only
      exact ih { st with memo := m', output := st.output ++ [v.displayWith st.graph] } hwf ⟨hml, hmc⟩ (by simp [LazyStmt.wfB, hwfP.2])

/-- Helper: evaluating one well-formed deferred statement in the final
phase produces exactly its pure application. -/
theorem runLazyStmt_pure (fns : Functions) (source : String)
    (stmt : LazyStmt) (st : LState) (hwf : WFStore st.store)
    (hm : MemoOK st) (hwfS : LazyStmt.wfB st.store.length stmt = true)
    {g' : Graph} (hp : papplyStmt st.store stmt st.graph = some g') :
    ∃ st', runLazyStmt fns source stmt st = (.ok (), st') ∧
      st'.store = st.store ∧ st'.graph = g' ∧ MemoOK st' := by
  cases stmt with
  | addGraphNodeAttr node attrs =>
    simp only [LazyStmt.wfB, Bool.and_eq_true] at hwfS
    simp only [papplyStmt] at hp
    obtain ⟨v, m', hpf, hfv, hml, hmc⟩ :=
      forceVal_pure fns source st hwf hm st.store.length (le_refl _) node
        hwfS.1
    rw [hpf] at hp
    simp only [runLazyStmt]
    rw [hfv]
    dsimp only
    cases v <;> try cases hp
    rename_i r
    dsimp only [Value.intoGraphNodeRef] at hp ⊢
    exact runLazyNodeAttrs_pure fns source r attrs { st with memo := m' }
      hwf ⟨hml, hmc⟩ hwfS.2 hp
  | createEdge srcL sinkL =>
    simp only [LazyStmt.wfB, Bool.and_eq_true] at hwfS
    simp only [papplyStmt] at hp
    obtain ⟨sv, m1, hpf1, hfv1, hml1, hmc1⟩ :=
      forceVal_pure fns source st hwf hm st.store.length (le_refl _) srcL
        hwfS.1
    rw [hpf1] at hp
    simp only [runLazyStmt]
    rw [hfv1]
    dsimp only
    cases sv <;> try cases hp
    rename_i src
    dsimp only [Value.intoGraphNodeRef] at hp ⊢
    obtain ⟨tv, m2, hpf2, hfv2, hml2, hmc2⟩ :=
      forceVal_pure fns source { st with memo := m1 } hwf ⟨hml1, hmc1⟩
        st.store.length (le_refl _) sinkL hwfS.2
    rw [hpf2] at hp
    rw [hfv2]
    dsimp only
    cases tv <;> try cases hp
    rename_i sink
    dsimp only [Value.intoGraphNodeRef] at hp ⊢
    rcases hn : st.graph.graphNodes.get? src with _ | nodeS <;> rw [hn] at hp
    · cases hp
    · dsimp only at hp ⊢
      rcases hfr : (nodeS.addEdge sink).1 <;> rw [hfr] at hp
      · cases hp
      · rw [if_pos rfl] at hp ⊢
        simp only [Option.some.injEq] at hp
        subst hp
        exact ⟨{ st with memo := m2, graph := { st.graph with graphNodes := st.graph.graphNodes.set src (nodeS.addEdge sink).2 } }, rfl, rfl, rfl, hml2, hmc2⟩
  | addEdgeAttr srcL sinkL attrs =>
    simp only [LazyStmt.wfB, Bool.and_eq_true] at hwfS
    simp only [papplyStmt] at hp
    obtain ⟨sv, m1, hpf1, hfv1, hml1, hmc1⟩ :=
      forceVal_pure fns source st hwf hm st.store.length (le_refl _) srcL
        hwfS.1.1
    rw [hpf1] at hp
    simp only [runLazyStmt]
    rw [hfv1]
    dsimp only
    cases sv <;> try cases hp
    rename_i src
    dsimp only [Value.intoGraphNodeRef] at hp ⊢
    obtain ⟨tv, m2, hpf2, hfv2, hml2, hmc2⟩ :=
      forceVal_pure fns source { st with memo := m1 } hwf ⟨hml1, hmc1⟩
        st.store.length (le_refl _) sinkL hwfS.1.2
    rw [hpf2] at hp
    rw [hfv2]
    dsimp only
    cases tv <;> try cases hp
    rename_i sink
    dsimp only [Value.intoGraphNodeRef] at hp ⊢
    exact runLazyEdgeAttrs_pure fns source src sink attrs
      { st with memo := m2 } hwf ⟨hml2, hmc2⟩ hwfS.2 hp
  | printStmt args =>
    simp only [papplyStmt, Option.some.injEq] at hp
    subst hp
    obtain ⟨st1, hrun, hst1, hg1, hm1⟩ :=
      runLazyPrint_pure fns source args st hwf hm hwfS
    simp only [runLazyStmt]
    rw [hrun]
    exact ⟨_, rfl, hst1, hg1, hm1⟩

/-- Helper: the final evaluation pass of a well-formed deferred program
produces exactly its pure application. -/
theorem runLazyGraph_pure (fns : Functions) (source : String) :
    ∀ (prog : List LazyStmt) (st : LState), WFStore st.store → MemoOK st →
      lazyGraphWF st.store.length prog = true →
      ∀ {G : Graph}, papply st.store prog st.graph = some G →
      ∃ st', runLazyGraph fns source prog st = (.ok (), st') ∧
        st'.store = st.store ∧ st'.graph = G ∧ MemoOK st' := by
  intro prog
  induction prog with
  | nil =>
    intro st hwf hm hwfG G hp
    simp only [papply, Option.some.injEq] at hp
    subst hp
    exact ⟨st, by simp [runLazyGraph], rfl, rfl, hm⟩
  | cons stmt rest ih =>
    intro st hwf hm hwfG G hp
    simp only [lazyGraphWF, Bool.and_eq_true] at hwfG
    simp only [papply] at hp
    rcases hs : papplyStmt st.store stmt st.graph with _ | g1 <;>
      rw [hs] at hp
    · cases hp
    · obtain ⟨st1, hrun1, hst1, hg1, hm1⟩ :=
        runLazyStmt_pure fns source stmt st hwf hm hwfG.1 hs
      simp only [runLazyGraph]
      rw [hrun1]
      dsimp only
      obtain ⟨st2, hrun2, hst2, hg2, hm2⟩ :=
        ih st1 (by rw [hst1]; exact hwf) hm1 (by rw [hst1]; exact hwfG.2)
          (by rw [hst1, hg1]; exact hp)
      exact ⟨st2, hrun2, by rw [hst2, hst1], hg2, hm2⟩

/-- Helper: splitting the lazy match loop over a concatenated match list. -/
theorem lazyMatchesLoop_append (fns : Functions) (source : String)
    (globals : Globals) (stanzas : List Stanza) :
    ∀ (l1 l2 : List QueryMatch) (st : LState),
      lazyMatchesLoop fns source globals stanzas (l1 ++ l2) st =
        match lazyMatchesLoop fns source globals stanzas l1 st with
        | (.ok _, st') => lazyMatchesLoop fns source globals stanzas l2 st'
        | (.error e, st') => (.error e, st') := by
  intro l1
  induction l1 with
  | nil => intro l2 st; rfl
  | cons mat rest ih =>
    intro l2 st
    simp only [List.cons_append, lazyMatchesLoop]
    rcases hstz : stanzas.get? mat.patternIndex with _ | stz
    · rfl
    · dsimp only
      rcases hx : Stanza.executeLazy fns source globals stz mat st
        with ⟨q1, st1⟩
      cases q1 with
      | error e => rfl
      | ok u => exact ih l2 st1

/-- Simulation of one match of a stanza: the eager per-match statement run
against the lazy per-match execution (which additionally resolves the
full-match capture into the lazy registry). -/
theorem sim_match (pool : List HostNode) (fns : Functions) (source : String)
    (globals : Globals) (stz : Stanza) (mat : QueryMatch)
    (hg : globalsSynFreeB globals = true) (hcp : ConsistentPool pool)
    (hcap : ∀ p ∈ mat.captures, p.2 ∈ pool)
    (hpl : Statement.plainListB stz.statements = true)
    (hca : Statement.capAgreeList mat stz.statements = true)
    (se : EState) (sl : LState) (hI : SimInv pool se sl) (se' : EState)
    (he : execStmts { source := source, fns := fns, globals := globals, regexCaptures := [], mat := mat } stz.statements { se with locals := [[]] } = (.ok (), se'))
    (rl : Except Err Unit) (sl' : LState)
    (hl : Stanza.executeLazy fns source globals stz mat sl = (rl, sl'))
    (hok : rl = .ok ()) :
    SimInv pool se' sl' ∧
      SubMapN se.graph.syntaxNodes se'.graph.syntaxNodes := by
  subst hok
  simp only [Stanza.executeLazy] at hl
  obtain ⟨⟨hwf, hm, hewf, hef, hsub, hr1, hr2, hsyn⟩, hlg, hgs, G, hpap, hG⟩ := hI
  rcases hq : queryCaptureValue stz.fullMatchFileCaptureIndex Quant.one mat
      sl.graph with e | p
  · rw [hq] at hl
    simp at hl
  · obtain ⟨v0, gq⟩ := p
    rw [hq] at hl
    dsimp only at hl
    obtain ⟨hsubq, hrq, hgnq⟩ :=
      queryCaptureValue_reg hcp hcap _ Quant.one hr2 hq
    have hIq : SimInv pool { se with locals := [[]] }
        { sl with locals := [[]], graph := gq } := by
      refine ⟨⟨hwf, hm, rfl, rfl, SubMapN_trans hsub hsubq, hr1, hrq, rfl⟩,
        hlg, hgs, ?_⟩
      obtain ⟨G2, hpap2, hn2⟩ := papply_congr hpap gq hgnq
      exact ⟨G2, hpap2, by rw [hn2, hG]⟩
    obtain ⟨hq2, hI2, hsub2⟩ :=
      (simAll pool (sizeOf stz.statements + 1)).stmts
        { source := source, fns := fns, globals := globals, regexCaptures := [], mat := mat }
        ⟨hg, hcap, hcp⟩ stz.statements (by omega) { se with locals := [[]] }
        { sl with locals := [[]], graph := gq } hIq hpl hca se' he
        (.ok ()) sl' hl
    exact ⟨hI2, hsub2⟩

/-- Simulation of one stanza's whole match group: the eager match loop of
`Stanza::execute` against the lazy match loop restricted to that group,
whose matches all dispatch to the same stanza. -/
theorem sim_group (pool : List HostNode) (fns : Functions) (source : String)
    (globals : Globals) (allStz : List Stanza) (stz : Stanza) (k : Nat)
    (hstz : allStz.get? k = some stz)
    (hg : globalsSynFreeB globals = true) (hcp : ConsistentPool pool)
    (hpl : Statement.plainListB stz.statements = true) :
    ∀ (group : List QueryMatch),
      (∀ m ∈ group, m.patternIndex = k) →
      (∀ m ∈ group, (∀ p ∈ m.captures, p.2 ∈ pool) ∧
        Statement.capAgreeList m stz.statements = true) →
    ∀ se sl, SimInv pool se sl →
    ∀ se', Stanza.executeEager fns source globals stz group se = (.ok (), se') →
    ∀ rl sl', lazyMatchesLoop fns source globals allStz group sl = (rl, sl') →
    rl = .ok () →
    SimInv pool se' sl' ∧
      SubMapN se.graph.syntaxNodes se'.graph.syntaxNodes := by
  intro group
  induction group with
  | nil =>
    intro _ _ se sl hI se' he rl sl' hl hok
    simp only [Stanza.executeEager] at he
    simp only [lazyMatchesLoop] at hl
    simp only [Prod.mk.injEq] at he hl
    obtain ⟨_, hse⟩ := he
    obtain ⟨_, hsl⟩ := hl
    subst hse
    subst hsl
    exact ⟨hI, SubMapN_refl _⟩
  | cons mat rest ih =>
    intro hpi hcaps se sl hI se' he rl sl' hl hok
    simp only [Stanza.executeEager] at he
    simp only [lazyMatchesLoop] at hl
    rw [hpi mat (by simp), hstz] at hl
    dsimp only at hl
    rcases hx : Stanza.executeLazy fns source globals stz mat sl
      with ⟨q1, sl1⟩
    rw [hx] at hl
    cases q1 with
    | error e =>
      dsimp only at hl
      simp only [Prod.mk.injEq] at hl
      obtain ⟨hrl, _⟩ := hl
      rw [hok] at hrl
      cases hrl
    | ok u1 =>
      cases u1
      dsimp only at hl
      rcases h1 : execStmts { source := source, fns := fns, globals := globals, regexCaptures := [], mat := mat } stz.statements { se with locals := [[]] } with ⟨r1, se1⟩
      rw [h1] at he
      cases r1 with
      | error e2 => simp at he
      | ok u2 =>
        cases u2
        dsimp only at he
        obtain ⟨hI1, hsub1⟩ := sim_match pool fns source globals stz mat hg
          hcp (hcaps mat (by simp)).1 hpl (hcaps mat (by simp)).2 se sl hI
          se1 h1 (.ok ()) sl1 hx rfl
        obtain ⟨hI2, hsub2⟩ := ih
          (fun m hm => hpi m (List.mem_cons_of_mem _ hm))
          (fun m hm => hcaps m (List.mem_cons_of_mem _ hm)) se1 sl1 hI1
          se' he rl sl' hl hok
        exact ⟨hI2, SubMapN_trans hsub1 hsub2⟩

/-- Simulation of the stanza loop: the eager positional per-stanza loop
against the lazy flat loop over the concatenation of the groups, provided
each group's matches carry the pattern index of their stanza (the grouping
amendment of the equivalence claim). -/
theorem sim_stanzas (pool : List HostNode) (fns : Functions)
    (source : String) (globals : Globals) (allStz : List Stanza)
    (hg : globalsSynFreeB globals = true) (hcp : ConsistentPool pool) :
    ∀ (stanzas : List Stanza) (sm : List (List QueryMatch)) (k : Nat),
      (∀ i, stanzas.get? i = allStz.get? (k + i)) →
      (∀ i group, sm.get? i = some group →
        ∀ m ∈ group, m.patternIndex = k + i) →
      sm.length ≤ stanzas.length →
      (∀ stz ∈ stanzas, Statement.plainListB stz.statements = true) →
      (∀ group ∈ sm, ∀ m ∈ group, (∀ p ∈ m.captures, p.2 ∈ pool) ∧
        (∀ stz, allStz.get? m.patternIndex = some stz →
          Statement.capAgreeList m stz.statements = true)) →
    ∀ se sl, SimInv pool se sl →
    ∀ se', stanzasLoop fns source globals stanzas sm se = (.ok (), se') →
    ∀ rl sl',
      lazyMatchesLoop fns source globals allStz sm.flatten sl = (rl, sl') →
    rl = .ok () →
    SimInv pool se' sl' ∧
      SubMapN se.graph.syntaxNodes se'.graph.syntaxNodes := by
  intro stanzas
  induction stanzas with
  | nil =>
    intro sm k hget hpi hlen hpl hcaps se sl hI se' he rl sl' hl hok
    have hsm : sm = [] := List.length_eq_zero.mp (Nat.le_zero.mp hlen)
    subst hsm
    simp only [stanzasLoop] at he
    simp only [List.flatten_nil, lazyMatchesLoop] at hl
    simp only [Prod.mk.injEq] at he hl
    obtain ⟨_, hse⟩ := he
    obtain ⟨_, hsl⟩ := hl
    subst hse
    subst hsl
    exact ⟨hI, SubMapN_refl _⟩
  | cons stz rest ih =>
    intro sm k hget hpi hlen hpl hcaps se sl hI se' he rl sl' hl hok
    have hget' : ∀ i, rest.get? i = allStz.get? (k + 1 + i) := by
      intro i
      have h9 := hget (i + 1)
      rw [List.get?_cons_succ] at h9
      rw [h9]
      congr 1
      omega
    have hstz : allStz.get? k = some stz := by
      have h9 := hget 0
      rw [List.get?_cons_zero, Nat.add_zero] at h9
      exact h9.symm
    cases sm with
    | nil =>
      simp only [stanzasLoop, List.headD_nil, Stanza.executeEager,
        List.tail_nil] at he
      obtain ⟨hI2, hsub2⟩ := ih [] (k + 1) hget'
        (by intro i group h9; simp at h9)
        (by simp)
        (fun stz' h9 => hpl stz' (List.mem_cons_of_mem _ h9))
        (by intro group h9; simp at h9)
        se sl hI se' he rl sl' hl hok
      exact ⟨hI2, hsub2⟩
    | cons grp smrest =>
      simp only [stanzasLoop, List.headD_cons, List.tail_cons] at he
      rw [List.flatten_cons, lazyMatchesLoop_append] at hl
      rcases hx : lazyMatchesLoop fns source globals allStz grp sl
        with ⟨q1, sl1⟩
      rw [hx] at hl
      cases q1 with
      | error e =>
        dsimp only at hl
        simp only [Prod.mk.injEq] at hl
        obtain ⟨hrl, _⟩ := hl
        rw [hok] at hrl
        cases hrl
      | ok u1 =>
        cases u1
        dsimp only at hl
        rcases h1 : Stanza.executeEager fns source globals stz grp se
          with ⟨r1, se1⟩
        rw [h1] at he
        cases r1 with
        | error e2 => simp at he
        | ok u2 =>
          cases u2
          dsimp only at he
          obtain ⟨hI1, hsub1⟩ := sim_group pool fns source globals allStz
            stz k hstz hg hcp (hpl stz (by simp)) grp
            (by
              intro m hm
              have h9 := hpi 0 grp rfl m hm
              simpa using h9)
            (by
              intro m hm
              refine ⟨(hcaps grp (by simp) m hm).1, ?_⟩
              apply (hcaps grp (by simp) m hm).2
              have h9 := hpi 0 grp rfl m hm
              rw [h9]
              simpa using hstz)
            se sl hI se1 h1 (.ok ()) sl1 hx rfl
          obtain ⟨hI2, hsub2⟩ := ih smrest (k + 1) hget'
            (by
              intro i group h9 m hm
              have h10 := hpi (i + 1) group (by rw [List.get?_cons_succ]; exact h9) m hm
              rw [h10]
              omega)
            (by simpa using Nat.succ_le_succ_iff.mp (by simpa using hlen))
            (fun stz' h9 => hpl stz' (List.mem_cons_of_mem _ h9))
            (fun group h9 => hcaps group (List.mem_cons_of_mem _ h9))
            se1 sl1 hI1 se' he rl sl' hl hok
          exact ⟨hI2, SubMapN_trans hsub1 hsub2⟩

/-- Helper: the Boolean pool-consistency check implies the propositional
one. -/
theorem consistent_of_B {pool : List HostNode}
    (h : consistentB pool = true) : ConsistentPool pool := by
  intro a ha b hb hid
  simp only [consistentB, List.all_eq_true] at h
  have h9 := h a ha b hb
  simp only [Bool.or_eq_true, decide_eq_true_eq, bne_iff_ne, ne_eq] at h9
  rcases h9 with h9 | h9
  · exact absurd hid h9
  · exact h9

/-- C1 (amended): on the plain fragment (no scoped variables, no function
calls — the lazy-dependent features), with host-guaranteed inputs — globals
free of syntax-node values, the captured nodes drawn from an id-consistent
pool, stanza-local and file-wide capture indices agreeing on every match —
and with the lazy cursor's matches arriving grouped by stanza in stanza
order (`sm.flatten`), whenever both `File::execute_into` and
`File::execute_lazy_into` succeed from the same syntax-free seed graph they
produce graphs with identical display output.  (Without the grouping
hypothesis the equivalence fails: see the counterexample.) -/
theorem c1_eager_lazy_display_equivalence (f : File) (g : Graph)
    (rootHasError : Bool) (source : String) (fns : Functions)
    (globals : Globals) (pool : List HostNode)
    (sm : List (List QueryMatch))
    (hplain : File.plainB f = true)
    (hcap : File.capAgreeB f sm.flatten = true)
    (hgrp : groupedB f sm = true)
    (hhost : hostOKB pool globals sm.flatten = true)
    (hseedSyn : g.syntaxNodes = [])
    (hseedReg : graphSynB g = true)
    (se' : EState) (sl' : LState)
    (he : File.executeInto f g rootHasError source fns globals sm =
      (.ok (), se'))
    (hl : File.executeLazyInto f g rootHasError source fns globals
      sm.flatten = (.ok (), sl')) :
    ∀ ctx : Identifier → String,
      Graph.displayWith ctx sl'.graph = Graph.displayWith ctx se'.graph := by
  intro ctx
  simp only [File.executeInto] at he
  simp only [File.executeLazyInto] at hl
  cases hgate : (!f.allowSyntaxErrors && rootHasError) with
  | true =>
    rw [hgate, if_pos rfl] at he
    simp at he
  | false =>
    rw [hgate, if_neg (by simp)] at he hl
    simp only [hostOKB, Bool.and_eq_true, List.all_eq_true] at hhost
    obtain ⟨⟨hgfree, hconsB⟩, hpools⟩ := hhost
    have hcons : ConsistentPool pool := consistent_of_B hconsB
    simp only [groupedB, Bool.and_eq_true, decide_eq_true_eq,
      List.all_eq_true] at hgrp
    obtain ⟨hlenEq, henum⟩ := hgrp
    simp only [File.plainB, List.all_eq_true] at hplain
    simp only [File.capAgreeB, List.all_eq_true] at hcap
    have hI0 : SimInv pool
        { graph := g, locals := [[]], scopedVars := [], output := [] }
        { graph := g, locals := [[]], store := [], memo := [],
          scopedPending := [], lazyGraph := [], output := [] } := by
      refine ⟨⟨?_, ⟨rfl, ?_⟩, rfl, rfl, SubMapN_refl _, ?_, ?_, rfl⟩, rfl,
        hseedReg, g, rfl, rfl⟩
      · intro i lv h9
        simp at h9
      · intro i v h9
        simp at h9
      · rw [hseedSyn]
        intro p hp
        simp at hp
      · rw [hseedSyn]
        intro p hp
        simp at hp
    rcases hLoop : lazyMatchesLoop fns source globals f.stanzas sm.flatten
        { graph := g, locals := [[]], store := [], memo := [],
          scopedPending := [], lazyGraph := [], output := [] }
      with ⟨q1, slM⟩
    rw [hLoop] at hl
    cases q1 with
    | error e => simp at hl
    | ok u1 =>
      cases u1
      dsimp only at hl
      obtain ⟨hIM, _⟩ := sim_stanzas pool fns source globals f.stanzas
        hgfree hcons f.stanzas sm 0
        (fun i => by rw [Nat.zero_add])
        (by
          intro i group h9 m hm
          have h10 : (i, group) ∈ sm.enum := by
            rw [List.mk_mem_enum_iff_getElem?, ← List.get?_eq_getElem?]
            exact h9
          have h11 := henum (i, group) h10 m hm
          rw [h11, Nat.zero_add])
        (by rw [hlenEq])
        (by
          intro stz hstz
          exact hplain stz hstz)
        (by
          intro group hgr m hm
          have hmf : m ∈ sm.flatten := List.mem_flatten.mpr ⟨group, hgr, hm⟩
          constructor
          · intro p hp
            exact of_decide_eq_true (hpools m hmf p hp)
          · intro stz hstz
            have h9 := hcap m hmf
            rw [hstz] at h9
            exact h9)
        { graph := g, locals := [[]], scopedVars := [], output := [] }
        { graph := g, locals := [[]], store := [], memo := [],
          scopedPending := [], lazyGraph := [], output := [] }
        hI0 se' he (.ok ()) slM hLoop rfl
      obtain ⟨G, hpapG, hGn⟩ := hIM.2.2.2
      obtain ⟨stF, hrun, hstore, hgraph, _⟩ :=
        runLazyGraph_pure fns source slM.lazyGraph slM hIM.1.1 hIM.1.2.1
          hIM.2.1 hpapG
      rw [hrun] at hl
      simp only [Prod.mk.injEq] at hl
      obtain ⟨_, hsl⟩ := hl
      subst hsl
      rw [hgraph]
      refine graph_display_submap ctx hGn ?_ hIM.2.2.1
      rw [papply_syn hpapG]
      exact hIM.1.2.2.2.2.1

/-- Witness for C1 at a concrete input: a plain two-stanza file whose two
matches arrive grouped in stanza order; every hypothesis of the amended
equivalence holds and the two modes render the same graph. -/
theorem c1_eager_lazy_display_equivalence_witness :
    File.plainB c1File = true ∧
    groupedB c1File [[c1m0], [c1m1]] = true ∧
    hostOKB [sampleNode] [] [[c1m0], [c1m1]].flatten = true ∧
    Graph.displayWith (fun _ => "k")
        ((File.executeLazyInto c1File Graph.new false "s" sampleFns []
          [[c1m0], [c1m1]].flatten).2).graph =
      Graph.displayWith (fun _ => "k")
        ((File.executeInto c1File Graph.new false "s" sampleFns []
          [[c1m0], [c1m1]]).2).graph := by
  refine ⟨rfl, rfl, rfl, ?_⟩
  have he : File.executeInto c1File Graph.new false "s" sampleFns [] [[c1m0], [c1m1]] = (.ok (), (File.executeInto c1File Graph.new false "s" sampleFns [] [[c1m0], [c1m1]]).2) := by
    have h1 : (File.executeInto c1File Graph.new false "s" sampleFns [] [[c1m0], [c1m1]]).1 = .ok () := by
      simp [File.executeInto, c1File, c1m0, c1m1, stanzasLoop, Stanza.executeEager,
      execStmts, execStmt, evalExpr, varGet, varAdd, envAdd, frameAdd, envGet,
      frameGet, Graph.addGraphNode, execNodeAttrs, Attributes.add, searchByKey,
      listInsertAt, Value.intoGraphNodeRef, Attributes.new, GraphNode.new,
      Graph.new, sampleNode, lookupKey]
    have h2 : File.executeInto c1File Graph.new false "s" sampleFns [] [[c1m0], [c1m1]] = ((File.executeInto c1File Graph.new false "s" sampleFns [] [[c1m0], [c1m1]]).1, (File.executeInto c1File Graph.new false "s" sampleFns [] [[c1m0], [c1m1]]).2) := Prod.mk.eta.symm
    rw [h1] at h2
    exact h2
  have hl : File.executeLazyInto c1File Graph.new false "s" sampleFns [] [[c1m0], [c1m1]].flatten = (.ok (), (File.executeLazyInto c1File Graph.new false "s" sampleFns [] [[c1m0], [c1m1]].flatten).2) := by
    have h1 : (File.executeLazyInto c1File Graph.new false "s" sampleFns [] [[c1m0], [c1m1]].flatten).1 = .ok () := by
      simp [File.executeLazyInto, c1File, c1m0, c1m1, lazyMatchesLoop,
      Stanza.executeLazy, queryCaptureValue, Graph.addSyntaxNode, keyInsert,
      lazyExecStmts, lazyExecStmt, lazyEvalExpr, lazyVarAdd, LState.storeAdd,
      envAdd, frameAdd, envGet, frameGet, lazyEvalAttrs, Graph.addGraphNode,
      runLazyGraph, runLazyStmt, forceVal, forceRef, runLazyNodeAttrs,
      Attributes.add, searchByKey, listInsertAt, Value.intoGraphNodeRef,
      sampleNode, Graph.new, GraphNode.new, Attributes.new, lookupKey,
      lazyVarEval]
    have h2 : File.executeLazyInto c1File Graph.new false "s" sampleFns [] [[c1m0], [c1m1]].flatten = ((File.executeLazyInto c1File Graph.new false "s" sampleFns [] [[c1m0], [c1m1]].flatten).1, (File.executeLazyInto c1File Graph.new false "s" sampleFns [] [[c1m0], [c1m1]].flatten).2) := Prod.mk.eta.symm
    rw [h1] at h2
    exact h2
  exact c1_eager_lazy_display_equivalence c1File Graph.new false "s"
    sampleFns [] [sampleNode] [[c1m0], [c1m1]] rfl rfl rfl rfl rfl rfl
    ((File.executeInto c1File Graph.new false "s" sampleFns [] [[c1m0], [c1m1]]).2)
    ((File.executeLazyInto c1File Graph.new false "s" sampleFns [] [[c1m0], [c1m1]].flatten).2)
    he hl (fun _ => "k")

/-- Counterexample for C1 as stated: the same plain two-stanza file, seed
graph, source, functions, globals, and the same two matches — but the lazy
cursor yields them in the opposite, ungrouped order, which the combined
query permits.  Both modes succeed, yet the attribute values of the two
created nodes are swapped, so the graph displays differ: equivalence
additionally needs the lazy match order to be grouped by stanza. -/
theorem c1_eager_lazy_display_counterexample :
    File.plainB c1File = true ∧
    File.capAgreeB c1File [c1m1, c1m0] = true ∧
    hostOKB [sampleNode] [] [c1m1, c1m0] = true ∧
    List.Perm [c1m1, c1m0] [[c1m0], [c1m1]].flatten ∧
    (File.executeInto c1File Graph.new false "s" sampleFns []
      [[c1m0], [c1m1]]).1 = .ok () ∧
    (File.executeLazyInto c1File Graph.new false "s" sampleFns []
      [c1m1, c1m0]).1 = .ok () ∧
    Graph.displayWith (fun _ => "k")
        ((File.executeLazyInto c1File Graph.new false "s" sampleFns []
          [c1m1, c1m0]).2).graph ≠
      Graph.displayWith (fun _ => "k")
        ((File.executeInto c1File Graph.new false "s" sampleFns []
          [[c1m0], [c1m1]]).2).graph := by
  refine ⟨rfl, rfl, rfl, by decide, ?_, ?_, ?_⟩
  · simp [File.executeInto, c1File, c1m0, c1m1, stanzasLoop, Stanza.executeEager,
      execStmts, execStmt, evalExpr, varGet, varAdd, envAdd, frameAdd, envGet,
      frameGet, Graph.addGraphNode, execNodeAttrs, Attributes.add, searchByKey,
      listInsertAt, Value.intoGraphNodeRef, Attributes.new, GraphNode.new,
      Graph.new, sampleNode, lookupKey]
  · simp [File.executeLazyInto, c1File, c1m0, c1m1, lazyMatchesLoop,
      Stanza.executeLazy, queryCaptureValue, Graph.addSyntaxNode, keyInsert,
      lazyExecStmts, lazyExecStmt, lazyEvalExpr, lazyVarAdd, LState.storeAdd,
      envAdd, frameAdd, envGet, frameGet, lazyEvalAttrs, Graph.addGraphNode,
      runLazyGraph, runLazyStmt, forceVal, forceRef, runLazyNodeAttrs,
      Attributes.add, searchByKey, listInsertAt, Value.intoGraphNodeRef,
      sampleNode, Graph.new, GraphNode.new, Attributes.new, lookupKey,
      lazyVarEval]
  · simp [File.executeInto, c1File, c1m0, c1m1, stanzasLoop, Stanza.executeEager,
      execStmts, execStmt, evalExpr, varGet, varAdd, envAdd, frameAdd, envGet,
      frameGet, Graph.addGraphNode, execNodeAttrs, Attributes.add, searchByKey,
      listInsertAt, Value.intoGraphNodeRef, Attributes.new, GraphNode.new,
      Graph.new, sampleNode, lookupKey, File.executeLazyInto, c1File, c1m0, c1m1, lazyMatchesLoop,
      Stanza.executeLazy, queryCaptureValue, Graph.addSyntaxNode, keyInsert,
      lazyExecStmts, lazyExecStmt, lazyEvalExpr, lazyVarAdd, LState.storeAdd,
      envAdd, frameAdd, envGet, frameGet, lazyEvalAttrs, Graph.addGraphNode,
      runLazyGraph, runLazyStmt, forceVal, forceRef, runLazyNodeAttrs,
      Attributes.add, searchByKey, listInsertAt, Value.intoGraphNodeRef,
      sampleNode, Graph.new, GraphNode.new, Attributes.new, lookupKey,
      lazyVarEval, Graph.displayWith, GraphNode.displayWith,
      Attributes.displayWith, Value.displayWith, Value.displayListWith,
      debugQuote, escapeChar, formatHostNode, String.join, List.enum,
      List.enumFrom]
    decide

end TSG
